import Mathlib

/-! # Lamdis core: policy-bound action execution

A shallow embedding of the policy engine (`internal/policy/service.go`), the
problem-type helper (`pkg/problems/problems.go`) and the function `Execute` of the
orchestrator (`internal/orchestrator/service.go`), together with the library
functions they call (`crypto/sha256`, `encoding/hex`, `encoding/json`, `fmt`,
`net/url`, `regexp`, `strings`).

Conventions.
* Go `string` is `String`; `[]byte` is `List UInt8`.
* Go `any` holding decoded JSON is the inductive type `Value`.
* `time.Time` is an integer count of nanoseconds; `time.Duration` is an `int64`
  count of nanoseconds, with wrap-around made explicit.
* Database access is explicit state passing; `pool == nil` is `none`.
-/

namespace Lamdis

/-! ## Bytes, hexadecimal and decimal text -/

/-- The sixteen lowercase hexadecimal digits, as used by `%x` and `encoding/hex`. -/
def hexDigit (n : Nat) : Char :=
  match n with
  | 0 => '0' | 1 => '1' | 2 => '2' | 3 => '3' | 4 => '4' | 5 => '5' | 6 => '6' | 7 => '7'
  | 8 => '8' | 9 => '9' | 10 => 'a' | 11 => 'b' | 12 => 'c' | 13 => 'd' | 14 => 'e'
  | _ => 'f'

/-- Two hexadecimal digits of one byte, high nibble first. -/
def hexByte (b : UInt8) : List Char :=
  [hexDigit (b.toNat / 16), hexDigit (b.toNat % 16)]

/-- Lowercase hexadecimal text of a byte slice: `fmt.Sprintf("%x", b)` for `b []byte`,
and `hex.EncodeToString(b)`. -/
def hexEncode : List UInt8 → List Char
  | [] => []
  | b :: bs => hexByte b ++ hexEncode bs

/-- Decimal digits of a natural number, most significant first; `fuel` bounds the
number of digits. -/
def decDigits : Nat → Nat → List Char
  | 0, _ => []
  | fuel + 1, n =>
    if n < 10 then [hexDigit n] else decDigits fuel (n / 10) ++ [hexDigit (n % 10)]

/-- Decimal digits of a natural number as numbers, most significant first. -/
def decDigitList : Nat → Nat → List Nat
  | 0, _ => []
  | fuel + 1, n => if n < 10 then [n] else decDigitList fuel (n / 10) ++ [n % 10]

/-- Decimal text of a natural number (`strconv.Itoa` on a non-negative value). -/
def natToDec (n : Nat) : List Char := decDigits (n + 1) n

/-- Decimal text of an integer: `fmt.Sprintf("%d", v)`. -/
def intToDec : Int → List Char
  | Int.ofNat n => natToDec n
  | Int.negSucc n => '-' :: natToDec (n + 1)

/-- UTF-8 bytes of a text: the conversion `[]byte(s)`. -/
def utf8Bytes (cs : List Char) : List UInt8 :=
  cs.flatMap String.utf8EncodeChar

/-! ## SHA-256 (FIPS 180-4), the function behind `sha256.Sum256` -/

namespace Sha256

/-- Reduction of a natural number to a 32-bit word. -/
def w32 (x : Nat) : Nat := x % 4294967296

/-- Rotate a 32-bit word right by `n` bits. -/
def rotr (x n : Nat) : Nat := w32 ((x >>> n) ||| (x <<< (32 - n)))

/-- Bitwise complement of a 32-bit word. -/
def not32 (x : Nat) : Nat := 4294967295 - w32 x

def ch (x y z : Nat) : Nat := (x &&& y) ^^^ (not32 x &&& z)

def maj (x y z : Nat) : Nat := (x &&& y) ^^^ (x &&& z) ^^^ (y &&& z)

def bigSigma0 (x : Nat) : Nat := rotr x 2 ^^^ rotr x 13 ^^^ rotr x 22

def bigSigma1 (x : Nat) : Nat := rotr x 6 ^^^ rotr x 11 ^^^ rotr x 25

def smallSigma0 (x : Nat) : Nat := rotr x 7 ^^^ rotr x 18 ^^^ (x >>> 3)

def smallSigma1 (x : Nat) : Nat := rotr x 17 ^^^ rotr x 19 ^^^ (x >>> 10)

/-- The 64 round constants. -/
def roundK : List Nat :=
  [0x428a2f98, 0x71374491, 0xb5c0fbcf, 0xe9b5dba5, 0x3956c25b, 0x59f111f1, 0x923f82a4,
   0xab1c5ed5, 0xd807aa98, 0x12835b01, 0x243185be, 0x550c7dc3, 0x72be5d74, 0x80deb1fe,
   0x9bdc06a7, 0xc19bf174, 0xe49b69c1, 0xefbe4786, 0x0fc19dc6, 0x240ca1cc, 0x2de92c6f,
   0x4a7484aa, 0x5cb0a9dc, 0x76f988da, 0x983e5152, 0xa831c66d, 0xb00327c8, 0xbf597fc7,
   0xc6e00bf3, 0xd5a79147, 0x06ca6351, 0x14292967, 0x27b70a85, 0x2e1b2138, 0x4d2c6dfc,
   0x53380d13, 0x650a7354, 0x766a0abb, 0x81c2c92e, 0x92722c85, 0xa2bfe8a1, 0xa81a664b,
   0xc24b8b70, 0xc76c51a3, 0xd192e819, 0xd6990624, 0xf40e3585, 0x106aa070, 0x19a4c116,
   0x1e376c08, 0x2748774c, 0x34b0bcb5, 0x391c0cb3, 0x4ed8aa4a, 0x5b9cca4f, 0x682e6ff3,
   0x748f82ee, 0x78a5636f, 0x84c87814, 0x8cc70208, 0x90befffa, 0xa4506ceb, 0xbef9a3f7,
   0xc67178f2]

/-- The eight working variables, also the chaining value between blocks. -/
structure State where
  a : Nat
  b : Nat
  c : Nat
  d : Nat
  e : Nat
  f : Nat
  g : Nat
  h : Nat
deriving DecidableEq, Repr

/-- The initial hash value. -/
def initState : State :=
  ⟨0x6a09e667, 0xbb67ae85, 0x3c6ef372, 0xa54ff53a, 0x510e527f, 0x9b05688c, 0x1f83d9ab,
   0x5be0cd19⟩

/-- Message padding: a `0x80` byte, zero bytes up to 56 modulo 64, then the bit length
as a 64-bit big-endian integer. -/
def pad (msg : List Nat) : List Nat :=
  let zeros := (119 - msg.length % 64) % 64
  let bits := msg.length * 8
  msg ++ [128] ++ List.replicate zeros 0 ++
    (List.range 8).map (fun i => (bits >>> (8 * (7 - i))) % 256)

/-- Big-endian 32-bit word made of bytes `4i .. 4i+3` of a block. -/
def wordAt (block : List Nat) (i : Nat) : Nat :=
  block.getD (4 * i) 0 * 16777216 + block.getD (4 * i + 1) 0 * 65536 +
    block.getD (4 * i + 2) 0 * 256 + block.getD (4 * i + 3) 0

/-- One more word of the message schedule, from the `t ≥ 16` words computed so far. -/
def extend (w : List Nat) : List Nat :=
  let t := w.length
  w ++ [w32 (smallSigma1 (w.getD (t - 2) 0) + w.getD (t - 7) 0 +
    smallSigma0 (w.getD (t - 15) 0) + w.getD (t - 16) 0)]

/-- The 64-word message schedule of a block. -/
def schedule (block : List Nat) : List Nat :=
  (List.range 48).foldl (fun w _ => extend w) ((List.range 16).map (wordAt block))

/-- One round of the compression function. -/
def round (s : State) (k w : Nat) : State :=
  let t1 := s.h + bigSigma1 s.e + ch s.e s.f s.g + k + w
  let t2 := bigSigma0 s.a + maj s.a s.b s.c
  ⟨w32 (t1 + t2), s.a, s.b, s.c, w32 (s.d + t1), s.e, s.f, s.g⟩

/-- Compression of one 64-byte block into the chaining value. -/
def compress (s : State) (block : List Nat) : State :=
  let r := (List.zip roundK (schedule block)).foldl (fun st kw => round st kw.1 kw.2) s
  ⟨w32 (s.a + r.a), w32 (s.b + r.b), w32 (s.c + r.c), w32 (s.d + r.d),
   w32 (s.e + r.e), w32 (s.f + r.f), w32 (s.g + r.g), w32 (s.h + r.h)⟩

/-- The 64-byte blocks of a padded message. -/
def blocks (padded : List Nat) : List (List Nat) :=
  (List.range (padded.length / 64)).map (fun i => (padded.drop (64 * i)).take 64)

/-- Four big-endian bytes of a 32-bit word. -/
def wordBytes (x : Nat) : List UInt8 :=
  [UInt8.ofNat (x / 16777216), UInt8.ofNat (x / 65536), UInt8.ofNat (x / 256), UInt8.ofNat x]

/-- The 32 digest bytes of a chaining value. -/
def digest (s : State) : List UInt8 :=
  wordBytes s.a ++ wordBytes s.b ++ wordBytes s.c ++ wordBytes s.d ++
    wordBytes s.e ++ wordBytes s.f ++ wordBytes s.g ++ wordBytes s.h

end Sha256

/-- The SHA-256 digest of a byte slice: `sha256.Sum256(data)`. -/
def sha256Sum256 (data : List UInt8) : List UInt8 :=
  Sha256.digest ((Sha256.blocks (Sha256.pad (data.map UInt8.toNat))).foldl
    Sha256.compress Sha256.initState)

/-! ## Values held by Go `any` after JSON decoding -/

/-- A finite `float64`, denoted by the shortest decimal numeral that identifies it, laid
out as in `strconv`: the value is `0.d₁d₂…dₙ × 10 ^ dp`, negated when `neg`. Zero has no
digits. NaN and the infinities are not represented. -/
structure Float64 where
  neg : Bool
  digits : List Nat
  dp : Int
deriving DecidableEq, Repr

/-- A dynamically typed Go value (`any`): the shapes produced by `encoding/json`, and
`int`, which the transforms of the facts engine also produce. A `[]string` is
represented by an `arr` of `str`. -/
inductive Value where
  | null
  | bool (b : Bool)
  | float64 (x : Float64)
  | int (n : Int)
  | str (s : String)
  | arr (xs : List Value)
  | obj (kvs : List (String × Value))
deriving Repr

/-- The entries of a non-nil `map[string]any`; a key is looked up at its first entry. -/
abbrev JMap := List (String × Value)

/-- A field of type `map[string]any`: `none` is the nil map. -/
abbrev GoMap := Option JMap

/-- A `map[string]any` stored in an `any`. -/
def GoMap.toValue : GoMap → Value
  | none => Value.null
  | some m => Value.obj m

/-- The map index expression `m[k]`, yielding nil for a missing key. -/
def mapGet (m : JMap) (k : String) : Value :=
  (m.lookup k).getD Value.null

namespace Float64

/-- The numeral of a non-negative integer. -/
def ofNat (n : Nat) : Float64 :=
  let ds := (natToDec n).map (fun c => c.toNat - 48)
  if n = 0 then ⟨false, [], 0⟩
  else ⟨false, (ds.reverse.dropWhile (· = 0)).reverse, ds.length⟩

/-- The comparison `x > 0`. -/
def isPos (x : Float64) : Bool := !x.neg && x.digits.any (· != 0)

/-- The natural number written by a list of decimal digits. -/
def digitsToNat (ds : List Nat) : Nat := ds.foldl (fun acc d => acc * 10 + d) 0

/-- The integer part of the numeral: truncation toward zero. -/
def trunc (x : Float64) : Int :=
  let n := x.dp.toNat
  let m := digitsToNat (x.digits.take n ++ List.replicate (n - x.digits.length) 0)
  if x.neg then -(m : Int) else (m : Int)

/-- The conversion `int64(x)`. Go leaves the result for a value outside the range of
`int64` to the implementation; amd64 yields the least `int64`. -/
def toInt64 (x : Float64) : Int :=
  let t := x.trunc
  if -9223372036854775808 ≤ t ∧ t < 9223372036854775808 then t else -9223372036854775808

/-- The numeral of an integer. -/
def ofInt (n : Int) : Float64 :=
  { ofNat n.natAbs with neg := decide (n < 0) }

/-- The sign of a number text. -/
def signText (neg : Bool) : List Char := if neg then ['-'] else []

/-- The fraction of a number text: a point and the digits, or nothing. -/
def fracText (frac : List Nat) : List Char :=
  if frac.isEmpty then [] else '.' :: frac.map hexDigit

/-- The exponent of a number text in `%e` format as `encoding/json` leaves it: a sign,
then at least two digits for a positive exponent and the plain digits for a negative
one (`e-07` is rewritten to `e-7`). -/
def expText (e : Int) : List Char :=
  if e < 0 then '-' :: natToDec e.natAbs
  else if e.natAbs < 10 then ['+', '0', hexDigit e.natAbs]
  else '+' :: natToDec e.natAbs

/-- The text of `strconv.AppendFloat(b, x, 'e', -1, 64)`, its exponent cleaned up by
`encoding/json`: one digit, the remaining digits as fraction, the exponent. -/
def fmtE (x : Float64) : List Char :=
  signText x.neg ++ hexDigit (x.digits.headD 0) ::
    (fracText x.digits.tail ++ 'e' :: expText (if x.digits.isEmpty then 0 else x.dp - 1))

/-- The integer digits of the `%f` format. -/
def intDigits (x : Float64) : List Nat :=
  if 0 < x.dp then
    x.digits.take x.dp.toNat ++ List.replicate (x.dp.toNat - x.digits.length) 0
  else [0]

/-- The fraction digits of the `%f` format with the least precision that identifies the
number. -/
def fracDigits (x : Float64) : List Nat :=
  List.replicate (-x.dp).toNat 0 ++ x.digits.drop x.dp.toNat

/-- The text of `strconv.AppendFloat(b, x, 'f', -1, 64)`. -/
def fmtF (x : Float64) : List Char :=
  signText x.neg ++ (x.intDigits.map hexDigit ++ fracText x.fracDigits)

/-- The number text that `encoding/json` writes for a `float64`: `%f` unless the
magnitude is below `1e-6` or at least `1e21`, then `%e`. -/
def format (x : Float64) : List Char :=
  if !x.digits.isEmpty && (x.dp < -5 || 21 < x.dp) then fmtE x else fmtF x

/-- The shortest form of a numeral: decimal digits without a leading or trailing zero;
zero has no digit and its point at 0. -/
def isShortest (x : Float64) : Bool :=
  x.digits.all (· < 10) && x.digits.head? != some 0 && x.digits.getLast? != some 0 &&
    (!x.digits.isEmpty || x.dp == 0)

end Float64

/-! ## `json.Marshal` -/

/-- How `encoding/json` writes one character of a string (HTML escaping enabled). -/
def escapeChar (c : Char) : List Char :=
  if c = '"' then ['\\', '"']
  else if c = '\\' then ['\\', '\\']
  else if c.toNat = 8 then ['\\', 'b']
  else if c.toNat = 12 then ['\\', 'f']
  else if c.toNat = 10 then ['\\', 'n']
  else if c.toNat = 13 then ['\\', 'r']
  else if c.toNat = 9 then ['\\', 't']
  else if c.toNat < 32 ∨ c = '<' ∨ c = '>' ∨ c = '&' then
    ['\\', 'u', '0', '0', hexDigit (c.toNat / 16), hexDigit (c.toNat % 16)]
  else if c.toNat = 8232 then ['\\', 'u', '2', '0', '2', '8']
  else if c.toNat = 8233 then ['\\', 'u', '2', '0', '2', '9']
  else [c]

/-- A JSON string literal. -/
def quoteString (s : String) : List Char :=
  '"' :: s.data.flatMap escapeChar ++ ['"']

/-- Order of two strings by their characters, the order in which `encoding/json`
sorts the keys of a map. -/
def leChars : List Char → List Char → Bool
  | [], _ => true
  | _ :: _, [] => false
  | a :: as, b :: bs => a.toNat < b.toNat || (a.toNat == b.toNat && leChars as bs)

/-- Order of two keyed entries by key. -/
def keyLE {α : Type} (a b : String × α) : Prop := leChars a.1.data b.1.data = true

instance {α : Type} : DecidableRel (keyLE (α := α)) :=
  fun a b => inferInstanceAs (Decidable (leChars a.1.data b.1.data = true))

/-- Entries in ascending order of key. -/
def sortByKey {α : Type} (kvs : List (String × α)) : List (String × α) :=
  kvs.insertionSort keyLE

/-- Texts separated by commas. -/
def joinComma : List (List Char) → List Char
  | [] => []
  | [x] => x
  | x :: y :: rest => x ++ ',' :: joinComma (y :: rest)

mutual
/-- The text `json.Marshal` writes for a value: no white space, object keys sorted. -/
def Value.marshal : Value → List Char
  | .null => ['n', 'u', 'l', 'l']
  | .bool true => ['t', 'r', 'u', 'e']
  | .bool false => ['f', 'a', 'l', 's', 'e']
  | .float64 x => x.format
  | .int n => intToDec n
  | .str s => quoteString s
  | .arr xs => '[' :: joinComma (Value.marshalElems xs) ++ [']']
  | .obj kvs =>
    '{' :: joinComma ((sortByKey (Value.marshalFields kvs)).map
      (fun p => quoteString p.1 ++ ':' :: p.2)) ++ ['}']
/-- The texts of the elements of an array. -/
def Value.marshalElems : List Value → List (List Char)
  | [] => []
  | v :: vs => v.marshal :: Value.marshalElems vs
/-- The keys of a map, each with the text of its value. -/
def Value.marshalFields : List (String × Value) → List (String × List Char)
  | [] => []
  | (k, v) :: kvs => (k, v.marshal) :: Value.marshalFields kvs
end

/-- The helper `mustJSON` (and `toJSON`) of the policy package: the bytes of
`json.Marshal(v)`, the error being dropped. -/
def mustJSON (v : Value) : List UInt8 := utf8Bytes v.marshal

/-! ## `json.Unmarshal` -/

/-- The white space `encoding/json` skips between tokens. -/
def isSpace (c : Char) : Bool := c = ' ' || c = '\t' || c = '\r' || c = '\n'

/-- The text after leading white space. -/
def skipSpace : List Char → List Char
  | [] => []
  | c :: cs => if isSpace c then skipSpace cs else c :: cs

/-- Decimal digit characters `0` to `9`. -/
def isDigitChar (c : Char) : Bool := decide (48 ≤ c.toNat ∧ c.toNat ≤ 57)

/-- The longest run of decimal digits at the head of a text, and what follows it. -/
def spanDigits : List Char → List Nat × List Char
  | [] => ([], [])
  | c :: cs =>
    if isDigitChar c then ((c.toNat - 48) :: (spanDigits cs).1, (spanDigits cs).2)
    else ([], c :: cs)

/-- The value of a hexadecimal digit of either case. -/
def hexValue (c : Char) : Option Nat :=
  if 48 ≤ c.toNat ∧ c.toNat ≤ 57 then some (c.toNat - 48)
  else if 97 ≤ c.toNat ∧ c.toNat ≤ 102 then some (c.toNat - 87)
  else if 65 ≤ c.toNat ∧ c.toNat ≤ 70 then some (c.toNat - 55)
  else none

/-- The helper `getu4` applied after `\u`: the number written by four hexadecimal
digits, and what follows them. -/
def getu4 : List Char → Option (Nat × List Char)
  | a :: b :: c :: d :: rest =>
    match hexValue a, hexValue b, hexValue c, hexValue d with
    | some x, some y, some z, some w => some (((x * 16 + y) * 16 + z) * 16 + w, rest)
    | _, _, _, _ => none
  | _ => none

/-- The character written by an escape sequence, read after its backslash, and what
follows it. A surrogate that is not the first half of a valid pair becomes U+FFFD. -/
def unescape : List Char → Option (Char × List Char)
  | [] => none
  | c :: rest =>
    if c = '"' then some ('"', rest)
    else if c = '\\' then some ('\\', rest)
    else if c = '/' then some ('/', rest)
    else if c = 'b' then some (Char.ofNat 8, rest)
    else if c = 'f' then some (Char.ofNat 12, rest)
    else if c = 'n' then some (Char.ofNat 10, rest)
    else if c = 'r' then some (Char.ofNat 13, rest)
    else if c = 't' then some (Char.ofNat 9, rest)
    else if c = 'u' then
      match getu4 rest with
      | none => none
      | some (n, rest₁) =>
        if 55296 ≤ n ∧ n < 57344 then
          match rest₁ with
          | '\\' :: 'u' :: rest₂ =>
            match getu4 rest₂ with
            | some (m, rest₃) =>
              if n < 56320 ∧ 56320 ≤ m ∧ m < 57344 then
                some (Char.ofNat (65536 + (n - 55296) * 1024 + (m - 56320)), rest₃)
              else some (Char.ofNat 65533, rest₁)
            | none => some (Char.ofNat 65533, rest₁)
          | _ => some (Char.ofNat 65533, rest₁)
        else some (Char.ofNat n, rest₁)
    else none

/-- The characters of a string literal, read after its opening quote up to the closing
quote, and what follows it. A raw control character is a syntax error. -/
def parseStringBody : Nat → List Char → Option (List Char × List Char)
  | 0, _ => none
  | _ + 1, [] => none
  | fuel + 1, c :: rest =>
    if c = '"' then some ([], rest)
    else if c = '\\' then
      match unescape rest with
      | none => none
      | some (x, rest₁) =>
        match parseStringBody fuel rest₁ with
        | none => none
        | some (s, rest₂) => some (x :: s, rest₂)
    else if c.toNat < 32 then none
    else
      match parseStringBody fuel rest with
      | none => none
      | some (s, rest₂) => some (c :: s, rest₂)

/-- The numeral with the given digit string and decimal point, brought to the shortest
form: no leading and no trailing zero digit. -/
def Float64.ofDigits (neg : Bool) (ds : List Nat) (dp : Int) : Float64 :=
  let lead := (ds.takeWhile (· = 0)).length
  let body := ((ds.dropWhile (· = 0)).reverse.dropWhile (· = 0)).reverse
  if body.isEmpty then ⟨neg, [], 0⟩ else ⟨neg, body, dp - (lead : Int)⟩

/-- The exponent part of a number literal, if any: its value and what follows it. A
lone `e` is a syntax error. -/
def parseExponent : List Char → Option (Int × List Char)
  | c :: rest =>
    if c = 'e' ∨ c = 'E' then
      match rest with
      | '+' :: rest₁ =>
        if (spanDigits rest₁).1.isEmpty then none
        else some ((Float64.digitsToNat (spanDigits rest₁).1 : Int), (spanDigits rest₁).2)
      | '-' :: rest₁ =>
        if (spanDigits rest₁).1.isEmpty then none
        else some (-(Float64.digitsToNat (spanDigits rest₁).1 : Int), (spanDigits rest₁).2)
      | _ =>
        if (spanDigits rest).1.isEmpty then none
        else some ((Float64.digitsToNat (spanDigits rest).1 : Int), (spanDigits rest).2)
    else some (0, c :: rest)
  | [] => some (0, [])

/-- The fraction part of a number literal, if any: its digits and what follows it. A
point without a digit is a syntax error. -/
def parseFraction : List Char → Option (List Nat × List Char)
  | '.' :: rest =>
    if (spanDigits rest).1.isEmpty then none
    else some ((spanDigits rest).1, (spanDigits rest).2)
  | cs => some ([], cs)

/-- The digits of a number literal after its sign: integer digits (a leading zero
stands alone), fraction and exponent; the number read and what follows it. -/
def parseUnsigned (neg : Bool) (cs : List Char) : Option (Float64 × List Char) :=
  let intDigits := (spanDigits cs).1
  if intDigits.isEmpty then none
  else if intDigits.headD 0 = 0 ∧ 1 < intDigits.length then none
  else
    match parseFraction (spanDigits cs).2 with
    | none => none
    | some (frac, rest₁) =>
      match parseExponent rest₁ with
      | none => none
      | some (e, rest₂) =>
        some (Float64.ofDigits neg (intDigits ++ frac) ((intDigits.length : Int) + e), rest₂)

/-- A number literal decoded as `float64`, and what follows it. -/
def parseNumber : List Char → Option (Float64 × List Char)
  | '-' :: rest => parseUnsigned true rest
  | cs => parseUnsigned false cs

/-- The map assignment `m[k] = v`: the entry of `k` is replaced, or added. -/
def setKey : JMap → String → Value → JMap
  | [], k, v => [(k, v)]
  | (k₁, v₁) :: m, k, v => if k₁ = k then (k, v) :: m else (k₁, v₁) :: setKey m k v

/-- The map holding the members of an object literal, a later duplicate key replacing
an earlier one. -/
def mkMap (members : List (String × Value)) : JMap :=
  members.foldl (fun m kv => setKey m kv.1 kv.2) []

/-- The greatest nesting of arrays and objects the decoder accepts. -/
def maxNestingDepth : Nat := 10000

mutual
/-- One JSON value decoded into `any`, and what follows it. `depth` counts the arrays
and objects that enclose the value. -/
def parseValue : Nat → Nat → List Char → Option (Value × List Char)
  | 0, _, _ => none
  | fuel + 1, depth, cs =>
    match skipSpace cs with
    | [] => none
    | c :: rest =>
      if c = 'n' then
        match rest with
        | 'u' :: 'l' :: 'l' :: rest₁ => some (Value.null, rest₁)
        | _ => none
      else if c = 't' then
        match rest with
        | 'r' :: 'u' :: 'e' :: rest₁ => some (Value.bool true, rest₁)
        | _ => none
      else if c = 'f' then
        match rest with
        | 'a' :: 'l' :: 's' :: 'e' :: rest₁ => some (Value.bool false, rest₁)
        | _ => none
      else if c = '"' then
        match parseStringBody rest.length rest with
        | none => none
        | some (s, rest₁) => some (Value.str (String.mk s), rest₁)
      else if c = '[' then
        if maxNestingDepth ≤ depth then none
        else
          match skipSpace rest with
          | ']' :: rest₁ => some (Value.arr [], rest₁)
          | _ =>
            match parseElements fuel (depth + 1) rest with
            | none => none
            | some (xs, rest₁) => some (Value.arr xs, rest₁)
      else if c = '\x7b' then
        if maxNestingDepth ≤ depth then none
        else
          match skipSpace rest with
          | '\x7d' :: rest₁ => some (Value.obj [], rest₁)
          | _ =>
            match parseMembers fuel (depth + 1) rest with
            | none => none
            | some (kvs, rest₁) => some (Value.obj (mkMap kvs), rest₁)
      else if c = '-' ∨ isDigitChar c then
        match parseNumber (c :: rest) with
        | none => none
        | some (x, rest₁) => some (Value.float64 x, rest₁)
      else none
/-- The elements of a non-empty array literal, read after `[` or `,`, up to the closing
bracket. -/
def parseElements : Nat → Nat → List Char → Option (List Value × List Char)
  | 0, _, _ => none
  | fuel + 1, depth, cs =>
    match parseValue fuel depth cs with
    | none => none
    | some (v, rest) =>
      match skipSpace rest with
      | ',' :: rest₁ =>
        match parseElements fuel depth rest₁ with
        | none => none
        | some (vs, rest₂) => some (v :: vs, rest₂)
      | ']' :: rest₁ => some ([v], rest₁)
      | _ => none
/-- The members of a non-empty object literal, read after `{` or `,`, up to the closing
brace, in the order written. -/
def parseMembers : Nat → Nat → List Char → Option (List (String × Value) × List Char)
  | 0, _, _ => none
  | fuel + 1, depth, cs =>
    match skipSpace cs with
    | '"' :: rest =>
      match parseStringBody rest.length rest with
      | none => none
      | some (k, rest₁) =>
        match skipSpace rest₁ with
        | ':' :: rest₂ =>
          match parseValue fuel depth rest₂ with
          | none => none
          | some (v, rest₃) =>
            match skipSpace rest₃ with
            | ',' :: rest₄ =>
              match parseMembers fuel depth rest₄ with
              | none => none
              | some (kvs, rest₅) => some ((String.mk k, v) :: kvs, rest₅)
            | '\x7d' :: rest₄ => some ([(String.mk k, v)], rest₄)
            | _ => none
        | _ => none
    | _ => none
end

/-- The value `json.Unmarshal` decodes a whole text into, for a target of type `any`;
`none` when the text is not one JSON value. -/
def jsonDecode (text : List Char) : Option Value :=
  match parseValue (text.length + 1) 0 text with
  | none => none
  | some (v, rest) => if (skipSpace rest).isEmpty then some v else none

/-- The call `json.Unmarshal(text, &m)` for `m` of type `map[string]any`: the map
afterwards and whether an error is returned. `null` leaves the map as it is; a text that
is not an object is an error. -/
def jsonUnmarshalMap (text : List Char) (m : GoMap) : GoMap × Bool :=
  match jsonDecode text with
  | some (Value.obj kvs) =>
    (some (kvs.foldl (fun acc kv => setKey acc kv.1 kv.2) (m.getD [])), false)
  | some Value.null => (m, false)
  | _ => (m, true)

/-- A map serialised to JSON and parsed back into a fresh map. -/
def reserialize (m : GoMap) : GoMap :=
  (jsonUnmarshalMap m.toValue.marshal none).1

/-- A text at whose head a number literal ends: the end of the text, or one of the
delimiters `,` `]` and `}`. -/
def Delimited (rest : List Char) : Prop :=
  rest = [] ∨ ∃ c t, rest = c :: t ∧ (c = ',' ∨ c = ']' ∨ c = '\x7d')

mutual
/-- Values as `encoding/json` can hold them after a round trip: numbers in their shortest
form, integers within the range a `float64` represents exactly, and objects with
distinct keys. -/
def Value.wf : Value → Bool
  | .float64 x => x.isShortest
  | .int n => decide (-9007199254740992 ≤ n ∧ n ≤ 9007199254740992)
  | .arr xs => Value.wfElems xs
  | .obj kvs => decide (kvs.map Prod.fst).Nodup && Value.wfFields kvs
  | _ => true
/-- All elements are well formed. -/
def Value.wfElems : List Value → Bool
  | [] => true
  | v :: vs => v.wf && Value.wfElems vs
/-- All member values are well formed. -/
def Value.wfFields : List (String × Value) → Bool
  | [] => true
  | (_, v) :: kvs => v.wf && Value.wfFields kvs
end

mutual
/-- The nesting of arrays and objects in a value. -/
def Value.depth : Value → Nat
  | .arr xs => Value.depthElems xs + 1
  | .obj kvs => Value.depthFields kvs + 1
  | _ => 0
/-- The deepest nesting among the elements. -/
def Value.depthElems : List Value → Nat
  | [] => 0
  | v :: vs => max v.depth (Value.depthElems vs)
/-- The deepest nesting among the member values. -/
def Value.depthFields : List (String × Value) → Nat
  | [] => 0
  | (_, v) :: kvs => max v.depth (Value.depthFields kvs)
end

mutual
/-- The value the decoder yields for the text of a value: every number a `float64`,
the members of every object in ascending order of key. -/
def Value.canon : Value → Value
  | .int n => .float64 (Float64.ofInt n)
  | .arr xs => .arr (Value.canonElems xs)
  | .obj kvs => .obj (sortByKey (Value.canonFields kvs))
  | .null => .null
  | .bool b => .bool b
  | .float64 x => .float64 x
  | .str s => .str s
/-- The decoded elements. -/
def Value.canonElems : List Value → List Value
  | [] => []
  | v :: vs => v.canon :: Value.canonElems vs
/-- The decoded member values, in the order given. -/
def Value.canonFields : List (String × Value) → List (String × Value)
  | [] => []
  | (k, v) :: kvs => (k, v.canon) :: Value.canonFields kvs
end

/-- A map field as the decoder yields it. -/
def GoMap.canon : GoMap → GoMap
  | none => none
  | some m => some (sortByKey (Value.canonFields m))

/-- A map field that `encoding/json` can hold after a round trip. -/
def GoMap.wf (m : GoMap) : Bool := m.toValue.wf && decide (m.toValue.depth ≤ maxNestingDepth)

/-- The decoder reads the text of the value back: followed by a delimiter or the end of
the text, with enough fuel and within the nesting limit, the text decodes to the
canonical form of the value, and the rest of the text is left. -/
def Value.ReadsBack (v : Value) : Prop :=
  v.wf = true → ∀ (fuel depth : Nat) (rest : List Char), v.marshal.length < fuel →
    depth + v.depth ≤ maxNestingDepth → Delimited rest →
    parseValue fuel depth (v.marshal ++ rest) = some (v.canon, rest)

/-- A text that does not start with a digit. -/
def NoDigitHead (rest : List Char) : Prop := ∀ c t, rest = c :: t → isDigitChar c = false

/-! ## `pkg/problems` -/

/-- The environment variables read by `pkg/problems`; an unset variable is `""`. -/
structure Env where
  PROBLEM_BASE_URL : String
  BASE_PUBLIC_URL : String
deriving DecidableEq, Repr

/-- The call `strings.TrimRight(s, "/")`. -/
def trimRightSlash (s : String) : String :=
  String.mk (s.data.reverse.dropWhile (· = '/')).reverse

/-- The function `problems.Base`: the base URL of problem type identifiers. -/
def problemsBase (env : Env) : String :=
  if env.PROBLEM_BASE_URL ≠ "" then trimRightSlash env.PROBLEM_BASE_URL
  else if env.BASE_PUBLIC_URL ≠ "" then trimRightSlash env.BASE_PUBLIC_URL ++ "/problems"
  else "https://example.com/problems"

/-- The function `problems.Type`: the full problem type URL of a slug. -/
def problemsType (env : Env) (slug : String) : String :=
  problemsBase env ++ "/" ++ slug

/-! ## `internal/policy`: decisions -/

/-- An instant, in nanoseconds. -/
abbrev Time := Int

/-- The constant `time.Second`, in nanoseconds. -/
def Second : Int := 1000000000

/-- The constant `time.Minute`, in nanoseconds. -/
def Minute : Int := 60 * Second

/-- Wrap-around of an integer into the range of `int64`. -/
def wrapInt64 (z : Int) : Int :=
  (z + 9223372036854775808) % 18446744073709551616 - 9223372036854775808

/-- The type `DecisionStatus`, a Go string type. -/
abbrev DecisionStatus := String

def Allow : DecisionStatus := "ALLOW"

def AllowWithConditions : DecisionStatus := "ALLOW_WITH_CONDITIONS"

def Blocked : DecisionStatus := "BLOCKED"

def NeedsInput : DecisionStatus := "NEEDS_INPUT"

/-- The struct `Decision`. -/
structure Decision where
  ID : String
  ActionKey : String
  Inputs : GoMap
  Facts : GoMap
  PolicyVersion : Int
  Status : DecisionStatus
  Reasons : Value
  Needs : Value
  Alternatives : Value
  ExpiresAt : Option Time

/-- A row of `policy_versions`. -/
structure PolicyVersionRow where
  tenant_id : String
  action_key : String
  version : Int
  compiled_rego : Option String
  status : String
deriving DecidableEq, Repr

/-- A row of `decisions`; the `jsonb` columns hold the bytes written by `toJSON`. -/
structure DecisionRow where
  id : String
  tenant_id : String
  action_key : String
  inputs : List UInt8
  facts : List UInt8
  policy_version : Int
  status : String
  reasons : List UInt8
  needs : List UInt8
  alternatives : List UInt8
  hash : String
  expires_at : Option Time
deriving DecidableEq, Repr

/-- A row of `executions`. -/
structure ExecutionRow where
  tenant_id : String
  action_key : String
  decision_id : String
  idempotency_key : String
  steps : List UInt8
  result : List UInt8
  status : String
deriving DecidableEq, Repr

/-- A row of `connector_operations` joined with its `connector_definitions` row, as the
query of `Execute` selects it; the nullable columns are those the query `COALESCE`s. The
`jsonb` column `request_tmpl` holds its text. -/
structure OperationRow where
  tenant_id : String
  base_url : Option String
  method : String
  path : String
  request_tmpl : Option (List Char)
  kind : String
  title : Option String
  enabled : Option Bool
deriving DecidableEq, Repr

/-- A row of `fact_resolvers`, with the columns the facts engine selects. The `jsonb`
columns hold their text; `NULL` is `none`. -/
structure ResolverRow where
  tenant_id : String
  id : String
  action_key : String
  name : String
  connector_key : String
  request_template : Option (List Char)
  response_sample : Option (List Char)
  needs : Option (List Char)
  enabled : Option Bool
deriving DecidableEq, Repr

/-- A row of `fact_mappings`, with the columns the facts engine selects. -/
structure MappingRow where
  tenant_id : String
  id : String
  action_key : String
  name : String
  jmespath : String
  fact_key : String
  transform : Option String
  transform_args : Option (List Char)
  required : Bool
deriving DecidableEq, Repr

/-- The tables behind a non-nil `*pgxpool.Pool` that the policy engine, the
orchestrator and the facts engine read and write. A statement run for a tenant sees the
rows of that tenant only (row-level policies keyed on `app.tenant_id`). A table lists its
rows in the order in which a query without `ORDER BY` returns them. -/
structure DB where
  policy_versions : List PolicyVersionRow
  decisions : List DecisionRow
  executions : List ExecutionRow
  operations : List OperationRow
  fact_resolvers : List ResolverRow
  fact_mappings : List MappingRow
deriving DecidableEq, Repr

/-- The query of `Evaluate`: module and version of the published policy of the action
with the greatest version, `COALESCE`d; `("", 0)` when the scan finds no row. -/
def loadPublished (db : DB) (tenantID actionKey : String) : String × Int :=
  let rows := db.policy_versions.filter (fun r =>
    r.tenant_id = tenantID ∧ r.action_key = actionKey ∧ r.status = "published")
  match rows with
  | [] => ("", 0)
  | r :: rest =>
    let best := rest.foldl (fun b x => if b.version < x.version then x else b) r
    (best.compiled_rego.getD "", best.version)

/-- The policy load at the head of `Evaluate`: the query runs only with a pool, and
`mod`, `ver` keep their zero values otherwise. -/
def loadPolicy (pool : Option DB) (tenantID actionKey : String) : String × Int :=
  match pool with
  | some db => loadPublished db tenantID actionKey
  | none => ("", 0)

/-- The result set of a Rego evaluation: for each result, the values of its
expressions. -/
abbrev ResultSet := List (List Value)

/-- The evaluation `rego.New(Query("data.policy.decide"), Module("policy.rego", mod),
Input(input)).Eval(ctx)`, as a function of the module text and the input document. -/
abbrev RegoEval := String → Value → Except String ResultSet

/-- The input document `Evaluate` hands to the policy:
`map[string]any{"inputs": inputs, "facts": facts}`. -/
def regoInput (inputs facts : GoMap) : Value :=
  Value.obj [("inputs", inputs.toValue), ("facts", facts.toValue)]

/-- The decision returned when the policy cannot be evaluated. -/
def policyErrorDecision (now : Time) (actionKey : String) (inputs facts : GoMap)
    (ver : Int) : Decision :=
  { ID := "", ActionKey := actionKey, Inputs := inputs, Facts := facts,
    PolicyVersion := ver, Status := Blocked,
    Reasons := Value.arr [Value.str "policy_error"], Needs := Value.null,
    Alternatives := Value.null, ExpiresAt := some (now + 5 * Minute) }

/-- The function `Evaluate`: loads the latest published policy of the tenant and
evaluates it with inputs and facts. `now` is the instant read by `time.Now()`. The
second component is the returned `error`. -/
def Evaluate (rego : RegoEval) (now : Time) (pool : Option DB)
    (tenantID actionKey : String) (inputs facts : GoMap) : Decision × Option String :=
  let mod := (loadPolicy pool tenantID actionKey).1
  let ver := (loadPolicy pool tenantID actionKey).2
  if mod = "" then
    ({ ID := "", ActionKey := actionKey, Inputs := inputs, Facts := facts,
       PolicyVersion := ver, Status := Allow, Reasons := Value.null, Needs := Value.null,
       Alternatives := Value.null, ExpiresAt := some (now + 15 * Minute) }, none)
  else
    match rego mod (regoInput inputs facts) with
    | Except.error _ => (policyErrorDecision now actionKey inputs facts ver, none)
    | Except.ok [] => (policyErrorDecision now actionKey inputs facts ver, none)
    | Except.ok ([] :: _) => (policyErrorDecision now actionKey inputs facts ver, none)
    | Except.ok ((out :: _) :: _) =>
      match out with
      | Value.obj m =>
        let status : DecisionStatus :=
          match mapGet m "status" with
          | Value.str s =>
            if s = "ALLOW" then Allow
            else if s = "ALLOW_WITH_CONDITIONS" then AllowWithConditions
            else if s = "NEEDS_INPUT" then NeedsInput
            else Blocked
          | _ => Blocked
        let expires : Time :=
          match mapGet m "ttl_seconds" with
          | Value.float64 ttl =>
            if ttl.isPos then now + wrapInt64 (ttl.toInt64 * Second) else now + 15 * Minute
          | _ => now + 15 * Minute
        ({ ID := "", ActionKey := actionKey, Inputs := inputs, Facts := facts,
           PolicyVersion := ver, Status := status, Reasons := mapGet m "reasons",
           Needs := mapGet m "needs", Alternatives := mapGet m "alternatives",
           ExpiresAt := some expires }, none)
      | _ =>
        ({ ID := "", ActionKey := actionKey, Inputs := inputs, Facts := facts,
           PolicyVersion := ver, Status := Allow, Reasons := Value.null,
           Needs := Value.null, Alternatives := Value.null,
           ExpiresAt := some (now + 15 * Minute) }, none)

/-- The text `fmt.Sprintf("%x|%x|%d", a, b, v)` for byte slices `a`, `b` and an int `v`. -/
def sprintfBinding (a b : List UInt8) (v : Int) : List Char :=
  hexEncode a ++ '|' :: (hexEncode b ++ '|' :: intToDec v)

/-- The binding hash as the specification words it: SHA-256, in hexadecimal, of
`hex(json(inputs)) | hex(json(facts)) | policy_version`. -/
def bindingHash (inputs facts : GoMap) (ver : Int) : String :=
  String.mk (hexEncode (sha256Sum256 (utf8Bytes
    (hexEncode (mustJSON inputs.toValue) ++ ['|'] ++ hexEncode (mustJSON facts.toValue) ++
      ['|'] ++ intToDec ver))))

/-- The row `PersistDecision` inserts for a decision, under the id the database
assigns to it. -/
def persistedRow (id tenantID : String) (d : Decision) : DecisionRow :=
  let h := sha256Sum256 (utf8Bytes (sprintfBinding (mustJSON d.Inputs.toValue)
    (mustJSON d.Facts.toValue) d.PolicyVersion))
  let hash := String.mk (hexEncode h)
  { id := id, tenant_id := tenantID, action_key := d.ActionKey,
    inputs := mustJSON d.Inputs.toValue, facts := mustJSON d.Facts.toValue,
    policy_version := d.PolicyVersion, status := d.Status,
    reasons := mustJSON d.Reasons, needs := mustJSON d.Needs,
    alternatives := mustJSON d.Alternatives, hash := hash, expires_at := d.ExpiresAt }

/-- The function `PersistDecision`: stores a decision with its binding hash and returns
its id. `newID` is the id the database assigns (`RETURNING id`); the insert is taken to
succeed. The last component is the store afterwards. -/
def PersistDecision (newID : String) (pool : Option DB) (tenantID : String)
    (d : Decision) : (String × Option String) × Option DB :=
  match pool with
  | none => (("dev-decision", none), none)
  | some db =>
    ((newID, none),
      some { db with decisions := db.decisions ++ [persistedRow newID tenantID d] })

/-- The map built by the helper `problem`: its `type`, `title` and `detail` entries. -/
structure ProblemDoc where
  type : String
  title : String
  detail : String
deriving DecidableEq, Repr

/-- The helper `problem`. -/
def problem (tp title detail : String) : ProblemDoc := ⟨tp, title, detail⟩

/-- The facts engine as the policy engine calls it: `facts.ResolveFacts(ctx, pool,
tenantID, actionKey, inputs)` against the current store, returning the facts map and
the error. -/
abbrev FactsEngine := String → String → GoMap → GoMap × Option String

/-- The decision row a statement run for `tenantID` finds under `decisionID`. -/
def findDecision (db : DB) (tenantID decisionID : String) : Option DecisionRow :=
  db.decisions.find? (fun r => r.id = decisionID ∧ r.tenant_id = tenantID)

/-- The function `ValidateAndBindDecision`: the decision must be executable, match the
action key, be unexpired, and carry the binding hash of inputs, facts and policy
version. `now` is the instant read by `time.Now()`. -/
def ValidateAndBindDecision (env : Env) (facts : FactsEngine) (now : Time)
    (pool : Option DB) (tenantID decisionID actionKey : String) (inputs : GoMap) :
    Bool × Option ProblemDoc :=
  match pool with
  | none => (true, none)
  | some db =>
    match findDecision db tenantID decisionID with
    | none =>
      (false, some (problem (problemsType env "invalid-decision") "Invalid decision id"
        "The provided decision_id is unknown or not accessible"))
    | some row =>
      if row.action_key ≠ actionKey then
        (false, some (problem (problemsType env "decision-mismatch") "Decision mismatch"
          "The decision_id does not match this action"))
      else if row.status ≠ Allow ∧ row.status ≠ AllowWithConditions then
        (false, some (problem (problemsType env "decision-blocked") "Decision is blocked"
          "The decision is not allowed for execution"))
      else if (match row.expires_at with
          | some e => decide (e < now)
          | none => false) then
        (false, some (problem (problemsType env "decision-expired") "Decision expired"
          "The decision has expired; call eligibility again"))
      else
        let fa := (facts tenantID actionKey inputs).1
        let h := sha256Sum256 (utf8Bytes (sprintfBinding (mustJSON inputs.toValue)
          (mustJSON fa.toValue) row.policy_version))
        let calcHash := String.mk (hexEncode h)
        if row.hash ≠ "" ∧ row.hash ≠ calcHash then
          (false, some (problem (problemsType env "decision-mismatch") "Decision mismatch"
            "Inputs or facts changed; please re-run eligibility"))
        else (true, none)

/-! ## Library functions used by the orchestrator: `strings`, `fmt`, `net/url` -/

/-- The white space of `strings.TrimSpace` (`unicode.IsSpace`). -/
def isUnicodeSpace (c : Char) : Bool :=
  let n := c.toNat
  (9 ≤ n && n ≤ 13) || n == 32 || n == 133 || n == 160 || n == 5760 ||
    (8192 ≤ n && n ≤ 8202) || n == 8232 || n == 8233 || n == 8239 || n == 8287 || n == 12288

/-- The call `strings.TrimFunc(s, p)`: leading and trailing characters satisfying `p`
removed. -/
def trimBoth (p : Char → Bool) (cs : List Char) : List Char :=
  ((cs.dropWhile p).reverse.dropWhile p).reverse

/-- The call `strings.Split(s, sep)` for a separator of one character. -/
def splitOnChar (sep : Char) : List Char → List (List Char)
  | [] => [[]]
  | c :: cs =>
    if c = sep then [] :: splitOnChar sep cs
    else
      match splitOnChar sep cs with
      | [] => [[c]]
      | seg :: segs => (c :: seg) :: segs

/-- Whether a text holds the given non-empty text: `strings.Contains`. -/
def containsText (needle : List Char) : List Char → Bool
  | [] => needle.isEmpty
  | c :: cs => needle.isPrefixOf (c :: cs) || containsText needle cs

def isLowerChar (c : Char) : Bool := decide (97 ≤ c.toNat ∧ c.toNat ≤ 122)

def isUpperChar (c : Char) : Bool := decide (65 ≤ c.toNat ∧ c.toNat ≤ 90)

/-- The character class `[a-zA-Z0-9]`. -/
def isAlnumChar (c : Char) : Bool := isLowerChar c || isUpperChar c || isDigitChar c

/-- The character class `[a-zA-Z0-9_]`. -/
def isNameChar (c : Char) : Bool := isAlnumChar c || c = '_'

/-- The character class `[a-zA-Z0-9_\.]`. -/
def isKeyChar (c : Char) : Bool := isNameChar c || c = '.'

/-- The character class `\s` of Go regular expressions. -/
def isRegexSpace (c : Char) : Bool :=
  c = '\t' || c = '\n' || c.toNat == 12 || c = '\r' || c = ' '

/-- The call `strings.ToLower` on a text of ASCII letters, digits and hyphens. -/
def toLowerAscii (cs : List Char) : List Char :=
  cs.map (fun c => if isUpperChar c then Char.ofNat (c.toNat + 32) else c)

/-- The exponent of `%e` as `strconv` writes it: a sign and at least two digits. -/
def Float64.expTextPlain (e : Int) : List Char :=
  (if e < 0 then '-' else '+') ::
    (if e.natAbs < 10 then ['0', hexDigit e.natAbs] else natToDec e.natAbs)

/-- The text of `%v` for a `float64` (`%g` with the shortest precision): the form of
`%e` when the decimal exponent is below `-4` or at least `6`, the form of `%f`
otherwise. -/
def Float64.fmtG (x : Float64) : List Char :=
  if !x.digits.isEmpty && (x.dp - 1 < -4 || 6 ≤ x.dp - 1) then
    Float64.signText x.neg ++ hexDigit (x.digits.headD 0) ::
      (Float64.fracText x.digits.tail ++ 'e' :: Float64.expTextPlain (x.dp - 1))
  else x.fmtF

mutual
/-- The text `fmt.Sprintf("%v", v)`. -/
def Value.sprintV : Value → List Char
  | .null => ['<', 'n', 'i', 'l', '>']
  | .bool true => ['t', 'r', 'u', 'e']
  | .bool false => ['f', 'a', 'l', 's', 'e']
  | .float64 x => x.fmtG
  | .int n => intToDec n
  | .str s => s.data
  | .arr xs => '[' :: Value.sprintElems xs ++ [']']
  | .obj kvs =>
    'm' :: 'a' :: 'p' :: '[' ::
      Value.joinSpace ((sortByKey (Value.sprintFields kvs)).map (fun p => p.1.data ++ ':' :: p.2))
      ++ [']']
/-- The elements of a slice under `%v`, separated by spaces. -/
def Value.sprintElems : List Value → List Char
  | [] => []
  | [v] => v.sprintV
  | v :: w :: vs => v.sprintV ++ ' ' :: Value.sprintElems (w :: vs)
/-- The keys of a map, each with the `%v` text of its value. -/
def Value.sprintFields : List (String × Value) → List (String × List Char)
  | [] => []
  | (k, v) :: kvs => (k, v.sprintV) :: Value.sprintFields kvs
/-- Texts separated by spaces. -/
def Value.joinSpace : List (List Char) → List Char
  | [] => []
  | [x] => x
  | x :: y :: rest => x ++ ' ' :: Value.joinSpace (y :: rest)
end

/-- The uppercase hexadecimal digits of percent-encoding. -/
def upperHexDigit (n : Nat) : Char :=
  if n < 10 then Char.ofNat (48 + n) else Char.ofNat (55 + n)

/-- The percent-encoding of one byte. -/
def percentByte (b : UInt8) : List Char :=
  ['%', upperHexDigit (b.toNat / 16), upperHexDigit (b.toNat % 16)]

/-- The characters `url.PathEscape` leaves as they are: unreserved characters and the
reserved characters a path segment may hold. -/
def pathSegmentSafe (c : Char) : Bool :=
  isAlnumChar c || c = '-' || c = '_' || c = '.' || c = '~' ||
    c = '$' || c = '&' || c = '+' || c = ':' || c = '=' || c = '@'

/-- The function `url.PathEscape`. -/
def pathEscape (cs : List Char) : List Char :=
  cs.flatMap (fun c =>
    if pathSegmentSafe c then [c] else (String.utf8EncodeChar c).flatMap percentByte)

/-- The function `url.QueryEscape`. -/
def queryEscape (cs : List Char) : List Char :=
  cs.flatMap (fun c =>
    if isAlnumChar c || c = '-' || c = '_' || c = '.' || c = '~' then [c]
    else if c = ' ' then ['+']
    else (String.utf8EncodeChar c).flatMap percentByte)

/-- The method `url.Values.Encode` for values set once per key: `key=value` pairs in
ascending order of key, joined by `&`. -/
def encodeQuery (q : List (String × List Char)) : List Char :=
  let rec join : List (List Char) → List Char
    | [] => []
    | [x] => x
    | x :: y :: rest => x ++ '&' :: join (y :: rest)
  join ((sortByKey q).map (fun p => queryEscape p.1.data ++ '=' :: queryEscape p.2))

/-! ## `internal/orchestrator`: Execute -/

/-- The struct `Problem`. -/
structure Problem where
  type : String
  title : String
  detail : String
  step : String
deriving DecidableEq, Repr

/-- The struct `ExecuteResult`. -/
structure ExecuteResult where
  Steps : List JMap
  Result : GoMap
  Status : String
  Problems : List Problem

/-- The request the orchestrator hands to `net/http`. -/
structure UpstreamRequest where
  method : String
  url : String
  headers : List (String × String)
  body : Option (List UInt8)

/-- What `net/http` answers: the request could not be built, the transport failed, or a
response with a status code and a body arrived. -/
inductive UpstreamAnswer where
  | buildError (msg : String)
  | transportError (msg : String)
  | response (status : Int) (body : List Char)

/-- The upstream as `Execute` reaches it through `http.NewRequestWithContext` and
`http.DefaultClient.Do`. -/
abbrev Upstream := UpstreamRequest → UpstreamAnswer

/-- The idempotency key of `Execute`: the string `input["idempotency_key"]` when it is
not empty, else the decision id. -/
def idempotencyKeyOf (decisionID : String) (input : GoMap) : String :=
  let idempotencyKey :=
    match mapGet (input.getD []) "idempotency_key" with
    | Value.str v => v
    | _ => ""
  if idempotencyKey = "" then decisionID else idempotencyKey

/-- The split of an action key at its first `.` into namespace and short name. -/
def splitActionKey (actionKey : String) : String × String :=
  match splitOnChar '.' actionKey.data with
  | [] => (actionKey, "")
  | [_] => (actionKey, "")
  | ns :: _ :: _ =>
    (String.mk ns, String.mk (actionKey.data.drop (ns.length + 1)))

/-- The replacement `capRe.ReplaceAllString(s, "$1-$2")` for `([a-z0-9])([A-Z])`. -/
def hyphenateCaps : List Char → List Char
  | [] => []
  | [a] => [a]
  | a :: b :: rest =>
    if (isLowerChar a || isDigitChar a) && isUpperChar b then
      a :: '-' :: b :: hyphenateCaps rest
    else a :: hyphenateCaps (b :: rest)

/-- The replacement of each run of characters satisfying `p` by one hyphen; `inRun`
tells whether the previous character was in such a run. -/
def replaceRuns (p : Char → Bool) : Bool → List Char → List Char
  | _, [] => []
  | inRun, c :: rest =>
    if p c then
      if inRun then replaceRuns p true rest else '-' :: replaceRuns p true rest
    else c :: replaceRuns p false rest

/-- The local function `slug` of `Execute`. -/
def slug (s : String) : String :=
  let s₁ := trimBoth isUnicodeSpace s.data
  if s₁.isEmpty then String.mk s₁
  else
    let s₂ := hyphenateCaps s₁
    let s₃ := replaceRuns (fun c => !isAlnumChar c) false s₂
    let s₄ := toLowerAscii (trimBoth (· = '-') s₃)
    String.mk (replaceRuns (· = '-') false s₄)

/-- The first segment, from the last one down, that is no placeholder, not `v1`, and
has a non-empty slug. -/
def lastNamedSegment : List (List Char) → Option String
  | [] => none
  | seg :: segs =>
    match lastNamedSegment segs with
    | some s => some s
    | none =>
      if seg.contains '\x7b' || seg.contains '\x7d' || seg = ['v', '1'] then none
      else if slug (String.mk seg) ≠ "" then some (slug (String.mk seg)) else none

/-- The local function `deriveShort` of `Execute`. -/
def deriveShort (p : String) : String :=
  let p₁ := (splitOnChar '?' p.data).headD []
  let p₂ := trimBoth (· = '/') p₁
  if p₂.isEmpty then "root"
  else (lastNamedSegment (splitOnChar '/' p₂)).getD "action"

/-- The operation `Execute` resolved: base URL, method, path and raw template. -/
structure ResolvedOp where
  baseURL : String
  method : String
  path : String
  tmplRaw : List Char
deriving DecidableEq, Repr

/-- The loop of `Execute` over the rows of the query: the first row of the namespace is
kept as fallback, a row whose short name matches replaces it and ends the loop. -/
def selectOperation (ns short : String) :
    List OperationRow → ResolvedOp → Bool → ResolvedOp
  | [], cur, _ => cur
  | r :: rows, cur, fallbackSet =>
    if slug r.kind ≠ ns ∧ slug (r.title.getD "") ≠ ns then
      selectOperation ns short rows cur fallbackSet
    else if deriveShort r.path = short ∨ ¬ fallbackSet then
      if deriveShort r.path = short then
        ⟨r.base_url.getD "", r.method, r.path, r.request_tmpl.getD ['\x7b', '\x7d']⟩
      else
        selectOperation ns short rows
          ⟨r.base_url.getD "", r.method, r.path, r.request_tmpl.getD ['\x7b', '\x7d']⟩ true
    else selectOperation ns short rows cur fallbackSet

/-- The rows the query of `Execute` returns for a tenant: its operations that are not
disabled, in store order. -/
def enabledOperations (db : DB) (tenantID : String) : List OperationRow :=
  db.operations.filter (fun r => r.tenant_id = tenantID ∧ r.enabled.getD true = true)

/-- The walk of a dotted key through nested maps, starting at the input: a missing key
or a value that is no map ends it with nil. -/
def lookupPath : Value → List (List Char) → Value
  | cur, [] => cur
  | Value.obj mm, seg :: segs => lookupPath (mapGet mm (String.mk seg)) segs
  | _, _ :: _ => Value.null

/-- A match of `\{\{\s*([a-zA-Z0-9_\.]+)\s*\}\}` at the head of a text: the key and the
text after the match. -/
def matchPlaceholder : List Char → Option (List Char × List Char)
  | '\x7b' :: '\x7b' :: r =>
    let r₁ := r.dropWhile isRegexSpace
    let key := r₁.takeWhile isKeyChar
    if key.isEmpty then none
    else
      match ((r₁.dropWhile isKeyChar).dropWhile isRegexSpace) with
      | '\x7d' :: '\x7d' :: rest => some (key, rest)
      | _ => none
  | _ => none

/-- A match of `\{([a-zA-Z0-9_]+)\}` at the head of a text: the name and the text after
the match. -/
def matchPathParam : List Char → Option (List Char × List Char)
  | '\x7b' :: r =>
    let name := r.takeWhile isNameChar
    if name.isEmpty then none
    else
      match r.dropWhile isNameChar with
      | '\x7d' :: rest => some (name, rest)
      | _ => none
  | _ => none

/-- The call `re.ReplaceAllStringFunc(s, f)`: every match, found from left to right
without overlap, is replaced by `f` of its captured group. -/
def replaceMatches (find : List Char → Option (List Char × List Char))
    (f : List Char → List Char) : Nat → List Char → List Char
  | 0, cs => cs
  | _ + 1, [] => []
  | fuel + 1, c :: cs =>
    match find (c :: cs) with
    | some (group, rest) => f group ++ replaceMatches find f fuel rest
    | none => c :: replaceMatches find f fuel cs

/-- The text that replaces a placeholder of `resolve` with the given key: the `%v` text
of the input value at the dotted path, or nothing when that value is nil. -/
def renderKey (input : GoMap) (key : List Char) : List Char :=
  match lookupPath (Value.obj (input.getD [])) (splitOnChar '.' key) with
  | Value.null => []
  | cur => cur.sprintV

/-- The local function `resolve` of `Execute`: the `%v` text of a template value, each
placeholder replaced by the `%v` text of the input value at its dotted path, or by
nothing when there is none. -/
def resolve (input : GoMap) (v : Value) : List Char :=
  let s := v.sprintV
  if !containsText ['\x7b', '\x7b'] s then s
  else replaceMatches matchPlaceholder (renderKey input) s.length s

/-- The entries of `tmpl[name]` when it is a map. -/
def templateMap (tmpl : JMap) (name : String) : Option JMap :=
  match mapGet tmpl name with
  | Value.obj m => some m
  | _ => none

/-- The body of the request: the top-level string values of the template body are
resolved, the other values are passed through. -/
def renderBody (input : GoMap) (bv : JMap) : JMap :=
  bv.map (fun kv =>
    match kv.2 with
    | Value.str t => (kv.1, Value.str (String.mk (resolve input (Value.str t))))
    | t => (kv.1, t))

/-- The text that replaces a path placeholder `{name}`: the escaped text its
`path_params` entry resolves to, or the placeholder itself when there is no entry or
that text is empty. -/
def renderPathParam (input : GoMap) (pv : JMap) (name : List Char) : List Char :=
  match pv.lookup (String.mk name) with
  | some raw =>
    if (pathEscape (resolve input raw)).isEmpty then '\x7b' :: name ++ ['\x7d']
    else pathEscape (resolve input raw)
  | none => '\x7b' :: name ++ ['\x7d']

/-- The substitution of the path placeholders `{name}` of a URL: a placeholder whose
name has a `path_params` entry that resolves to a non-empty text is replaced by the
escaped text, any other placeholder is left as it is. -/
def substitutePathParams (input : GoMap) (pv : JMap) (url : List Char) : List Char :=
  replaceMatches matchPathParam (renderPathParam input pv) url.length url

/-- The first JSON value of a response body decoded into a map, as
`json.NewDecoder(body).Decode(&out)` leaves `out`: nil unless the value is an object. -/
def decodeResponse (body : List Char) : GoMap :=
  match parseValue (body.length + 1) 0 body with
  | some (Value.obj kvs, _) => some kvs
  | _ => none

/-- The result `Execute` returns when no operation is resolved. -/
def noOperationResult (env : Env) : ExecuteResult :=
  { Steps := [[("op", Value.str "request"), ("error", Value.str "no_operation_mapping")]],
    Result := some [("ok", Value.bool false)],
    Status := "FAILED",
    Problems := [⟨problemsType env "no-operation", "No connector operation mapped to action",
      "No enabled connector operation was found for this action key. Ensure your custom connector title or kind matches the action key, or add an explicit mapping.",
      ""⟩] }

/-- The result `Execute` returns when a path placeholder stays in the URL. -/
def unresolvedResult (env : Env) (fullURL : List Char) : ExecuteResult :=
  { Steps := [[("op", Value.str "request"), ("url", Value.str (String.mk fullURL)),
      ("error", Value.str "unresolved_path_params")]],
    Result := some [("ok", Value.bool false)],
    Status := "FAILED",
    Problems := [⟨problemsType env "unresolved-path-params", "Unresolved path parameters",
      "One or more path placeholders were not bound. Ensure request_tmpl.path_params maps every {name} in the path and inputs provide values.",
      ""⟩] }

/-- The URL of the request before the query is attached: the base URL without trailing
slashes, the path, and the path parameters substituted when the template has any. -/
def renderURL (input : GoMap) (tmpl : JMap) (op : ResolvedOp) : List Char :=
  let fullURL := (trimRightSlash op.baseURL).data ++ op.path.data
  match templateMap tmpl "path_params" with
  | some pv => substitutePathParams input pv fullURL
  | none => fullURL

/-- The URL with the encoded query attached, after `?` or, when the URL holds one
already, after `&`. -/
def attachQuery (fullURL enc : List Char) : List Char :=
  if enc.isEmpty then fullURL
  else if fullURL.contains '?' then fullURL ++ '&' :: enc
  else fullURL ++ '?' :: enc

/-- The operation `Execute` resolves for an action key: the one the loop over the
enabled operations of the tenant selects, or the zero values without a pool or a
match. -/
def resolveOperation (pool : Option DB) (tenantID actionKey : String) : ResolvedOp :=
  match pool with
  | some db =>
    selectOperation (splitActionKey actionKey).1 (splitActionKey actionKey).2
      (enabledOperations db tenantID) ⟨"", "", "", []⟩ false
  | none => ⟨"", "", "", []⟩

/-- The request template of an operation, decoded: an empty map when the text is no
JSON object. -/
def decodeTemplate (op : ResolvedOp) : JMap :=
  ((jsonUnmarshalMap op.tmplRaw none).1).getD []

/-- The headers of the request: the entries of `tmpl["headers"]`, resolved. -/
def renderHeaders (input : GoMap) (tmpl : JMap) : List (String × String) :=
  match templateMap tmpl "headers" with
  | some hv => sortByKey (hv.map (fun kv => (kv.1, String.mk (resolve input kv.2))))
  | none => []

/-- The query of the request: the entries of `tmpl["query"]`, resolved. -/
def renderQuery (input : GoMap) (tmpl : JMap) : List (String × List Char) :=
  match templateMap tmpl "query" with
  | some qv => qv.map (fun kv => (kv.1, resolve input kv.2))
  | none => []

/-- What `Execute` has reached once the request is rendered: a failure that ends the
call without a request, or the step to record and the request to send. -/
inductive Rendered where
  | failed (res : ExecuteResult)
  | request (step : JMap) (req : UpstreamRequest)

/-- The part of `Execute` before the dispatch: operation resolution and rendering of
the request. -/
def renderRequest (env : Env) (pool : Option DB) (tenantID actionKey : String)
    (input : GoMap) : Rendered :=
  let op := resolveOperation pool tenantID actionKey
  if op.method = "" ∨ op.path = "" then Rendered.failed (noOperationResult env)
  else
    let tmpl := decodeTemplate op
    let body : GoMap := (templateMap tmpl "body").map (renderBody input)
    let fullURL := renderURL input tmpl op
    if fullURL.contains '\x7b' then Rendered.failed (unresolvedResult env fullURL)
    else
      let fullURL := attachQuery fullURL (encodeQuery (renderQuery input tmpl))
      Rendered.request
        [("op", Value.str "request"), ("method", Value.str op.method),
         ("url", Value.str (String.mk fullURL))]
        ⟨op.method, String.mk fullURL, renderHeaders input tmpl,
          body.map (fun b => mustJSON (Value.obj b))⟩

/-- The outcome of `Execute` before it is recorded: operation resolution, rendering of
the request, and the dispatch to the upstream. -/
def executeOutcome (env : Env) (upstream : Upstream) (pool : Option DB)
    (tenantID actionKey : String) (input : GoMap) : ExecuteResult :=
  match renderRequest env pool tenantID actionKey input with
  | Rendered.failed res => res
  | Rendered.request step req =>
    match upstream req with
    | UpstreamAnswer.response status respBody =>
      { Steps := [step ++ [("status", Value.int status)]],
        Result := decodeResponse respBody, Status := "SUCCEEDED", Problems := [] }
    | UpstreamAnswer.transportError msg =>
      { Steps := [step ++ [("error", Value.str msg)]], Result := none,
        Status := "SUCCEEDED", Problems := [] }
    | UpstreamAnswer.buildError msg =>
      { Steps := [step ++ [("error", Value.str msg)]], Result := none,
        Status := "SUCCEEDED", Problems := [] }

/-- Modelled from the spec: the unique index of `executions` on `(tenant,
idempotency_key)`, declared by the schema, which is not among the sources. With it the
statement `INSERT INTO executions ... ON CONFLICT DO NOTHING` adds the row unless a row
of that tenant and idempotency key exists, and is a no-op otherwise. -/
def insertExecution (db : DB) (row : ExecutionRow) : DB :=
  if db.executions.any (fun r =>
      r.tenant_id = row.tenant_id ∧ r.idempotency_key = row.idempotency_key) then db
  else { db with executions := db.executions ++ [row] }

/-- The row `Execute` inserts for a result. -/
def executionRow (tenantID actionKey decisionID idempotencyKey : String)
    (res : ExecuteResult) : ExecutionRow :=
  { tenant_id := tenantID, action_key := actionKey, decision_id := decisionID,
    idempotency_key := idempotencyKey,
    steps := mustJSON (Value.arr (res.Steps.map Value.obj)),
    result := mustJSON res.Result.toValue, status := res.Status }

/-- The function `Execute`: resolves the operation of the action key, renders and
dispatches the request, and records the execution under the idempotency key. The first
component is the result, the second the returned `error`, the third the store
afterwards. -/
def Execute (env : Env) (upstream : Upstream) (pool : Option DB)
    (tenantID actionKey decisionID : String) (input : GoMap) :
    ExecuteResult × Option String × Option DB :=
  let idempotencyKey := idempotencyKeyOf decisionID input
  let res := executeOutcome env upstream pool tenantID actionKey input
  match pool with
  | none => (res, none, none)
  | some db =>
    (res, none,
      some (insertExecution db
        (executionRow tenantID actionKey decisionID idempotencyKey res)))

/-! ## Library functions used by the facts engine: `strings`, `strconv`, `time` -/

/-- The call `strings.Split(s, sep)` for a non-empty separator; `skip` counts the
characters of a separator just found that are still to be passed over. -/
def splitOnText (sep : List Char) : Nat → List Char → List (List Char)
  | _, [] => [[]]
  | skip + 1, _ :: cs => splitOnText sep skip cs
  | 0, c :: cs =>
    if sep.isPrefixOf (c :: cs) then [] :: splitOnText sep (sep.length - 1) cs
    else
      match splitOnText sep 0 cs with
      | [] => [[c]]
      | seg :: segs => (c :: seg) :: segs

namespace Float64

/-- Whether the number is zero, of either sign. -/
def isZero (x : Float64) : Bool := x.digits.all (· == 0)

/-- The digits of the numeral read as an integer, with the sign. -/
def unscaled (x : Float64) : Int :=
  if x.neg then -(digitsToNat x.digits : Int) else (digitsToNat x.digits : Int)

/-- The power of ten that the last digit of the numeral counts. -/
def scale (x : Float64) : Int := x.dp - (x.digits.length : Int)

/-- The least magnitude that `strconv.ParseFloat` rounds to an infinity:
`2 ^ 1024 - 2 ^ 970`. -/
def overflowBound : Nat := 2 ^ 1024 - 2 ^ 970

/-- Whether the magnitude of the numeral reaches `overflowBound`. -/
def overflows (x : Float64) : Bool :=
  if x.scale < 0 then
    decide (overflowBound * 10 ^ (-x.scale).toNat ≤ digitsToNat x.digits)
  else decide (overflowBound ≤ digitsToNat x.digits * 10 ^ x.scale.toNat)

end Float64

/-- The check `underscoreOK` of `strconv` for a decimal number: every underscore stands
between two digits. `afterDigit` tells whether the previous character was a digit,
`afterUnderscore` whether it was an underscore. -/
def underscoresOK : Bool → Bool → List Char → Bool
  | _, afterUnderscore, [] => !afterUnderscore
  | afterDigit, afterUnderscore, c :: cs =>
    if isDigitChar c then underscoresOK true false cs
    else if c = '_' then afterDigit && underscoresOK false true cs
    else !afterUnderscore && underscoresOK false false cs

/-- The digits among the leading digits and underscores of a text, and what follows
them. -/
def spanDigitsSep : List Char → List Nat × List Char
  | [] => ([], [])
  | c :: cs =>
    if isDigitChar c then ((c.toNat - 48) :: (spanDigitsSep cs).1, (spanDigitsSep cs).2)
    else if c = '_' then spanDigitsSep cs
    else ([], c :: cs)

/-- The exponent part of a number text for `strconv`: absent, or `e`, an optional sign
and at least one digit; its value and what follows it. -/
def parseFloatExponent : List Char → Option (Int × List Char)
  | c :: rest =>
    if c = 'e' ∨ c = 'E' then
      let neg := rest.head? = some '-'
      let body := if rest.head? = some '-' ∨ rest.head? = some '+' then rest.tail else rest
      if body.head?.all isDigitChar ∧ ¬ body.isEmpty then
        let e : Int := Float64.digitsToNat (spanDigitsSep body).1
        some (if neg then -e else e, (spanDigitsSep body).2)
      else none
    else some (0, c :: rest)
  | [] => some (0, [])

/-- The call `strconv.ParseFloat(s, 64)` for a decimal number text: an optional sign,
digits with at most one point and at least one digit, an optional exponent, underscores
between digits; `none` when an error is returned, which is so for a text of another
form and for a number that rounds to an infinity. The number read is the exact decimal
value: the rounding to binary64 is not modelled. The texts that Go reads as a
hexadecimal number, an infinity or NaN are outside the model, which reads them as
errors. -/
def parseFloat (s : List Char) : Option Float64 :=
  let neg := s.head? = some '-'
  let body := if s.head? = some '-' ∨ s.head? = some '+' then s.tail else s
  let intDigits := (spanDigitsSep body).1
  let afterInt := (spanDigitsSep body).2
  let frac := if afterInt.head? = some '.' then (spanDigitsSep afterInt.tail).1 else []
  let afterFrac := if afterInt.head? = some '.' then (spanDigitsSep afterInt.tail).2 else afterInt
  if intDigits.isEmpty ∧ frac.isEmpty then none
  else
    match parseFloatExponent afterFrac with
    | none => none
    | some (e, rest) =>
      if ¬ rest.isEmpty then none
      else if ¬ underscoresOK false false body then none
      else
        let x := Float64.ofDigits neg (intDigits ++ frac) ((intDigits.length : Int) + e)
        if x.overflows then none else some x

/-! ### `time` -/

/-- The constant `time.Hour`, in nanoseconds. -/
def Hour : Int := 60 * Minute

/-- Whether a year of the proleptic Gregorian calendar is a leap year. -/
def isLeap (year : Int) : Bool :=
  decide (year % 4 = 0 ∧ (year % 100 ≠ 0 ∨ year % 400 = 0))

/-- The number of days of a month of a year. -/
def daysIn (month : Nat) (year : Int) : Nat :=
  if month = 2 then (if isLeap year then 29 else 28)
  else if month = 4 ∨ month = 6 ∨ month = 9 ∨ month = 11 then 30
  else 31

/-- The number of days from 1 January 1970 to a date of the proleptic Gregorian
calendar. -/
def daysFromCivil (year : Int) (month day : Nat) : Int :=
  let y := if month ≤ 2 then year - 1 else year
  let era := y / 400
  let yoe := y - era * 400
  let mp : Int := if month ≤ 2 then (month : Int) + 9 else (month : Int) - 3
  let doy := (153 * mp + 2) / 5 + (day : Int) - 1
  let doe := yoe * 365 + yoe / 4 - yoe / 100 + doy
  era * 146097 + doe - 719468

/-- The instant `time.Date(year, month, day, hour, min, sec, nsec, time.UTC)` moved back
by a zone offset in seconds. -/
def dateUTC (year : Int) (month day hour min sec nsec : Nat) (zoneOffset : Int) : Time :=
  ((daysFromCivil year month day * 86400 + (hour : Int) * 3600 + (min : Int) * 60 +
    (sec : Int)) - zoneOffset) * Second + (nsec : Int)

/-- The helper `getnum` of `time`: a number of two digits, or of one digit when the
width is not fixed. -/
def getnum (s : List Char) (isFixed : Bool) : Option (Nat × List Char) :=
  match s with
  | a :: b :: rest =>
    if isDigitChar a ∧ isDigitChar b then some ((a.toNat - 48) * 10 + (b.toNat - 48), rest)
    else if isDigitChar a ∧ ¬ isFixed then some (a.toNat - 48, b :: rest)
    else none
  | [a] => if isDigitChar a ∧ ¬ isFixed then some (a.toNat - 48, []) else none
  | [] => none

/-- The text after a literal character of the layout. -/
def skipChar (c : Char) : List Char → Option (List Char)
  | d :: rest => if d = c then some rest else none
  | [] => none

/-- The year of the layout element `2006`: four digits. -/
def parseYear (s : List Char) : Option (Int × List Char) :=
  if 4 ≤ s.length ∧ (s.take 4).all isDigitChar then
    some ((Float64.digitsToNat ((s.take 4).map (fun c => c.toNat - 48)) : Int), s.drop 4)
  else none

/-- The date of the layout `2006-01-02`: year, month within 1 to 12, and day, and what
follows them. The day is checked against the month once the whole text is read. -/
def parseDate (s : List Char) : Option ((Int × Nat × Nat) × List Char) :=
  (parseYear s).bind fun (year, s₁) =>
  (skipChar '-' s₁).bind fun s₂ =>
  (getnum s₂ true).bind fun (month, s₃) =>
  if month = 0 ∨ 12 < month then none
  else
    (skipChar '-' s₃).bind fun s₄ =>
    (getnum s₄ true).bind fun (day, s₅) => some ((year, month, day), s₅)

/-- A fraction of a second that follows the seconds although the layout has none: a
point or comma and digits, of which nine count; the nanoseconds and what follows. -/
def parseFractionalSecond (s : List Char) : Nat × List Char :=
  match s with
  | c :: d :: rest =>
    if (c = '.' ∨ c = ',') ∧ isDigitChar d then
      let ds := (spanDigits (d :: rest)).1
      (Float64.digitsToNat (ds.take 9) * 10 ^ (9 - (ds.take 9).length),
        (spanDigits (d :: rest)).2)
    else (0, s)
  | _ => (0, s)

/-- The zone of the layout element `Z07:00`: `Z`, or a sign, two digits of hours, a
colon and two digits of minutes, hours at most 24 and minutes at most 60; the offset in
seconds and what follows. -/
def parseZone (s : List Char) : Option (Int × List Char) :=
  match s with
  | 'Z' :: rest => some (0, rest)
  | sign :: h₁ :: h₂ :: ':' :: m₁ :: m₂ :: rest =>
    if isDigitChar h₁ ∧ isDigitChar h₂ ∧ isDigitChar m₁ ∧ isDigitChar m₂ then
      let hr := (h₁.toNat - 48) * 10 + (h₂.toNat - 48)
      let mm := (m₁.toNat - 48) * 10 + (m₂.toNat - 48)
      if 24 < hr ∨ 60 < mm then none
      else if sign = '+' then some ((((hr * 60 + mm) * 60 : Nat) : Int), rest)
      else if sign = '-' then some (-(((hr * 60 + mm) * 60 : Nat) : Int), rest)
      else none
    else none
  | _ => none

/-- The call `time.Parse(time.RFC3339, s)`; `none` when an error is returned. -/
def parseRFC3339 (s : List Char) : Option Time :=
  (parseDate s).bind fun ((year, month, day), s₁) =>
  (skipChar 'T' s₁).bind fun s₂ =>
  (getnum s₂ false).bind fun (hour, s₃) =>
  if 24 ≤ hour then none
  else
    (skipChar ':' s₃).bind fun s₄ =>
    (getnum s₄ true).bind fun (min, s₅) =>
    if 60 ≤ min then none
    else
      (skipChar ':' s₅).bind fun s₆ =>
      (getnum s₆ true).bind fun (sec, s₇) =>
      if 60 ≤ sec then none
      else
        (parseZone (parseFractionalSecond s₇).2).bind fun (zoneOffset, rest) =>
        if ¬ rest.isEmpty then none
        else if day < 1 ∨ daysIn month year < day then none
        else some (dateUTC year month day hour min sec (parseFractionalSecond s₇).1 zoneOffset)

/-- The call `time.Parse("2006-01-02", s)`; `none` when an error is returned. -/
def parseDateOnly (s : List Char) : Option Time :=
  (parseDate s).bind fun ((year, month, day), rest) =>
  if ¬ rest.isEmpty then none
  else if day < 1 ∨ daysIn month year < day then none
  else some (dateUTC year month day 0 0 0 0 0)

/-- The date of the proleptic Gregorian calendar that lies a number of days after
1 January 1970: year, month and day. -/
def civilFromDays (days : Int) : Int × Nat × Nat :=
  let z := days + 719468
  let era := z / 146097
  let doe := z - era * 146097
  let yoe := (doe - doe / 1460 + doe / 36524 - doe / 146096) / 365
  let doy := doe - (365 * yoe + yoe / 4 - yoe / 100)
  let mp := (5 * doy + 2) / 153
  let day := doy - (153 * mp + 2) / 5 + 1
  let month := if mp < 10 then mp + 3 else mp - 9
  (if month ≤ 2 then yoe + era * 400 + 1 else yoe + era * 400, month.toNat, day.toNat)

/-- A number written with at least the given count of digits. -/
def padDec (width n : Nat) : List Char :=
  List.replicate (width - (natToDec n).length) '0' ++ natToDec n

/-- The text `t.UTC().Format(time.RFC3339)`. -/
def formatRFC3339UTC (t : Time) : List Char :=
  let secs := t / Second
  let days := secs / 86400
  let rem := (secs % 86400).toNat
  let date := civilFromDays days
  (if date.1 < 0 then '-' :: padDec 4 date.1.natAbs else padDec 4 date.1.natAbs) ++
    '-' :: padDec 2 date.2.1 ++ '-' :: padDec 2 date.2.2 ++
    'T' :: padDec 2 (rem / 3600) ++ ':' :: padDec 2 (rem % 3600 / 60) ++
    ':' :: padDec 2 (rem % 60) ++ ['Z']

/-- The duration `t.Sub(u)`: the difference, kept within the range of `int64`. -/
def timeSub (t u : Time) : Int :=
  max (-9223372036854775808) (min 9223372036854775807 (t - u))

/-! ### `float64` arithmetic on durations -/

/-- A rational number `num / den`, `den` positive: the exact value of a `float64` in the
computations of `days_between` and `sum`. -/
structure Frac where
  num : Int
  den : Nat
deriving DecidableEq, Repr

namespace Frac

/-- The count of binary digits of a natural number. -/
def bitLength : Nat → Nat → Nat
  | 0, _ => 0
  | fuel + 1, n => if n = 0 then 0 else bitLength fuel (n / 2) + 1

/-- The greatest `e` with `2 ^ e ≤ n / d`, for positive `n` and `d`. -/
def floorLog2 (n d : Nat) : Int :=
  let k : Int := (bitLength n n : Int) - (bitLength d d : Int)
  if (if k < 0 then decide (d ≤ n * 2 ^ (-k).toNat) else decide (d * 2 ^ k.toNat ≤ n)) then k
  else k - 1

/-- The `float64` nearest to a rational number, ties going to the even significand: 53
significant bits, the last one counting no less than `2 ^ -1074`. The exponent is not
bounded above: the numbers that occur in `days_between` stay far below the range of
`float64`, and a sum of `sum` that leaves it is told by `Float64.overflows`. -/
def round64 (x : Frac) : Frac :=
  if x.num = 0 then ⟨0, 1⟩
  else
    let u : Int := max (floorLog2 x.num.natAbs x.den - 52) (-1074)
    let n := if u < 0 then x.num.natAbs * 2 ^ (-u).toNat else x.num.natAbs
    let d := if u < 0 then x.den else x.den * 2 ^ u.toNat
    let m := if d < 2 * (n % d) ∨ (2 * (n % d) = d ∧ n / d % 2 = 1) then n / d + 1 else n / d
    let mag : Frac := if u < 0 then ⟨(m : Int), 2 ^ (-u).toNat⟩ else ⟨((m * 2 ^ u.toNat : Nat) : Int), 1⟩
    if x.num < 0 then ⟨-mag.num, mag.den⟩ else mag

/-- The `float64` sum of two `float64` numbers. -/
def add (x y : Frac) : Frac :=
  round64 ⟨x.num * (y.den : Int) + y.num * (x.den : Int), x.den * y.den⟩

/-- The `float64` difference of two `float64` numbers. -/
def sub (x y : Frac) : Frac :=
  round64 ⟨x.num * (y.den : Int) - y.num * (x.den : Int), x.den * y.den⟩

/-- The `float64` quotient of a `float64` number by a positive integer constant. -/
def divNat (x : Frac) (k : Nat) : Frac := round64 ⟨x.num, x.den * k⟩

/-- The conversion `int(x)`: truncation toward zero. -/
def toInt (x : Frac) : Int := Int.tdiv x.num (x.den : Int)

end Frac

namespace Frac

/-- Whether two fractions have the same value. -/
def same (x y : Frac) : Bool := decide (x.num * (y.den : Int) = y.num * (x.den : Int))

/-- The fraction `m × 10 ^ k`. -/
def ofDecimal (m : Nat) (k : Int) : Frac :=
  if k < 0 then ⟨(m : Int), 10 ^ (-k).toNat⟩ else ⟨((m * 10 ^ k.toNat : Nat) : Int), 1⟩

/-- Whether `10 ^ k ≤ n / d`. -/
def geTenPow (n d : Nat) (k : Int) : Bool :=
  if k < 0 then decide (d ≤ n * 10 ^ (-k).toNat) else decide (d * 10 ^ k.toNat ≤ n)

/-- The decimal exponent of a positive fraction `n / d`: the `e` with
`10 ^ (e - 1) ≤ n / d < 10 ^ e`, found next to the estimate that the binary exponent
gives. -/
def decimalExponent (n d : Nat) : Int :=
  let est : Int := floorLog2 n d * 30103 / 100000 - 2
  (List.range 6).foldl
    (fun e i => if geTenPow n d (est + (i : Int)) then est + (i : Int) + 1 else e) est

/-- The greatest `m` with `m × 10 ^ k ≤ n / d`. -/
def floorScaled (n d : Nat) (k : Int) : Nat :=
  if k < 0 then n * 10 ^ (-k).toNat / d else n / (d * 10 ^ k.toNat)

/-- Whether the decimal `m × 10 ^ k` is read back as the `float64` number `n / d`: the
`float64` nearest to it is `n / d`. -/
def readsBack (n d m : Nat) (k : Int) : Bool :=
  same (round64 (ofDecimal m k)) ⟨(n : Int), d⟩

/-- How `n / d` lies between `m × 10 ^ k` and `(m + 1) × 10 ^ k`: nearer to the first,
to the second, or as near to both. -/
def compareMiddle (n d m : Nat) (k : Int) : Ordering :=
  if k < 0 then compare (2 * n * 10 ^ (-k).toNat) ((2 * m + 1) * d)
  else compare (2 * n) ((2 * m + 1) * 10 ^ k.toNat * d)

/-- The decimal of `digits` digits next to the positive `float64` number `n / d`, as
`(m, k)` for `m × 10 ^ k`, if one of the two neighbours of `n / d` with that many digits
is read back as `n / d`: of two such neighbours the nearer one, and the even one when
both are as near. -/
def shortestCandidate (n d : Nat) (e : Int) (digits : Nat) : Option (Nat × Int) :=
  if readsBack n d (floorScaled n d (e - (digits : Int))) (e - (digits : Int)) then
    if readsBack n d (floorScaled n d (e - (digits : Int)) + 1) (e - (digits : Int)) then
      if compareMiddle n d (floorScaled n d (e - (digits : Int))) (e - (digits : Int)) =
          Ordering.lt then
        some (floorScaled n d (e - (digits : Int)), e - (digits : Int))
      else if compareMiddle n d (floorScaled n d (e - (digits : Int)))
          (e - (digits : Int)) = Ordering.gt then
        some (floorScaled n d (e - (digits : Int)) + 1, e - (digits : Int))
      else if floorScaled n d (e - (digits : Int)) % 2 = 0 then
        some (floorScaled n d (e - (digits : Int)), e - (digits : Int))
      else some (floorScaled n d (e - (digits : Int)) + 1, e - (digits : Int))
    else some (floorScaled n d (e - (digits : Int)), e - (digits : Int))
  else if readsBack n d (floorScaled n d (e - (digits : Int)) + 1) (e - (digits : Int)) then
    some (floorScaled n d (e - (digits : Int)) + 1, e - (digits : Int))
  else none

/-- The shortest decimal that is read back as the positive `float64` number `n / d`:
the first candidate found with `digits`, `digits + 1`, ... digits. -/
def shortestDecimal (n d : Nat) (e : Int) : Nat → Nat → Option (Nat × Int)
  | 0, _ => none
  | fuel + 1, digits =>
    match shortestCandidate n d e digits with
    | some c => some c
    | none => shortestDecimal n d e fuel (digits + 1)

end Frac

namespace Float64

/-- The exact value of the numeral. -/
def toFrac (x : Float64) : Frac :=
  if x.scale < 0 then ⟨x.unscaled, 10 ^ (-x.scale).toNat⟩
  else ⟨x.unscaled * 10 ^ x.scale.toNat, 1⟩

/-- The numeral of a `float64` number that is not zero: the shortest decimal that is
read back as the number, as `strconv` writes it. Every `float64` has such a decimal of
at most 17 digits. -/
def ofFrac (q : Frac) : Float64 :=
  match Frac.shortestDecimal q.num.natAbs q.den
      (Frac.decimalExponent q.num.natAbs q.den) 17 1 with
  | some (m, k) =>
    ofDigits (decide (q.num < 0)) (decDigitList (m + 1) m)
      (((decDigitList (m + 1) m).length : Int) + k)
  | none => ⟨false, [], 0⟩

/-- The sum `x + y` of `float64`: the exact sum rounded to the nearest `float64`, ties
to the even significand. A zero operand leaves the other one as it is, and a sum that
is zero is `-0` only when both operands are `-0`. The exponent is not bounded above: a
sum beyond the largest `float64`, which is an infinity in Go, is the rounded sum
here. -/
def add (x y : Float64) : Float64 :=
  if y.isZero then (if x.isZero then ⟨x.neg && y.neg, [], 0⟩ else x)
  else if x.isZero then y
  else
    let q := Frac.add (Frac.round64 x.toFrac) (Frac.round64 y.toFrac)
    if q.num = 0 then ⟨false, [], 0⟩ else ofFrac q

end Float64

/-- The method `Duration.Hours`: `float64(d / Hour) + float64(d % Hour) / (60*60*1e9)`. -/
def durationHours (d : Int) : Frac :=
  Frac.add ⟨Int.tdiv d Hour, 1⟩ (Frac.round64 ⟨Int.tmod d Hour, 3600000000000⟩)

/-- The expression `int(time.Since(t1).Hours()/24 - time.Since(t2).Hours()/24)` of
`days_between`; `now₁` and `now₂` are the instants read by the two calls of
`time.Since`, in this order. -/
def daysBetween (now₁ now₂ t1 t2 : Time) : Int :=
  (Frac.sub ((durationHours (timeSub now₁ t1)).divNat 24)
    ((durationHours (timeSub now₂ t2)).divNat 24)).toInt

/-! ## `internal/facts`: transforms -/

/-- The conversion `float64(t)` of an `int`: the integer itself up to `2 ^ 53` in
magnitude, beyond it the nearest `float64`, ties going to the even significand. -/
def Float64.fromInt (t : Int) : Float64 :=
  if t.natAbs ≤ 2 ^ 53 then Float64.ofInt t else Float64.ofFrac (Frac.round64 ⟨t, 1⟩)

/-- The function `toFloat`. -/
def toFloat : Value → Float64
  | .float64 t => t
  | .int t => Float64.fromInt t
  | _ => ⟨false, [], 0⟩

/-- The function `toTime`; `none` when an error is returned. -/
def toTime : Value → Option Time
  | .str t =>
    match parseRFC3339 t.data with
    | some ts => some ts
    | none => parseDateOnly t.data
  | _ => none

/-- The function `isZero`. -/
def isZero : Value → Bool
  | .null => true
  | .str t => (trimBoth isUnicodeSpace t.data).isEmpty
  | .float64 t => t.isZero
  | .int t => t == 0
  | .arr t => t.isEmpty
  | .obj t => t.isEmpty
  | .bool _ => false

/-- The function `toArray`. -/
def toArray : Value → List Value
  | .arr t => t
  | .null => []
  | v => [v]

/-- The function `matchPredicate`, for predicates of the form `field=='value'`. -/
def matchPredicate (v : Value) (pred : String) : Bool :=
  match splitOnText ['=', '='] 0 pred.data with
  | [l, r] =>
    match v with
    | .obj m =>
      match m.lookup (String.mk (trimBoth isUnicodeSpace l)) with
      | some lv =>
        lv.sprintV =
          trimBoth (fun c => c = Char.ofNat 39 ∨ c = '"') (trimBoth isUnicodeSpace r)
      | none => false
    | _ => false
  | _ => false

/-- The string held by an `any`, or `""`: `s, _ := v.(string)`. -/
def stringOf : Value → String
  | .str s => s
  | _ => ""

/-- The result of `days_between` for two timestamps. -/
def daysBetweenOf (now₁ now₂ : Time) (a b : Value) : Except String Value :=
  match toTime a, toTime b with
  | some t1, some t2 => .ok (.int (daysBetween now₁ now₂ t1 t2))
  | _, _ => .error "invalid time"

/-- The function `applyTransform`. `now₁` and `now₂` are the instants of the first and
the second reading of the clock during the call. -/
def applyTransform (now₁ now₂ : Time) (name : String) (v : Value) (args : List Value) :
    Except String Value :=
  if name = "count" then
    match v with
    | .arr arr => .ok (.int arr.length)
    | _ => .ok (.int 0)
  else if name = "sum" then
    match v with
    | .arr arr => .ok (.float64 (arr.foldl (fun s it => s.add (toFloat it)) ⟨false, [], 0⟩))
    | _ => .ok (.float64 (toFloat v))
  else if name = "days_between" then
    match args with
    | [a, b] => daysBetweenOf now₁ now₂ a b
    | _ =>
      match v with
      | .arr [a, b] => daysBetweenOf now₁ now₂ a b
      | _ => .error "days_between expects 2 args"
  else if name = "now" then .ok (.str (String.mk (formatRFC3339UTC now₁)))
  else if name = "any" then
    match args with
    | [src, pred] => .ok (.bool ((toArray src).any (fun it => matchPredicate it (stringOf pred))))
    | _ =>
      match v with
      | .arr arr => .ok (.bool (!arr.isEmpty))
      | .null => .ok (.bool false)
      | _ => .ok (.bool true)
  else if name = "all" then
    match args with
    | [src, pred] =>
      .ok (.bool (!(toArray src).isEmpty &&
        (toArray src).all (fun it => matchPredicate it (stringOf pred))))
    | _ =>
      match v with
      | .arr arr => .ok (.bool (!arr.isEmpty))
      | .null => .ok (.bool false)
      | _ => .ok (.bool true)
  else if name = "exists" then
    match v with
    | .null => .ok (.bool false)
    | _ => .ok (.bool true)
  else if name = "first" then
    match v with
    | .arr arr => .ok (arr.headD .null)
    | _ => .ok v
  else if name = "to_number" then
    match v with
    | .str t =>
      match parseFloat (trimBoth isUnicodeSpace t.data) with
      | some f => .ok (.float64 f)
      | none => .ok (.int 0)
    | _ => .ok (.float64 (toFloat v))
  else if name = "to_string" then .ok (.str (String.mk v.sprintV))
  else if name = "coalesce" then
    match args.find? (fun a => !isZero a) with
    | some a => .ok a
    | none => .ok v
  else .ok v

/-! ## `internal/facts`: resolving facts -/

/-- The struct `Resolver`. A nil `Needs` is `none`. -/
structure Resolver where
  ID : String
  ActionKey : String
  Name : String
  ConnectorKey : String
  RequestTmpl : GoMap
  ResponseSample : GoMap
  Needs : Option (List GoMap)

/-- The struct `Mapping`. -/
structure Mapping where
  ID : String
  ActionKey : String
  Name : String
  Path : String
  FactKey : String
  Transform : String
  TransformArgs : List Value
  Required : Bool

/-- The element a `[]map[string]any` gets for a JSON value: the map of an object, nil
for anything else. -/
def mapOfValue : Value → GoMap
  | .obj kvs => some kvs
  | _ => none

/-- The call `json.Unmarshal(text, &arr)` for a nil `arr` of type `[]map[string]any`:
the slice afterwards, nil unless the text is a JSON array. -/
def jsonUnmarshalMaps (text : List Char) : Option (List GoMap) :=
  match jsonDecode text with
  | some (.arr xs) => some (xs.map mapOfValue)
  | _ => none

/-- The call `json.Unmarshal(text, &args)` for a nil `args` of type `[]any`: the slice
afterwards, as a list. -/
def jsonUnmarshalList (text : List Char) : List Value :=
  match jsonDecode text with
  | some (.arr xs) => xs
  | _ => []

/-- The function `loadResolvers`: the enabled resolvers of the action, in store order. -/
def loadResolvers (db : DB) (tenantID actionKey : String) : List Resolver :=
  (db.fact_resolvers.filter (fun r =>
      r.tenant_id = tenantID ∧ r.action_key = actionKey ∧ r.enabled = some true)).map
    (fun r =>
      { ID := r.id, ActionKey := r.action_key, Name := r.name,
        ConnectorKey := r.connector_key,
        RequestTmpl := (jsonUnmarshalMap (r.request_template.getD ['\x7b', '\x7d']) none).1,
        ResponseSample := (jsonUnmarshalMap (r.response_sample.getD ['\x7b', '\x7d']) none).1,
        Needs := jsonUnmarshalMaps (r.needs.getD ['[', ']']) })

/-- The function `loadMappings`: the mappings of the action, in store order. -/
def loadMappings (db : DB) (tenantID actionKey : String) : List Mapping :=
  (db.fact_mappings.filter (fun r => r.tenant_id = tenantID ∧ r.action_key = actionKey)).map
    (fun r =>
      { ID := r.id, ActionKey := r.action_key, Name := r.name, Path := r.jmespath,
        FactKey := r.fact_key, Transform := r.transform.getD "",
        TransformArgs := jsonUnmarshalList (r.transform_args.getD ['[', ']']),
        Required := r.required })

/-- The evaluation `jmes.Search(path, doc)` of the JMESPath library, as a function of
the expression and the document. -/
abbrev JMESPath := String → Value → Except String Value

/-- The readings of the clock during `ResolveFacts`: for the mapping at each position of
the list, the instants of the first and the second reading made by its transform. -/
abbrev Clock := Nat → Time × Time

/-- The clock as the mappings after the first one see it. -/
def Clock.next (clock : Clock) : Clock := fun i => clock (i + 1)

/-- The document the paths are evaluated against:
`{"inputs": inputs, "resolvers": {name: response_sample}}`. -/
def factsDocument (inputs : GoMap) (resolvers : List Resolver) : Value :=
  Value.obj [("inputs", inputs.toValue),
    ("resolvers", Value.obj (resolvers.foldl
      (fun resMap r => setKey resMap r.Name r.ResponseSample.toValue) []))]

/-- The value one mapping yields, or the error that makes the loop skip it or fail: the
path is evaluated against the document and the transform, when one is set, applied to
its value. -/
def evalMapping (search : JMESPath) (doc : Value) (now₁ now₂ : Time) (m : Mapping) :
    Except String Value :=
  match search m.Path doc with
  | .error err => .error err
  | .ok val =>
    if m.Transform ≠ "" then applyTransform now₁ now₂ m.Transform val m.TransformArgs
    else .ok val

/-- The loop of `ResolveFacts` over the mappings, in the order of the list: the facts
map and the error returned. -/
def applyMappings (search : JMESPath) (doc : Value) :
    Clock → List Mapping → JMap → GoMap × Option String
  | _, [], facts => (some facts, none)
  | clock, m :: ms, facts =>
    match evalMapping search doc (clock 0).1 (clock 0).2 m with
    | .error err =>
      if m.Required then (none, some err)
      else applyMappings search doc clock.next ms facts
    | .ok val => applyMappings search doc clock.next ms (setKey facts m.FactKey val)

/-- The function `ResolveFacts`: the facts map and the error returned. The transaction
and its statements are taken to succeed. -/
def ResolveFacts (search : JMESPath) (clock : Clock) (pool : Option DB)
    (tenantID actionKey : String) (inputs : GoMap) : GoMap × Option String :=
  match pool with
  | none => (some (inputs.getD []), none)
  | some db =>
    applyMappings search (factsDocument inputs (loadResolvers db tenantID actionKey)) clock
      (loadMappings db tenantID actionKey) []

/-- The function `ResolverNeeds`: the needs prompts of the enabled resolvers of the
action, one resolver after the other in store order. The slice returned is nil when it
has no element. -/
def ResolverNeeds (pool : Option DB) (tenantID actionKey : String) : List GoMap :=
  match pool with
  | none => []
  | some db =>
    (db.fact_resolvers.filter (fun r =>
        r.tenant_id = tenantID ∧ r.action_key = actionKey ∧ r.enabled = some true)).flatMap
      (fun r => (jsonUnmarshalMaps (r.needs.getD ['[', ']'])).getD [])

/-! ## `internal/policy`: the preflight endpoint -/

/-- The value of a `[]map[string]any` stored in an `any`: nil for the nil slice. -/
def needsValue (needs : List GoMap) : Value :=
  if needs.isEmpty then Value.null else Value.arr (needs.map GoMap.toValue)

/-- The map the preflight endpoint encodes as its response: `status` and the entries
that may go with it, an absent key being `none`. -/
structure PreflightResponse where
  status : String
  needs : Option Value
  decision_id : Option String
  expires_at : Option Time
  reasons : Option Value
  conditions : Option Value
  alternatives : Option Value

/-- An entry set only for a value that is not nil. -/
def whenSet : Value → Option Value
  | .null => none
  | v => some v

/-- The handler of `POST /v1/actions/{key}/preflight` for the tenant of the request,
the action key of the URL and the inputs of the decoded body: the response map and the
store afterwards. `newID` is the id the database assigns to a persisted decision. -/
def preflight (search : JMESPath) (clock : Clock) (rego : RegoEval) (now : Time)
    (newID : String) (pool : Option DB) (tenantID key : String) (inputs : GoMap) :
    PreflightResponse × Option DB :=
  let fa := (ResolveFacts search clock pool tenantID key inputs).1
  let dec := (Evaluate rego now pool tenantID key inputs fa).1
  if dec.Status = NeedsInput then
    ({ status := "NEEDS_INPUT", needs := some (needsValue (ResolverNeeds pool tenantID key)),
       decision_id := none, expires_at := none, reasons := none, conditions := none,
       alternatives := none }, pool)
  else
    let persisted := PersistDecision newID pool tenantID dec
    if dec.Status = Allow ∨ dec.Status = AllowWithConditions then
      ({ status := dec.Status, needs := none, decision_id := some persisted.1.1,
         expires_at := dec.ExpiresAt, reasons := whenSet dec.Reasons,
         conditions := whenSet dec.Needs, alternatives := none }, persisted.2)
    else if dec.Status = Blocked then
      ({ status := dec.Status, needs := none, decision_id := none, expires_at := none,
         reasons := some dec.Reasons, conditions := none,
         alternatives := some dec.Alternatives }, persisted.2)
    else
      ({ status := dec.Status, needs := none, decision_id := none, expires_at := none,
         reasons := none, conditions := none, alternatives := none }, persisted.2)

/-! ## `internal/manifest`: BuildManifest -/

/-- The struct `operationRow` of `pkg/connectors`: an operation as the registry loads
it. -/
structure RegistryOperation where
  Method : String
  Path : String
  Summary : String
  Scopes : List String
  Params : List GoMap
  BaseURL : Option String
  AuthRef : Option String
  Kind : Option String

/-- The struct `tenants.Tenant`. A nil slice is the empty list, a map the list of its
entries. -/
structure Tenant where
  ID : String
  Slug : String
  Host : String
  OAuthIssuer : String
  JWKSURL : String
  BasePublicURL : String
  AuthMode : String
  DiscoveryURL : String
  AcceptedAudiences : List String
  AccountClaim : String
  MachineAllowedScopes : List String
  RequiredACRByAction : List (String × String)
  DPoPRequired : Bool
deriving DecidableEq, Repr

/-- The struct `OAuth`. -/
structure OAuth where
  AuthorizationURL : String
  TokenURL : String
  Scopes : List String
deriving DecidableEq, Repr

/-- The struct `Action`. -/
structure Action where
  Path : String
  Method : String
  Scope : String
  Summary : String
  Title : String
  Params : List GoMap
  RequiresPreflight : Bool
  Flow : JMap
  Key : String
  DisplayName : String
  PreflightEndpoint : String
  ExecuteEndpoint : String
  ExecutionRequiresDecision : Bool
  InputsSchema : JMap
  NeedsContract : Bool
  AlternativesSupported : List String
  ProblemTypes : List (String × String)

/-- The struct `Manifest`. -/
structure Manifest where
  Version : String
  BaseURL : String
  OAuth : OAuth
  Actions : List Action
  Namespace : String

/-- The first segment, from the last one down, that is no placeholder, not `v1`, and
not empty once lowercased, with each run of other characters than letters and digits
replaced by a hyphen and the hyphens at its ends trimmed. -/
def lastStaticSegment : List (List Char) → Option String
  | [] => none
  | seg :: segs =>
    match lastStaticSegment segs with
    | some s => some s
    | none =>
      if seg.contains '\x7b' || seg.contains '\x7d' || seg = ['v', '1'] then none
      else if (trimBoth (· = '-')
          (toLowerAscii (replaceRuns (fun c => !isAlnumChar c) false seg))).isEmpty then none
      else
        some (String.mk (trimBoth (· = '-')
          (toLowerAscii (replaceRuns (fun c => !isAlnumChar c) false seg))))

/-- The local function `deriveName` of `BuildManifest`. -/
def deriveName (p : String) : String :=
  let p₁ := (splitOnChar '?' p.data).headD []
  let p₂ := trimBoth (· = '/') p₁
  if p₂.isEmpty then "root"
  else (lastStaticSegment (splitOnChar '/' p₂)).getD "action"

/-- The namespace `BuildManifest` derives from a connector kind. -/
def kindNamespace (kind : String) : String :=
  String.mk (replaceRuns (· = '-') false
    (toLowerAscii (trimBoth (· = '-')
      (replaceRuns (fun c => !isAlnumChar c) false (hyphenateCaps kind.data)))))

/-- The action `BuildManifest` publishes for an operation; `ns` is the namespace of the
tenant. -/
def manifestAction (env : Env) (ns : String) (o : RegistryOperation) : Action :=
  let short := deriveName o.Path
  let opNamespace :=
    match o.Kind with
    | some kind =>
      if kind ≠ "" ∧ kindNamespace kind ≠ "" then kindNamespace kind else ns
    | none => ns
  { Path := o.Path, Method := o.Method, Scope := o.Scopes.headD "", Summary := o.Summary,
    Title := o.Summary, Params := o.Params, RequiresPreflight := true,
    Flow :=
      [("preflight", Value.obj [("method", Value.str "POST"),
          ("path", Value.str "/v1/actions/\x7bkey\x7d/preflight")]),
       ("execute", Value.obj [("method", Value.str "POST"),
          ("path", Value.str "/v1/actions/\x7bkey\x7d/execute"),
          ("binds", Value.arr [Value.str "decision_id"])]),
       ("needs_input", Value.bool true), ("alternatives", Value.bool true),
       ("consent", Value.bool true)],
    Key := opNamespace ++ "." ++ short, DisplayName := o.Summary,
    PreflightEndpoint := "/v1/actions/\x7bkey\x7d/eligibility",
    ExecuteEndpoint := "/v1/actions/\x7bkey\x7d/execute",
    ExecutionRequiresDecision := true, InputsSchema := [], NeedsContract := true,
    AlternativesSupported := ["create_checkout_link", "open_support_case"],
    ProblemTypes :=
      [("preflight_required", problemsType env "preflight-required"),
       ("policy_violation", problemsType env "policy-violation")] }

/-- The function `BuildManifest`. `defaultBase` is `cfg.DefaultBasePublicURL`; `ops` is
what `reg.LoadOperations` returns for the tenant, `none` without a registry or on an
error. -/
def BuildManifest (env : Env) (defaultBase : String) (t : Tenant)
    (ops : Option (List RegistryOperation)) : Manifest :=
  let ns := if t.Slug = "" then t.ID else t.Slug
  { Version := "1",
    BaseURL := if t.BasePublicURL = "" then defaultBase else t.BasePublicURL,
    OAuth :=
      { AuthorizationURL := t.OAuthIssuer ++ "/authorize",
        TokenURL := t.OAuthIssuer ++ "/token",
        Scopes := ["catalog:read", "order:write", "refund:write"] },
    Actions := (ops.getD []).map (manifestAction env ns),
    Namespace := ns }

/-- The clock as the mappings after the first `n` see it. -/
def Clock.drop (clock : Clock) (n : Nat) : Clock := fun i => clock (n + i)

/-- The mappings in alphabetical order of their name, the order in which the
specification applies them. -/
def mappingsByName (ms : List Mapping) : List Mapping :=
  ms.insertionSort (fun a b => leChars a.Name.data b.Name.data = true)

/-- The facts as the specification resolves them: the mappings of the action applied in
alphabetical order of name. -/
def resolveAlphabetical (search : JMESPath) (clock : Clock) (db : DB)
    (tenantID actionKey : String) (inputs : GoMap) : GoMap × Option String :=
  applyMappings search (factsDocument inputs (loadResolvers db tenantID actionKey)) clock
    (mappingsByName (loadMappings db tenantID actionKey)) []

/-- Whether an operation belongs to a namespace: the slug of its connector kind or of
its connector title equals the namespace. -/
def inNamespace (ns : String) (r : OperationRow) : Bool :=
  decide (slug r.kind = ns) || decide (slug (r.title.getD "") = ns)

/-- Whether an operation of a namespace has the short name of the key. -/
def matchesKey (ns short : String) (r : OperationRow) : Bool :=
  inNamespace ns r && decide (deriveShort r.path = short)

/-- The base URL, method, path and template `Execute` keeps of a row. -/
def resolvedOf (r : OperationRow) : ResolvedOp :=
  ⟨r.base_url.getD "", r.method, r.path, r.request_tmpl.getD ['\x7b', '\x7d']⟩

/-- A matcher makes progress: what it leaves after a match is shorter than the text. -/
def Progress (find : List Char → Option (List Char × List Char)) : Prop :=
  ∀ s g rest, find s = some (g, rest) → rest.length < s.length

/-- A matcher does not look past a text `w`: on a non-empty text followed by `w` it
finds what it finds on the text alone. -/
def StopsAt (find : List Char → Option (List Char × List Char)) (w : List Char) : Prop :=
  ∀ r, r ≠ [] → find (r ++ w) = (find r).map (fun p => (p.1, p.2 ++ w))

/-- The text the `path_params` entry of a placeholder name resolves to, if the template
has `path_params` and an entry of that name. -/
def pathParamText (input : GoMap) (pv : Option JMap) (name : List Char) :
    Option (List Char) :=
  (pv.bind (fun m => m.lookup (String.mk name))).map (resolve input)

/-- The rendering of a path as the specification words it: every character other than
an opening brace stands for itself, and every placeholder `{name}`, its name made of
letters, digits and underscores, whose entry resolves to a non-empty text, is replaced
by that text, path-escaped. A path with another opening brace has no rendering. -/
inductive PathRendered (text : List Char → Option (List Char)) :
    List Char → List Char → Prop where
  | done : PathRendered text [] []
  | char (c : Char) (s t : List Char) :
    c ≠ '\x7b' → PathRendered text s t → PathRendered text (c :: s) (c :: t)
  | param (name v s t : List Char) :
    name ≠ [] → (∀ c ∈ name, isNameChar c = true) → text name = some v → v ≠ [] →
    PathRendered text s t →
    PathRendered text ('\x7b' :: (name ++ '\x7d' :: s)) (pathEscape v ++ t)

/-- An occurrence `p` of a placeholder `{{ key }}`: two opening braces, white space, a
key of letters, digits, underscores and dots, white space, two closing braces. -/
def IsPlaceholder (p key : List Char) : Prop :=
  ∃ ws₁ ws₂ : List Char, (∀ c ∈ ws₁, isRegexSpace c = true) ∧
    (∀ c ∈ ws₂, isRegexSpace c = true) ∧ key ≠ [] ∧ (∀ c ∈ key, isKeyChar c = true) ∧
    p = '\x7b' :: '\x7b' :: (ws₁ ++ (key ++ (ws₂ ++ ['\x7d', '\x7d'])))

/-- The number a value holds, if it is one: the cases `toFloat` converts. -/
def numberOf : Value → Option Float64
  | .float64 x => some x
  | .int n => some (Float64.fromInt n)
  | _ => none

/-- The numbers of a list added to `s` one after the other, each sum rounded to a
`float64`; `none` when a sum is beyond the finite `float64` numbers. -/
def sumFrom : Float64 → List Float64 → Option Float64
  | s, [] => some s
  | s, x :: xs => if (s.add x).overflows then none else sumFrom (s.add x) xs

/-- The sum of the numeric elements of an array, as the specification words the `sum`
transform: the elements that are numbers, added up from zero in the order of the
array. It is `none` when a sum is beyond the finite `float64` numbers. -/
def sumOfNumbers (xs : List Value) : Option Float64 :=
  sumFrom ⟨false, [], 0⟩ (xs.filterMap numberOf)

/-- Truthiness of one value as `any` and `all` decide it for a value that is no array:
the value is not nil. -/
def truthy : Value → Bool
  | .null => false
  | _ => true

/-- The zero values as the specification lists them: null, the empty string, the
number 0, the empty array and the empty object. -/
def isZeroListed : Value → Bool
  | .null => true
  | .str t => t.data.isEmpty
  | .float64 t => t.isZero
  | .int t => t == 0
  | .arr t => t.isEmpty
  | .obj t => t.isEmpty
  | .bool _ => false

/-- The zero values of `coalesce`: null, a string that holds nothing but white space,
the number 0, the empty array and the empty object. -/
inductive ZeroValue : Value → Prop where
  | null : ZeroValue Value.null
  | blank (t : String) (h : ∀ c ∈ t.data, isUnicodeSpace c = true) : ZeroValue (Value.str t)
  | zero (x : Float64) (h : x.isZero = true) : ZeroValue (Value.float64 x)
  | intZero : ZeroValue (Value.int 0)
  | emptyArray : ZeroValue (Value.arr [])
  | emptyObject : ZeroValue (Value.obj [])

/-! ## `internal/adminapi`: publishing a policy version -/

/-- The call `strconv.Atoi(s)`: an optional sign and decimal digits, within the range of
`int`; `none` when an error is returned. -/
def atoi (s : List Char) : Option Int :=
  let body := if s.head? = some '-' ∨ s.head? = some '+' then s.tail else s
  if body.isEmpty ∨ ¬ body.all isDigitChar then none
  else
    let n : Int := body.foldl (fun acc c => acc * 10 + ((c.toNat - 48 : Nat) : Int)) 0
    let z := if s.head? = some '-' then -n else n
    if z < -9223372036854775808 ∨ 9223372036854775807 < z then none else some z

/-- What a handler of the admin API writes: a status code with a plain text
(`http.Error`) or with a JSON document (`writeJSON`). -/
inductive Reply where
  | text (code : Nat) (msg : String)
  | json (code : Nat) (doc : JMap)

/-- The statement of `publishPolicyVersion`: every row of the tenant and the action
gets the status `published` when its version is the given one and `archived`
otherwise. The first component is the count of rows affected. -/
def updatePublished (db : DB) (tid actionKey : String) (ver : Int) : Nat × DB :=
  ((db.policy_versions.filter
      (fun r => r.tenant_id = tid ∧ r.action_key = actionKey)).length,
    { db with policy_versions := db.policy_versions.map (fun r =>
        if r.tenant_id = tid ∧ r.action_key = actionKey then
          { r with status := if r.version = ver then "published" else "archived" }
        else r) })

/-- The handler `publishPolicyVersion`: `tid` is the tenant of the request context,
`actionKey` the query parameter `action_key`, `verStr` the URL parameter `version`. The
second component is the store afterwards. -/
def publishPolicyVersion (db : DB) (tid actionKey verStr : String) : Reply × DB :=
  let actionKey := String.mk (trimBoth isUnicodeSpace actionKey.data)
  if actionKey = "" then (Reply.text 400 "missing action_key", db)
  else if (trimBoth isUnicodeSpace verStr.data).isEmpty then (Reply.text 400 "missing version", db)
  else
    match atoi verStr.data with
    | none => (Reply.text 400 "bad version", db)
    | some verInt =>
      if (updatePublished db tid actionKey verInt).1 = 0 then
        (Reply.text 404 "not found", (updatePublished db tid actionKey verInt).2)
      else
        (Reply.json 200 [("ok", Value.bool true), ("version", Value.int verInt)],
          (updatePublished db tid actionKey verInt).2)

/-! ## `pkg/connectors`: the operation cache of the registry -/

/-- The struct `cachedTenant`. -/
structure cachedTenant where
  loadedAt : Time
  operations : List RegistryOperation

/-- What the query of `LoadOperations` answers for a tenant from the store behind a
non-nil pool: the operations of the connectors enabled for the tenant, in store order,
or the error of the query. -/
abbrev OperationStore := String → Except String (List RegistryOperation)

/-- The struct `Registry`, without its factories and its lock: the calls are taken one
after the other. A nil pool is `none`; `byTenant` is the map of cache entries. -/
structure Registry where
  pool : Option OperationStore
  byTenant : String → Option cachedTenant
  ttl : Int

/-- The function `NewRegistry`. -/
def NewRegistry (pool : Option OperationStore) : Registry :=
  { pool := pool, byTenant := fun _ => none, ttl := 30 * Second }

/-- The static operations `LoadOperations` surfaces without a pool. -/
def sampleOperations : List RegistryOperation :=
  [{ Method := "GET", Path := "/v1/dev/ping", Summary := "Ping test endpoint",
     Scopes := ["dev:read"], Params := [], BaseURL := none, AuthRef := none,
     Kind := some "sample" },
   { Method := "POST", Path := "/v1/dev/echo", Summary := "Echo posted payload",
     Scopes := ["dev:write"], Params := [], BaseURL := none, AuthRef := none,
     Kind := some "sample" },
   { Method := "GET", Path := "/v1/dev/orders/\x7bid\x7d", Summary := "Fetch mock order by id",
     Scopes := ["order:read"], Params := [], BaseURL := none, AuthRef := none,
     Kind := some "sample" }]

/-- The assignment `r.byTenant[tenantID] = c`. -/
def Registry.store (r : Registry) (tenantID : String) (c : cachedTenant) : Registry :=
  { r with byTenant := fun t => if t = tenantID then some c else r.byTenant t }

/-- The test `ok && time.Since(c.loadedAt) < r.ttl` on the entry of a tenant, the clock
reading `now`. -/
def Registry.fresh (r : Registry) (now : Time) (tenantID : String) : Option cachedTenant :=
  match r.byTenant tenantID with
  | some c => if timeSub now c.loadedAt < r.ttl then some c else none
  | none => none

/-- The method `LoadOperations`: `now₁` is the instant at which the age of the entry is
taken, `now₂` the later instant written into a new entry. The first component is what
the method returns, the operations or the error of the query with a nil list, the
second the registry afterwards. -/
def LoadOperations (r : Registry) (now₁ now₂ : Time) (tenantID : String) :
    Except String (List RegistryOperation) × Registry :=
  match r.fresh now₁ tenantID with
  | some c => (Except.ok c.operations, r)
  | none =>
    match r.pool with
    | none => (Except.ok sampleOperations, r.store tenantID ⟨now₂, sampleOperations⟩)
    | some query =>
      match query tenantID with
      | Except.error err => (Except.error err, r)
      | Except.ok ops => (Except.ok ops, r.store tenantID ⟨now₂, ops⟩)

/-! ## `pkg/tenants`: the in-memory provider -/

/-- The struct `ConnectorCreds`. -/
structure ConnectorCreds where
  ShopifyDomain : String
  ShopifyToken : String
deriving DecidableEq, Repr

/-- An entry of `TENANT_SEED_JSON`: the anonymous struct `NewMemoryProviderFromEnv`
decodes. -/
structure SeedEntry where
  ID : String
  Slug : String
  Host : String
  OAuthIssuer : String
  JWKSURL : String
  BasePublicURL : String
  ShopifyDomain : String
  ShopifyToken : String
deriving DecidableEq, Repr

/-- The struct `memProvider`, without its logger; a map is the list of its entries. -/
structure memProvider where
  byHost : List (String × Tenant)
  creds : List (String × ConnectorCreds)
deriving DecidableEq, Repr

/-- The assignment `m[k] = v` on a map. -/
def putEntry {α : Type} (m : List (String × α)) (k : String) (v : α) : List (String × α) :=
  if m.any (fun e => e.1 = k) then m.map (fun e => if e.1 = k then (k, v) else e)
  else m ++ [(k, v)]

/-- The hosts `NewMemoryProviderFromEnv` seeds without `TENANT_SEED_JSON`. -/
def defaultHosts : List String :=
  ["localhost:8081", "127.0.0.1:8081", "host.docker.internal:8081", "manifest:8081",
   "localhost:8080", "127.0.0.1:8080", "host.docker.internal:8080", "connector:8080"]

/-- The function `NewMemoryProviderFromEnv`: `getenv` is `os.Getenv`, `decodeSeed` the
decoding of the seed by `json.Unmarshal` into the list of entries. -/
def NewMemoryProviderFromEnv (getenv : String → String)
    (decodeSeed : String → List SeedEntry) : memProvider :=
  if getenv "TENANT_SEED_JSON" ≠ "" then
    (decodeSeed (getenv "TENANT_SEED_JSON")).foldl (fun p e =>
      let t : Tenant :=
        { ID := e.ID, Slug := e.Slug, Host := e.Host, OAuthIssuer := e.OAuthIssuer,
          JWKSURL := e.JWKSURL, BasePublicURL := e.BasePublicURL, AuthMode := "byoidc",
          DiscoveryURL := "", AcceptedAudiences := [], AccountClaim := "sub",
          MachineAllowedScopes := [], RequiredACRByAction := [], DPoPRequired := false }
      ⟨putEntry p.byHost e.Host t,
        putEntry p.creds (e.ID ++ ":shopify") ⟨e.ShopifyDomain, e.ShopifyToken⟩⟩)
      ⟨[], []⟩
  else
    let dev : Tenant :=
      { ID := "00000000-0000-0000-0000-000000000001", Slug := "dev", Host := "",
        OAuthIssuer := getenv "OIDC_ISSUER", JWKSURL := getenv "JWKS_URL",
        BasePublicURL := getenv "BASE_PUBLIC_URL", AuthMode := "byoidc",
        DiscoveryURL := "", AcceptedAudiences := [], AccountClaim := "sub",
        MachineAllowedScopes := [], RequiredACRByAction := [], DPoPRequired := false }
    defaultHosts.foldl (fun p h => ⟨putEntry p.byHost h { dev with Host := h }, p.creds⟩)
      ⟨[], []⟩

/-- The method `ResolveTenantByHost` of a provider; `none` when an error is
returned. -/
abbrev Provider := String → Option Tenant

/-- The method `ResolveTenantByHost` of the in-memory provider. -/
def memProvider.ResolveTenantByHost (m : memProvider) : Provider :=
  fun host => m.byHost.lookup host

/-! ## `pkg/middleware`: WithTenant -/

/-- What `WithTenant` reads of a request: `r.Host` and `r.URL.Path`. -/
structure Request where
  Host : String
  Path : String
deriving DecidableEq, Repr

/-- What `WithTenant` does with a request: it calls the next handler, with a tenant in
the context or with the context as it came, or it answers itself with `http.Error`. -/
inductive Handled where
  | next (tenant : Option Tenant)
  | rejected (code : Nat) (msg : String)
deriving DecidableEq, Repr

/-- The host `WithTenant` looks up first: `r.Host`, cut at its first colon when
`strings.Index(host, ":")` is positive. -/
def requestHost (host : String) : String :=
  let pre := host.data.takeWhile (· ≠ ':')
  if pre.length < host.data.length ∧ 0 < pre.length then String.mk pre else host

/-- The local synonyms that `WithTenant` also looks up as `localhost`. -/
def localSynonyms : List String :=
  ["127.0.0.1", "host.docker.internal", "manifest", "connector", "policy", "admin-api"]

/-- The slice `tryHosts` of `WithTenant`. -/
def tryHosts (host : String) : List String :=
  if host ∈ localSynonyms then [host, "localhost"] else [host]

/-- The loop of `WithTenant` over `tryHosts`: the first host the provider resolves. -/
def resolveFirst (prov : Provider) : List String → Option Tenant
  | [] => none
  | h :: hs =>
    match prov h with
    | some t => some t
    | none => resolveFirst prov hs

/-- The middleware `WithTenant`. -/
def WithTenant (prov : Provider) (req : Request) : Handled :=
  if req.Path = "/healthz" ∨ req.Path = "/metrics" then Handled.next none
  else
    match resolveFirst prov (tryHosts (requestHost req.Host)) with
    | none => Handled.rejected 404 "unknown tenant"
    | some t => Handled.next (some t)

/-- The `Host` header with its port removed, as the specification words it: the header
without a final colon and decimal port. -/
def hostWithoutPort (host : List Char) : List Char :=
  match host.reverse.dropWhile isDigitChar with
  | ':' :: rest => rest.reverse
  | _ => host

/-! ## Library functions of the secret store: `unicode/utf8`, `crypto/cipher` -/

/-- The function `utf8.DecodeRune` on a first byte and the three bytes after it, a
missing byte being 0: the rune and its width, `U+FFFD` with width 1 for an invalid
encoding (a wrong continuation byte, an overlong form, a surrogate, a value past
`U+10FFFF`). -/
def decodeRune (b0 b1 b2 b3 : Nat) : Nat × Nat :=
  if b0 < 128 then (b0, 1)
  else if 192 ≤ b0 ∧ b0 < 224 ∧ (128 ≤ b1 ∧ b1 < 192) ∧
      128 ≤ (b0 - 192) * 64 + (b1 - 128) then
    ((b0 - 192) * 64 + (b1 - 128), 2)
  else if 224 ≤ b0 ∧ b0 < 240 ∧ (128 ≤ b1 ∧ b1 < 192) ∧ (128 ≤ b2 ∧ b2 < 192) ∧
      2048 ≤ (b0 - 224) * 4096 + (b1 - 128) * 64 + (b2 - 128) ∧
      ¬ (55296 ≤ (b0 - 224) * 4096 + (b1 - 128) * 64 + (b2 - 128) ∧
        (b0 - 224) * 4096 + (b1 - 128) * 64 + (b2 - 128) ≤ 57343) then
    ((b0 - 224) * 4096 + (b1 - 128) * 64 + (b2 - 128), 3)
  else if 240 ≤ b0 ∧ b0 < 248 ∧ (128 ≤ b1 ∧ b1 < 192) ∧ (128 ≤ b2 ∧ b2 < 192) ∧
      (128 ≤ b3 ∧ b3 < 192) ∧
      65536 ≤ (b0 - 240) * 262144 + (b1 - 128) * 4096 + (b2 - 128) * 64 + (b3 - 128) ∧
      (b0 - 240) * 262144 + (b1 - 128) * 4096 + (b2 - 128) * 64 + (b3 - 128) ≤ 1114111 then
    ((b0 - 240) * 262144 + (b1 - 128) * 4096 + (b2 - 128) * 64 + (b3 - 128), 4)
  else (65533, 1)

/-- The text of a byte slice as the JSON decoder reads it: the runes of the bytes, each
byte of an invalid encoding read as `U+FFFD`. `skip` counts the bytes of a rune just
read that are still to be passed over. -/
def utf8DecodeLossy : Nat → List UInt8 → List Char
  | _, [] => []
  | skip + 1, _ :: bs => utf8DecodeLossy skip bs
  | 0, b :: bs =>
    Char.ofNat (decodeRune b.toNat (bs.getD 0 0).toNat (bs.getD 1 0).toNat
        (bs.getD 2 0).toNat).1 ::
      utf8DecodeLossy ((decodeRune b.toNat (bs.getD 0 0).toNat (bs.getD 1 0).toNat
        (bs.getD 2 0).toNat).2 - 1) bs

/-- The AEAD `cipher.NewGCM(aes.NewCipher(key))` with a nil destination and no
additional data: `Seal` and `Open` for a key, a nonce and a text; `Open` is `none` when
it returns an error. -/
structure GCM where
  Seal : List UInt8 → List UInt8 → List UInt8 → List UInt8
  Open : List UInt8 → List UInt8 → List UInt8 → Option (List UInt8)

/-! ## `internal/adminapi`, `internal/connector`: secrets -/

/-- The method `encryptJSON`; `nonce` holds the bytes `rand.Read` fills the nonce of
`gcm.NonceSize()` bytes with. -/
def encryptJSON (gcm : GCM) (encrypterKey nonce : List UInt8) (v : Value) : List UInt8 :=
  if encrypterKey.length = 0 then mustJSON v
  else 1 :: nonce ++ gcm.Seal (sha256Sum256 encrypterKey) nonce (mustJSON v)

/-- The function `decryptSecrets`. The texts of the errors of `gcm.Open` and of
`json.Unmarshal` are those of the libraries, shortened here. -/
def decryptSecrets (gcm : GCM) (blob key : List UInt8) : Except String GoMap :=
  if blob.length < 2 then Except.error "invalid blob"
  else if blob.head? ≠ some 1 then Except.error "unsupported version"
  else if blob.length < 1 + 12 then Except.error "short nonce"
  else
    match gcm.Open (sha256Sum256 key) ((blob.drop 1).take 12) (blob.drop (1 + 12)) with
    | none => Except.error "cipher: message authentication failed"
    | some plain =>
      if (jsonUnmarshalMap (utf8DecodeLossy 0 plain) none).2 then
        Except.error "json: cannot unmarshal"
      else Except.ok (jsonUnmarshalMap (utf8DecodeLossy 0 plain) none).1

/-! ## The steps of `slug` as the specification words them -/

/-- A hyphen inserted at each boundary between two neighbouring characters. -/
def hyphenateBoundaries (boundary : Char → Char → Bool) : List Char → List Char
  | [] => []
  | [a] => [a]
  | a :: b :: rest =>
    if boundary a b then a :: '-' :: hyphenateBoundaries boundary (b :: rest)
    else a :: hyphenateBoundaries boundary (b :: rest)

/-- Repeated hyphens collapsed into one. -/
def collapseHyphens : List Char → List Char
  | [] => []
  | [a] => [a]
  | a :: b :: rest =>
    if a = '-' ∧ b = '-' then collapseHyphens (b :: rest)
    else a :: collapseHyphens (b :: rest)

/-- The steps the specification lists for `slug`, in its order, for a given notion of
boundary: hyphens at the boundaries, every run of non-alphanumeric characters replaced
by a hyphen, lowercase, repeated hyphens collapsed, leading and trailing hyphens
trimmed. -/
def slugSteps (boundary : Char → Char → Bool) (s : String) : String :=
  String.mk (trimBoth (· = '-') (collapseHyphens (toLowerAscii
    (replaceRuns (fun c => !isAlnumChar c) false (hyphenateBoundaries boundary s.data)))))

/-- The boundary of the specification: from a lowercase letter to an uppercase
letter. -/
def lowerToUpper (a b : Char) : Bool := isLowerChar a && isUpperChar b

/-- The boundary of `capRe`: from a lowercase letter or a digit to an uppercase
letter. -/
def lowerOrDigitToUpper (a b : Char) : Bool := (isLowerChar a || isDigitChar a) && isUpperChar b

/-! ## Sample data -/

/-- A store holding one published policy, version 3, for action `orders.list` of
tenant `t1`. -/
def sampleDB : DB :=
  ⟨[⟨"t1", "orders.list", 3, some "package policy", "published"⟩], [], [], [], [], []⟩

/-- A policy evaluation that fails. -/
def regoFails : RegoEval := fun _ _ => Except.error "rego_parse_error"

/-- A policy evaluation whose single expression has the given value. -/
def regoReturns (v : Value) : RegoEval := fun _ _ => Except.ok [[v]]

/-- The uppercase form of a status string (ASCII letters), by which the specification
classifies a status. -/
def specUpper (s : String) : String := String.mk (s.data.map Char.toUpper)

/-- The object `{"status": "allow"}`. -/
def lowercaseAllow : Value := Value.obj [("status", Value.str "allow")]

/-- A policy result that is no object: the string `"deny"`. -/
def nonObjectResult : Value := Value.str "deny"

/-- The object `{"status": "MAYBE", "reasons": ["out_of_window"]}`. -/
def unknownStatus : Value :=
  Value.obj [("status", Value.str "MAYBE"),
    ("reasons", Value.arr [Value.str "out_of_window"])]

/-- The number `1.5`. -/
def onePointFive : Float64 := ⟨false, [1, 5], 1⟩

/-- The object `{"status": "ALLOW", "ttl_seconds": 1.5}`. -/
def fractionalTTL : Value :=
  Value.obj [("status", Value.str "ALLOW"), ("ttl_seconds", Value.float64 onePointFive)]

/-- The object `{"status": "ALLOW", "ttl_seconds": 600}`. -/
def tenMinuteTTL : Value :=
  Value.obj [("status", Value.str "ALLOW"),
    ("ttl_seconds", Value.float64 (Float64.ofNat 600))]

/-- An environment without `PROBLEM_BASE_URL` and `BASE_PUBLIC_URL`. -/
def sampleEnv : Env := ⟨"", ""⟩

/-- A facts engine for an action without mappings: every resolve yields the empty facts
object. -/
def noMappings : FactsEngine := fun _ _ _ => (some [], none)

/-- A facts engine that copies the input `amount` into the fact `amount`. -/
def amountFact : FactsEngine := fun _ _ inputs =>
  match inputs with
  | some m => (some [("amount", mapGet m "amount")], none)
  | none => (some [], none)

/-- An ALLOW decision for `orders.list` on empty inputs and facts, expiring at the
instant 1000. -/
def allowedDecision : Decision :=
  { ID := "", ActionKey := "orders.list", Inputs := some [], Facts := some [],
    PolicyVersion := 3, Status := "ALLOW", Reasons := Value.null, Needs := Value.null,
    Alternatives := Value.null, ExpiresAt := some 1000 }

/-- A BLOCKED decision for `orders.list`, expiring at the instant 1000. -/
def blockedDecision : Decision :=
  { ID := "", ActionKey := "orders.list", Inputs := some [], Facts := some [],
    PolicyVersion := 3, Status := "BLOCKED",
    Reasons := Value.arr [Value.str "out_of_window"], Needs := Value.null,
    Alternatives := Value.null, ExpiresAt := some 1000 }

/-- The inputs `{"amount": n}`. -/
def amountInputs (n : Nat) : GoMap := some [("amount", Value.float64 (Float64.ofNat n))]

/-- An ALLOW decision for `payments.refund` on the inputs `{"amount": 10}` and the facts
resolved from them, expiring at the instant 1000. -/
def refundDecision : Decision :=
  { ID := "", ActionKey := "payments.refund", Inputs := amountInputs 10,
    Facts := (amountFact "t1" "payments.refund" (amountInputs 10)).1,
    PolicyVersion := 1, Status := "ALLOW", Reasons := Value.null, Needs := Value.null,
    Alternatives := Value.null, ExpiresAt := some 1000 }

/-- A store without rows. -/
def emptyDB : DB := ⟨[], [], [], [], [], []⟩

/-- The store after tenant `t1` persisted a decision under the id `d1`. -/
def storeWith (d : Decision) : DB :=
  ⟨[], [persistedRow "d1" "t1" d], [], [], [], []⟩

/-- A store whose only connector operation is the enabled `GET /v1/orders` of the
connector `Orders` of tenant `t1`, and that holds no execution. -/
def ordersStore : DB :=
  ⟨[], [], [],
    [⟨"t1", some "https://up.example/", "GET", "/v1/orders", none, "Orders", none, none⟩],
    [], []⟩

/-- An upstream that answers every request with the given status and the body
`{"ok":true}`. -/
def answers (status : Int) : Upstream :=
  fun _ => UpstreamAnswer.response status "\x7b\"ok\":true\x7d".data

/-- An input that carries the idempotency key `k1`. -/
def keyedInput : GoMap := some [("idempotency_key", Value.str "k1")]

/-- The store `ordersStore` after the execution of `orders.orders` under the key `k1`
that the upstream answered with status 200. -/
def ordersStoreAfter : DB :=
  insertExecution ordersStore
    (executionRow "t1" "orders.orders" "D1" "k1"
      (executeOutcome sampleEnv (answers 200) (some ordersStore) "t1" "orders.orders"
        keyedInput))

/-- A path evaluator for the examples: a dotted path of identifiers is looked up through
nested objects, as JMESPath does; any other expression is taken as a syntax error. -/
def fieldPath : JMESPath := fun path doc =>
  if (splitOnChar '.' path.data).all
      (fun seg => !seg.isEmpty && seg.all isNameChar && !isDigitChar (seg.headD 'a')) then
    Except.ok (lookupPath doc (splitOnChar '.' path.data))
  else Except.error "SyntaxError: Invalid expression"

/-- A clock that reads the instant 0 every time. -/
def frozenClock : Clock := fun _ => (0, 0)

/-- A store with two mappings of `orders.list` that write the fact `total`: the store
returns `b_total`, which reads `inputs.x`, before `a_total`, which reads `inputs.y`. -/
def twoWriters : DB :=
  ⟨[], [], [], [], [],
    [⟨"t1", "m1", "orders.list", "b_total", "inputs.x", "total", none, none, false⟩,
     ⟨"t1", "m2", "orders.list", "a_total", "inputs.y", "total", none, none, false⟩]⟩

/-- The inputs `{"x": 1, "y": 2}`. -/
def xyInputs : GoMap :=
  some [("x", Value.float64 (Float64.ofNat 1)), ("y", Value.float64 (Float64.ofNat 2))]

/-- A store with two mappings of `orders.list`: `count` copies `inputs.x`, and the
required mapping `age` applies `days_between` to `inputs.y` without arguments. -/
def requiredAge : DB :=
  ⟨[], [], [], [], [],
    [⟨"t1", "m1", "orders.list", "count", "inputs.x", "count", none, none, false⟩,
     ⟨"t1", "m2", "orders.list", "age", "inputs.y", "age", some "days_between", none,
       true⟩]⟩

/-- A store with three enabled operations of tenant `t1`: `GET /v1/orders` and
`POST /v1/orders/{id}/cancel` of the connector `Shop`, and `GET /v1/cancel` of the
connector `Billing`. -/
def shopStore : DB :=
  ⟨[], [], [],
    [⟨"t1", some "https://shop.example", "GET", "/v1/orders", none, "Shop", none, none⟩,
     ⟨"t1", some "https://bill.example", "GET", "/v1/cancel", none, "Billing", none, none⟩,
     ⟨"t1", some "https://shop.example", "POST", "/v1/orders/\x7bid\x7d/cancel", none, "Shop",
       none, none⟩],
    [], []⟩

/-- A store whose only operation is the enabled `POST /v1/orders/{id}/cancel` of the
connector `Shop` of tenant `t1`, without a request template. -/
def cancelStore : DB :=
  ⟨[], [], [],
    [⟨"t1", some "https://shop.example/", "POST", "/v1/orders/\x7bid\x7d/cancel", none,
      "Shop", none, none⟩],
    [], []⟩

/-- A store whose only operation is the enabled `GET /v1/items/{item-id}` of the
connector `Shop` of tenant `t1`; its template binds `item-id` to `{{id}}`. -/
def itemStore : DB :=
  ⟨[], [], [],
    [⟨"t1", some "https://shop.example", "GET", "/v1/items/\x7bitem-id\x7d",
      some "\x7b\"path_params\":\x7b\"item-id\":\"\x7b\x7bid\x7d\x7d\"\x7d\x7d".data,
      "Shop", none, none⟩],
    [], []⟩

/-- A store whose only operation is the enabled `GET /v1/orders/{id}` of the connector
`Shop` of tenant `t1`; its template binds `id` to `{{ order.id }}` and sets the query
parameters `z` and `a`. -/
def orderStore : DB :=
  ⟨[], [], [],
    [⟨"t1", some "https://shop.example/", "GET", "/v1/orders/\x7bid\x7d",
      some ("\x7b\"path_params\":\x7b\"id\":\"\x7b\x7b order.id \x7d\x7d\"\x7d," ++
        "\"query\":\x7b\"z\":\"\x7b\x7bq\x7d\x7d\",\"a\":\"1\"\x7d\x7d").data,
      "Shop", none, none⟩],
    [], []⟩

/-- The inputs `{"order": {"id": "o 1/x"}, "q": "new"}`. -/
def orderInput : GoMap :=
  some [("order", Value.obj [("id", Value.str "o 1/x")]), ("q", Value.str "new")]

/-- The inputs `{"idempotency_key": 42}`. -/
def numericKeyInput : GoMap := some [("idempotency_key", Value.float64 (Float64.ofNat 42))]

/-- The operations of the connector `Shop` as the registry loads them: `GET /v1/orders`
and `POST /v1/orderItems`. -/
def cartOperations : List RegistryOperation :=
  [⟨"GET", "/v1/orders", "List orders", ["order:read"], [], some "https://shop.example",
    none, some "Shop"⟩,
   ⟨"POST", "/v1/orderItems", "Add an item", ["order:write"], [],
    some "https://shop.example", none, some "Shop"⟩]

/-- The store holding the same two operations of the connector `Shop`, enabled, for
tenant `t1`. -/
def cartStore : DB :=
  ⟨[], [], [],
    [⟨"t1", some "https://shop.example", "GET", "/v1/orders", none, "Shop", none, none⟩,
     ⟨"t1", some "https://shop.example", "POST", "/v1/orderItems", none, "Shop", none,
       none⟩],
    [], []⟩

/-- The tenant `t1`, with the slug `acme`. -/
def acme : Tenant :=
  { ID := "t1", Slug := "acme", Host := "ai.acme.com",
    OAuthIssuer := "https://issuer.example", JWKSURL := "", BasePublicURL := "",
    AuthMode := "byoidc", DiscoveryURL := "", AcceptedAudiences := [],
    AccountClaim := "sub", MachineAllowedScopes := [], RequiredACRByAction := [],
    DPoPRequired := false }

/-- A policy result that asks for more input. -/
def needsInputResult : Value := Value.obj [("status", Value.str "NEEDS_INPUT")]

/-- A store with a published policy for `orders.list` of tenant `t1` and three resolvers
of that action: `r1` and `r3` are enabled and carry one prompt each, `r2` is disabled. -/
def needsStore : DB :=
  ⟨[⟨"t1", "orders.list", 3, some "package policy", "published"⟩], [], [], [],
    [⟨"t1", "1", "orders.list", "r1", "shop", none, none,
        some "[\x7b\"key\":\"order_id\"\x7d]".data, some true⟩,
     ⟨"t1", "2", "orders.list", "r2", "shop", none, none,
        some "[\x7b\"key\":\"hidden\"\x7d]".data, some false⟩,
     ⟨"t1", "3", "orders.list", "r3", "shop", none, none,
        some "[\x7b\"key\":\"reason\"\x7d]".data, some true⟩],
    []⟩

/-- The instant 2026-11-04T12:00:00Z, in nanoseconds since 1970. -/
def noon : Time := 1793793600000000000

/-- A store with two versions of the policy of `orders.cancel`: version 1 published,
version 2 a draft. -/
def policyStore : DB :=
  { policy_versions :=
      [⟨"t1", "orders.cancel", 1, some "package policy", "published"⟩,
       ⟨"t1", "orders.cancel", 2, some "package policy", "draft"⟩],
    decisions := [], executions := [], operations := [], fact_resolvers := [],
    fact_mappings := [] }

/-- A store that holds no operation for any tenant. -/
def emptyOperationStore : OperationStore := fun _ => Except.ok []

/-- A store whose query fails. -/
def failingOperationStore : OperationStore := fun _ => Except.error "connection refused"

/-- A registry whose cache holds, for tenant `t1`, the sample operations loaded at the
instant 0. -/
def warmRegistry : Registry :=
  (NewRegistry (some emptyOperationStore)).store "t1" ⟨0, sampleOperations⟩

/-- The same cache over a store whose query fails. -/
def staleRegistry : Registry :=
  (NewRegistry (some failingOperationStore)).store "t1" ⟨0, sampleOperations⟩

/-- A provider that knows one host, the IPv6 loopback `[::1]`. -/
def loopbackProvider : Provider :=
  fun h => if h = "[::1]" then some acme else none

/-- A provider that knows the host `localhost` only. -/
def localhostProvider : Provider :=
  fun h => if h = "localhost" then some acme else none

/-- The in-memory provider built with no environment variable set. -/
def devProvider : memProvider :=
  NewMemoryProviderFromEnv (fun _ => "") (fun _ => [])

/-- A stand-in for AES-GCM in examples: the sealed text is the plain text followed by
the first byte of the key and of the nonce as a tag, and opening checks the tag. -/
def tagCipher : GCM where
  Seal := fun key nonce plain => plain ++ [key.headD 0, nonce.headD 0]
  Open := fun key nonce ct =>
    if ct.drop (ct.length - 2) = [key.headD 0, nonce.headD 0] ∧ 2 ≤ ct.length then
      some (ct.take (ct.length - 2))
    else none

/-- A nonce of twelve bytes. -/
def sampleNonce : List UInt8 := [1, 2, 3, 4, 5, 6, 7, 8, 9, 10, 11, 12]

/-- The secrets of a connector. -/
def sampleSecrets : JMap := [("token", Value.str "s3cret")]

/-! # Properties -/

/-! ## Evaluate -/

/-- C8: when no published policy module is found (the loaded module text is empty),
`Evaluate` returns, with a nil error, status ALLOW, nil reasons and
`expires_at = now + 15 minutes`, carrying action key, inputs and facts unchanged; the row
`PersistDecision` stores for that decision carries the binding hash of those inputs and
facts. -/
theorem evaluate_no_policy_allows (rego : RegoEval) (now : Time) (pool : Option DB)
    (tenantID actionKey : String) (inputs facts : GoMap)
    (hmod : (loadPolicy pool tenantID actionKey).1 = "") :
    (Evaluate rego now pool tenantID actionKey inputs facts).2 = none ∧
    (Evaluate rego now pool tenantID actionKey inputs facts).1.Status = "ALLOW" ∧
    (Evaluate rego now pool tenantID actionKey inputs facts).1.Reasons = Value.null ∧
    (Evaluate rego now pool tenantID actionKey inputs facts).1.ExpiresAt =
      some (now + 15 * 60 * 1000000000) ∧
    (Evaluate rego now pool tenantID actionKey inputs facts).1.ActionKey = actionKey ∧
    (Evaluate rego now pool tenantID actionKey inputs facts).1.Inputs = inputs ∧
    (Evaluate rego now pool tenantID actionKey inputs facts).1.Facts = facts ∧
    ∀ id : String,
      (persistedRow id tenantID
        (Evaluate rego now pool tenantID actionKey inputs facts).1).hash =
        bindingHash inputs facts (loadPolicy pool tenantID actionKey).2 := by
  have hE : Evaluate rego now pool tenantID actionKey inputs facts =
      ({ ID := "", ActionKey := actionKey, Inputs := inputs, Facts := facts,
         PolicyVersion := (loadPolicy pool tenantID actionKey).2, Status := Allow,
         Reasons := Value.null, Needs := Value.null, Alternatives := Value.null,
         ExpiresAt := some (now + 15 * Minute) }, none) := by
    unfold Evaluate
    simp only [hmod, if_true]
  rw [hE]
  refine ⟨rfl, rfl, rfl, ?_, rfl, rfl, rfl, ?_⟩
  · simp only [Minute, Second]
    norm_num
  · intro id
    simp [persistedRow, bindingHash, sprintfBinding]

/-- Witness of `evaluate_no_policy_allows`: without a pool no module is loaded. -/
theorem evaluate_no_policy_allows_witness :
    (loadPolicy none "t1" "orders.list").1 = "" ∧
    (Evaluate regoFails 1000 none "t1" "orders.list" (some []) (some [])).1.Status =
      "ALLOW" :=
  ⟨rfl, (evaluate_no_policy_allows regoFails 1000 none "t1" "orders.list" (some [])
    (some []) rfl).2.1⟩

/-- The status `Evaluate` derives from the object a policy returned. -/
theorem evaluate_object (rego : RegoEval) (now : Time) (pool : Option DB)
    (tenantID actionKey : String) (inputs facts : GoMap) (m : JMap)
    (tl : List Value) (rest : ResultSet)
    (hmod : (loadPolicy pool tenantID actionKey).1 ≠ "")
    (hr : rego (loadPolicy pool tenantID actionKey).1 (regoInput inputs facts) =
      Except.ok ((Value.obj m :: tl) :: rest)) :
    Evaluate rego now pool tenantID actionKey inputs facts =
      ({ ID := "", ActionKey := actionKey, Inputs := inputs, Facts := facts,
         PolicyVersion := (loadPolicy pool tenantID actionKey).2,
         Status :=
          (match mapGet m "status" with
          | Value.str s =>
            if s = "ALLOW" then Allow
            else if s = "ALLOW_WITH_CONDITIONS" then AllowWithConditions
            else if s = "NEEDS_INPUT" then NeedsInput
            else Blocked
          | _ => Blocked),
         Reasons := mapGet m "reasons", Needs := mapGet m "needs",
         Alternatives := mapGet m "alternatives",
         ExpiresAt := some
          (match mapGet m "ttl_seconds" with
          | Value.float64 ttl =>
            if ttl.isPos then now + wrapInt64 (ttl.toInt64 * Second) else now + 15 * Minute
          | _ => now + 15 * Minute) }, none) := by
  unfold Evaluate
  simp only [hmod, if_false, hr]

/-- The decision `Evaluate` derives from a result that is no object. -/
theorem evaluate_non_object (rego : RegoEval) (now : Time) (pool : Option DB)
    (tenantID actionKey : String) (inputs facts : GoMap) (out : Value)
    (tl : List Value) (rest : ResultSet)
    (hmod : (loadPolicy pool tenantID actionKey).1 ≠ "")
    (hr : rego (loadPolicy pool tenantID actionKey).1 (regoInput inputs facts) =
      Except.ok ((out :: tl) :: rest))
    (hout : ∀ m, out ≠ Value.obj m) :
    Evaluate rego now pool tenantID actionKey inputs facts =
      ({ ID := "", ActionKey := actionKey, Inputs := inputs, Facts := facts,
         PolicyVersion := (loadPolicy pool tenantID actionKey).2, Status := Allow,
         Reasons := Value.null, Needs := Value.null, Alternatives := Value.null,
         ExpiresAt := some (now + 15 * Minute) }, none) := by
  unfold Evaluate
  simp only [hmod, if_false, hr]

/-- The error `Evaluate` returns is nil on every path. -/
theorem evaluate_error_nil (rego : RegoEval) (now : Time) (pool : Option DB)
    (tenantID actionKey : String) (inputs facts : GoMap) :
    (Evaluate rego now pool tenantID actionKey inputs facts).2 = none := by
  unfold Evaluate
  by_cases hmod : (loadPolicy pool tenantID actionKey).1 = ""
  · simp only [hmod, if_true]
  · simp only [hmod, if_false]
    split
    · rfl
    · rfl
    · rfl
    · split <;> rfl

/-- C6: `Evaluate` never returns a non-nil error; and whenever a module is loaded and
its Rego evaluation returns an error, an empty result set, or a first result without
expressions, the decision has status BLOCKED, reasons `["policy_error"]` and
`expires_at = now + 5 minutes`. -/
theorem evaluate_never_raises (rego : RegoEval) (now : Time) (pool : Option DB)
    (tenantID actionKey : String) (inputs facts : GoMap) :
    (Evaluate rego now pool tenantID actionKey inputs facts).2 = none ∧
    ((loadPolicy pool tenantID actionKey).1 ≠ "" →
      ((∃ e, rego (loadPolicy pool tenantID actionKey).1 (regoInput inputs facts) =
          Except.error e) ∨
        rego (loadPolicy pool tenantID actionKey).1 (regoInput inputs facts) =
          Except.ok [] ∨
        ∃ rest, rego (loadPolicy pool tenantID actionKey).1 (regoInput inputs facts) =
          Except.ok ([] :: rest)) →
      (Evaluate rego now pool tenantID actionKey inputs facts).1.Status = "BLOCKED" ∧
      (Evaluate rego now pool tenantID actionKey inputs facts).1.Reasons =
        Value.arr [Value.str "policy_error"] ∧
      (Evaluate rego now pool tenantID actionKey inputs facts).1.ExpiresAt =
        some (now + 5 * 60 * 1000000000)) := by
  have h5 : now + 5 * Minute = now + 5 * 60 * 1000000000 := by
    simp only [Minute, Second]; norm_num
  refine ⟨evaluate_error_nil rego now pool tenantID actionKey inputs facts, ?_⟩
  intro hmod hr
  have hE : Evaluate rego now pool tenantID actionKey inputs facts =
      (policyErrorDecision now actionKey inputs facts
        (loadPolicy pool tenantID actionKey).2, none) := by
    unfold Evaluate
    rcases hr with ⟨e, he⟩ | he | ⟨rest, he⟩ <;> simp only [hmod, if_false, he]
  rw [hE]
  exact ⟨rfl, rfl, by simp only [policyErrorDecision, h5]⟩

/-- Witness of `evaluate_never_raises`: a published module whose evaluation fails. -/
theorem evaluate_never_raises_witness :
    (loadPolicy (some sampleDB) "t1" "orders.list").1 ≠ "" ∧
    (Evaluate regoFails 1000 (some sampleDB) "t1" "orders.list" none none).1.Status =
      "BLOCKED" ∧
    (Evaluate regoFails 1000 (some sampleDB) "t1" "orders.list" none none).1.ExpiresAt =
      some (1000 + 5 * 60 * 1000000000) :=
  ⟨by decide,
   ((evaluate_never_raises regoFails 1000 (some sampleDB) "t1" "orders.list" none none).2
      (by decide) (Or.inl ⟨"rego_parse_error", rfl⟩)).1,
   ((evaluate_never_raises regoFails 1000 (some sampleDB) "t1" "orders.list" none none).2
      (by decide) (Or.inl ⟨"rego_parse_error", rfl⟩)).2.2⟩

/-- C7: for a module returning the status `"allow"`, whose uppercase form is `ALLOW`,
`Evaluate` yields the status BLOCKED, not ALLOW. -/
theorem evaluate_lowercase_status_blocked :
    specUpper "allow" = "ALLOW" ∧
    (Evaluate (regoReturns lowercaseAllow) 1000 (some sampleDB) "t1" "orders.list"
      none none).1.Status = "BLOCKED" ∧
    (Evaluate (regoReturns lowercaseAllow) 1000 (some sampleDB) "t1" "orders.list"
      none none).1.Status ≠ "ALLOW" := by
  refine ⟨by decide, by decide, by decide⟩

/-- The classification of `Evaluate`: the status string `s` of the returned object is
compared exactly, letter case included: `"ALLOW"`, `"ALLOW_WITH_CONDITIONS"` and
`"NEEDS_INPUT"` yield that status, and every other string yields BLOCKED. -/
theorem evaluate_status_exact (rego : RegoEval) (now : Time) (pool : Option DB)
    (tenantID actionKey : String) (inputs facts : GoMap) (m : JMap) (s : String)
    (tl : List Value) (rest : ResultSet)
    (hmod : (loadPolicy pool tenantID actionKey).1 ≠ "")
    (hr : rego (loadPolicy pool tenantID actionKey).1 (regoInput inputs facts) =
      Except.ok ((Value.obj m :: tl) :: rest))
    (hs : mapGet m "status" = Value.str s) :
    (s = "ALLOW" →
      (Evaluate rego now pool tenantID actionKey inputs facts).1.Status = "ALLOW") ∧
    (s = "ALLOW_WITH_CONDITIONS" →
      (Evaluate rego now pool tenantID actionKey inputs facts).1.Status =
        "ALLOW_WITH_CONDITIONS") ∧
    (s = "NEEDS_INPUT" →
      (Evaluate rego now pool tenantID actionKey inputs facts).1.Status =
        "NEEDS_INPUT") ∧
    (s ≠ "ALLOW" → s ≠ "ALLOW_WITH_CONDITIONS" → s ≠ "NEEDS_INPUT" →
      (Evaluate rego now pool tenantID actionKey inputs facts).1.Status = "BLOCKED") := by
  rw [evaluate_object rego now pool tenantID actionKey inputs facts m tl rest hmod hr]
  simp only [hs]
  refine ⟨?_, ?_, ?_, ?_⟩
  · intro h; subst h; rfl
  · intro h; subst h; rfl
  · intro h; subst h; rfl
  · intro h1 h2 h3; simp only [h1, h2, h3, if_false]; rfl

/-- Witness of `evaluate_status_exact`: the status `"ALLOW"` is kept. -/
theorem evaluate_status_exact_witness :
    (Evaluate (regoReturns tenMinuteTTL) 1000 (some sampleDB) "t1" "orders.list"
      none none).1.Status = "ALLOW" :=
  (evaluate_status_exact (regoReturns tenMinuteTTL) 1000 (some sampleDB) "t1"
    "orders.list" none none
    [("status", Value.str "ALLOW"), ("ttl_seconds", Value.float64 (Float64.ofNat 600))]
    "ALLOW" [] [] (by decide) rfl rfl).1 rfl

/-- C5 as stated fails: for the object `{"status": "MAYBE", "reasons":
["out_of_window"]}` the decision is BLOCKED, but it carries the reasons of the module,
not `["policy_error"]`, and expires after 15 minutes, not 5; and for the result
`"deny"`, which is no object, the decision is ALLOW, without reasons, for 15 minutes. -/
theorem evaluate_unknown_status_keeps_reasons :
    (Evaluate (regoReturns unknownStatus) 1000 (some sampleDB) "t1" "orders.list"
      none none).1.Status = "BLOCKED" ∧
    (Evaluate (regoReturns unknownStatus) 1000 (some sampleDB) "t1" "orders.list"
      none none).1.Reasons = Value.arr [Value.str "out_of_window"] ∧
    (Evaluate (regoReturns unknownStatus) 1000 (some sampleDB) "t1" "orders.list"
      none none).1.Reasons ≠ Value.arr [Value.str "policy_error"] ∧
    (Evaluate (regoReturns unknownStatus) 1000 (some sampleDB) "t1" "orders.list"
      none none).1.ExpiresAt = some (1000 + 15 * 60 * 1000000000) ∧
    (Evaluate (regoReturns unknownStatus) 1000 (some sampleDB) "t1" "orders.list"
      none none).1.ExpiresAt ≠ some (1000 + 5 * 60 * 1000000000) ∧
    (Evaluate (regoReturns nonObjectResult) 1000 (some sampleDB) "t1" "orders.list"
      none none).1.Status = "ALLOW" ∧
    (Evaluate (regoReturns nonObjectResult) 1000 (some sampleDB) "t1" "orders.list"
      none none).1.Reasons = Value.null ∧
    (Evaluate (regoReturns nonObjectResult) 1000 (some sampleDB) "t1" "orders.list"
      none none).1.ExpiresAt = some (1000 + 15 * 60 * 1000000000) := by
  have hE := evaluate_object (regoReturns unknownStatus) 1000 (some sampleDB) "t1"
    "orders.list" none none
    [("status", Value.str "MAYBE"), ("reasons", Value.arr [Value.str "out_of_window"])]
    [] [] (by decide) rfl
  have hN := evaluate_non_object (regoReturns nonObjectResult) 1000 (some sampleDB) "t1"
    "orders.list" none none (Value.str "deny") [] [] (by decide) rfl
    (fun m h => by cases h)
  rw [hE, hN]
  refine ⟨by decide, rfl, ?_, by decide, by decide, by decide, rfl, by decide⟩
  simp [mapGet, List.lookup]

/-- C5, amended: whenever the result of the policy module is an object whose status is
not one of the strings ALLOW, ALLOW_WITH_CONDITIONS, NEEDS_INPUT (so BLOCKED, any other
string, a non-string or no status at all), `Evaluate` returns a decision with status
BLOCKED; its reasons, needs and alternatives are those of the object, and its
`expires_at` is `now + 15 minutes` unless `ttl_seconds` is a positive number. Whenever
the result is not an object at all, `Evaluate` returns a decision with status ALLOW,
without reasons, needs or alternatives, and with `expires_at` equal to
`now + 15 minutes`. -/
theorem evaluate_unrecognised_status_blocked (rego : RegoEval) (now : Time)
    (pool : Option DB) (tenantID actionKey : String) (inputs facts : GoMap) (out : Value)
    (tl : List Value) (rest : ResultSet)
    (hmod : (loadPolicy pool tenantID actionKey).1 ≠ "")
    (hr : rego (loadPolicy pool tenantID actionKey).1 (regoInput inputs facts) =
      Except.ok ((out :: tl) :: rest)) :
    (∀ m, out = Value.obj m →
      (∀ s, mapGet m "status" = Value.str s →
        s ≠ "ALLOW" ∧ s ≠ "ALLOW_WITH_CONDITIONS" ∧ s ≠ "NEEDS_INPUT") →
      (Evaluate rego now pool tenantID actionKey inputs facts).1.Status = "BLOCKED" ∧
      (Evaluate rego now pool tenantID actionKey inputs facts).1.Reasons =
        mapGet m "reasons" ∧
      (Evaluate rego now pool tenantID actionKey inputs facts).1.Needs =
        mapGet m "needs" ∧
      (Evaluate rego now pool tenantID actionKey inputs facts).1.Alternatives =
        mapGet m "alternatives" ∧
      ((∀ ttl, mapGet m "ttl_seconds" = Value.float64 ttl → ttl.isPos = false) →
        (Evaluate rego now pool tenantID actionKey inputs facts).1.ExpiresAt =
          some (now + 15 * 60 * 1000000000))) ∧
    ((∀ m, out ≠ Value.obj m) →
      (Evaluate rego now pool tenantID actionKey inputs facts).1.Status = "ALLOW" ∧
      (Evaluate rego now pool tenantID actionKey inputs facts).1.Reasons = Value.null ∧
      (Evaluate rego now pool tenantID actionKey inputs facts).1.Needs = Value.null ∧
      (Evaluate rego now pool tenantID actionKey inputs facts).1.Alternatives =
        Value.null ∧
      (Evaluate rego now pool tenantID actionKey inputs facts).1.ExpiresAt =
        some (now + 15 * 60 * 1000000000)) := by
  have h15 : now + 15 * Minute = now + 15 * 60 * 1000000000 := by
    simp only [Minute, Second]; norm_num
  constructor
  · intro m hm hs
    subst hm
    rw [evaluate_object rego now pool tenantID actionKey inputs facts m tl rest hmod hr]
    refine ⟨?_, rfl, rfl, rfl, ?_⟩
    · show (match mapGet m "status" with
        | Value.str s =>
          if s = "ALLOW" then Allow
          else if s = "ALLOW_WITH_CONDITIONS" then AllowWithConditions
          else if s = "NEEDS_INPUT" then NeedsInput
          else Blocked
        | _ => Blocked) = "BLOCKED"
      cases hst : mapGet m "status" with
      | str s =>
        obtain ⟨h1, h2, h3⟩ := hs s hst
        simp only [h1, h2, h3, if_false]; rfl
      | _ => rfl
    · intro httl
      show some (match mapGet m "ttl_seconds" with
        | Value.float64 ttl =>
          if ttl.isPos then now + wrapInt64 (ttl.toInt64 * Second) else now + 15 * Minute
        | _ => now + 15 * Minute) = some (now + 15 * 60 * 1000000000)
      cases ht : mapGet m "ttl_seconds" with
      | float64 ttl => simp [httl ttl ht, h15]
      | _ => simp [h15]
  · intro hout
    rw [evaluate_non_object rego now pool tenantID actionKey inputs facts out tl rest hmod
      hr hout]
    exact ⟨rfl, rfl, rfl, rfl, congrArg some h15⟩

/-- Witness of `evaluate_unrecognised_status_blocked`: the status `"MAYBE"` is blocked,
and the result `"deny"`, no object, is allowed. -/
theorem evaluate_unrecognised_status_blocked_witness :
    (Evaluate (regoReturns unknownStatus) 1000 (some sampleDB) "t1" "orders.list"
      none none).1.Status = "BLOCKED" ∧
    (Evaluate (regoReturns nonObjectResult) 1000 (some sampleDB) "t1" "orders.list"
      none none).1.Status = "ALLOW" :=
  ⟨((evaluate_unrecognised_status_blocked (regoReturns unknownStatus) 1000
      (some sampleDB) "t1" "orders.list" none none unknownStatus [] [] (by decide) rfl).1
      [("status", Value.str "MAYBE"), ("reasons", Value.arr [Value.str "out_of_window"])]
      rfl
      (by
        intro s hs
        have : s = "MAYBE" := by
          simpa [mapGet, List.lookup] using hs.symm
        subst this
        decide)).1,
    ((evaluate_unrecognised_status_blocked (regoReturns nonObjectResult) 1000
      (some sampleDB) "t1" "orders.list" none none nonObjectResult [] [] (by decide) rfl).2
      (fun m h => by cases h)).1⟩

/-! ## Decimal digits -/

/-- A decimal digit character denotes its digit. -/
theorem hexDigit_toNat_sub (d : Nat) (h : d < 10) : (hexDigit d).toNat - 48 = d := by
  interval_cases d <;> rfl

/-- Appending one digit multiplies by ten and adds it. -/
theorem digitsToNat_append_single (l : List Nat) (d : Nat) :
    Float64.digitsToNat (l ++ [d]) = Float64.digitsToNat l * 10 + d := by
  simp [Float64.digitsToNat, List.foldl_append]

/-- The digits written for a number denote it, given enough fuel. -/
theorem digitsToNat_decDigits (fuel n : Nat) (h : n < fuel) :
    Float64.digitsToNat ((decDigits fuel n).map (fun c => c.toNat - 48)) = n := by
  induction fuel generalizing n with
  | zero => omega
  | succ fuel ih =>
    unfold decDigits
    split_ifs with h10
    · simp [Float64.digitsToNat, hexDigit_toNat_sub n h10]
    · rw [List.map_append, List.map_cons, List.map_nil, digitsToNat_append_single,
        ih (n / 10) (by omega), hexDigit_toNat_sub (n % 10) (by omega)]
      omega

/-- Trailing zeros stripped from a digit list and written back give the list. -/
theorem strip_trailing_zeros_append (l : List Nat) :
    (l.reverse.dropWhile (· = 0)).reverse ++
      List.replicate (l.length - (l.reverse.dropWhile (· = 0)).reverse.length) 0 = l := by
  have key : ∀ r : List Nat,
      List.replicate (r.length - (r.dropWhile (· = 0)).length) 0 ++ r.dropWhile (· = 0) =
        r := by
    intro r
    induction r with
    | nil => rfl
    | cons a r ih =>
      by_cases ha : a = 0
      · subst ha
        have hle : (r.dropWhile (· = 0)).length ≤ r.length :=
          (List.dropWhile_sublist _).length_le
        simp only [List.dropWhile_cons, decide_True, if_true, List.length_cons]
        rw [show r.length + 1 - (List.dropWhile (fun x => decide (x = 0)) r).length =
          (r.length - (List.dropWhile (fun x => decide (x = 0)) r).length) + 1 by omega]
        rw [List.replicate_succ, List.cons_append, ih]
      · simp [List.dropWhile_cons, ha]
  have h := congrArg List.reverse (key l.reverse)
  simp only [List.reverse_append, List.reverse_reverse, List.reverse_replicate,
    List.length_reverse] at h
  simpa using h

/-- The integer part of the numeral of a natural number is that number. -/
theorem trunc_ofNat (n : Nat) : (Float64.ofNat n).trunc = (n : Int) := by
  unfold Float64.ofNat
  by_cases h0 : n = 0
  · subst h0; rfl
  · simp only [h0, if_false, Float64.trunc]
    have hlen : ∀ l : List Nat, (l.reverse.dropWhile (· = 0)).reverse.length ≤ l.length := by
      intro l
      rw [List.length_reverse]
      exact le_trans (List.dropWhile_sublist _).length_le (by simp)
    set ds := (natToDec n).map (fun c => c.toNat - 48) with hds
    have htake : List.take (ds.length : Int).toNat (ds.reverse.dropWhile (· = 0)).reverse =
        (ds.reverse.dropWhile (· = 0)).reverse := by
      apply List.take_of_length_le
      simpa using hlen ds
    rw [htake]
    have hcast : ((ds.length : Int).toNat) = ds.length := by simp
    rw [hcast, strip_trailing_zeros_append ds, hds, natToDec,
      digitsToNat_decDigits (n + 1) n (by omega)]
    simp

/-- A positive numeral has a non-negative integer part. -/
theorem trunc_nonneg_of_isPos (x : Float64) (h : x.isPos = true) : 0 ≤ x.trunc := by
  have hneg : x.neg = false := by
    cases hn : x.neg with
    | false => rfl
    | true => simp [Float64.isPos, hn] at h
  simp only [Float64.trunc, hneg]
  exact Int.ofNat_nonneg _

/-- An integer within the range of `int64` is left unchanged by wrap-around. -/
theorem wrapInt64_of_range (z : Int) (h0 : 0 ≤ z) (h1 : z < 9223372036854775808) :
    wrapInt64 z = z := by
  unfold wrapInt64
  omega

/-- C9 as stated fails: for `ttl_seconds = 1.5` the decision expires one second after
`now`, not one and a half. -/
theorem evaluate_fractional_ttl_truncated :
    (Evaluate (regoReturns fractionalTTL) 1000 (some sampleDB) "t1" "orders.list"
      none none).1.ExpiresAt = some (1000 + 1000000000) ∧
    (Evaluate (regoReturns fractionalTTL) 1000 (some sampleDB) "t1" "orders.list"
      none none).1.ExpiresAt ≠ some (1000 + 1500000000) := by
  refine ⟨by decide, by decide⟩

/-- C9, amended: for every object returned by the policy module, `expires_at` is `now`
plus the whole seconds of `ttl_seconds` (its fraction is dropped) when `ttl_seconds` is a
positive number whose whole seconds, in nanoseconds, fit an `int64`; in particular it is
`now + n` seconds for a whole number `n` of seconds; and it is `now + 15 minutes` when
`ttl_seconds` is absent, not a number, zero or negative. -/
theorem evaluate_ttl_whole_seconds (rego : RegoEval) (now : Time) (pool : Option DB)
    (tenantID actionKey : String) (inputs facts : GoMap) (m : JMap)
    (tl : List Value) (rest : ResultSet)
    (hmod : (loadPolicy pool tenantID actionKey).1 ≠ "")
    (hr : rego (loadPolicy pool tenantID actionKey).1 (regoInput inputs facts) =
      Except.ok ((Value.obj m :: tl) :: rest)) :
    (∀ ttl, mapGet m "ttl_seconds" = Value.float64 ttl → ttl.isPos = true →
      ttl.trunc * 1000000000 < 9223372036854775808 →
      (Evaluate rego now pool tenantID actionKey inputs facts).1.ExpiresAt =
        some (now + ttl.trunc * 1000000000)) ∧
    (∀ n : Nat, mapGet m "ttl_seconds" = Value.float64 (Float64.ofNat n) → 0 < n →
      (n : Int) * 1000000000 < 9223372036854775808 →
      (Evaluate rego now pool tenantID actionKey inputs facts).1.ExpiresAt =
        some (now + (n : Int) * 1000000000)) ∧
    ((∀ ttl, mapGet m "ttl_seconds" = Value.float64 ttl → ttl.isPos = false) →
      (Evaluate rego now pool tenantID actionKey inputs facts).1.ExpiresAt =
        some (now + 15 * 60 * 1000000000)) := by
  have h15 : now + 15 * Minute = now + 15 * 60 * 1000000000 := by
    simp only [Minute, Second]; norm_num
  have hE := evaluate_object rego now pool tenantID actionKey inputs facts m tl rest hmod hr
  have hpos : ∀ ttl, mapGet m "ttl_seconds" = Value.float64 ttl → ttl.isPos = true →
      ttl.trunc * 1000000000 < 9223372036854775808 →
      (Evaluate rego now pool tenantID actionKey inputs facts).1.ExpiresAt =
        some (now + ttl.trunc * 1000000000) := by
    intro ttl ht hp hfit
    have h0 : 0 ≤ ttl.trunc := trunc_nonneg_of_isPos ttl hp
    have hto : ttl.toInt64 = ttl.trunc := by
      unfold Float64.toInt64
      have : -9223372036854775808 ≤ ttl.trunc ∧ ttl.trunc < 9223372036854775808 := by
        constructor <;> omega
      simp only [this, and_self, if_true]
    rw [hE]
    simp only [ht, hp, if_true, hto, Second]
    rw [wrapInt64_of_range _ (by omega) hfit]
  refine ⟨hpos, ?_, ?_⟩
  · intro n ht hn hfit
    have hp : (Float64.ofNat n).isPos = true := by
      by_contra hnp
      have htr := trunc_ofNat n
      -- a numeral without a non-zero digit has integer part zero
      have : (Float64.ofNat n).trunc = 0 := by
        have hneg : (Float64.ofNat n).neg = false := by
          unfold Float64.ofNat; split_ifs <;> rfl
        have hall : ∀ d ∈ (Float64.ofNat n).digits, d = 0 := by
          intro d hd
          by_contra hd0
          apply hnp
          simp only [Float64.isPos, hneg, Bool.not_false, Bool.true_and, List.any_eq_true]
          exact ⟨d, hd, by simpa using hd0⟩
        simp only [Float64.trunc, hneg]
        have hzero : ∀ l : List Nat, (∀ d ∈ l, d = 0) → Float64.digitsToNat l = 0 := by
          intro l
          induction l using List.reverseRecOn with
          | nil => intro _; rfl
          | append_singleton l a ih =>
            intro hl
            rw [digitsToNat_append_single, ih (fun d hd => hl d (by simp [hd])),
              hl a (by simp)]
        rw [hzero]
        · rfl
        · intro d hd
          rcases List.mem_append.mp hd with h1 | h1
          · exact hall d (List.mem_of_mem_take h1)
          · exact (List.eq_of_mem_replicate h1)
      rw [htr] at this
      omega
    have := hpos (Float64.ofNat n) ht hp (by rw [trunc_ofNat]; exact hfit)
    rw [this, trunc_ofNat]
  · intro httl
    rw [hE]
    show some (match mapGet m "ttl_seconds" with
      | Value.float64 ttl =>
        if ttl.isPos then now + wrapInt64 (ttl.toInt64 * Second) else now + 15 * Minute
      | _ => now + 15 * Minute) = some (now + 15 * 60 * 1000000000)
    cases ht : mapGet m "ttl_seconds" with
    | float64 ttl => simp [httl ttl ht, h15]
    | _ => simp [h15]

/-- Witness of `evaluate_ttl_whole_seconds`: `ttl_seconds = 600` gives `now + 600 s`. -/
theorem evaluate_ttl_whole_seconds_witness :
    (Evaluate (regoReturns tenMinuteTTL) 1000 (some sampleDB) "t1" "orders.list"
      none none).1.ExpiresAt = some (1000 + ((600 : Nat) : Int) * 1000000000) :=
  (evaluate_ttl_whole_seconds (regoReturns tenMinuteTTL) 1000 (some sampleDB) "t1"
    "orders.list" none none
    [("status", Value.str "ALLOW"), ("ttl_seconds", Value.float64 (Float64.ofNat 600))]
    [] [] (by decide) rfl).2.1 600 rfl (by decide) (by decide)

/-! ## The pre-image of the binding hash -/

/-- The encoding of an ASCII character is the single byte of its code. -/
theorem utf8EncodeChar_ascii (c : Char) (h : c.toNat < 128) :
    String.utf8EncodeChar c = [UInt8.ofNat c.toNat] := by
  have hv : c.val ≤ 127 := by
    show c.val.toNat ≤ 127
    have : c.val.toNat = c.toNat := rfl
    omega
  unfold String.utf8EncodeChar
  simp only [hv, if_true]
  rfl

/-- The byte of an ASCII code denotes that code. -/
theorem toNat_ofNat_ascii (n : Nat) (h : n < 128) : (UInt8.ofNat n).toNat = n := by
  show (BitVec.ofNat 8 n).toNat = n
  simp only [BitVec.toNat_ofNat]
  omega

/-- Two ASCII texts with the same bytes are the same text. -/
theorem utf8Bytes_ascii_inj (l₁ l₂ : List Char) (h₁ : ∀ c ∈ l₁, c.toNat < 128)
    (h₂ : ∀ c ∈ l₂, c.toNat < 128) (h : utf8Bytes l₁ = utf8Bytes l₂) : l₁ = l₂ := by
  induction l₁ generalizing l₂ with
  | nil =>
    cases l₂ with
    | nil => rfl
    | cons d l₂ =>
      simp [utf8Bytes, utf8EncodeChar_ascii d (h₂ d (by simp))] at h
  | cons c l₁ ih =>
    cases l₂ with
    | nil => simp [utf8Bytes, utf8EncodeChar_ascii c (h₁ c (by simp))] at h
    | cons d l₂ =>
      have hc := h₁ c (by simp)
      have hd := h₂ d (by simp)
      simp only [utf8Bytes, List.flatMap_cons, utf8EncodeChar_ascii c hc,
        utf8EncodeChar_ascii d hd, List.singleton_append, List.cons.injEq] at h
      obtain ⟨hhead, htail⟩ := h
      have hn : c.toNat = d.toNat := by
        have := congrArg UInt8.toNat hhead
        rwa [toNat_ofNat_ascii _ hc, toNat_ofNat_ascii _ hd] at this
      have hcd : c = d := Char.ext (UInt32.ext hn)
      rw [hcd, ih l₂ (fun x hx => h₁ x (by simp [hx])) (fun x hx => h₂ x (by simp [hx])) htail]

/-- A hexadecimal digit is an ASCII character other than `|` and `-`. -/
theorem hexDigit_props (n : Nat) :
    (hexDigit n).toNat < 128 ∧ hexDigit n ≠ '|' ∧ hexDigit n ≠ '-' := by
  unfold hexDigit
  split <;> decide

/-- Distinct nibbles have distinct digits. -/
theorem hexDigit_inj (a b : Nat) (ha : a < 16) (hb : b < 16)
    (h : hexDigit a = hexDigit b) : a = b := by
  interval_cases a <;> interval_cases b <;> first | rfl | (exact absurd h (by decide))

/-- Distinct bytes have distinct hexadecimal texts. -/
theorem hexByte_inj (a b : UInt8) (h : hexByte a = hexByte b) : a = b := by
  simp only [hexByte, List.cons.injEq, and_true] at h
  have ha := UInt8.toNat_lt a
  have hb := UInt8.toNat_lt b
  have h1 := hexDigit_inj _ _ (by omega) (by omega) h.1
  have h2 := hexDigit_inj _ _ (by omega) (by omega) h.2
  exact UInt8.ext (by omega)

/-- The hexadecimal text determines the byte slice. -/
theorem hexEncode_inj (a b : List UInt8) (h : hexEncode a = hexEncode b) : a = b := by
  induction a generalizing b with
  | nil =>
    cases b with
    | nil => rfl
    | cons y b => simp [hexEncode, hexByte] at h
  | cons x a ih =>
    cases b with
    | nil => simp [hexEncode, hexByte] at h
    | cons y b =>
      simp only [hexEncode, hexByte, List.cons_append, List.nil_append,
        List.cons.injEq] at h
      obtain ⟨h1, h2, h3⟩ := h
      have hxy : x = y := hexByte_inj x y (by simp [hexByte, h1, h2])
      rw [hxy, ih b h3]

/-- A hexadecimal text is ASCII and holds no `|`. -/
theorem hexEncode_chars (a : List UInt8) :
    ∀ c ∈ hexEncode a, c.toNat < 128 ∧ c ≠ '|' := by
  induction a with
  | nil => intro c hc; simp [hexEncode] at hc
  | cons x a ih =>
    intro c hc
    simp only [hexEncode, hexByte, List.cons_append, List.nil_append,
      List.mem_cons] at hc
    rcases hc with h | h | h
    · rw [h]; exact ⟨(hexDigit_props _).1, (hexDigit_props _).2.1⟩
    · rw [h]; exact ⟨(hexDigit_props _).1, (hexDigit_props _).2.1⟩
    · exact ih c h

/-- Two texts that agree up to the first separator agree before and after it. -/
theorem split_at_separator (sep : Char) (l₁ l₂ r₁ r₂ : List Char)
    (h₁ : ∀ c ∈ l₁, c ≠ sep) (h₂ : ∀ c ∈ l₂, c ≠ sep)
    (h : l₁ ++ sep :: r₁ = l₂ ++ sep :: r₂) : l₁ = l₂ ∧ r₁ = r₂ := by
  induction l₁ generalizing l₂ with
  | nil =>
    cases l₂ with
    | nil => simpa using h
    | cons d l₂ =>
      simp only [List.nil_append, List.cons_append, List.cons.injEq] at h
      exact absurd h.1.symm (h₂ d (by simp))
  | cons c l₁ ih =>
    cases l₂ with
    | nil =>
      simp only [List.nil_append, List.cons_append, List.cons.injEq] at h
      exact absurd h.1 (h₁ c (by simp))
    | cons d l₂ =>
      simp only [List.cons_append, List.cons.injEq] at h
      obtain ⟨hcd, ht⟩ := h
      obtain ⟨hl, hr⟩ := ih l₂ (fun x hx => h₁ x (by simp [hx]))
        (fun x hx => h₂ x (by simp [hx])) ht
      exact ⟨by rw [hcd, hl], hr⟩

/-- The decimal digits of a number are ASCII characters other than `-`. -/
theorem decDigits_chars (fuel n : Nat) :
    ∀ c ∈ decDigits fuel n, c.toNat < 128 ∧ c ≠ '-' := by
  induction fuel generalizing n with
  | zero => intro c hc; simp [decDigits] at hc
  | succ fuel ih =>
    intro c hc
    unfold decDigits at hc
    split_ifs at hc
    · rw [List.mem_singleton.mp hc]
      exact ⟨(hexDigit_props _).1, (hexDigit_props _).2.2⟩
    · rcases List.mem_append.mp hc with h | h
      · exact ih _ c h
      · rw [List.mem_singleton.mp h]
        exact ⟨(hexDigit_props _).1, (hexDigit_props _).2.2⟩

/-- The decimal text determines the natural number. -/
theorem natToDec_inj (a b : Nat) (h : natToDec a = natToDec b) : a = b := by
  have ha := digitsToNat_decDigits (a + 1) a (by omega)
  have hb := digitsToNat_decDigits (b + 1) b (by omega)
  unfold natToDec at h
  rw [h] at ha
  omega

/-- The decimal text determines the integer. -/
theorem intToDec_inj (a b : Int) (h : intToDec a = intToDec b) : a = b := by
  cases a with
  | ofNat m =>
    cases b with
    | ofNat n => simp only [intToDec] at h; rw [natToDec_inj m n h]
    | negSucc n =>
      simp only [intToDec] at h
      have := (decDigits_chars (m + 1) m '-' (by
        show '-' ∈ natToDec m
        rw [h]; simp)).2
      exact absurd rfl this
  | negSucc m =>
    cases b with
    | ofNat n =>
      simp only [intToDec] at h
      have := (decDigits_chars (n + 1) n '-' (by
        show '-' ∈ natToDec n
        rw [← h]; simp)).2
      exact absurd rfl this
    | negSucc n =>
      simp only [intToDec, List.cons.injEq, true_and] at h
      have := natToDec_inj _ _ h
      have hmn : m = n := by omega
      rw [hmn]

/-- The decimal text of an integer is ASCII. -/
theorem intToDec_ascii (v : Int) : ∀ c ∈ intToDec v, c.toNat < 128 := by
  intro c hc
  cases v with
  | ofNat m => exact (decDigits_chars _ _ c hc).1
  | negSucc m =>
    simp only [intToDec, List.mem_cons] at hc
    rcases hc with h | h
    · rw [h]; decide
    · exact (decDigits_chars _ _ c h).1

/-- The pre-image text `"%x|%x|%d"` is ASCII. -/
theorem sprintfBinding_ascii (a b : List UInt8) (v : Int) :
    ∀ c ∈ sprintfBinding a b v, c.toNat < 128 := by
  intro c hc
  simp only [sprintfBinding, List.mem_append, List.mem_cons] at hc
  rcases hc with h | h | h | h | h
  · exact (hexEncode_chars a c h).1
  · rw [h]; decide
  · exact (hexEncode_chars b c h).1
  · rw [h]; decide
  · exact intToDec_ascii v c h

/-- The pre-image text `"%x|%x|%d"` determines its three components. -/
theorem sprintfBinding_inj (a b a₁ b₁ : List UInt8) (v v₁ : Int)
    (h : sprintfBinding a b v = sprintfBinding a₁ b₁ v₁) : a = a₁ ∧ b = b₁ ∧ v = v₁ := by
  unfold sprintfBinding at h
  obtain ⟨ha, hrest⟩ := split_at_separator '|' _ _ _ _
    (fun c hc => (hexEncode_chars a c hc).2) (fun c hc => (hexEncode_chars a₁ c hc).2) h
  obtain ⟨hb, hv⟩ := split_at_separator '|' _ _ _ _
    (fun c hc => (hexEncode_chars b c hc).2) (fun c hc => (hexEncode_chars b₁ c hc).2) hrest
  exact ⟨hexEncode_inj _ _ ha, hexEncode_inj _ _ hb, intToDec_inj _ _ hv⟩

/-- The bytes hashed for a binding determine inputs bytes, facts bytes and version. -/
theorem binding_bytes_inj (a b a₁ b₁ : List UInt8) (v v₁ : Int)
    (h : utf8Bytes (sprintfBinding a b v) = utf8Bytes (sprintfBinding a₁ b₁ v₁)) :
    a = a₁ ∧ b = b₁ ∧ v = v₁ :=
  sprintfBinding_inj a b a₁ b₁ v v₁
    (utf8Bytes_ascii_inj _ _ (sprintfBinding_ascii a b v) (sprintfBinding_ascii a₁ b₁ v₁) h)

/-- A digest in hexadecimal is never the empty string. -/
theorem digest_hex_ne_empty (data : List UInt8) :
    String.mk (hexEncode (sha256Sum256 data)) ≠ "" := by
  intro h
  have h2 : hexEncode (sha256Sum256 data) = [] := by
    have := congrArg String.data h
    simpa using this
  simp [sha256Sum256, Sha256.digest, Sha256.wordBytes, hexEncode, hexByte] at h2

/-- The hash `ValidateAndBindDecision` and `PersistDecision` compute is the binding
hash of the specification. -/
theorem calc_eq_bindingHash (inputs facts : GoMap) (ver : Int) :
    String.mk (hexEncode (sha256Sum256 (utf8Bytes (sprintfBinding
      (mustJSON inputs.toValue) (mustJSON facts.toValue) ver)))) =
      bindingHash inputs facts ver := by
  simp [bindingHash, sprintfBinding]

/-! ## ValidateAndBindDecision -/

/-- The checks of `ValidateAndBindDecision` on the row found, in their order. -/
theorem validateAndBind_found (env : Env) (facts : FactsEngine) (now : Time) (db : DB)
    (tenantID decisionID actionKey : String) (inputs : GoMap) (row : DecisionRow)
    (hrow : findDecision db tenantID decisionID = some row) :
    ValidateAndBindDecision env facts now (some db) tenantID decisionID actionKey inputs =
      if row.action_key ≠ actionKey then
        (false, some (problem (problemsType env "decision-mismatch") "Decision mismatch"
          "The decision_id does not match this action"))
      else if row.status ≠ "ALLOW" ∧ row.status ≠ "ALLOW_WITH_CONDITIONS" then
        (false, some (problem (problemsType env "decision-blocked") "Decision is blocked"
          "The decision is not allowed for execution"))
      else if ∃ e, row.expires_at = some e ∧ e < now then
        (false, some (problem (problemsType env "decision-expired") "Decision expired"
          "The decision has expired; call eligibility again"))
      else if row.hash ≠ "" ∧ row.hash ≠
          bindingHash inputs (facts tenantID actionKey inputs).1 row.policy_version then
        (false, some (problem (problemsType env "decision-mismatch") "Decision mismatch"
          "Inputs or facts changed; please re-run eligibility"))
      else (true, none) := by
  unfold ValidateAndBindDecision
  simp only [hrow, calc_eq_bindingHash, Allow, AllowWithConditions]
  have hexp : (match row.expires_at with
      | some e => decide (e < now)
      | none => false) = true ↔ ∃ e, row.expires_at = some e ∧ e < now := by
    cases row.expires_at with
    | none => simp
    | some e => simp
  by_cases h1 : row.action_key = actionKey
  · by_cases h2 : row.status ≠ "ALLOW" ∧ row.status ≠ "ALLOW_WITH_CONDITIONS"
    · simp [h1, h2]
    · by_cases h3 : ∃ e, row.expires_at = some e ∧ e < now
      · have h3' := hexp.mpr h3
        simp only [ne_eq, h1, not_true_eq_false, if_false, h2, h3', h3, if_true]
      · have h3' : ¬ ((match row.expires_at with
            | some e => decide (e < now)
            | none => false) = true) := fun h => h3 (hexp.mp h)
        simp only [ne_eq, h1, not_true_eq_false, if_false, h2, h3', h3]
        simp
  · simp [h1]

/-- C1 as stated fails: at the very instant `expires_at` (so `now < expires_at` is
false) a stored ALLOW decision of the requested action, whose hash is the recomputed
one, is still accepted. -/
theorem validate_accepts_at_expiry_instant :
    findDecision (storeWith allowedDecision) "t1" "d1" =
      some (persistedRow "d1" "t1" allowedDecision) ∧
    (persistedRow "d1" "t1" allowedDecision).status = "ALLOW" ∧
    (persistedRow "d1" "t1" allowedDecision).action_key = "orders.list" ∧
    (persistedRow "d1" "t1" allowedDecision).expires_at = some 1000 ∧
    (persistedRow "d1" "t1" allowedDecision).hash =
      bindingHash (some []) (noMappings "t1" "orders.list" (some [])).1
        (persistedRow "d1" "t1" allowedDecision).policy_version ∧
    ¬ ((1000 : Time) < 1000) ∧
    ValidateAndBindDecision sampleEnv noMappings 1000 (some (storeWith allowedDecision))
      "t1" "d1" "orders.list" (some []) = (true, none) := by
  refine ⟨rfl, rfl, rfl, rfl, ?_, by decide, ?_⟩
  · exact calc_eq_bindingHash _ _ _
  · rw [validateAndBind_found sampleEnv noMappings 1000 (storeWith allowedDecision) "t1"
      "d1" "orders.list" (some []) (persistedRow "d1" "t1" allowedDecision) rfl]
    have hh : (persistedRow "d1" "t1" allowedDecision).hash =
        bindingHash (some []) (noMappings "t1" "orders.list" (some [])).1
          (persistedRow "d1" "t1" allowedDecision).policy_version :=
      calc_eq_bindingHash _ _ _
    have h1 : (persistedRow "d1" "t1" allowedDecision).action_key = "orders.list" := rfl
    have h2 : (persistedRow "d1" "t1" allowedDecision).status = "ALLOW" := rfl
    have h3 : (persistedRow "d1" "t1" allowedDecision).expires_at = some 1000 := rfl
    simp [h1, h2, h3, hh]

/-- C1, amended: for every stored decision row, request action key, request inputs and
current time, `ValidateAndBindDecision` returns ok if and only if the stored status is
ALLOW or ALLOW_WITH_CONDITIONS, and `expires_at` is absent or not before `now`, and the
stored action key equals the request action key, and the stored hash is empty or equals
the hash recomputed from the request inputs, the facts resolved now, and the stored
policy version; and then it returns no problem. -/
theorem validateAndBind_ok_iff (env : Env) (facts : FactsEngine) (now : Time) (db : DB)
    (tenantID decisionID actionKey : String) (inputs : GoMap) (row : DecisionRow)
    (hrow : findDecision db tenantID decisionID = some row) :
    ((ValidateAndBindDecision env facts now (some db) tenantID decisionID actionKey
        inputs).1 = true ↔
      (row.status = "ALLOW" ∨ row.status = "ALLOW_WITH_CONDITIONS") ∧
      (∀ e, row.expires_at = some e → now ≤ e) ∧
      row.action_key = actionKey ∧
      (row.hash = "" ∨ row.hash =
        bindingHash inputs (facts tenantID actionKey inputs).1 row.policy_version)) ∧
    ((ValidateAndBindDecision env facts now (some db) tenantID decisionID actionKey
        inputs).1 = true →
      (ValidateAndBindDecision env facts now (some db) tenantID decisionID actionKey
        inputs).2 = none) := by
  rw [validateAndBind_found env facts now db tenantID decisionID actionKey inputs row hrow]
  by_cases h1 : row.action_key = actionKey
  · by_cases h2 : row.status ≠ "ALLOW" ∧ row.status ≠ "ALLOW_WITH_CONDITIONS"
    · have h2' : ¬ (row.status = "ALLOW" ∨ row.status = "ALLOW_WITH_CONDITIONS") := by
        rintro (h | h)
        · exact h2.1 h
        · exact h2.2 h
      simp [h1, h2, h2']
    · have h2' : row.status = "ALLOW" ∨ row.status = "ALLOW_WITH_CONDITIONS" := by
        by_contra hc
        exact h2 ⟨fun h => hc (Or.inl h), fun h => hc (Or.inr h)⟩
      by_cases h3 : ∃ e, row.expires_at = some e ∧ e < now
      · have h3' : ¬ ∀ e, row.expires_at = some e → now ≤ e := by
          obtain ⟨e, he, hlt⟩ := h3
          intro hall
          exact absurd (hall e he) (not_le.mpr hlt)
        simp [h1, h2, h3, h3']
      · have h3' : ∀ e, row.expires_at = some e → now ≤ e := by
          intro e he
          by_contra hlt
          exact h3 ⟨e, he, not_le.mp hlt⟩
        by_cases h4 : row.hash ≠ "" ∧ row.hash ≠
            bindingHash inputs (facts tenantID actionKey inputs).1 row.policy_version
        · have h4' : ¬ (row.hash = "" ∨ row.hash =
              bindingHash inputs (facts tenantID actionKey inputs).1 row.policy_version) := by
            rintro (h | h)
            · exact h4.1 h
            · exact h4.2 h
          simp only [ne_eq, h1, not_true_eq_false, if_false, h2, h3, h4, if_true]
          simp [h4']
        · have h4' : row.hash = "" ∨ row.hash =
              bindingHash inputs (facts tenantID actionKey inputs).1 row.policy_version := by
            by_contra hc
            exact h4 ⟨fun h => hc (Or.inl h), fun h => hc (Or.inr h)⟩
          simp only [ne_eq, h1, not_true_eq_false, if_false, h2, h3, h4]
          simp only [h2', h4', h1, and_true, true_and, true_implies, implies_true]
          exact ⟨fun _ => h3', fun _ => trivial⟩
  · simp [h1]

/-- Witness of `validateAndBind_ok_iff`: the freshly stored decision, before expiry. -/
theorem validateAndBind_ok_iff_witness :
    findDecision (storeWith allowedDecision) "t1" "d1" =
      some (persistedRow "d1" "t1" allowedDecision) ∧
    ((ValidateAndBindDecision sampleEnv noMappings 500 (some (storeWith allowedDecision))
        "t1" "d1" "orders.list" (some [])).1 = true →
      (ValidateAndBindDecision sampleEnv noMappings 500 (some (storeWith allowedDecision))
        "t1" "d1" "orders.list" (some [])).2 = none) :=
  ⟨rfl, (validateAndBind_ok_iff sampleEnv noMappings 500 (storeWith allowedDecision) "t1"
    "d1" "orders.list" (some []) (persistedRow "d1" "t1" allowedDecision) rfl).2⟩

/-- C3 as stated fails: a stored BLOCKED decision validated strictly after its
`expires_at` is refused with a problem of type `decision-blocked`, not
`decision-expired`. -/
theorem validate_expired_blocked_row :
    findDecision (storeWith blockedDecision) "t1" "d1" =
      some (persistedRow "d1" "t1" blockedDecision) ∧
    (persistedRow "d1" "t1" blockedDecision).expires_at = some 1000 ∧
    (1000 : Time) < 2000 ∧
    ValidateAndBindDecision sampleEnv noMappings 2000 (some (storeWith blockedDecision))
      "t1" "d1" "orders.list" (some []) =
      (false, some (problem "https://example.com/problems/decision-blocked"
        "Decision is blocked" "The decision is not allowed for execution")) ∧
    problemsType sampleEnv "decision-expired" ≠
      "https://example.com/problems/decision-blocked" := by
  refine ⟨rfl, rfl, by decide, ?_, by decide⟩
  rw [validateAndBind_found sampleEnv noMappings 2000 (storeWith blockedDecision) "t1"
    "d1" "orders.list" (some []) (persistedRow "d1" "t1" blockedDecision) rfl]
  have h1 : (persistedRow "d1" "t1" blockedDecision).action_key = "orders.list" := rfl
  have h2 : (persistedRow "d1" "t1" blockedDecision).status = "BLOCKED" := rfl
  have h3 : problemsType sampleEnv "decision-blocked" =
      "https://example.com/problems/decision-blocked" := by decide
  simp only [h1, h2, h3]
  decide

/-- C3, amended: for every stored decision and every current time strictly after its
`expires_at`, `ValidateAndBindDecision` fails; the action check and the status check
come first, so the problem is of type `decision-mismatch` when the stored action key
differs from the requested one, of type `decision-blocked` when the action matches and
the status is no ALLOW variant, and of type `decision-expired` when the action matches
and the status is an ALLOW variant. -/
theorem validate_expired_fails (env : Env) (facts : FactsEngine) (now : Time) (db : DB)
    (tenantID decisionID actionKey : String) (inputs : GoMap) (row : DecisionRow)
    (e : Time) (hrow : findDecision db tenantID decisionID = some row)
    (he : row.expires_at = some e) (hlt : e < now) :
    (ValidateAndBindDecision env facts now (some db) tenantID decisionID actionKey
      inputs).1 = false ∧
    (row.action_key ≠ actionKey →
      (ValidateAndBindDecision env facts now (some db) tenantID decisionID actionKey
        inputs).2 = some (problem (problemsType env "decision-mismatch")
          "Decision mismatch" "The decision_id does not match this action")) ∧
    (row.action_key = actionKey →
      row.status ≠ "ALLOW" ∧ row.status ≠ "ALLOW_WITH_CONDITIONS" →
      (ValidateAndBindDecision env facts now (some db) tenantID decisionID actionKey
        inputs).2 = some (problem (problemsType env "decision-blocked")
          "Decision is blocked" "The decision is not allowed for execution")) ∧
    (row.action_key = actionKey →
      row.status = "ALLOW" ∨ row.status = "ALLOW_WITH_CONDITIONS" →
      (ValidateAndBindDecision env facts now (some db) tenantID decisionID actionKey
        inputs).2 = some (problem (problemsType env "decision-expired")
          "Decision expired" "The decision has expired; call eligibility again")) := by
  rw [validateAndBind_found env facts now db tenantID decisionID actionKey inputs row hrow]
  have h3 : ∃ e, row.expires_at = some e ∧ e < now := ⟨e, he, hlt⟩
  refine ⟨?_, ?_, ?_, ?_⟩
  · by_cases h1 : row.action_key = actionKey
    · by_cases h2 : row.status ≠ "ALLOW" ∧ row.status ≠ "ALLOW_WITH_CONDITIONS"
      · simp [h1, h2]
      · simp only [ne_eq, h1, not_true_eq_false, if_false, h2, h3, if_true]
    · simp [h1]
  · intro h1
    simp [h1]
  · intro h1 h2
    simp [h1, h2]
  · intro h1 h2
    have h2' : ¬ (row.status ≠ "ALLOW" ∧ row.status ≠ "ALLOW_WITH_CONDITIONS") := by
      rintro ⟨ha, hb⟩
      rcases h2 with h | h
      · exact ha h
      · exact hb h
    simp only [ne_eq, h1, not_true_eq_false, if_false, h2', h3, if_true]

/-- Witness of `validate_expired_fails`: the stored ALLOW decision, after its expiry. -/
theorem validate_expired_fails_witness :
    findDecision (storeWith allowedDecision) "t1" "d1" =
      some (persistedRow "d1" "t1" allowedDecision) ∧
    (persistedRow "d1" "t1" allowedDecision).expires_at = some 1000 ∧
    (1000 : Time) < 2000 ∧
    (ValidateAndBindDecision sampleEnv noMappings 2000 (some (storeWith allowedDecision))
      "t1" "d1" "orders.list" (some [])).2 =
      some (problem (problemsType sampleEnv "decision-expired") "Decision expired"
        "The decision has expired; call eligibility again") :=
  ⟨rfl, rfl, by decide,
    (validate_expired_fails sampleEnv noMappings 2000 (storeWith allowedDecision) "t1" "d1"
      "orders.list" (some []) (persistedRow "d1" "t1" allowedDecision) 1000 rfl rfl
      (by decide)).2.2.2 rfl (Or.inl rfl)⟩

/-- The row found under a fresh id right after `PersistDecision` stored it. -/
theorem findDecision_after_persist (db : DB) (tenantID newID : String) (d : Decision)
    (hfresh : findDecision db tenantID newID = none) :
    ∃ db₁, (PersistDecision newID (some db) tenantID d).2 = some db₁ ∧
      findDecision db₁ tenantID newID = some (persistedRow newID tenantID d) := by
  refine ⟨{ db with decisions := db.decisions ++ [persistedRow newID tenantID d] }, rfl, ?_⟩
  unfold findDecision at hfresh ⊢
  rw [List.find?_append, hfresh]
  simp [persistedRow]

/-- C2: a decision persisted by `PersistDecision` from `(inputs0, facts0, version)` under
a fresh id, that is an unexpired ALLOW variant for the requested action, is refused
with a problem of type `decision-mismatch` whenever the inputs supplied at execute, or
the facts now resolved from them, serialise to JSON differently from those persisted,
SHA-256 being taken as free of a collision between the two pre-images. -/
theorem validate_rejects_changed_binding (env : Env) (facts : FactsEngine) (now : Time)
    (db : DB) (tenantID newID actionKey : String) (d : Decision) (inputs₁ : GoMap)
    (hfresh : findDecision db tenantID newID = none)
    (hstatus : d.Status = "ALLOW" ∨ d.Status = "ALLOW_WITH_CONDITIONS")
    (hexp : ∀ e, d.ExpiresAt = some e → now ≤ e)
    (hact : d.ActionKey = actionKey)
    (hdiff : mustJSON (facts tenantID actionKey inputs₁).1.toValue ≠
        mustJSON d.Facts.toValue ∨
      mustJSON inputs₁.toValue ≠ mustJSON d.Inputs.toValue)
    (hfree : sha256Sum256 (utf8Bytes (sprintfBinding (mustJSON inputs₁.toValue)
        (mustJSON (facts tenantID actionKey inputs₁).1.toValue) d.PolicyVersion)) =
      sha256Sum256 (utf8Bytes (sprintfBinding (mustJSON d.Inputs.toValue)
        (mustJSON d.Facts.toValue) d.PolicyVersion)) →
      utf8Bytes (sprintfBinding (mustJSON inputs₁.toValue)
        (mustJSON (facts tenantID actionKey inputs₁).1.toValue) d.PolicyVersion) =
      utf8Bytes (sprintfBinding (mustJSON d.Inputs.toValue)
        (mustJSON d.Facts.toValue) d.PolicyVersion)) :
    ValidateAndBindDecision env facts now (PersistDecision newID (some db) tenantID d).2
      tenantID newID actionKey inputs₁ =
      (false, some (problem (problemsType env "decision-mismatch") "Decision mismatch"
        "Inputs or facts changed; please re-run eligibility")) := by
  obtain ⟨db₁, hdb, hfind⟩ := findDecision_after_persist db tenantID newID d hfresh
  rw [hdb, validateAndBind_found env facts now db₁ tenantID newID actionKey inputs₁
    (persistedRow newID tenantID d) hfind]
  have h1 : (persistedRow newID tenantID d).action_key = actionKey := hact
  have h2 : ¬ ((persistedRow newID tenantID d).status ≠ "ALLOW" ∧
      (persistedRow newID tenantID d).status ≠ "ALLOW_WITH_CONDITIONS") := by
    rintro ⟨ha, hb⟩
    rcases hstatus with h | h
    · exact ha h
    · exact hb h
  have h3 : ¬ ∃ e, (persistedRow newID tenantID d).expires_at = some e ∧ e < now := by
    rintro ⟨e, he, hlt⟩
    exact absurd (hexp e he) (not_le.mpr hlt)
  have hne : (persistedRow newID tenantID d).hash ≠ "" := digest_hex_ne_empty _
  have hmis : (persistedRow newID tenantID d).hash ≠
      bindingHash inputs₁ (facts tenantID actionKey inputs₁).1
        (persistedRow newID tenantID d).policy_version := by
    intro heq
    rw [← calc_eq_bindingHash] at heq
    have hhex : sha256Sum256 (utf8Bytes (sprintfBinding (mustJSON d.Inputs.toValue)
          (mustJSON d.Facts.toValue) d.PolicyVersion)) =
        sha256Sum256 (utf8Bytes (sprintfBinding (mustJSON inputs₁.toValue)
          (mustJSON (facts tenantID actionKey inputs₁).1.toValue) d.PolicyVersion)) :=
      hexEncode_inj _ _ (by simpa using congrArg String.data heq)
    obtain ⟨hi, hf, _⟩ := binding_bytes_inj _ _ _ _ _ _ (hfree hhex.symm)
    rcases hdiff with h | h
    · exact h hf
    · exact h hi
  simp only [ne_eq, h1, not_true_eq_false, if_false, h2, h3]
  rw [if_pos ⟨hne, hmis⟩]

/-- Witness of `validate_rejects_changed_binding`: preflight with `{"amount": 10}`,
execute with `{"amount": 11}`. -/
theorem validate_rejects_changed_binding_witness :
    ValidateAndBindDecision sampleEnv amountFact 500
      (PersistDecision "d1" (some emptyDB) "t1" refundDecision).2
      "t1" "d1" "payments.refund" (amountInputs 11) =
      (false, some (problem (problemsType sampleEnv "decision-mismatch")
        "Decision mismatch" "Inputs or facts changed; please re-run eligibility")) :=
  validate_rejects_changed_binding sampleEnv amountFact 500 emptyDB "t1" "d1"
    "payments.refund" refundDecision (amountInputs 11) rfl (Or.inl rfl)
    (by
      intro e he
      have h : e = 1000 := by
        have := Option.some.inj he
        exact this.symm
      rw [h]
      decide)
    rfl (Or.inr (by decide)) (by decide!)

/-! ## Decoding what `json.Marshal` wrote: strings -/

/-- A hexadecimal digit written by the encoder is read back as its value. -/
theorem hexValue_hexDigit (n : Nat) (h : n < 16) : hexValue (hexDigit n) = some n := by
  interval_cases n <;> rfl

/-- The escape `\u00XY` written for a character below 256 is read back as it. -/
theorem getu4_low (c : Char) (h : c.toNat < 256) (rest : List Char) :
    getu4 ('0' :: '0' :: hexDigit (c.toNat / 16) :: hexDigit (c.toNat % 16) :: rest) =
      some (c.toNat, rest) := by
  have h1 := hexValue_hexDigit (c.toNat / 16) (by omega)
  have h2 := hexValue_hexDigit (c.toNat % 16) (by omega)
  have h0 : hexValue '0' = some 0 := rfl
  simp only [getu4, h0, h1, h2]
  congr 2
  omega

/-- What the encoder writes for a character is that character, when it is no quote, no
backslash and no control character, or an escape sequence that reads back as it. -/
theorem escapeChar_cases (c : Char) :
    (escapeChar c = [c] ∧ c ≠ '"' ∧ c ≠ '\\' ∧ ¬ c.toNat < 32) ∨
    ∃ e, escapeChar c = '\\' :: e ∧ ∀ rest, unescape (e ++ rest) = some (c, rest) := by
  unfold escapeChar
  by_cases h1 : c = '"'
  · right
    refine ⟨['"'], by simp [h1], fun rest => ?_⟩
    subst h1
    rfl
  by_cases h2 : c = '\\'
  · right
    refine ⟨['\\'], by simp [h2], fun rest => ?_⟩
    subst h2
    rfl
  by_cases h3 : c.toNat = 8
  · right
    have hc : c = Char.ofNat 8 := by rw [← h3, Char.ofNat_toNat]
    refine ⟨['b'], by simp [h1, h2, h3], fun rest => ?_⟩
    rw [hc]; rfl
  by_cases h4 : c.toNat = 12
  · right
    have hc : c = Char.ofNat 12 := by rw [← h4, Char.ofNat_toNat]
    refine ⟨['f'], by simp [h1, h2, h3, h4], fun rest => ?_⟩
    rw [hc]; rfl
  by_cases h5 : c.toNat = 10
  · right
    have hc : c = Char.ofNat 10 := by rw [← h5, Char.ofNat_toNat]
    refine ⟨['n'], by simp [h1, h2, h3, h4, h5], fun rest => ?_⟩
    rw [hc]; rfl
  by_cases h6 : c.toNat = 13
  · right
    have hc : c = Char.ofNat 13 := by rw [← h6, Char.ofNat_toNat]
    refine ⟨['r'], by simp [h1, h2, h3, h4, h5, h6], fun rest => ?_⟩
    rw [hc]; rfl
  by_cases h7 : c.toNat = 9
  · right
    have hc : c = Char.ofNat 9 := by rw [← h7, Char.ofNat_toNat]
    refine ⟨['t'], by simp [h1, h2, h3, h4, h5, h6, h7], fun rest => ?_⟩
    rw [hc]; rfl
  by_cases h8 : c.toNat < 32 ∨ c = '<' ∨ c = '>' ∨ c = '&'
  · right
    have hlt : c.toNat < 256 := by
      rcases h8 with h | h | h | h
      · omega
      · subst h; decide
      · subst h; decide
      · subst h; decide
    refine ⟨['u', '0', '0', hexDigit (c.toNat / 16), hexDigit (c.toNat % 16)],
      by simp only [h1, h2, h3, h4, h5, h6, h7, h8, if_true, if_false], fun rest => ?_⟩
    have hg := getu4_low c hlt rest
    have hns : ¬ (55296 ≤ c.toNat ∧ c.toNat < 57344) := by omega
    show unescape ('u' :: '0' :: '0' :: hexDigit (c.toNat / 16) ::
      hexDigit (c.toNat % 16) :: rest) = some (c, rest)
    have hu : unescape ('u' :: '0' :: '0' :: hexDigit (c.toNat / 16) ::
        hexDigit (c.toNat % 16) :: rest) =
        match getu4 ('0' :: '0' :: hexDigit (c.toNat / 16) ::
          hexDigit (c.toNat % 16) :: rest) with
        | none => none
        | some (n, rest₁) =>
          if 55296 ≤ n ∧ n < 57344 then
            match rest₁ with
            | '\\' :: 'u' :: rest₂ =>
              match getu4 rest₂ with
              | some (m, rest₃) =>
                if n < 56320 ∧ 56320 ≤ m ∧ m < 57344 then
                  some (Char.ofNat (65536 + (n - 55296) * 1024 + (m - 56320)), rest₃)
                else some (Char.ofNat 65533, rest₁)
              | none => some (Char.ofNat 65533, rest₁)
            | _ => some (Char.ofNat 65533, rest₁)
          else some (Char.ofNat n, rest₁) := rfl
    rw [hu, hg]
    simp only [hns, if_false, Char.ofNat_toNat]
  obtain ⟨h8a, h8b⟩ := not_or.mp h8
  obtain ⟨h8c, h8d⟩ := not_or.mp h8b
  obtain ⟨h8e, h8f⟩ := not_or.mp h8d
  by_cases h9 : c.toNat = 8232
  · right
    have hc : c = Char.ofNat 8232 := by rw [← h9, Char.ofNat_toNat]
    refine ⟨['u', '2', '0', '2', '8'],
      by simp [h1, h2, h3, h4, h5, h6, h7, h8c, h8e, h8f, h9], fun rest => ?_⟩
    rw [hc]; rfl
  by_cases h10 : c.toNat = 8233
  · right
    have hc : c = Char.ofNat 8233 := by rw [← h10, Char.ofNat_toNat]
    refine ⟨['u', '2', '0', '2', '9'],
      by simp [h1, h2, h3, h4, h5, h6, h7, h8c, h8e, h8f, h9, h10], fun rest => ?_⟩
    rw [hc]; rfl
  left
  refine ⟨by simp only [h1, h2, h3, h4, h5, h6, h7, h8, h9, h10, if_false], h1, h2,
    fun h => h8 (Or.inl h)⟩

/-- One step of the string decoder reads back one encoded character. -/
theorem parseStringBody_escapeChar (c : Char) (fuel : Nat) (rest : List Char) :
    parseStringBody (fuel + 1) (escapeChar c ++ rest) =
      match parseStringBody fuel rest with
      | none => none
      | some (s, rest₂) => some (c :: s, rest₂) := by
  rcases escapeChar_cases c with ⟨he, h1, h2, h3⟩ | ⟨e, he, hun⟩
  · rw [he]
    show parseStringBody (fuel + 1) (c :: rest) = _
    rw [parseStringBody]
    simp only [h1, h2, h3, if_false]
  · rw [he]
    show parseStringBody (fuel + 1) ('\\' :: (e ++ rest)) = _
    rw [parseStringBody, if_neg (by decide), if_pos rfl, hun]

/-- The string decoder reads back an encoded string up to its closing quote. -/
theorem parseStringBody_escaped (s : List Char) (fuel : Nat) (rest : List Char)
    (hfuel : s.length < fuel) :
    parseStringBody fuel (s.flatMap escapeChar ++ '"' :: rest) = some (s, rest) := by
  induction s generalizing fuel with
  | nil =>
    obtain ⟨f, rfl⟩ : ∃ f, fuel = f + 1 := ⟨fuel - 1, by simp at hfuel; omega⟩
    simp [parseStringBody]
  | cons c s ih =>
    obtain ⟨f, rfl⟩ : ∃ f, fuel = f + 1 := ⟨fuel - 1, by simp at hfuel; omega⟩
    rw [List.flatMap_cons, List.append_assoc, parseStringBody_escapeChar,
      ih f (by simp at hfuel; omega)]

/-- Each character is written with at least one character. -/
theorem length_le_flatMap_escapeChar (s : List Char) :
    s.length ≤ (s.flatMap escapeChar).length := by
  induction s with
  | nil => simp
  | cons c s ih =>
    rw [List.flatMap_cons, List.length_append, List.length_cons]
    have : 1 ≤ (escapeChar c).length := by
      rcases escapeChar_cases c with ⟨he, _⟩ | ⟨e, he, _⟩ <;> rw [he] <;> simp
    omega

/-- A string literal written by the encoder, followed by any text, is read back. -/
theorem parseStringBody_quoteString (s : String) (rest : List Char) :
    ∃ body, quoteString s ++ rest = '"' :: body ∧
      parseStringBody body.length body = some (s.data, rest) := by
  refine ⟨s.data.flatMap escapeChar ++ '"' :: rest, by simp [quoteString], ?_⟩
  apply parseStringBody_escaped
  have := length_le_flatMap_escapeChar s.data
  rw [List.length_append, List.length_cons]
  omega

/-! ## Decoding what `json.Marshal` wrote: numbers -/

/-- The decimal text of a number is the text of its digit list. -/
theorem decDigits_eq_map (fuel n : Nat) :
    decDigits fuel n = (decDigitList fuel n).map hexDigit := by
  induction fuel generalizing n with
  | zero => rfl
  | succ fuel ih =>
    unfold decDigits decDigitList
    split_ifs
    · rfl
    · rw [ih, List.map_append]; rfl

/-- The digits of a number are decimal digits. -/
theorem decDigitList_lt (fuel n : Nat) : ∀ d ∈ decDigitList fuel n, d < 10 := by
  induction fuel generalizing n with
  | zero => intro d hd; simp [decDigitList] at hd
  | succ fuel ih =>
    intro d hd
    unfold decDigitList at hd
    split_ifs at hd with h
    · rw [List.mem_singleton.mp hd]; exact h
    · rcases List.mem_append.mp hd with h1 | h1
      · exact ih _ d h1
      · rw [List.mem_singleton.mp h1]; omega

/-- The digit list of a number denotes it, given enough fuel. -/
theorem digitsToNat_decDigitList (fuel n : Nat) (h : n < fuel) :
    Float64.digitsToNat (decDigitList fuel n) = n := by
  induction fuel generalizing n with
  | zero => omega
  | succ fuel ih =>
    unfold decDigitList
    split_ifs with h10
    · simp [Float64.digitsToNat]
    · rw [digitsToNat_append_single, ih (n / 10) (by omega)]
      omega

/-- The digit list of a number is not empty, and starts with a zero only for zero. -/
theorem decDigitList_head (fuel n : Nat) (h : n < fuel) :
    ∃ d ds, decDigitList fuel n = d :: ds ∧ (d = 0 → n = 0 ∧ ds = []) := by
  induction fuel generalizing n with
  | zero => omega
  | succ fuel ih =>
    unfold decDigitList
    split_ifs with h10
    · exact ⟨n, [], rfl, fun h0 => ⟨h0, rfl⟩⟩
    · obtain ⟨d, ds, hd, hz⟩ := ih (n / 10) (by omega)
      refine ⟨d, ds ++ [n % 10], by rw [hd]; rfl, fun h0 => ?_⟩
      have := (hz h0).1
      omega

/-- A digit written by the encoder is a digit character that denotes it. -/
theorem isDigitChar_hexDigit (d : Nat) (h : d < 10) :
    isDigitChar (hexDigit d) = true ∧ (hexDigit d).toNat - 48 = d := by
  interval_cases d <;> exact ⟨rfl, rfl⟩

/-- A run of digits written by the encoder is read back whole. -/
theorem spanDigits_map (ds : List Nat) (rest : List Char) (hds : ∀ d ∈ ds, d < 10)
    (hrest : NoDigitHead rest) : spanDigits (ds.map hexDigit ++ rest) = (ds, rest) := by
  induction ds with
  | nil =>
    cases rest with
    | nil => rfl
    | cons c t =>
      have := hrest c t rfl
      simp [spanDigits, this]
  | cons d ds ih =>
    have hd := isDigitChar_hexDigit d (hds d (by simp))
    have ih' := ih (fun x hx => hds x (by simp [hx]))
    simp only [List.map_cons, List.cons_append, spanDigits, hd.1, if_true, hd.2,
      List.append_eq, ih']

/-- A delimited text starts with no digit, point, exponent mark or sign. -/
theorem Delimited.head (rest : List Char) (h : Delimited rest) :
    NoDigitHead rest ∧ ∀ c t, rest = c :: t → c ≠ '.' ∧ c ≠ 'e' ∧ c ≠ 'E' := by
  rcases h with h | ⟨c, t, h, hc⟩
  · subst h
    refine And.intro ?_ ?_
    · intro c t h; cases h
    · intro c t h; cases h
  · subst h
    refine And.intro ?_ ?_
    · intro c' t' h'
      obtain ⟨h1, _⟩ := List.cons.inj h'
      subst h1
      rcases hc with h | h | h <;> subst h <;> rfl
    · intro c' t' h'
      obtain ⟨h1, _⟩ := List.cons.inj h'
      subst h1
      rcases hc with h | h | h <;> subst h <;> decide

/-- The fraction written by the encoder is read back. -/
theorem parseFraction_fracText (frac : List Nat) (tail : List Char)
    (hfrac : ∀ d ∈ frac, d < 10) (htail : NoDigitHead tail)
    (hpoint : frac = [] → ∀ c t, tail = c :: t → c ≠ '.') :
    parseFraction (Float64.fracText frac ++ tail) = some (frac, tail) := by
  cases frac with
  | nil =>
    simp only [Float64.fracText, List.isEmpty_nil, if_true, List.nil_append]
    cases tail with
    | nil => rfl
    | cons c t =>
      have hc := hpoint rfl c t rfl
      unfold parseFraction
      split
      · rename_i heq
        exact absurd (List.cons.inj heq).1 hc
      · rfl
  | cons d ds =>
    have hspan := spanDigits_map (d :: ds) tail hfrac htail
    simp only [Float64.fracText, List.isEmpty_cons, Bool.false_eq_true, if_false,
      List.cons_append, parseFraction, hspan]

/-- A text without exponent mark has the exponent zero. -/
theorem parseExponent_none (tail : List Char)
    (h : ∀ c t, tail = c :: t → c ≠ 'e' ∧ c ≠ 'E') :
    parseExponent tail = some (0, tail) := by
  cases tail with
  | nil => rfl
  | cons c t =>
    have hc := h c t rfl
    simp [parseExponent, hc.1, hc.2]

/-- The decimal text of a number is read back as its digit list. -/
theorem spanDigits_natToDec (n : Nat) (rest : List Char) (hrest : NoDigitHead rest) :
    spanDigits (natToDec n ++ rest) = (decDigitList (n + 1) n, rest) := by
  rw [natToDec, decDigits_eq_map]
  exact spanDigits_map (decDigitList (n + 1) n) rest (decDigitList_lt _ _) hrest

/-- The digit list of a number is not empty. -/
theorem decDigitList_isEmpty (n : Nat) : (decDigitList (n + 1) n).isEmpty = false := by
  obtain ⟨d, ds, hd, _⟩ := decDigitList_head (n + 1) n (by omega)
  rw [hd]; rfl

/-- The exponent read after `e-`. -/
theorem parseExponent_minus (t : List Char) :
    parseExponent ('e' :: '-' :: t) =
      if (spanDigits t).1.isEmpty then none
      else some (-(Float64.digitsToNat (spanDigits t).1 : Int), (spanDigits t).2) := by
  simp [parseExponent]

/-- The exponent read after `e+`. -/
theorem parseExponent_plus (t : List Char) :
    parseExponent ('e' :: '+' :: t) =
      if (spanDigits t).1.isEmpty then none
      else some ((Float64.digitsToNat (spanDigits t).1 : Int), (spanDigits t).2) := by
  simp [parseExponent]

/-- The exponent written by the encoder is read back. -/
theorem parseExponent_expText (e : Int) (rest : List Char) (hrest : NoDigitHead rest) :
    parseExponent ('e' :: (Float64.expText e ++ rest)) = some (e, rest) := by
  unfold Float64.expText
  by_cases hneg : e < 0
  · simp only [hneg, if_true, List.cons_append]
    rw [parseExponent_minus, spanDigits_natToDec _ _ hrest]
    simp only [decDigitList_isEmpty, Bool.false_eq_true, if_false,
      digitsToNat_decDigitList _ _ (Nat.lt_succ_self _)]
    congr 2
    omega
  · by_cases h10 : e.natAbs < 10
    · have hspan := spanDigits_map [0, e.natAbs] rest (by
        intro d hd; simp at hd; rcases hd with h | h <;> omega) hrest
      have hspan' : spanDigits ('0' :: hexDigit e.natAbs :: rest) = ([0, e.natAbs], rest) := by
        simpa using hspan
      simp only [hneg, if_false, h10, if_true, List.cons_append, List.nil_append]
      rw [parseExponent_plus, hspan']
      simp only [List.isEmpty_cons, Bool.false_eq_true, if_false]
      congr 2
      simp only [Float64.digitsToNat, List.foldl_cons, List.foldl_nil]
      omega
    · simp only [hneg, if_false, h10, List.cons_append]
      rw [parseExponent_plus, spanDigits_natToDec _ _ hrest]
      simp only [decDigitList_isEmpty, Bool.false_eq_true, if_false,
        digitsToNat_decDigitList _ _ (Nat.lt_succ_self _)]
      congr 2
      omega

/-- Leading zeros before a non-zero digit are the zeros taken. -/
theorem takeWhile_zeros (a d : Nat) (tl : List Nat) (hd : d ≠ 0) :
    (List.replicate a 0 ++ d :: tl).takeWhile (· = 0) = List.replicate a 0 := by
  induction a with
  | zero => simp [List.takeWhile_cons, hd]
  | succ a ih => simp [List.replicate_succ, List.takeWhile_cons, ih]

/-- Leading zeros before a non-zero digit are the zeros dropped. -/
theorem dropWhile_zeros (a d : Nat) (tl : List Nat) (hd : d ≠ 0) :
    (List.replicate a 0 ++ d :: tl).dropWhile (· = 0) = d :: tl := by
  induction a with
  | zero => simp [List.dropWhile_cons, hd]
  | succ a ih => simp [List.replicate_succ, List.dropWhile_cons, ih]

/-- Zeros around a digit string that starts and ends with a non-zero digit are dropped
by the normalisation, the point moving by the leading zeros. -/
theorem ofDigits_padded (neg : Bool) (a b : Nat) (ds : List Nat) (dp : Int)
    (hne : ds ≠ []) (hhead : ds.head? ≠ some 0) (hlast : ds.getLast? ≠ some 0) :
    Float64.ofDigits neg (List.replicate a 0 ++ ds ++ List.replicate b 0) dp =
      ⟨neg, ds, dp - a⟩ := by
  obtain ⟨d, tl, rfl⟩ : ∃ d tl, ds = d :: tl := by
    cases ds with
    | nil => exact absurd rfl hne
    | cons d tl => exact ⟨d, tl, rfl⟩
  have hd : d ≠ 0 := by
    intro h; apply hhead; simp [h]
  have htake : (List.replicate a 0 ++ (d :: tl) ++ List.replicate b 0).takeWhile (· = 0) =
      List.replicate a 0 := by
    rw [List.append_assoc, List.cons_append]
    exact takeWhile_zeros a d _ hd
  have hdrop : (List.replicate a 0 ++ (d :: tl) ++ List.replicate b 0).dropWhile (· = 0) =
      (d :: tl) ++ List.replicate b 0 := by
    rw [List.append_assoc, List.cons_append]
    exact dropWhile_zeros a d _ hd
  obtain ⟨l, init, hrev⟩ : ∃ l init, (d :: tl).reverse = l :: init := by
    cases hr : (d :: tl).reverse with
    | nil => simp at hr
    | cons l init => exact ⟨l, init, rfl⟩
  have hl : l ≠ 0 := by
    intro h
    apply hlast
    rw [List.getLast?_eq_head?_reverse, hrev, h]
    rfl
  have hstrip : (((d :: tl) ++ List.replicate b 0).reverse.dropWhile (· = 0)).reverse =
      d :: tl := by
    rw [List.reverse_append, List.reverse_replicate, hrev, dropWhile_zeros b l init hl,
      ← hrev, List.reverse_reverse]
  unfold Float64.ofDigits
  simp only [htake, hdrop, hstrip, List.length_replicate, List.isEmpty_cons,
    Bool.false_eq_true, if_false]

/-- The parts of the shortest form. -/
theorem isShortest_iff (x : Float64) (h : x.isShortest = true) :
    (∀ d ∈ x.digits, d < 10) ∧ x.digits.head? ≠ some 0 ∧ x.digits.getLast? ≠ some 0 ∧
      (x.digits = [] → x.dp = 0) := by
  unfold Float64.isShortest at h
  simp only [Bool.and_eq_true, List.all_eq_true, decide_eq_true_eq, bne_iff_ne, ne_eq,
    Bool.or_eq_true, Bool.not_eq_true', beq_iff_eq] at h
  obtain ⟨⟨⟨h1, h2⟩, h3⟩, h4⟩ := h
  refine ⟨h1, h2, h3, fun he => ?_⟩
  rcases h4 with h4 | h4
  · rw [he] at h4; simp at h4
  · exact h4

/-- Integer digits, fraction and exponent written by the encoder are read back as the
number they denote. -/
theorem parseUnsigned_digits (neg : Bool) (ints frac : List Nat) (tail rest : List Char)
    (e : Int) (hI : ∀ d ∈ ints, d < 10) (hne : ints ≠ [])
    (hlead : ints.headD 0 = 0 → ints.length = 1) (hF : ∀ d ∈ frac, d < 10)
    (htail : NoDigitHead tail) (hpoint : ∀ c t, tail = c :: t → c ≠ '.')
    (hexp : parseExponent tail = some (e, rest)) :
    parseUnsigned neg (ints.map hexDigit ++ (Float64.fracText frac ++ tail)) =
      some (Float64.ofDigits neg (ints ++ frac) ((ints.length : Int) + e), rest) := by
  have hnd : NoDigitHead (Float64.fracText frac ++ tail) := by
    cases frac with
    | nil => simpa [Float64.fracText] using htail
    | cons d ds =>
      intro c t hct
      simp only [Float64.fracText, List.isEmpty_cons, Bool.false_eq_true, if_false,
        List.cons_append] at hct
      rw [← (List.cons.inj hct).1]
      rfl
  have hspan := spanDigits_map ints (Float64.fracText frac ++ tail) hI hnd
  have hfrac := parseFraction_fracText frac tail hF htail (fun _ => hpoint)
  have hemp : ints.isEmpty = false := by
    cases ints with
    | nil => exact absurd rfl hne
    | cons _ _ => rfl
  have hz : ¬ (ints.headD 0 = 0 ∧ 1 < ints.length) := by
    rintro ⟨h0, h1⟩
    have := hlead h0
    omega
  unfold parseUnsigned
  simp only [hspan, hemp, Bool.false_eq_true, if_false, hz, hfrac, hexp]

/-- A number starts with its sign or a digit. -/
theorem parseNumber_neg (neg : Bool) (d : Nat) (t : List Char) :
    parseNumber (Float64.signText neg ++ hexDigit d :: t) =
      parseUnsigned neg (hexDigit d :: t) := by
  cases neg with
  | true => rfl
  | false =>
    have hd : hexDigit d ≠ '-' := (hexDigit_props d).2.2
    simp only [Float64.signText, Bool.false_eq_true, if_false, List.nil_append]
    unfold parseNumber
    split
    · rename_i heq
      exact absurd (List.cons.inj heq).1 hd
    · rfl

/-- The digits before and after the point, joined, are the digits of the number
followed by the zeros that pad its integer part. -/
theorem take_zeros_drop (ds : List Nat) (n : Nat) :
    ds.take n ++ List.replicate (n - ds.length) 0 ++ ds.drop n =
      ds ++ List.replicate (n - ds.length) 0 := by
  by_cases h : n ≤ ds.length
  · have : n - ds.length = 0 := by omega
    simp [this]
  · have h1 : ds.take n = ds := List.take_of_length_le (by omega)
    have h2 : ds.drop n = [] := List.drop_of_length_le (by omega)
    simp [h1, h2]

/-- A number with integer digits starts with its sign or a digit. -/
theorem parseNumber_sign (neg : Bool) (ints : List Nat) (hne : ints ≠ []) (t : List Char) :
    parseNumber (Float64.signText neg ++ (ints.map hexDigit ++ t)) =
      parseUnsigned neg (ints.map hexDigit ++ t) := by
  cases ints with
  | nil => exact absurd rfl hne
  | cons i tl => exact parseNumber_neg neg i _

/-- A number written by the encoder in its shortest form, followed by a delimiter or the
end of the text, is read back as itself. -/
theorem parseNumber_format (x : Float64) (hx : x.isShortest = true) (rest : List Char)
    (hrest : Delimited rest) : parseNumber (x.format ++ rest) = some (x, rest) := by
  obtain ⟨hlt, hhead, hlast, hzero⟩ := isShortest_iff x hx
  obtain ⟨hnd, hdelim⟩ := Delimited.head rest hrest
  have hpoint : ∀ c t, rest = c :: t → c ≠ '.' := fun c t h => (hdelim c t h).1
  have hexp0 : parseExponent rest = some (0, rest) :=
    parseExponent_none rest (fun c t h => (hdelim c t h).2)
  obtain ⟨neg, digits, dp⟩ := x
  simp only at hlt hhead hlast hzero
  cases digits with
  | nil =>
    have hdp : dp = 0 := hzero rfl
    subst hdp
    have hf : Float64.format ⟨neg, [], 0⟩ ++ rest =
        Float64.signText neg ++ hexDigit 0 :: rest := by
      simp [Float64.format, Float64.fmtF, Float64.intDigits, Float64.fracDigits,
        Float64.fracText]
    have hp := parseUnsigned_digits neg [0] [] rest rest 0 (by simp) (by simp)
      (fun _ => rfl) (by simp) hnd hpoint hexp0
    have hin : [0].map hexDigit ++ (Float64.fracText [] ++ rest) = hexDigit 0 :: rest := by
      simp [Float64.fracText]
    rw [hf, parseNumber_neg, ← hin, hp]
    rfl
  | cons d tl =>
    have hd0 : d ≠ 0 := by
      intro h; apply hhead; simp [h]
    by_cases hE : dp < -5 ∨ 21 < dp
    · have hf : Float64.format ⟨neg, d :: tl, dp⟩ ++ rest =
          Float64.signText neg ++ hexDigit d ::
            (Float64.fracText tl ++ ('e' :: (Float64.expText (dp - 1) ++ rest))) := by
        have hc : (decide (dp < -5) || decide (21 < dp)) = true := by
          simpa using hE
        simp only [Float64.format, Float64.fmtE, List.headD_cons,
          List.tail_cons, List.isEmpty_cons, Bool.not_false, Bool.true_and, hc, if_true,
          Bool.false_eq_true, if_false, List.append_assoc, List.cons_append]
      have htail : NoDigitHead ('e' :: (Float64.expText (dp - 1) ++ rest)) := by
        intro c t h
        rw [← (List.cons.inj h).1]; rfl
      have hp := parseUnsigned_digits neg [d] tl
        ('e' :: (Float64.expText (dp - 1) ++ rest)) rest (dp - 1)
        (fun x hx => hlt x (by simp at hx; simp [hx])) (by simp)
        (fun h => rfl) (fun x hx => hlt x (by simp [hx])) htail
        (fun c t h => by rw [← (List.cons.inj h).1]; decide)
        (parseExponent_expText (dp - 1) rest hnd)
      have hin : [d].map hexDigit ++ (Float64.fracText tl ++
          ('e' :: (Float64.expText (dp - 1) ++ rest))) = hexDigit d ::
          (Float64.fracText tl ++ ('e' :: (Float64.expText (dp - 1) ++ rest))) := rfl
      rw [hf, parseNumber_neg, ← hin, hp]
      have hpad := ofDigits_padded neg 0 0 (d :: tl) ((([d] : List Nat).length : Int) + (dp - 1))
        (by simp) hhead hlast
      simp only [List.replicate_zero, List.nil_append, List.append_nil] at hpad
      rw [show [d] ++ tl = d :: tl from rfl, hpad]
      congr 2
      simp
    · have hc : (decide (dp < -5) || decide (21 < dp)) = false := by
        simpa using hE
      by_cases hpos : 0 < dp
      · -- integer digits are digits of the number, possibly padded
        set n := dp.toNat with hn
        have hn1 : 1 ≤ n := by omega
        have hI : Float64.intDigits ⟨neg, d :: tl, dp⟩ =
            (d :: tl).take n ++ List.replicate (n - (d :: tl).length) 0 := by
          simp only [Float64.intDigits, hpos, if_true]
        have hF : Float64.fracDigits ⟨neg, d :: tl, dp⟩ = (d :: tl).drop n := by
          have : (-dp).toNat = 0 := by omega
          simp only [Float64.fracDigits, this, List.replicate_zero, List.nil_append]
        have hIne : (d :: tl).take n ++ List.replicate (n - (d :: tl).length) 0 ≠ [] := by
          obtain ⟨m, hm⟩ : ∃ m, n = m + 1 := ⟨n - 1, by omega⟩
          rw [hm]; simp
        have hIhead : ((d :: tl).take n ++
            List.replicate (n - (d :: tl).length) 0).headD 0 = d := by
          obtain ⟨m, hm⟩ : ∃ m, n = m + 1 := ⟨n - 1, by omega⟩
          rw [hm]; rfl
        have hIlt : ∀ x ∈ (d :: tl).take n ++ List.replicate (n - (d :: tl).length) 0,
            x < 10 := by
          intro x hx
          rcases List.mem_append.mp hx with h | h
          · exact hlt x (List.mem_of_mem_take h)
          · rw [List.eq_of_mem_replicate h]; omega
        have hFlt : ∀ x ∈ (d :: tl).drop n, x < 10 :=
          fun x hx => hlt x (List.mem_of_mem_drop hx)
        have hf : Float64.format ⟨neg, d :: tl, dp⟩ ++ rest =
            Float64.signText neg ++
              (((d :: tl).take n ++ List.replicate (n - (d :: tl).length) 0).map hexDigit ++
                (Float64.fracText ((d :: tl).drop n) ++ rest)) := by
          simp only [Float64.format, List.isEmpty_cons, Bool.not_false, Bool.true_and, hc,
            Bool.false_eq_true, if_false, Float64.fmtF, hI, hF, List.append_assoc]
        have hp := parseUnsigned_digits neg
          ((d :: tl).take n ++ List.replicate (n - (d :: tl).length) 0)
          ((d :: tl).drop n) rest rest 0 hIlt hIne
          (fun h => by rw [hIhead] at h; exact absurd h hd0) hFlt hnd hpoint hexp0
        rw [hf, parseNumber_sign neg _ hIne, hp, take_zeros_drop]
        have hpad := ofDigits_padded neg 0 (n - (d :: tl).length) (d :: tl)
          ((((d :: tl).take n ++ List.replicate (n - (d :: tl).length) 0).length : Int) + 0)
          (by simp) hhead hlast
        simp only [List.replicate_zero, List.nil_append] at hpad
        rw [hpad]
        have hlen : (((d :: tl).take n ++ List.replicate (n - (d :: tl).length) 0).length : Int)
            + 0 - ((0 : Nat) : Int) = dp := by
          have h1 : ((d :: tl).take n ++ List.replicate (n - (d :: tl).length) 0).length = n := by
            simp only [List.length_append, List.length_take, List.length_replicate]
            omega
          rw [h1, hn]
          have := Int.toNat_of_nonneg (show 0 ≤ dp by omega)
          omega
        rw [hlen]
      · have hdp : dp ≤ 0 := by omega
        have hI : Float64.intDigits ⟨neg, d :: tl, dp⟩ = [0] := by
          simp only [Float64.intDigits, hpos, if_false]
        have hF : Float64.fracDigits ⟨neg, d :: tl, dp⟩ =
            List.replicate (-dp).toNat 0 ++ (d :: tl) := by
          have : dp.toNat = 0 := by omega
          simp only [Float64.fracDigits, this, List.drop_zero]
        have hFlt : ∀ x ∈ Float64.fracDigits ⟨neg, d :: tl, dp⟩, x < 10 := by
          intro x hx
          rw [hF] at hx
          rcases List.mem_append.mp hx with h | h
          · rw [List.eq_of_mem_replicate h]; omega
          · exact hlt x h
        have hf : Float64.format ⟨neg, d :: tl, dp⟩ ++ rest =
            Float64.signText neg ++ hexDigit 0 ::
              (Float64.fracText (Float64.fracDigits ⟨neg, d :: tl, dp⟩) ++ rest) := by
          simp only [Float64.format, List.isEmpty_cons, Bool.not_false, Bool.true_and, hc,
            Bool.false_eq_true, if_false, Float64.fmtF, hI,
            List.map_cons, List.map_nil, List.append_assoc, List.cons_append,
            List.nil_append]
        have hp := parseUnsigned_digits neg [0] (Float64.fracDigits ⟨neg, d :: tl, dp⟩)
          rest rest 0 (by simp) (by simp) (fun _ => rfl) hFlt hnd hpoint hexp0
        simp only [List.map_cons, List.map_nil, List.cons_append, List.nil_append] at hp
        rw [hf, parseNumber_neg, hp, hF]
        have hpad := ofDigits_padded neg (1 + (-dp).toNat) 0 (d :: tl)
          (((([0] : List Nat).length : Int)) + 0) (by simp) hhead hlast
        have hrep : List.replicate (1 + (-dp).toNat) 0 ++ (d :: tl) ++ List.replicate 0 0 =
            0 :: (List.replicate (-dp).toNat 0 ++ d :: tl) := by
          rw [Nat.add_comm, List.replicate_succ]; simp
        rw [hrep] at hpad
        rw [hpad]
        have hcast : ((1 + (-dp).toNat : Nat) : Int) = 1 - dp := by
          have := Int.toNat_of_nonneg (show 0 ≤ -dp by omega)
          push_cast
          omega
        rw [hcast]
        have hlen : ((([0] : List Nat).length : Int)) + 0 - (1 - dp) = dp := by
          simp only [List.length_cons, List.length_nil]
          omega
        rw [hlen]

/-! ## Decoding what `json.Marshal` wrote: integers -/

/-- The digit values of the decimal text of a number are its digit list. -/
theorem natToDec_digit_values (n : Nat) :
    (natToDec n).map (fun c => c.toNat - 48) = decDigitList (n + 1) n := by
  rw [natToDec, decDigits_eq_map, List.map_map]
  have : ∀ l : List Nat, (∀ d ∈ l, d < 10) →
      l.map ((fun c : Char => c.toNat - 48) ∘ hexDigit) = l := by
    intro l hl
    induction l with
    | nil => rfl
    | cons d l ih =>
      rw [List.map_cons, ih (fun x hx => hl x (by simp [hx]))]
      simp [hexDigit_toNat_sub d (hl d (by simp))]
  exact this _ (decDigitList_lt _ _)

/-- A number below `10 ^ k` has at most `k` digits. -/
theorem decDigitList_length_le (fuel n k : Nat) (hk : 1 ≤ k) (hn : n < 10 ^ k) :
    (decDigitList fuel n).length ≤ k := by
  induction fuel generalizing n k with
  | zero => simp [decDigitList]
  | succ fuel ih =>
    unfold decDigitList
    split_ifs with h10
    · simpa using hk
    · obtain ⟨j, rfl⟩ : ∃ j, k = j + 1 := ⟨k - 1, by omega⟩
      have hj : 1 ≤ j := by
        by_contra hj0
        have : j = 0 := by omega
        subst this
        simp at hn
        omega
      have hdiv : n / 10 < 10 ^ j := by
        rw [Nat.div_lt_iff_lt_mul (by norm_num)]
        rw [pow_succ] at hn
        exact hn
      have := ih (n / 10) j hj hdiv
      rw [List.length_append]
      simp
      omega

/-- What is left after dropping leading zeros does not start with a zero. -/
theorem head_dropWhile_zero (r : List Nat) : (r.dropWhile (· = 0)).head? ≠ some 0 := by
  induction r with
  | nil => simp
  | cons a r ih =>
    by_cases ha : a = 0
    · simpa [List.dropWhile_cons, ha] using ih
    · simp [List.dropWhile_cons, ha]

/-- Digits with their trailing zeros stripped: a non-empty prefix with the same head
and a non-zero last digit. -/
theorem strip_trailing_zeros_props (d : Nat) (tl : List Nat) (hd : d ≠ 0) :
    ∃ body, ((d :: tl).reverse.dropWhile (· = 0)).reverse = d :: body ∧
      (d :: body).getLast? ≠ some 0 := by
  have happ := strip_trailing_zeros_append (d :: tl)
  set s := ((d :: tl).reverse.dropWhile (· = 0)).reverse with hs
  have hlast : s.getLast? ≠ some 0 := by
    rw [hs, List.getLast?_reverse]
    exact head_dropWhile_zero _
  cases hs' : s with
  | nil =>
    rw [hs'] at happ
    simp only [List.nil_append] at happ
    have : d ∈ List.replicate ((d :: tl).length - ([] : List Nat).length) 0 := by
      rw [happ]; simp
    exact absurd (List.eq_of_mem_replicate this) hd
  | cons a body =>
    rw [hs'] at happ hlast
    have ha : a = d := by
      simp only [List.cons_append, List.cons.injEq] at happ
      exact happ.1
    subst ha
    exact ⟨body, rfl, hlast⟩

/-- The numeral of a natural number is in its shortest form and its text is the
decimal text of the number, up to 21 digits. -/
theorem ofNat_format (n : Nat) (neg : Bool) (hn : n < 10 ^ 21) (hneg : neg = true → n ≠ 0) :
    ({ Float64.ofNat n with neg := neg } : Float64).isShortest = true ∧
    ({ Float64.ofNat n with neg := neg } : Float64).format =
      Float64.signText neg ++ natToDec n := by
  by_cases h0 : n = 0
  · subst h0
    have hf : neg = false := by
      cases neg with
      | false => rfl
      | true => exact absurd rfl (hneg rfl)
    subst hf
    exact ⟨by decide, by decide⟩
  · obtain ⟨d, ds, hd, hz⟩ := decDigitList_head (n + 1) n (by omega)
    have hd0 : d ≠ 0 := fun h => h0 (hz h).1
    have hlt := decDigitList_lt (n + 1) n
    rw [hd] at hlt
    obtain ⟨body, hbody, hlast⟩ := strip_trailing_zeros_props d ds hd0
    have happ := strip_trailing_zeros_append (d :: ds)
    rw [hbody] at happ
    have hlen : (d :: ds).length ≤ 21 := by
      rw [← hd]; exact decDigitList_length_le _ _ 21 (by norm_num) hn
    have hx : ({ Float64.ofNat n with neg := neg } : Float64) =
        ⟨neg, d :: body, ((d :: ds).length : Int)⟩ := by
      simp only [Float64.ofNat, h0, if_false, natToDec_digit_values, hd, hbody]
    rw [hx]
    have hblt : ∀ x ∈ d :: body, x < 10 := by
      intro x hx'
      apply hlt
      rw [← happ]
      exact List.mem_append_left _ hx'
    constructor
    · simp only [Float64.isShortest, List.all_eq_true, decide_eq_true_eq, Bool.and_eq_true,
        bne_iff_ne, ne_eq, Bool.or_eq_true, Bool.not_eq_true', beq_iff_eq]
      refine ⟨⟨⟨hblt, ?_⟩, hlast⟩, Or.inl rfl⟩
      simp [hd0]
    · have hc : (decide (((d :: ds).length : Int) < -5) ||
          decide (21 < ((d :: ds).length : Int))) = false := by
        simp only [Bool.or_eq_false_iff, decide_eq_false_iff_not]
        constructor <;> omega
      have hpos : (0 : Int) < ((d :: ds).length : Int) := by
        simp only [List.length_cons]; omega
      have hble : (d :: body).length ≤ (d :: ds).length := by
        have := congrArg List.length happ
        simp only [List.length_append, List.length_replicate] at this
        omega
      have hI : Float64.intDigits ⟨neg, d :: body, ((d :: ds).length : Int)⟩ = d :: ds := by
        simp only [Float64.intDigits, hpos, if_true, Int.toNat_ofNat]
        rw [List.take_of_length_le hble]
        exact happ
      have hF : Float64.fracDigits ⟨neg, d :: body, ((d :: ds).length : Int)⟩ = [] := by
        have h1 : (-((d :: ds).length : Int)).toNat = 0 := by omega
        simp only [Float64.fracDigits, h1, List.replicate_zero, List.nil_append,
          Int.toNat_ofNat]
        exact List.drop_of_length_le hble
      simp only [Float64.format, List.isEmpty_cons, Bool.not_false, Bool.true_and, hc,
        Bool.false_eq_true, if_false, Float64.fmtF, hI, hF, Float64.fracText,
        List.isEmpty_nil, if_true, List.append_nil]
      rw [natToDec, decDigits_eq_map, hd]

/-- The numeral of an integer of at most 21 digits is in its shortest form, and its
text is the decimal text of the integer. -/
theorem ofInt_format (n : Int) (hn : n.natAbs < 10 ^ 21) :
    (Float64.ofInt n).isShortest = true ∧ (Float64.ofInt n).format = intToDec n := by
  have h := ofNat_format n.natAbs (decide (n < 0)) hn (by
    intro hneg
    have : n < 0 := by simpa using hneg
    omega)
  refine ⟨h.1, ?_⟩
  rw [Float64.ofInt, h.2]
  cases n with
  | ofNat m =>
    have : ¬ (Int.ofNat m < 0) := by simp
    simp [Float64.signText, this, intToDec]
  | negSucc m =>
    have : Int.negSucc m < 0 := Int.negSucc_lt_zero m
    simp [Float64.signText, this, intToDec]

/-! ## The order of object keys -/

/-- Any two texts are ordered one way or the other. -/
theorem leChars_total (a b : List Char) : leChars a b = true ∨ leChars b a = true := by
  induction a generalizing b with
  | nil => left; rfl
  | cons x a ih =>
    cases b with
    | nil => right; rfl
    | cons y b =>
      simp only [leChars, Bool.or_eq_true, decide_eq_true_eq, Bool.and_eq_true,
        beq_iff_eq]
      rcases Nat.lt_trichotomy x.toNat y.toNat with h | h | h
      · left; left; exact h
      · rcases ih b with h1 | h1
        · left; right; exact ⟨h, h1⟩
        · right; right; exact ⟨h.symm, h1⟩
      · right; left; exact h

/-- The order of texts is transitive. -/
theorem leChars_trans (a b c : List Char) (h₁ : leChars a b = true)
    (h₂ : leChars b c = true) : leChars a c = true := by
  induction a generalizing b c with
  | nil => rfl
  | cons x a ih =>
    cases b with
    | nil => simp [leChars] at h₁
    | cons y b =>
      cases c with
      | nil => simp [leChars] at h₂
      | cons z c =>
        simp only [leChars, Bool.or_eq_true, decide_eq_true_eq, Bool.and_eq_true,
          beq_iff_eq] at h₁ h₂ ⊢
        rcases h₁ with h₁ | ⟨h₁, h₁'⟩
        · rcases h₂ with h₂ | ⟨h₂, _⟩
          · left; omega
          · left; omega
        · rcases h₂ with h₂ | ⟨h₂, h₂'⟩
          · left; omega
          · right; exact ⟨by omega, ih b c h₁' h₂'⟩

/-- Two texts ordered both ways are equal. -/
theorem leChars_antisymm (a b : List Char) (h₁ : leChars a b = true)
    (h₂ : leChars b a = true) : a = b := by
  induction a generalizing b with
  | nil =>
    cases b with
    | nil => rfl
    | cons y b => simp [leChars] at h₂
  | cons x a ih =>
    cases b with
    | nil => simp [leChars] at h₁
    | cons y b =>
      simp only [leChars, Bool.or_eq_true, decide_eq_true_eq, Bool.and_eq_true,
        beq_iff_eq] at h₁ h₂
      rcases h₁ with h₁ | ⟨h₁, h₁'⟩
      · rcases h₂ with h₂ | ⟨h₂, _⟩ <;> omega
      · rcases h₂ with h₂ | ⟨_, h₂'⟩
        · omega
        · have hxy : x = y := Char.ext (UInt32.ext h₁)
          rw [hxy, ih b h₁' h₂']

/-- Entries sorted by key are sorted. -/
theorem sorted_sortByKey {α : Type} (l : List (String × α)) :
    (sortByKey l).Sorted keyLE :=
  @List.sorted_insertionSort _ keyLE _
    ⟨fun a b => leChars_total a.1.data b.1.data⟩
    ⟨fun a b c => leChars_trans a.1.data b.1.data c.1.data⟩ l

/-- Sorting by key commutes with a change of the values. -/
theorem sortByKey_map {α β : Type} (f : α → β) (l : List (String × α)) :
    sortByKey (l.map (fun p => (p.1, f p.2))) = (sortByKey l).map (fun p => (p.1, f p.2)) := by
  unfold sortByKey
  exact (List.map_insertionSort (r := keyLE) (s := keyLE) (fun p => (p.1, f p.2)) l
    (fun a _ b _ => Iff.rfl)).symm

/-- Sorting entries that are sorted by key changes nothing. -/
theorem sortByKey_sortByKey {α : Type} (l : List (String × α)) :
    sortByKey (sortByKey l) = sortByKey l :=
  List.Sorted.insertionSort_eq (sorted_sortByKey l)

/-- Entries with distinct keys, given in two orders, sort to the same list. -/
theorem sortByKey_perm {α : Type} (l₁ l₂ : List (String × α)) (hp : l₁.Perm l₂)
    (hnd : (l₁.map Prod.fst).Nodup) : sortByKey l₁ = sortByKey l₂ := by
  have hperm : (sortByKey l₁).Perm (sortByKey l₂) :=
    ((List.perm_insertionSort keyLE l₁).trans hp).trans (List.perm_insertionSort keyLE l₂).symm
  have hnd₁ : ((sortByKey l₁).map Prod.fst).Nodup :=
    ((List.perm_insertionSort keyLE l₁).map Prod.fst).nodup_iff.mpr hnd
  -- on entries with distinct keys the order by key is antisymmetric
  have hs₁ := sorted_sortByKey l₁
  have hs₂ := sorted_sortByKey l₂
  have key : ∀ (m₁ m₂ : List (String × α)), m₁.Perm m₂ → (m₁.map Prod.fst).Nodup →
      m₁.Sorted keyLE → m₂.Sorted keyLE → m₁ = m₂ := by
    intro m₁
    induction m₁ with
    | nil => intro m₂ hp _ _ _; exact (List.nil_perm.mp hp).symm
    | cons a m₁ ih =>
      intro m₂ hp hnd h₁ h₂
      cases m₂ with
      | nil => exact absurd hp.symm (by simp)
      | cons b m₂ =>
        have hab : a = b := by
          have ha : a ∈ b :: m₂ := hp.subset (by simp)
          have hb : b ∈ a :: m₁ := hp.symm.subset (by simp)
          rcases List.mem_cons.mp ha with h | h
          · exact h
          · rcases List.mem_cons.mp hb with h' | h'
            · exact h'.symm
            · have r1 : keyLE a b := List.rel_of_sorted_cons h₁ b h'
              have r2 : keyLE b a := List.rel_of_sorted_cons h₂ a h
              have hk : a.1.data = b.1.data := leChars_antisymm _ _ r1 r2
              have hk' : a.1 = b.1 := by
                cases ha1 : a.1; cases hb1 : b.1
                simp only [ha1, hb1] at hk
                rw [hk]
              have hnot : a.1 ∉ m₁.map Prod.fst := (List.nodup_cons.mp hnd).1
              exact absurd (List.mem_map_of_mem Prod.fst h') (hk' ▸ hnot)
        subst hab
        rw [ih m₂ (List.Perm.cons_inv hp) (List.nodup_cons.mp hnd).2 h₁.of_cons h₂.of_cons]
  exact key _ _ hperm hnd₁ hs₁ hs₂

/-! ## Decoding what `json.Marshal` wrote: values -/

theorem marshalElems_eq (xs : List Value) : Value.marshalElems xs = xs.map Value.marshal := by
  induction xs with
  | nil => rfl
  | cons v vs ih => simp [Value.marshalElems, ih]

theorem marshalFields_eq (kvs : List (String × Value)) :
    Value.marshalFields kvs = kvs.map (fun p => (p.1, p.2.marshal)) := by
  induction kvs with
  | nil => rfl
  | cons p kvs ih => obtain ⟨k, v⟩ := p; simp [Value.marshalFields, ih]

theorem canonElems_eq (xs : List Value) : Value.canonElems xs = xs.map Value.canon := by
  induction xs with
  | nil => rfl
  | cons v vs ih => simp [Value.canonElems, ih]

theorem canonFields_eq (kvs : List (String × Value)) :
    Value.canonFields kvs = kvs.map (fun p => (p.1, p.2.canon)) := by
  induction kvs with
  | nil => rfl
  | cons p kvs ih => obtain ⟨k, v⟩ := p; simp [Value.canonFields, ih]

theorem wfElems_iff (xs : List Value) :
    Value.wfElems xs = true ↔ ∀ v ∈ xs, v.wf = true := by
  induction xs with
  | nil => simp [Value.wfElems]
  | cons v vs ih => simp [Value.wfElems, ih]

theorem wfFields_iff (kvs : List (String × Value)) :
    Value.wfFields kvs = true ↔ ∀ p ∈ kvs, p.2.wf = true := by
  induction kvs with
  | nil => simp [Value.wfFields]
  | cons p kvs ih => obtain ⟨k, v⟩ := p; simp [Value.wfFields, ih]

theorem depth_le_depthElems (xs : List Value) : ∀ v ∈ xs, v.depth ≤ Value.depthElems xs := by
  induction xs with
  | nil => intro v hv; cases hv
  | cons x xs ih =>
    intro v hv
    simp only [Value.depthElems]
    rcases List.mem_cons.mp hv with h | h
    · subst h; exact le_max_left _ _
    · exact le_trans (ih v h) (le_max_right _ _)

theorem depth_le_depthFields (kvs : List (String × Value)) :
    ∀ p ∈ kvs, p.2.depth ≤ Value.depthFields kvs := by
  induction kvs with
  | nil => intro v hv; cases hv
  | cons x xs ih =>
    intro v hv
    obtain ⟨k, w⟩ := x
    simp only [Value.depthFields]
    rcases List.mem_cons.mp hv with h | h
    · subst h; exact le_max_left _ _
    · exact le_trans (ih v h) (le_max_right _ _)

/-- The first character of a number: no white space and none of the characters that
start another kind of value. -/
theorem number_start (c : Char) (h : c = '-' ∨ isDigitChar c = true) :
    isSpace c = false ∧ c ≠ 'n' ∧ c ≠ 't' ∧ c ≠ 'f' ∧ c ≠ '"' ∧ c ≠ '[' ∧ c ≠ '\x7b' ∧
      c ≠ ']' ∧ c ≠ '\x7d' := by
  rcases h with h | h
  · subst h; decide
  · have hr : 48 ≤ c.toNat ∧ c.toNat ≤ 57 := by simpa [isDigitChar] using h
    have hne : ∀ k : Char, (k.toNat < 48 ∨ 57 < k.toNat) → c ≠ k := by
      intro k hk hck; subst hck; omega
    refine ⟨?_, hne _ (by decide), hne _ (by decide), hne _ (by decide), hne _ (by decide),
      hne _ (by decide), hne _ (by decide), hne _ (by decide), hne _ (by decide)⟩
    simp only [isSpace, Bool.or_eq_false_iff, decide_eq_false_iff_not]
    exact ⟨⟨⟨hne _ (by decide), hne _ (by decide)⟩, hne _ (by decide)⟩, hne _ (by decide)⟩

/-- The text of a number in shortest form starts with `-` or a digit. -/
theorem format_head (x : Float64) (hx : x.isShortest = true) :
    ∃ c t, x.format = c :: t ∧ (c = '-' ∨ isDigitChar c = true) := by
  obtain ⟨hlt, _, _, _⟩ := isShortest_iff x hx
  have hsign : ∀ (neg : Bool) (d : Nat) (t : List Char), d < 10 →
      ∃ c t', Float64.signText neg ++ hexDigit d :: t = c :: t' ∧
        (c = '-' ∨ isDigitChar c = true) := by
    intro neg d t hd
    cases neg with
    | true => exact ⟨'-', _, rfl, Or.inl rfl⟩
    | false => exact ⟨hexDigit d, t, rfl, Or.inr (isDigitChar_hexDigit d hd).1⟩
  obtain ⟨neg, digits, dp⟩ := x
  simp only at hlt
  unfold Float64.format
  split_ifs with hc
  · -- exponent format
    cases digits with
    | nil => simp at hc
    | cons d tl => exact hsign neg d _ (hlt d (by simp))
  · -- plain format
    by_cases hpos : 0 < dp
    · cases digits with
      | nil =>
        obtain ⟨m, hm⟩ : ∃ m, dp.toNat = m + 1 := ⟨dp.toNat - 1, by omega⟩
        have : Float64.intDigits ⟨neg, [], dp⟩ = 0 :: List.replicate m 0 := by
          simp [Float64.intDigits, hpos, hm, List.replicate_succ]
        simp only [Float64.fmtF, this, List.map_cons, List.cons_append]
        exact hsign neg 0 _ (by omega)
      | cons d tl =>
        obtain ⟨m, hm⟩ : ∃ m, dp.toNat = m + 1 := ⟨dp.toNat - 1, by omega⟩
        have : Float64.intDigits ⟨neg, d :: tl, dp⟩ =
            d :: (tl.take m ++ List.replicate (dp.toNat - (d :: tl).length) 0) := by
          simp [Float64.intDigits, hpos, hm]
        simp only [Float64.fmtF, this, List.map_cons, List.cons_append]
        exact hsign neg d _ (hlt d (by simp))
    · have : Float64.intDigits ⟨neg, digits, dp⟩ = [0] := by
        simp [Float64.intDigits, hpos]
      simp only [Float64.fmtF, this, List.map_cons, List.map_nil, List.cons_append,
        List.nil_append]
      exact hsign neg 0 _ (by omega)

/-- A number written by the encoder is decoded as that number. -/
theorem parseValue_number (x : Float64) (hx : x.isShortest = true) (fuel depth : Nat)
    (rest : List Char) (hfuel : 0 < fuel) (hrest : Delimited rest) :
    parseValue fuel depth (x.format ++ rest) = some (Value.float64 x, rest) := by
  obtain ⟨f, rfl⟩ : ∃ f, fuel = f + 1 := ⟨fuel - 1, by omega⟩
  obtain ⟨c, t, hct, hc⟩ := format_head x hx
  have hnum := parseNumber_format x hx rest hrest
  obtain ⟨hsp, h1, h2, h3, h4, h5, h6, _, _⟩ := number_start c hc
  rw [hct] at hnum ⊢
  rw [List.cons_append] at hnum ⊢
  unfold parseValue
  simp only [skipSpace, hsp, Bool.false_eq_true, if_false, h1, h2, h3, h4, h5, h6]
  have hc' : (c = '-' ∨ isDigitChar c = true) := hc
  simp only [hc', if_true, hnum]

/-- A string written by the encoder is decoded as that string. -/
theorem parseValue_string (s : String) (fuel depth : Nat) (rest : List Char)
    (hfuel : 0 < fuel) :
    parseValue fuel depth (quoteString s ++ rest) = some (Value.str s, rest) := by
  obtain ⟨f, rfl⟩ : ∃ f, fuel = f + 1 := ⟨fuel - 1, by omega⟩
  obtain ⟨body, hb, hp⟩ := parseStringBody_quoteString s rest
  rw [hb]
  unfold parseValue
  have hsp : isSpace '"' = false := by decide
  simp only [skipSpace, hsp, Bool.false_eq_true, if_false]
  rw [if_neg (by decide), if_neg (by decide), if_neg (by decide), if_pos trivial, hp]

/-- The text of a well-formed value is not empty and starts with a character that is
neither white space nor a closing bracket or brace. -/
theorem marshal_head (v : Value) (hv : v.wf = true) :
    ∃ c t, v.marshal = c :: t ∧ isSpace c = false ∧ c ≠ ']' ∧ c ≠ '\x7d' := by
  cases v with
  | null => exact ⟨'n', _, rfl, by decide, by decide, by decide⟩
  | bool b =>
    cases b with
    | true => exact ⟨'t', _, rfl, by decide, by decide, by decide⟩
    | false => exact ⟨'f', _, rfl, by decide, by decide, by decide⟩
  | float64 x =>
    obtain ⟨c, t, hct, hc⟩ := format_head x (by simpa [Value.wf] using hv)
    obtain ⟨hsp, _, _, _, _, _, _, h7, h8⟩ := number_start c hc
    exact ⟨c, t, by simp [Value.marshal, hct], hsp, h7, h8⟩
  | int n =>
    cases n with
    | ofNat m =>
      obtain ⟨d, ds, hd, _⟩ := decDigitList_head (m + 1) m (by omega)
      have hlt := decDigitList_lt (m + 1) m d (by rw [hd]; simp)
      obtain ⟨hsp, _, _, _, _, _, _, h7, h8⟩ :=
        number_start (hexDigit d) (Or.inr (isDigitChar_hexDigit d hlt).1)
      refine ⟨hexDigit d, ds.map hexDigit, ?_, hsp, h7, h8⟩
      simp [Value.marshal, intToDec, natToDec, decDigits_eq_map, hd]
    | negSucc m => exact ⟨'-', _, rfl, by decide, by decide, by decide⟩
  | str s => exact ⟨'"', _, rfl, by decide, by decide, by decide⟩
  | arr xs =>
    exact ⟨'[', joinComma (Value.marshalElems xs) ++ [']'], by simp [Value.marshal],
      by decide, by decide, by decide⟩
  | obj kvs =>
    exact ⟨'\x7b', joinComma ((sortByKey (Value.marshalFields kvs)).map
      (fun p => quoteString p.1 ++ ':' :: p.2)) ++ ['\x7d'], by simp [Value.marshal],
      by decide, by decide, by decide⟩

/-- The text after leading white space, when the text starts with none. -/
theorem skipSpace_cons (c : Char) (t : List Char) (h : isSpace c = false) :
    skipSpace (c :: t) = c :: t := by
  simp [skipSpace, h]

/-- The elements of an array written by the encoder are decoded one by one, each to its
canonical form. -/
theorem parseElements_marshal (xs : List Value) (hne : xs ≠ [])
    (hP : ∀ v ∈ xs, v.ReadsBack) (hwf : ∀ v ∈ xs, v.wf = true) (fuel depth : Nat)
    (rest : List Char)
    (hfuel : (joinComma (xs.map Value.marshal)).length + 1 < fuel)
    (hd : ∀ v ∈ xs, depth + v.depth ≤ maxNestingDepth) :
    parseElements fuel depth (joinComma (xs.map Value.marshal) ++ ']' :: rest) =
      some (xs.map Value.canon, rest) := by
  induction xs generalizing fuel with
  | nil => exact absurd rfl hne
  | cons v vs ih =>
    obtain ⟨f, rfl⟩ : ∃ f, fuel = f + 1 := ⟨fuel - 1, by omega⟩
    have hv := hP v (by simp) (hwf v (by simp))
    cases vs with
    | nil =>
      simp only [List.map_cons, List.map_nil, joinComma] at hfuel ⊢
      have h1 := hv f depth (']' :: rest) (by omega) (hd v (by simp))
        (Or.inr ⟨']', rest, rfl, Or.inr (Or.inl rfl)⟩)
      unfold parseElements
      rw [h1]
      simp only [skipSpace_cons ']' rest (by decide)]
    | cons w ws =>
      simp only [List.map_cons, joinComma, List.length_append, List.length_cons] at hfuel
      have hrest : Delimited (',' :: (joinComma (w.marshal :: ws.map Value.marshal) ++
          ']' :: rest)) := Or.inr ⟨',', _, rfl, Or.inl rfl⟩
      have h1 := hv f depth _ (by omega) (hd v (by simp)) hrest
      obtain ⟨c, t, hct, _⟩ := marshal_head v (hwf v (by simp))
      have hlen : 1 ≤ v.marshal.length := by rw [hct]; simp
      have h2 := ih (by simp) (fun x hx => hP x (by simp [hx]))
        (fun x hx => hwf x (by simp [hx])) f
        (by simp only [List.map_cons]; omega) (fun x hx => hd x (by simp [hx]))
      simp only [List.map_cons] at h2
      simp only [List.map_cons, joinComma, List.append_assoc, List.cons_append]
      unfold parseElements
      rw [h1]
      simp only [skipSpace_cons ',' _ (by decide), h2]

/-- Assigning a key the map does not hold adds an entry at its end. -/
theorem setKey_append (m : JMap) (k : String) (v : Value) (h : k ∉ m.map Prod.fst) :
    setKey m k v = m ++ [(k, v)] := by
  induction m with
  | nil => rfl
  | cons p m ih =>
    obtain ⟨k₁, v₁⟩ := p
    have hk : k₁ ≠ k := by
      intro hk; apply h; simp [hk]
    have hm : k ∉ m.map Prod.fst := by
      intro hm; apply h; simp only [List.map_cons, List.mem_cons]; exact Or.inr hm
    simp only [setKey, hk, if_false, ih hm, List.cons_append]

/-- Members with distinct keys, assigned one after the other, are kept as written. -/
theorem foldl_setKey (l acc : JMap) (hnd : ((acc ++ l).map Prod.fst).Nodup) :
    l.foldl (fun m kv => setKey m kv.1 kv.2) acc = acc ++ l := by
  induction l generalizing acc with
  | nil => simp
  | cons p l ih =>
    have hk : p.1 ∉ acc.map Prod.fst := by
      intro hk
      rw [List.map_append, List.map_cons] at hnd
      have := (List.nodup_append.mp hnd).2.2
      exact this hk (by simp)
    rw [List.foldl_cons, setKey_append acc p.1 p.2 hk, ih (acc ++ [(p.1, p.2)])
      (by simpa using hnd)]
    simp

/-- The map of members with distinct keys is the list of the members. -/
theorem mkMap_nodup (l : JMap) (hnd : (l.map Prod.fst).Nodup) : mkMap l = l := by
  unfold mkMap
  rw [foldl_setKey l [] (by simpa using hnd)]
  rfl

/-- The last member of an object is decoded. -/
theorem parseMembers_last (k : String) (tail rest : List Char) (f depth : Nat) (v : Value)
    (h : parseValue f depth tail = some (v, '\x7d' :: rest)) :
    parseMembers (f + 1) depth (quoteString k ++ ':' :: tail) = some ([(k, v)], rest) := by
  obtain ⟨body, hb, hp⟩ := parseStringBody_quoteString k (':' :: tail)
  rw [hb]
  unfold parseMembers
  simp only [skipSpace_cons '"' body (by decide), hp, skipSpace_cons ':' tail (by decide), h,
    skipSpace_cons '\x7d' rest (by decide)]

/-- A member of an object followed by further members is decoded. -/
theorem parseMembers_more (k : String) (tail rest₄ rest₅ : List Char) (f depth : Nat)
    (v : Value) (kvs : List (String × Value))
    (h : parseValue f depth tail = some (v, ',' :: rest₄))
    (h₂ : parseMembers f depth rest₄ = some (kvs, rest₅)) :
    parseMembers (f + 1) depth (quoteString k ++ ':' :: tail) = some ((k, v) :: kvs, rest₅) := by
  obtain ⟨body, hb, hp⟩ := parseStringBody_quoteString k (':' :: tail)
  rw [hb]
  rw [parseMembers]
  simp only [skipSpace_cons '"' body (by decide), hp, skipSpace_cons ':' tail (by decide), h,
    skipSpace_cons ',' rest₄ (by decide), h₂]

/-- The members of an object written by the encoder are decoded one by one, each value
to its canonical form. -/
theorem parseMembers_marshal (l : List (String × Value)) (hne : l ≠ [])
    (hP : ∀ p ∈ l, p.2.ReadsBack) (hwf : ∀ p ∈ l, p.2.wf = true) (fuel depth : Nat)
    (rest : List Char)
    (hfuel : (joinComma (l.map (fun p => quoteString p.1 ++ ':' :: p.2.marshal))).length + 1
      < fuel)
    (hd : ∀ p ∈ l, depth + p.2.depth ≤ maxNestingDepth) :
    parseMembers fuel depth
      (joinComma (l.map (fun p => quoteString p.1 ++ ':' :: p.2.marshal)) ++ '\x7d' :: rest) =
      some (l.map (fun p => (p.1, p.2.canon)), rest) := by
  induction l generalizing fuel with
  | nil => exact absurd rfl hne
  | cons p ps ih =>
    obtain ⟨f, rfl⟩ : ∃ f, fuel = f + 1 := ⟨fuel - 1, by omega⟩
    obtain ⟨k, v⟩ := p
    have hv : v.wf = true → ∀ (fuel depth : Nat) (rest : List Char),
        v.marshal.length < fuel → depth + v.depth ≤ maxNestingDepth → Delimited rest →
        parseValue fuel depth (v.marshal ++ rest) = some (v.canon, rest) := hP (k, v) (by simp)
    have hv := hv (hwf (k, v) (by simp))
    have hq : 2 ≤ (quoteString k).length := by simp [quoteString]
    cases ps with
    | nil =>
      simp only [List.map_cons, List.map_nil, joinComma, List.length_append,
        List.length_cons] at hfuel
      have h1 := hv f depth ('\x7d' :: rest) (by omega) (hd (k, v) (by simp))
        (Or.inr ⟨'\x7d', rest, rfl, Or.inr (Or.inr rfl)⟩)
      simp only [List.map_cons, List.map_nil, joinComma, List.append_assoc,
        List.cons_append]
      exact parseMembers_last k _ rest f depth _ h1
    | cons q qs =>
      simp only [List.map_cons, joinComma, List.length_append, List.length_cons] at hfuel
      have hrest : Delimited (',' :: (joinComma
          ((quoteString q.1 ++ ':' :: q.2.marshal) ::
            qs.map (fun p => quoteString p.1 ++ ':' :: p.2.marshal)) ++ '\x7d' :: rest)) :=
        Or.inr ⟨',', _, rfl, Or.inl rfl⟩
      have h1 := hv f depth _ (by omega) (hd (k, v) (by simp)) hrest
      have h2 := ih (by simp) (fun x hx => hP x (by simp [hx]))
        (fun x hx => hwf x (by simp [hx])) f
        (by simp only [List.map_cons]; omega) (fun x hx => hd x (by simp [hx]))
      simp only [List.map_cons] at h2
      simp only [List.map_cons, joinComma, List.append_assoc, List.cons_append]
      exact parseMembers_more k _ _ rest f depth _ _ h1 h2

/-- An empty array or object, and the literals, are decoded as written. -/
theorem readsBack_null : Value.null.ReadsBack := by
  intro _ fuel depth rest hfuel _ _
  obtain ⟨f, rfl⟩ : ∃ f, fuel = f + 1 := ⟨fuel - 1, by omega⟩
  rfl

theorem readsBack_bool (b : Bool) : (Value.bool b).ReadsBack := by
  intro _ fuel depth rest hfuel _ _
  obtain ⟨f, rfl⟩ : ∃ f, fuel = f + 1 := ⟨fuel - 1, by omega⟩
  cases b <;> rfl

theorem readsBack_float64 (x : Float64) : (Value.float64 x).ReadsBack := by
  intro hwf fuel depth rest hfuel _ hrest
  exact parseValue_number x (by simpa [Value.wf] using hwf) fuel depth rest (by omega) hrest

theorem readsBack_int (n : Int) : (Value.int n).ReadsBack := by
  intro hwf fuel depth rest hfuel _ hrest
  have hb : -9007199254740992 ≤ n ∧ n ≤ 9007199254740992 := by
    simpa [Value.wf] using hwf
  obtain ⟨hs, hf⟩ := ofInt_format n (by omega)
  show parseValue fuel depth (intToDec n ++ rest) = some (Value.float64 (Float64.ofInt n), rest)
  rw [← hf]
  exact parseValue_number _ hs fuel depth rest (by omega) hrest

theorem readsBack_str (s : String) : (Value.str s).ReadsBack := by
  intro _ fuel depth rest hfuel _ _
  exact parseValue_string s fuel depth rest (by omega)

/-- An array is decoded when its elements are. -/
theorem readsBack_arr (xs : List Value) (hP : ∀ v ∈ xs, v.ReadsBack) :
    (Value.arr xs).ReadsBack := by
  intro hwf fuel depth rest hfuel hdepth _
  obtain ⟨f, rfl⟩ : ∃ f, fuel = f + 1 := ⟨fuel - 1, by omega⟩
  have hwf' : ∀ v ∈ xs, v.wf = true := (wfElems_iff xs).mp (by simpa [Value.wf] using hwf)
  have hd : ¬ maxNestingDepth ≤ depth := by
    simp only [Value.depth] at hdepth; omega
  have hm : (Value.arr xs).marshal ++ rest =
      '[' :: (joinComma (xs.map Value.marshal) ++ ']' :: rest) := by
    simp [Value.marshal, marshalElems_eq]
  rw [hm]
  have hc : (Value.arr xs).canon = Value.arr (xs.map Value.canon) := by
    simp [Value.canon, canonElems_eq]
  rw [hc]
  unfold parseValue
  simp only [skipSpace_cons '[' _ (by decide)]
  rw [if_neg (by decide), if_neg (by decide), if_neg (by decide), if_neg (by decide),
    if_pos trivial, if_neg hd]
  cases xs with
  | nil => simp [joinComma, skipSpace_cons ']' rest (by decide)]
  | cons v vs =>
    have hlen : (joinComma ((v :: vs).map Value.marshal)).length + 1 < f := by
      have := congrArg List.length hm
      simp only [List.length_append, List.length_cons] at this
      omega
    have hel := parseElements_marshal (v :: vs) (by simp) hP hwf' f (depth + 1) rest hlen
      (fun x hx => by
        have := depth_le_depthElems (v :: vs) x hx
        simp only [Value.depth] at hdepth
        omega)
    obtain ⟨c, t, hct, hsp, hnb, _⟩ := marshal_head v (hwf' v (by simp))
    have hstart : ∃ t', joinComma ((v :: vs).map Value.marshal) ++ ']' :: rest = c :: t' := by
      cases vs with
      | nil => exact ⟨t ++ ']' :: rest, by simp [joinComma, hct]⟩
      | cons w ws => exact ⟨_, by simp only [List.map_cons, joinComma, hct]; rfl⟩
    obtain ⟨t', ht'⟩ := hstart
    rw [hel]
    rw [ht', skipSpace_cons c t' hsp]
    split
    · rename_i heq
      exact absurd (List.cons.inj heq).1 hnb
    · rfl

/-- An object is decoded when the values of its members are. -/
theorem readsBack_obj (kvs : List (String × Value)) (hP : ∀ p ∈ kvs, p.2.ReadsBack) :
    (Value.obj kvs).ReadsBack := by
  intro hwf fuel depth rest hfuel hdepth _
  obtain ⟨f, rfl⟩ : ∃ f, fuel = f + 1 := ⟨fuel - 1, by omega⟩
  have hwf0 : (kvs.map Prod.fst).Nodup ∧ Value.wfFields kvs = true := by
    simpa [Value.wf] using hwf
  have hwf' : ∀ p ∈ kvs, p.2.wf = true := (wfFields_iff kvs).mp hwf0.2
  have hd : ¬ maxNestingDepth ≤ depth := by
    simp only [Value.depth] at hdepth; omega
  have hsort : sortByKey (Value.marshalFields kvs) =
      (sortByKey kvs).map (fun p => (p.1, p.2.marshal)) := by
    rw [marshalFields_eq, sortByKey_map]
  have hm : (Value.obj kvs).marshal ++ rest =
      '\x7b' :: (joinComma ((sortByKey kvs).map
        (fun p => quoteString p.1 ++ ':' :: p.2.marshal)) ++ '\x7d' :: rest) := by
    simp only [Value.marshal, hsort, List.map_map, List.cons_append, List.append_assoc,
      List.nil_append]
    rfl
  rw [hm]
  have hc : (Value.obj kvs).canon =
      Value.obj ((sortByKey kvs).map (fun p => (p.1, p.2.canon))) := by
    simp only [Value.canon, canonFields_eq, sortByKey_map]
  rw [hc]
  have hmem : ∀ p, p ∈ sortByKey kvs ↔ p ∈ kvs := fun p => List.mem_insertionSort keyLE
  have hperm : (sortByKey kvs).Perm kvs := List.perm_insertionSort keyLE kvs
  unfold parseValue
  simp only [skipSpace_cons '\x7b' _ (by decide)]
  rw [if_neg (by decide), if_neg (by decide), if_neg (by decide), if_neg (by decide),
    if_neg (by decide), if_pos trivial, if_neg hd]
  cases hl : sortByKey kvs with
  | nil =>
    simp [joinComma, skipSpace_cons '\x7d' rest (by decide), mkMap]
  | cons p ps =>
    have hlen : (joinComma ((p :: ps).map
        (fun p => quoteString p.1 ++ ':' :: p.2.marshal))).length + 1 < f := by
      have := congrArg List.length hm
      rw [hl] at this
      simp only [List.length_append, List.length_cons] at this
      omega
    have hmem' : ∀ x ∈ p :: ps, x ∈ kvs := fun x hx => (hmem x).mp (hl ▸ hx)
    have hel := parseMembers_marshal (p :: ps) (by simp) (fun x hx => hP x (hmem' x hx))
      (fun x hx => hwf' x (hmem' x hx)) f (depth + 1) rest hlen
      (fun x hx => by
        have := depth_le_depthFields kvs x (hmem' x hx)
        simp only [Value.depth] at hdepth
        omega)
    have hstart : ∃ t', joinComma ((p :: ps).map
        (fun p => quoteString p.1 ++ ':' :: p.2.marshal)) ++ '\x7d' :: rest = '"' :: t' := by
      cases ps with
      | nil => exact ⟨_, by simp only [List.map_cons, List.map_nil, joinComma, quoteString]; rfl⟩
      | cons w ws => exact ⟨_, by simp only [List.map_cons, joinComma, quoteString]; rfl⟩
    obtain ⟨t', ht'⟩ := hstart
    have hnd : (((p :: ps).map (fun p => (p.1, p.2.canon))).map Prod.fst).Nodup := by
      rw [List.map_map]
      have : (Prod.fst ∘ fun p : String × Value => (p.1, p.2.canon)) = Prod.fst := rfl
      rw [this, ← hl]
      exact (hperm.map Prod.fst).nodup_iff.mpr hwf0.1
    rw [hel, ht', skipSpace_cons '"' t' (by decide)]
    simp only [mkMap_nodup _ hnd]
    split
    · rename_i heq
      exact absurd (List.cons.inj heq).1 (by decide)
    · rfl

mutual
/-- The decoder reads back the text of every well-formed value. -/
theorem readsBack : ∀ v : Value, v.ReadsBack
  | .null => readsBack_null
  | .bool b => readsBack_bool b
  | .float64 x => readsBack_float64 x
  | .int n => readsBack_int n
  | .str s => readsBack_str s
  | .arr xs => readsBack_arr xs (readsBack_elems xs)
  | .obj kvs => readsBack_obj kvs (readsBack_fields kvs)
/-- The decoder reads back the text of every element. -/
theorem readsBack_elems : ∀ xs : List Value, ∀ v ∈ xs, v.ReadsBack
  | [], _, h => absurd h (List.not_mem_nil _)
  | x :: xs, v, h => by
    rcases List.mem_cons.mp h with hx | hx
    · rw [hx]; exact readsBack x
    · exact readsBack_elems xs v hx
/-- The decoder reads back the text of every member value. -/
theorem readsBack_fields : ∀ kvs : List (String × Value), ∀ p ∈ kvs, p.2.ReadsBack
  | [], _, h => absurd h (List.not_mem_nil _)
  | (k, x) :: kvs, p, h => by
    rcases List.mem_cons.mp h with hx | hx
    · rw [hx]; exact readsBack x
    · exact readsBack_fields kvs p hx
end

/-! ## Serialising again what was decoded -/

/-- Values with the same texts, member by member, make objects with the same text. -/
theorem marshal_obj_congr (kvs kvs' : List (String × Value))
    (h : sortByKey (Value.marshalFields kvs) = sortByKey (Value.marshalFields kvs')) :
    (Value.obj kvs).marshal = (Value.obj kvs').marshal := by
  simp only [Value.marshal, h]

/-- The canonical form of an array has the text of the array, when its elements do. -/
theorem canon_marshal_arr (xs : List Value) (h : ∀ v ∈ xs, v.canon.marshal = v.marshal) :
    (Value.arr xs).canon.marshal = (Value.arr xs).marshal := by
  have : (xs.map Value.canon).map Value.marshal = xs.map Value.marshal := by
    rw [List.map_map]
    exact List.map_congr_left (fun v hv => h v hv)
  simp only [Value.canon, Value.marshal, canonElems_eq, marshalElems_eq, this]

/-- The canonical form of an object has the text of the object, when its member values
do. -/
theorem canon_marshal_obj (kvs : List (String × Value))
    (h : ∀ p ∈ kvs, p.2.canon.marshal = p.2.marshal) :
    (Value.obj kvs).canon.marshal = (Value.obj kvs).marshal := by
  show (Value.obj (sortByKey (Value.canonFields kvs))).marshal = (Value.obj kvs).marshal
  apply marshal_obj_congr
  rw [canonFields_eq, marshalFields_eq, marshalFields_eq, ← sortByKey_map,
    sortByKey_sortByKey, List.map_map]
  congr 1
  exact List.map_congr_left (fun p hp => by simp [h p hp])

mutual
/-- The canonical form of a well-formed value has the same text as the value. -/
theorem canon_marshal : ∀ v : Value, v.wf = true → v.canon.marshal = v.marshal
  | .null, _ => rfl
  | .bool _, _ => rfl
  | .float64 _, _ => rfl
  | .int n, h => by
    have hb : -9007199254740992 ≤ n ∧ n ≤ 9007199254740992 := by
      simpa [Value.wf] using h
    exact (ofInt_format n (by omega)).2
  | .str _, _ => rfl
  | .arr xs, h =>
    canon_marshal_arr xs (canon_marshal_elems xs
      ((wfElems_iff xs).mp (by simpa [Value.wf] using h)))
  | .obj kvs, h =>
    canon_marshal_obj kvs (canon_marshal_fields kvs
      ((wfFields_iff kvs).mp (by
        have : (kvs.map Prod.fst).Nodup ∧ Value.wfFields kvs = true := by
          simpa [Value.wf] using h
        exact this.2)))
/-- The canonical form of every well-formed element has the text of the element. -/
theorem canon_marshal_elems : ∀ xs : List Value, (∀ v ∈ xs, v.wf = true) →
    ∀ v ∈ xs, v.canon.marshal = v.marshal
  | [], _, _, h => absurd h (List.not_mem_nil _)
  | x :: xs, hw, v, h => by
    rcases List.mem_cons.mp h with hx | hx
    · rw [hx]; exact canon_marshal x (hw x (by simp))
    · exact canon_marshal_elems xs (fun y hy => hw y (by simp [hy])) v hx
/-- The canonical form of every well-formed member value has the text of the value. -/
theorem canon_marshal_fields : ∀ kvs : List (String × Value), (∀ p ∈ kvs, p.2.wf = true) →
    ∀ p ∈ kvs, p.2.canon.marshal = p.2.marshal
  | [], _, _, h => absurd h (List.not_mem_nil _)
  | (k, x) :: kvs, hw, p, h => by
    rcases List.mem_cons.mp h with hx | hx
    · rw [hx]; exact canon_marshal x (hw (k, x) (by simp))
    · exact canon_marshal_fields kvs (fun y hy => hw y (by simp [hy])) p hx
end

/-- The whole text of a well-formed value decodes to its canonical form. -/
theorem jsonDecode_marshal (v : Value) (hwf : v.wf = true)
    (hdepth : v.depth ≤ maxNestingDepth) : jsonDecode v.marshal = some v.canon := by
  have h := readsBack v hwf (v.marshal.length + 1) 0 [] (by omega) (by omega) (Or.inl rfl)
  rw [List.append_nil] at h
  unfold jsonDecode
  rw [h]
  rfl

/-- A well-formed map serialised and parsed back is its canonical form. -/
theorem reserialize_eq_canon (m : GoMap) (hwf : m.wf = true) : reserialize m = m.canon := by
  have h : m.toValue.wf = true ∧ m.toValue.depth ≤ maxNestingDepth := by
    simpa [GoMap.wf] using hwf
  have hdec := jsonDecode_marshal m.toValue h.1 h.2
  cases m with
  | none => rfl
  | some kvs =>
    have hnd : (kvs.map Prod.fst).Nodup := by
      have : (kvs.map Prod.fst).Nodup ∧ Value.wfFields kvs = true := by
        simpa [GoMap.toValue, Value.wf] using h.1
      exact this.1
    have hnd' : ((sortByKey (Value.canonFields kvs)).map Prod.fst).Nodup := by
      rw [canonFields_eq, sortByKey_map, List.map_map]
      have : (Prod.fst ∘ fun p : String × Value => (p.1, p.2.canon)) = Prod.fst := rfl
      rw [this]
      exact ((List.perm_insertionSort keyLE kvs).map Prod.fst).nodup_iff.mpr hnd
    have hdec' : jsonDecode (Value.obj kvs).marshal =
        some (Value.obj (sortByKey (Value.canonFields kvs))) := hdec
    simp only [reserialize, jsonUnmarshalMap, GoMap.toValue, hdec', Option.getD_none,
      GoMap.canon]
    rw [foldl_setKey _ [] (by simpa using hnd')]
    rfl

/-- A well-formed map and the map parsed back from its JSON have the same JSON. -/
theorem mustJSON_reserialize (m : GoMap) (hwf : m.wf = true) :
    mustJSON (reserialize m).toValue = mustJSON m.toValue := by
  rw [reserialize_eq_canon m hwf]
  have h : m.toValue.wf = true := by
    have : m.toValue.wf = true ∧ m.toValue.depth ≤ maxNestingDepth := by
      simpa [GoMap.wf] using hwf
    exact this.1
  have hc : m.canon.toValue = m.toValue.canon := by
    cases m <;> rfl
  rw [mustJSON, mustJSON, hc, canon_marshal _ h]

/-- Maps whose members, up to their order, have the same keys and the same value texts
have the same JSON. -/
theorem mustJSON_perm (kvs kvs' : JMap) (hnd : (kvs.map Prod.fst).Nodup)
    (hp : (Value.marshalFields kvs).Perm (Value.marshalFields kvs')) :
    mustJSON (GoMap.toValue (some kvs)) = mustJSON (GoMap.toValue (some kvs')) := by
  have hk : ((Value.marshalFields kvs).map Prod.fst).Nodup := by
    rw [marshalFields_eq, List.map_map]
    exact hnd
  simp only [mustJSON, GoMap.toValue]
  rw [marshal_obj_congr kvs kvs' (sortByKey_perm _ _ hp hk)]

/-- C10: the binding hash (SHA-256, in hexadecimal, of `hex(json(inputs)) |
hex(json(facts)) | version`) is unchanged when inputs and facts are replaced by the
values obtained by serialising them to JSON and parsing them back; it does not depend on
the order in which the members of an object are held, maps with the same keys and the
same member texts having the same hash; and `PersistDecision` stores, and
`ValidateAndBindDecision` compares with, the hash given by this one formula. Inputs and
facts are maps as JSON carries them: distinct keys, numbers in shortest form, integers
that a `float64` holds exactly, nesting within the limit of the decoder. -/
theorem bindingHash_canonical (inputs facts : GoMap) (ver : Int)
    (hi : inputs.wf = true) (hf : facts.wf = true) :
    bindingHash (reserialize inputs) (reserialize facts) ver =
      bindingHash inputs facts ver ∧
    (∀ kvs kvs' : JMap, inputs = some kvs →
      (Value.marshalFields kvs).Perm (Value.marshalFields kvs') →
      bindingHash (some kvs') facts ver = bindingHash inputs facts ver) ∧
    (∀ kvs kvs' : JMap, facts = some kvs →
      (Value.marshalFields kvs).Perm (Value.marshalFields kvs') →
      bindingHash inputs (some kvs') ver = bindingHash inputs facts ver) ∧
    (∀ (id tenantID : String) (d : Decision), d.Inputs = inputs → d.Facts = facts →
      d.PolicyVersion = ver →
      (persistedRow id tenantID d).hash = bindingHash inputs facts ver) ∧
    (∀ (env : Env) (engine : FactsEngine) (now : Time) (db : DB)
      (tenantID decisionID actionKey : String) (row : DecisionRow),
      findDecision db tenantID decisionID = some row → row.action_key = actionKey →
      (row.status = "ALLOW" ∨ row.status = "ALLOW_WITH_CONDITIONS") →
      (∀ e, row.expires_at = some e → now ≤ e) → row.policy_version = ver →
      (engine tenantID actionKey inputs).1 = facts →
      ((ValidateAndBindDecision env engine now (some db) tenantID decisionID actionKey
          inputs).1 = true ↔
        (row.hash = "" ∨ row.hash = bindingHash inputs facts ver))) := by
  have hnd : ∀ (m : GoMap) (kvs : JMap), m.wf = true → m = some kvs →
      (kvs.map Prod.fst).Nodup := by
    intro m kvs hm hk
    subst hk
    have : ((kvs.map Prod.fst).Nodup ∧ Value.wfFields kvs = true) ∧
        (GoMap.toValue (some kvs)).depth ≤ maxNestingDepth := by
      simpa [GoMap.wf, GoMap.toValue, Value.wf] using hm
    exact this.1.1
  refine ⟨?_, ?_, ?_, ?_, ?_⟩
  · simp only [bindingHash, mustJSON_reserialize inputs hi, mustJSON_reserialize facts hf]
  · intro kvs kvs' hk hp
    subst hk
    simp only [bindingHash, mustJSON_perm kvs kvs' (hnd _ kvs hi rfl) hp]
  · intro kvs kvs' hk hp
    subst hk
    simp only [bindingHash, mustJSON_perm kvs kvs' (hnd _ kvs hf rfl) hp]
  · intro id tenantID d h1 h2 h3
    rw [← h1, ← h2, ← h3]
    exact calc_eq_bindingHash _ _ _
  · intro env engine now db tenantID decisionID actionKey row hrow hact hst hexp hver hfa
    rw [validateAndBind_found env engine now db tenantID decisionID actionKey inputs row hrow]
    have h2 : ¬ (row.status ≠ "ALLOW" ∧ row.status ≠ "ALLOW_WITH_CONDITIONS") := by
      rintro ⟨ha, hb⟩
      rcases hst with h | h
      · exact ha h
      · exact hb h
    have h3 : ¬ ∃ e, row.expires_at = some e ∧ e < now := by
      rintro ⟨e, he, hlt⟩
      exact absurd (hexp e he) (not_le.mpr hlt)
    simp only [ne_eq, hact, not_true_eq_false, if_false, h2, h3, hfa, hver]
    by_cases h4 : ¬ row.hash = "" ∧ ¬ row.hash = bindingHash inputs facts ver
    · rw [if_pos h4]
      simp only [Bool.false_eq_true, false_iff, not_or]
      exact h4
    · rw [if_neg h4]
      simp only [true_iff]
      by_contra hc
      exact h4 ⟨fun h => hc (Or.inl h), fun h => hc (Or.inr h)⟩

/-- Witness of `bindingHash_canonical`: inputs held as `{"b": 2, "a": [1.5, "x"]}`,
with an integer and keys out of order, and the facts `{"amount": 10}`. -/
theorem bindingHash_canonical_witness :
    GoMap.wf (some [("b", Value.int 2),
      ("a", Value.arr [Value.float64 onePointFive, Value.str "x"])]) = true ∧
    GoMap.wf (amountInputs 10) = true ∧
    bindingHash
      (reserialize (some [("b", Value.int 2),
        ("a", Value.arr [Value.float64 onePointFive, Value.str "x"])]))
      (reserialize (amountInputs 10)) 3 =
    bindingHash (some [("b", Value.int 2),
      ("a", Value.arr [Value.float64 onePointFive, Value.str "x"])]) (amountInputs 10) 3 :=
  ⟨by decide, by decide,
    (bindingHash_canonical (some [("b", Value.int 2),
      ("a", Value.arr [Value.float64 onePointFive, Value.str "x"])]) (amountInputs 10) 3
      (by decide) (by decide)).1⟩

/-! ## Execute -/

/-- The insert of an execution leaves the connector operations as they are. -/
theorem insertExecution_operations (db : DB) (row : ExecutionRow) :
    (insertExecution db row).operations = db.operations := by
  unfold insertExecution
  split <;> rfl

/-- The outcome of `Execute` depends on the store through its connector operations
only. -/
theorem executeOutcome_congr (env : Env) (upstream : Upstream) (db db' : DB)
    (tenantID actionKey : String) (input : GoMap) (h : db'.operations = db.operations) :
    executeOutcome env upstream (some db') tenantID actionKey input =
      executeOutcome env upstream (some db) tenantID actionKey input := by
  unfold executeOutcome renderRequest resolveOperation enabledOperations
  simp only [h]

/-- The insert adds the row when the store holds none of its tenant and idempotency
key. -/
theorem insertExecution_fresh (db : DB) (row : ExecutionRow)
    (h : ∀ r ∈ db.executions,
      ¬ (r.tenant_id = row.tenant_id ∧ r.idempotency_key = row.idempotency_key)) :
    (insertExecution db row).executions = db.executions ++ [row] := by
  unfold insertExecution
  rw [if_neg]
  intro hany
  obtain ⟨r, hr, hk⟩ := List.any_eq_true.mp hany
  exact h r hr (by simpa using hk)

/-- The insert is a no-op when the store holds a row of its tenant and idempotency
key. -/
theorem insertExecution_conflict (db : DB) (row r : ExecutionRow) (hr : r ∈ db.executions)
    (ht : r.tenant_id = row.tenant_id) (hk : r.idempotency_key = row.idempotency_key) :
    insertExecution db row = db := by
  unfold insertExecution
  rw [if_pos]
  exact List.any_eq_true.mpr ⟨r, hr, by simp [ht, hk]⟩

/-- C4 (counterexample): two `Execute` calls of tenant `t1` for `orders.orders` under the
idempotency key `k1`, the upstream answering the first with status 200 and the second
with status 500: the second call, made on the store the first one left, returns a step
with status 500, not the result of the first call. -/
theorem execute_second_call_redispatches :
    (Execute sampleEnv (answers 200) (some ordersStore) "t1" "orders.orders" "D1"
        keyedInput).2.2 = some ordersStoreAfter ∧
      (Execute sampleEnv (answers 200) (some ordersStore) "t1" "orders.orders" "D1"
        keyedInput).1.Steps =
        [[("op", Value.str "request"), ("method", Value.str "GET"),
          ("url", Value.str "https://up.example/v1/orders"), ("status", Value.int 200)]] ∧
      (Execute sampleEnv (answers 500) (some ordersStoreAfter) "t1" "orders.orders" "D1"
        keyedInput).1.Steps =
        [[("op", Value.str "request"), ("method", Value.str "GET"),
          ("url", Value.str "https://up.example/v1/orders"), ("status", Value.int 500)]] ∧
      (Execute sampleEnv (answers 500) (some ordersStoreAfter) "t1" "orders.orders" "D1"
        keyedInput).1 ≠
        (Execute sampleEnv (answers 200) (some ordersStore) "t1" "orders.orders" "D1"
          keyedInput).1 := by
  have h₁ : (Execute sampleEnv (answers 200) (some ordersStore) "t1" "orders.orders" "D1"
        keyedInput).1.Steps =
        [[("op", Value.str "request"), ("method", Value.str "GET"),
          ("url", Value.str "https://up.example/v1/orders"), ("status", Value.int 200)]] :=
    rfl
  have h₂ : (Execute sampleEnv (answers 500) (some ordersStoreAfter) "t1" "orders.orders"
        "D1" keyedInput).1.Steps =
        [[("op", Value.str "request"), ("method", Value.str "GET"),
          ("url", Value.str "https://up.example/v1/orders"), ("status", Value.int 500)]] :=
    rfl
  refine ⟨rfl, h₁, h₂, fun h => ?_⟩
  have hs := congrArg ExecuteResult.Steps h
  rw [h₁, h₂] at hs
  simp at hs

/-- C4 (amended): for every two `Execute` calls made with the same tenant and the same
idempotency key against a store that holds no execution of that key, the second call on
the store the first one left leaves that store as it is, the store then holds exactly one
row of that key, the row of the first call, and the second call returns the outcome of
its own operation resolution and dispatch, the one it returns on the store before the
first call. -/
theorem execute_twice_one_row (env : Env) (up₁ up₂ : Upstream) (db : DB)
    (tenantID a₁ a₂ d₁ d₂ : String) (in₁ in₂ : GoMap)
    (hkey : idempotencyKeyOf d₂ in₂ = idempotencyKeyOf d₁ in₁)
    (hfresh : ∀ r ∈ db.executions,
      ¬ (r.tenant_id = tenantID ∧ r.idempotency_key = idempotencyKeyOf d₁ in₁)) :
    ∃ db₁, (Execute env up₁ (some db) tenantID a₁ d₁ in₁).2.2 = some db₁ ∧
      (Execute env up₂ (some db₁) tenantID a₂ d₂ in₂).2.2 = some db₁ ∧
      db₁.executions.filter (fun r =>
          r.tenant_id = tenantID ∧ r.idempotency_key = idempotencyKeyOf d₁ in₁) =
        [executionRow tenantID a₁ d₁ (idempotencyKeyOf d₁ in₁)
          (Execute env up₁ (some db) tenantID a₁ d₁ in₁).1] ∧
      (Execute env up₂ (some db₁) tenantID a₂ d₂ in₂).1 =
        executeOutcome env up₂ (some db) tenantID a₂ in₂ := by
  have hex : (insertExecution db (executionRow tenantID a₁ d₁ (idempotencyKeyOf d₁ in₁)
      (executeOutcome env up₁ (some db) tenantID a₁ in₁))).executions =
      db.executions ++ [executionRow tenantID a₁ d₁ (idempotencyKeyOf d₁ in₁)
        (executeOutcome env up₁ (some db) tenantID a₁ in₁)] :=
    insertExecution_fresh db _ hfresh
  refine ⟨_, rfl, ?_, ?_, ?_⟩
  · show some (insertExecution _ _) = some _
    rw [hkey]
    exact congrArg some (insertExecution_conflict _ _
      (executionRow tenantID a₁ d₁ (idempotencyKeyOf d₁ in₁)
        (executeOutcome env up₁ (some db) tenantID a₁ in₁))
      (by rw [hex]; simp) rfl rfl)
  · rw [hex, List.filter_append]
    have hnone : db.executions.filter (fun r =>
        decide (r.tenant_id = tenantID ∧ r.idempotency_key = idempotencyKeyOf d₁ in₁)) = [] := by
      apply List.filter_eq_nil_iff.mpr
      intro r hr
      simpa using hfresh r hr
    have hres : (Execute env up₁ (some db) tenantID a₁ d₁ in₁).1 =
        executeOutcome env up₁ (some db) tenantID a₁ in₁ := rfl
    rw [hnone, hres]
    simp [executionRow]
  · exact executeOutcome_congr env up₂ db _ tenantID a₂ in₂ (insertExecution_operations _ _)

theorem execute_twice_one_row_witness :
    idempotencyKeyOf "D1" keyedInput = idempotencyKeyOf "D1" keyedInput ∧
    (∀ r ∈ ordersStore.executions,
      ¬ (r.tenant_id = "t1" ∧ r.idempotency_key = idempotencyKeyOf "D1" keyedInput)) ∧
    ∃ db₁, (Execute sampleEnv (answers 200) (some ordersStore) "t1" "orders.orders" "D1"
        keyedInput).2.2 = some db₁ ∧
      (Execute sampleEnv (answers 500) (some db₁) "t1" "orders.orders" "D1"
        keyedInput).2.2 = some db₁ ∧
      db₁.executions.filter (fun r =>
          r.tenant_id = "t1" ∧ r.idempotency_key = idempotencyKeyOf "D1" keyedInput) =
        [executionRow "t1" "orders.orders" "D1" (idempotencyKeyOf "D1" keyedInput)
          (Execute sampleEnv (answers 200) (some ordersStore) "t1" "orders.orders" "D1"
            keyedInput).1] ∧
      (Execute sampleEnv (answers 500) (some db₁) "t1" "orders.orders" "D1" keyedInput).1 =
        executeOutcome sampleEnv (answers 500) (some ordersStore) "t1" "orders.orders"
          keyedInput :=
  ⟨rfl, (by intro r hr; cases hr),
    execute_twice_one_row sampleEnv (answers 200) (answers 500) ordersStore "t1"
      "orders.orders" "orders.orders" "D1" "D1" keyedInput keyedInput rfl
      (by intro r hr; cases hr)⟩

/-! ## ResolveFacts -/

/-- The clock after `n` mappings and one more. -/
theorem Clock.drop_next (clock : Clock) (n : Nat) :
    (clock.drop n).next = clock.drop (n + 1) := by
  funext i
  simp only [Clock.next, Clock.drop]
  congr 1
  omega

/-- The clock before any mapping. -/
theorem Clock.drop_zero (clock : Clock) : clock.drop 0 = clock := by
  funext i
  simp [Clock.drop]

/-- The loop over the mappings ends with a facts map and no error, or with an error and
no facts map. -/
theorem applyMappings_cases (search : JMESPath) (doc : Value) (ms : List Mapping) :
    ∀ (clock : Clock) (facts : JMap),
      (∃ f, applyMappings search doc clock ms facts = (some f, none)) ∨
      (∃ e, applyMappings search doc clock ms facts = (none, some e)) := by
  induction ms with
  | nil => intro clock facts; exact Or.inl ⟨facts, rfl⟩
  | cons m ms ih =>
    intro clock facts
    rw [applyMappings]
    cases hv : evalMapping search doc (clock 0).1 (clock 0).2 m with
    | error err =>
      cases hr : m.Required with
      | true => exact Or.inr ⟨err, by simp⟩
      | false =>
        simp only [Bool.false_eq_true, if_false]
        exact ih _ _
    | ok val => exact ih _ _

/-- The loop over a list of mappings that starts with mappings applied without error
goes on with the rest of the list from the facts they leave. -/
theorem applyMappings_append_ok (search : JMESPath) (doc : Value) (pre rest : List Mapping) :
    ∀ (clock : Clock) (facts f : JMap),
      applyMappings search doc clock pre facts = (some f, none) →
      applyMappings search doc clock (pre ++ rest) facts =
        applyMappings search doc (clock.drop pre.length) rest f := by
  induction pre with
  | nil =>
    intro clock facts f h
    rw [applyMappings] at h
    have hf : facts = f := by simpa using h
    rw [hf, List.nil_append, List.length_nil, Clock.drop_zero]
  | cons m ms ih =>
    intro clock facts f h
    rw [List.cons_append, applyMappings]
    rw [applyMappings] at h
    have hshift : (clock.next).drop ms.length = clock.drop (ms.length + 1) := by
      funext i
      simp only [Clock.next, Clock.drop]
      congr 1
      omega
    cases hv : evalMapping search doc (clock 0).1 (clock 0).2 m with
    | error err =>
      rw [hv] at h
      cases hr : m.Required with
      | true => simp [hr] at h
      | false =>
        simp only [hr, Bool.false_eq_true, if_false] at h ⊢
        rw [ih _ _ _ h, hshift, List.length_cons]
    | ok val =>
      rw [hv] at h
      simp only at h ⊢
      rw [ih _ _ _ h, hshift, List.length_cons]

/-- The loop over a list of mappings that starts with mappings ending in an error ends
in that error. -/
theorem applyMappings_append_error (search : JMESPath) (doc : Value)
    (pre rest : List Mapping) :
    ∀ (clock : Clock) (facts : JMap) (e : String),
      applyMappings search doc clock pre facts = (none, some e) →
      applyMappings search doc clock (pre ++ rest) facts = (none, some e) := by
  induction pre with
  | nil =>
    intro clock facts e h
    rw [applyMappings] at h
    simp at h
  | cons m ms ih =>
    intro clock facts e h
    rw [List.cons_append, applyMappings]
    rw [applyMappings] at h
    cases hv : evalMapping search doc (clock 0).1 (clock 0).2 m with
    | error err =>
      rw [hv] at h
      cases hr : m.Required with
      | true =>
        simp only [hr, if_true] at h ⊢
        exact h
      | false =>
        simp only [hr, Bool.false_eq_true, if_false] at h ⊢
        exact ih _ _ _ h
    | ok val =>
      rw [hv] at h
      simp only at h ⊢
      exact ih _ _ _ h

/-- The entry a map assignment writes is the one read back. -/
theorem mapGet_setKey_self (m : JMap) (k : String) (v : Value) :
    mapGet (setKey m k v) k = v := by
  induction m with
  | nil => simp [setKey, mapGet, List.lookup]
  | cons kv m ih =>
    obtain ⟨k₁, v₁⟩ := kv
    unfold setKey
    by_cases h : k₁ = k
    · simp [h, mapGet, List.lookup]
    · have hne : (k == k₁) = false := by
        simp only [beq_eq_false_iff_ne, ne_eq]
        exact fun h' => h h'.symm
      simp only [h, if_false, mapGet, List.lookup, hne]
      exact ih

/-- A map assignment leaves the entries of the other keys as they are. -/
theorem mapGet_setKey_ne (m : JMap) (k k' : String) (v : Value) (h : k ≠ k') :
    mapGet (setKey m k v) k' = mapGet m k' := by
  induction m with
  | nil =>
    have hne : (k' == k) = false := by
      simp only [beq_eq_false_iff_ne, ne_eq]
      exact fun h' => h h'.symm
    simp [setKey, mapGet, List.lookup, hne]
  | cons kv m ih =>
    obtain ⟨k₁, v₁⟩ := kv
    unfold setKey
    by_cases h₁ : k₁ = k
    · subst h₁
      have hne : (k' == k₁) = false := by
        simp only [beq_eq_false_iff_ne, ne_eq]
        exact fun h' => h h'.symm
      simp [mapGet, List.lookup, hne]
    · simp only [h₁, if_false, mapGet, List.lookup]
      cases hk : (k' == k₁) with
      | true => rfl
      | false => exact ih

/-- Mappings that write other fact keys leave the entry of a fact key as it is. -/
theorem applyMappings_keeps (search : JMESPath) (doc : Value) (k : String)
    (ms : List Mapping) (hk : ∀ m ∈ ms, m.FactKey ≠ k) :
    ∀ (clock : Clock) (facts f : JMap),
      applyMappings search doc clock ms facts = (some f, none) → mapGet f k = mapGet facts k := by
  induction ms with
  | nil =>
    intro clock facts f h
    rw [applyMappings] at h
    have hf : facts = f := by simpa using h
    rw [hf]
  | cons m ms ih =>
    intro clock facts f h
    have hm : m.FactKey ≠ k := hk m (List.mem_cons_self _ _)
    have hms : ∀ m' ∈ ms, m'.FactKey ≠ k := fun m' hm' => hk m' (List.mem_cons_of_mem _ hm')
    rw [applyMappings] at h
    cases hv : evalMapping search doc (clock 0).1 (clock 0).2 m with
    | error err =>
      rw [hv] at h
      cases hr : m.Required with
      | true => simp [hr] at h
      | false =>
        simp only [hr, Bool.false_eq_true, if_false] at h
        exact ih hms _ _ _ h
    | ok val =>
      rw [hv] at h
      simp only at h
      rw [ih hms _ _ _ h, mapGet_setKey_ne _ _ _ _ hm]

/-- C11 (counterexample): the store returns the mapping `b_total` before `a_total`, both
writing the fact `total`. `ResolveFacts` keeps the value 2 of `a_total`, the mapping the
store returns last, while applying the mappings in alphabetical order of name keeps the
value 1 of `b_total`, the alphabetically last one. -/
theorem resolveFacts_not_alphabetical :
    (loadMappings twoWriters "t1" "orders.list").map (fun m => m.Name) =
        ["b_total", "a_total"] ∧
      ResolveFacts fieldPath frozenClock (some twoWriters) "t1" "orders.list" xyInputs =
        (some [("total", Value.float64 (Float64.ofNat 2))], none) ∧
      resolveAlphabetical fieldPath frozenClock twoWriters "t1" "orders.list" xyInputs =
        (some [("total", Value.float64 (Float64.ofNat 1))], none) ∧
      ResolveFacts fieldPath frozenClock (some twoWriters) "t1" "orders.list" xyInputs ≠
        resolveAlphabetical fieldPath frozenClock twoWriters "t1" "orders.list" xyInputs := by
  have h₁ : ResolveFacts fieldPath frozenClock (some twoWriters) "t1" "orders.list"
      xyInputs = (some [("total", Value.float64 (Float64.ofNat 2))], none) := rfl
  have h₂ : resolveAlphabetical fieldPath frozenClock twoWriters "t1" "orders.list"
      xyInputs = (some [("total", Value.float64 (Float64.ofNat 1))], none) := rfl
  refine ⟨rfl, h₁, h₂, ?_⟩
  rw [h₁, h₂]
  intro h
  have hd : (Float64.ofNat 2).digits = (Float64.ofNat 1).digits := by
    simp only [Prod.mk.injEq, Option.some.injEq, List.cons.injEq, Value.float64.injEq,
      and_true] at h
    rw [h.2]
  exact absurd hd (by decide)

/-- C11 (amended): `ResolveFacts` applies the mappings of the action in the order in
which the store returns them. When the mapping at some position of that order yields a
value and no mapping after it writes the same fact key, the facts object of a successful
resolve holds that value under the key: the last writer in store order wins. -/
theorem resolveFacts_store_order (search : JMESPath) (clock : Clock) (db : DB)
    (tenantID actionKey : String) (inputs : GoMap) (pre post : List Mapping) (m : Mapping)
    (v : Value) (facts : JMap)
    (hload : loadMappings db tenantID actionKey = pre ++ m :: post)
    (hval : evalMapping search (factsDocument inputs (loadResolvers db tenantID actionKey))
      (clock pre.length).1 (clock pre.length).2 m = Except.ok v)
    (hlast : ∀ m' ∈ post, m'.FactKey ≠ m.FactKey)
    (hres : ResolveFacts search clock (some db) tenantID actionKey inputs =
      (some facts, none)) :
    ResolveFacts search clock (some db) tenantID actionKey inputs =
        applyMappings search (factsDocument inputs (loadResolvers db tenantID actionKey))
          clock (pre ++ m :: post) [] ∧
      mapGet facts m.FactKey = v := by
  have hrf : ResolveFacts search clock (some db) tenantID actionKey inputs =
      applyMappings search (factsDocument inputs (loadResolvers db tenantID actionKey))
        clock (pre ++ m :: post) [] := by
    unfold ResolveFacts
    simp only [hload]
  refine ⟨hrf, ?_⟩
  rw [hrf] at hres
  rcases applyMappings_cases search
      (factsDocument inputs (loadResolvers db tenantID actionKey)) pre clock [] with
    ⟨f, hf⟩ | ⟨e, he⟩
  · rw [applyMappings_append_ok _ _ _ _ _ _ _ hf, applyMappings] at hres
    have h0 : clock.drop pre.length 0 = clock pre.length := by simp [Clock.drop]
    rw [h0, hval] at hres
    simp only at hres
    rw [applyMappings_keeps _ _ _ _ hlast _ _ _ hres, mapGet_setKey_self]
  · rw [applyMappings_append_error _ _ _ _ _ _ _ he] at hres
    simp at hres

/-- Witness of `resolveFacts_store_order`: of the two writers of `total`, `a_total` is
the one the store returns last. -/
theorem resolveFacts_store_order_witness :
    loadMappings twoWriters "t1" "orders.list" =
        [⟨"m1", "orders.list", "b_total", "inputs.x", "total", "", [], false⟩] ++
          ⟨"m2", "orders.list", "a_total", "inputs.y", "total", "", [], false⟩ :: [] ∧
      ResolveFacts fieldPath frozenClock (some twoWriters) "t1" "orders.list" xyInputs =
        applyMappings fieldPath
          (factsDocument xyInputs (loadResolvers twoWriters "t1" "orders.list")) frozenClock
          ([⟨"m1", "orders.list", "b_total", "inputs.x", "total", "", [], false⟩] ++
            ⟨"m2", "orders.list", "a_total", "inputs.y", "total", "", [], false⟩ :: []) [] ∧
      mapGet [("total", Value.float64 (Float64.ofNat 2))]
          (Mapping.mk "m2" "orders.list" "a_total" "inputs.y" "total" "" [] false).FactKey =
        Value.float64 (Float64.ofNat 2) :=
  ⟨rfl, resolveFacts_store_order fieldPath frozenClock twoWriters "t1" "orders.list"
    xyInputs [⟨"m1", "orders.list", "b_total", "inputs.x", "total", "", [], false⟩] []
    ⟨"m2", "orders.list", "a_total", "inputs.y", "total", "", [], false⟩
    (Value.float64 (Float64.ofNat 2)) [("total", Value.float64 (Float64.ofNat 2))]
    rfl rfl (fun m' hm' => by cases hm') rfl⟩

/-- C12: when the mappings before a mapping have been applied and the path evaluation
or the transform of that mapping fails, `ResolveFacts` returns that error and no facts
object if the mapping is required; if it is not required, the mapping assigns nothing
and the result is that of applying the remaining mappings to the facts written
before. -/
theorem resolveFacts_failing_mapping (search : JMESPath) (clock : Clock) (db : DB)
    (tenantID actionKey : String) (inputs : GoMap) (pre post : List Mapping) (m : Mapping)
    (f : JMap) (err : String)
    (hload : loadMappings db tenantID actionKey = pre ++ m :: post)
    (hpre : applyMappings search (factsDocument inputs (loadResolvers db tenantID actionKey))
      clock pre [] = (some f, none))
    (hfail : search m.Path (factsDocument inputs (loadResolvers db tenantID actionKey)) =
        Except.error err ∨
      ∃ val, search m.Path (factsDocument inputs (loadResolvers db tenantID actionKey)) =
          Except.ok val ∧ m.Transform ≠ "" ∧
        applyTransform (clock pre.length).1 (clock pre.length).2 m.Transform val
          m.TransformArgs = Except.error err) :
    (m.Required = true →
      ResolveFacts search clock (some db) tenantID actionKey inputs = (none, some err)) ∧
    (m.Required = false →
      ResolveFacts search clock (some db) tenantID actionKey inputs =
        applyMappings search (factsDocument inputs (loadResolvers db tenantID actionKey))
          (clock.drop (pre.length + 1)) post f) := by
  have hev : evalMapping search (factsDocument inputs (loadResolvers db tenantID actionKey))
      (clock pre.length).1 (clock pre.length).2 m = Except.error err := by
    unfold evalMapping
    rcases hfail with h | ⟨val, h, ht, ha⟩
    · rw [h]
    · rw [h]
      simp only [ne_eq, ht, not_false_eq_true, if_true]
      exact ha
  have hrf : ResolveFacts search clock (some db) tenantID actionKey inputs =
      applyMappings search (factsDocument inputs (loadResolvers db tenantID actionKey))
        (clock.drop pre.length) (m :: post) f := by
    unfold ResolveFacts
    simp only [hload]
    exact applyMappings_append_ok _ _ _ _ _ _ _ hpre
  have h0 : clock.drop pre.length 0 = clock pre.length := by simp [Clock.drop]
  rw [hrf, applyMappings, h0, hev]
  constructor
  · intro hr
    simp [hr]
  · intro hr
    simp only [hr, Bool.false_eq_true, if_false]
    rw [Clock.drop_next]

/-- Witness of `resolveFacts_failing_mapping`: the required mapping `age` fails in its
transform after `count` has been applied. -/
theorem resolveFacts_failing_mapping_witness :
    ResolveFacts fieldPath frozenClock (some requiredAge) "t1" "orders.list" xyInputs =
      (none, some "days_between expects 2 args") :=
  (resolveFacts_failing_mapping fieldPath frozenClock requiredAge "t1" "orders.list"
    xyInputs [⟨"m1", "orders.list", "count", "inputs.x", "count", "", [], false⟩] []
    ⟨"m2", "orders.list", "age", "inputs.y", "age", "days_between", [], true⟩
    [("count", Value.float64 (Float64.ofNat 1))] "days_between expects 2 args"
    rfl rfl
    (Or.inr ⟨Value.float64 (Float64.ofNat 2), rfl, by decide, rfl⟩)).1 rfl

/-! ## Execute: operation resolution -/

/-- Once a fallback is set, the loop of `Execute` ends with the first operation of the
namespace that has the short name, or keeps what it has. -/
theorem selectOperation_fallback (ns short : String) (rows : List OperationRow) :
    ∀ cur : ResolvedOp, selectOperation ns short rows cur true =
      ((rows.find? (matchesKey ns short)).map resolvedOf).getD cur := by
  induction rows with
  | nil => intro cur; rfl
  | cons r rows ih =>
    intro cur
    rw [selectOperation, List.find?_cons]
    by_cases hns : slug r.kind ≠ ns ∧ slug (r.title.getD "") ≠ ns
    · have hm : matchesKey ns short r = false := by
        simp [matchesKey, inNamespace, hns.1, hns.2]
      rw [if_pos hns, hm]
      exact ih cur
    · rw [if_neg hns]
      have hin : inNamespace ns r = true := by
        simp only [inNamespace, Bool.or_eq_true, decide_eq_true_eq]
        by_contra hc
        exact hns ⟨fun h => hc (Or.inl h), fun h => hc (Or.inr h)⟩
      by_cases hs : deriveShort r.path = short
      · have hm : matchesKey ns short r = true := by simp [matchesKey, hin, hs]
        simp [hs, hm, resolvedOf]
      · have hm : matchesKey ns short r = false := by simp [matchesKey, hs]
        simp only [hs, not_true_eq_false, or_self, if_false, hm]
        exact ih cur

/-- The loop of `Execute` ends with the first operation of the namespace that has the
short name; without one, with the first operation of the namespace; without one, with
what it started from. -/
theorem selectOperation_first (ns short : String) (rows : List OperationRow) :
    ∀ cur : ResolvedOp, selectOperation ns short rows cur false =
      (((rows.find? (matchesKey ns short)).orElse
        (fun _ => rows.find? (inNamespace ns))).map resolvedOf).getD cur := by
  induction rows with
  | nil => intro cur; rfl
  | cons r rows ih =>
    intro cur
    rw [selectOperation, List.find?_cons, List.find?_cons]
    by_cases hns : slug r.kind ≠ ns ∧ slug (r.title.getD "") ≠ ns
    · have hin : inNamespace ns r = false := by
        simp [inNamespace, hns.1, hns.2]
      have hm : matchesKey ns short r = false := by simp [matchesKey, hin]
      rw [if_pos hns, hm, hin]
      exact ih cur
    · rw [if_neg hns]
      have hin : inNamespace ns r = true := by
        simp only [inNamespace, Bool.or_eq_true, decide_eq_true_eq]
        by_contra hc
        exact hns ⟨fun h => hc (Or.inl h), fun h => hc (Or.inr h)⟩
      by_cases hs : deriveShort r.path = short
      · have hm : matchesKey ns short r = true := by simp [matchesKey, hin, hs]
        simp [hs, hm, resolvedOf]
      · have hm : matchesKey ns short r = false := by simp [matchesKey, hs]
        simp only [hs, not_false_eq_true, or_true, if_true, if_false, hm, hin]
        rw [selectOperation_fallback]
        cases hf : rows.find? (matchesKey ns short) with
        | none => simp [resolvedOf]
        | some r' => simp

/-- C13: `Execute` resolves the action key to the first enabled operation of the tenant,
in store order, whose connector kind slug or title slug equals the namespace of the key
and whose short name equals the short name of the key; without such an operation, to
the first one of the namespace; when no operation is of the namespace it returns status
`FAILED` with the single problem `no-operation`. The operation resolved depends on the
store through the ordered list of enabled operations only. -/
theorem execute_selects_operation (env : Env) (upstream : Upstream) (db : DB)
    (tenantID actionKey decisionID : String) (input : GoMap) :
    resolveOperation (some db) tenantID actionKey =
        ((((enabledOperations db tenantID).find?
            (matchesKey (splitActionKey actionKey).1 (splitActionKey actionKey).2)).orElse
          (fun _ => (enabledOperations db tenantID).find?
            (inNamespace (splitActionKey actionKey).1))).map resolvedOf).getD
          ⟨"", "", "", []⟩ ∧
      ((∀ r ∈ enabledOperations db tenantID,
          inNamespace (splitActionKey actionKey).1 r = false) →
        (Execute env upstream (some db) tenantID actionKey decisionID input).1.Status =
            "FAILED" ∧
          (Execute env upstream (some db) tenantID actionKey decisionID
              input).1.Problems.map (fun p => p.type) =
            [problemsType env "no-operation"]) ∧
      (∀ db' : DB, enabledOperations db' tenantID = enabledOperations db tenantID →
        resolveOperation (some db') tenantID actionKey =
          resolveOperation (some db) tenantID actionKey) := by
  have hsel : resolveOperation (some db) tenantID actionKey =
      ((((enabledOperations db tenantID).find?
          (matchesKey (splitActionKey actionKey).1 (splitActionKey actionKey).2)).orElse
        (fun _ => (enabledOperations db tenantID).find?
          (inNamespace (splitActionKey actionKey).1))).map resolvedOf).getD
        ⟨"", "", "", []⟩ := by
    unfold resolveOperation
    exact selectOperation_first _ _ _ _
  refine ⟨hsel, ?_, ?_⟩
  · intro hnone
    have h₁ : (enabledOperations db tenantID).find?
        (inNamespace (splitActionKey actionKey).1) = none := by
      rw [List.find?_eq_none]
      intro r hr
      simp [hnone r hr]
    have h₂ : (enabledOperations db tenantID).find?
        (matchesKey (splitActionKey actionKey).1 (splitActionKey actionKey).2) = none := by
      rw [List.find?_eq_none]
      intro r hr
      simp [matchesKey, hnone r hr]
    have hop : resolveOperation (some db) tenantID actionKey = ⟨"", "", "", []⟩ := by
      rw [hsel, h₁, h₂]
      rfl
    have hout : executeOutcome env upstream (some db) tenantID actionKey input =
        noOperationResult env := by
      unfold executeOutcome renderRequest
      rw [hop]
      simp
    have hex : (Execute env upstream (some db) tenantID actionKey decisionID input).1 =
        noOperationResult env := hout
    rw [hex]
    exact ⟨rfl, rfl⟩
  · intro db' h
    unfold resolveOperation
    simp only [h]

/-- Witness of `execute_selects_operation`: in `shopStore` the key `shop.cancel` is
resolved to the operation of `Shop` with the short name `cancel`, the key `shop.refund`
to the first operation of `Shop`, and the key `crm.cancel` to none. -/
theorem execute_selects_operation_witness :
    resolveOperation (some shopStore) "t1" "shop.cancel" =
        ⟨"https://shop.example", "POST", "/v1/orders/\x7bid\x7d/cancel", ['\x7b', '\x7d']⟩ ∧
      resolveOperation (some shopStore) "t1" "shop.refund" =
        ⟨"https://shop.example", "GET", "/v1/orders", ['\x7b', '\x7d']⟩ ∧
      (Execute sampleEnv (answers 200) (some shopStore) "t1" "crm.cancel" "D1"
          none).1.Status = "FAILED" ∧
      (Execute sampleEnv (answers 200) (some shopStore) "t1" "crm.cancel" "D1"
          none).1.Problems.map (fun p => p.type) =
        [problemsType sampleEnv "no-operation"] :=
  ⟨(execute_selects_operation sampleEnv (answers 200) shopStore "t1" "shop.cancel" "D1"
      none).1.trans rfl,
    (execute_selects_operation sampleEnv (answers 200) shopStore "t1" "shop.refund" "D1"
      none).1.trans rfl,
    (execute_selects_operation sampleEnv (answers 200) shopStore "t1" "crm.cancel" "D1"
      none).2.1 (by decide)⟩

/-! ## Replacement of matches -/

/-- With enough fuel the replacement does not depend on the fuel. -/
theorem replaceMatches_fuel (find : List Char → Option (List Char × List Char))
    (f : List Char → List Char) (hp : Progress find) :
    ∀ (n : Nat) (s : List Char) (fuel₁ fuel₂ : Nat), s.length ≤ n → s.length ≤ fuel₁ →
      s.length ≤ fuel₂ → replaceMatches find f fuel₁ s = replaceMatches find f fuel₂ s := by
  intro n
  induction n with
  | zero =>
    intro s fuel₁ fuel₂ hn _ _
    have hs : s = [] := List.length_eq_zero.mp (Nat.le_zero.mp hn)
    subst hs
    cases fuel₁ <;> cases fuel₂ <;> rfl
  | succ n ih =>
    intro s fuel₁ fuel₂ hn h₁ h₂
    cases s with
    | nil => cases fuel₁ <;> cases fuel₂ <;> rfl
    | cons c cs =>
      cases fuel₁ with
      | zero => simp at h₁
      | succ fuel₁ =>
        cases fuel₂ with
        | zero => simp at h₂
        | succ fuel₂ =>
          simp only [List.length_cons, Nat.add_le_add_iff_right] at hn h₁ h₂
          rw [replaceMatches, replaceMatches]
          cases hf : find (c :: cs) with
          | none =>
            simp only
            rw [ih cs fuel₁ fuel₂ hn h₁ h₂]
          | some p =>
            obtain ⟨g, rest⟩ := p
            have hlt := hp _ _ _ hf
            simp only [List.length_cons] at hlt
            simp only
            rw [ih rest fuel₁ fuel₂ (by omega) (by omega) (by omega)]

/-- The replacement in a text followed by a text at which the matcher stops is the
replacement in the one followed by the replacement in the other. -/
theorem replaceMatches_append (find : List Char → Option (List Char × List Char))
    (f : List Char → List Char) (w : List Char) (hp : Progress find)
    (hw : StopsAt find w) :
    ∀ (n : Nat) (a : List Char) (fuel₁ fuel₂ fuel₃ : Nat), a.length ≤ n →
      (a ++ w).length ≤ fuel₁ → a.length ≤ fuel₂ → w.length ≤ fuel₃ →
      replaceMatches find f fuel₁ (a ++ w) =
        replaceMatches find f fuel₂ a ++ replaceMatches find f fuel₃ w := by
  intro n
  induction n with
  | zero =>
    intro a fuel₁ fuel₂ fuel₃ hn h₁ _ h₃
    have ha : a = [] := List.length_eq_zero.mp (Nat.le_zero.mp hn)
    subst ha
    have h0 : replaceMatches find f fuel₂ [] = [] := by cases fuel₂ <;> rfl
    rw [h0, List.nil_append, List.nil_append]
    exact replaceMatches_fuel find f hp w.length w fuel₁ fuel₃ (le_refl _)
      (by simpa using h₁) h₃
  | succ n ih =>
    intro a fuel₁ fuel₂ fuel₃ hn h₁ h₂ h₃
    cases a with
    | nil =>
      have h0 : replaceMatches find f fuel₂ [] = [] := by cases fuel₂ <;> rfl
      rw [h0, List.nil_append, List.nil_append]
      exact replaceMatches_fuel find f hp w.length w fuel₁ fuel₃ (le_refl _)
        (by simpa using h₁) h₃
    | cons c cs =>
      cases fuel₁ with
      | zero => simp at h₁
      | succ fuel₁ =>
        cases fuel₂ with
        | zero => simp at h₂
        | succ fuel₂ =>
          simp only [List.length_cons, List.cons_append, List.length_append,
            Nat.add_le_add_iff_right] at hn h₁ h₂
          have hfw := hw (c :: cs) (by simp)
          rw [List.cons_append] at hfw
          rw [List.cons_append, replaceMatches, replaceMatches, hfw]
          cases hf : find (c :: cs) with
          | none =>
            simp only [Option.map_none', List.cons_append]
            rw [ih cs fuel₁ fuel₂ fuel₃ hn (by simp; omega) h₂ h₃]
          | some p =>
            obtain ⟨g, rest⟩ := p
            have hlt := hp _ _ _ hf
            simp only [List.length_cons] at hlt
            simp only [Option.map_some', List.append_assoc]
            rw [ih rest fuel₁ fuel₂ fuel₃ (by omega) (by simp; omega) (by omega) h₃]

/-- A text without a match at any of its positions is left as it is. -/
theorem replaceMatches_none (find : List Char → Option (List Char × List Char))
    (f : List Char → List Char) :
    ∀ (s : List Char) (fuel : Nat), (∀ a b, s = a ++ b → find b = none) →
      replaceMatches find f fuel s = s := by
  intro s
  induction s with
  | nil => intro fuel _; cases fuel <;> rfl
  | cons c cs ih =>
    intro fuel h
    cases fuel with
    | zero => rfl
    | succ fuel =>
      rw [replaceMatches, h [] (c :: cs) rfl]
      simp only
      rw [ih fuel (fun a b hab => h (c :: a) b (by rw [hab]; rfl))]

/-- Taking while a predicate holds stops at an element for which it fails. -/
theorem takeWhile_append_stop (p : Char → Bool) (l : List Char) (x : Char) (z : List Char)
    (hx : p x = false) : (l ++ x :: z).takeWhile p = l.takeWhile p := by
  induction l with
  | nil => simp [List.takeWhile, hx]
  | cons a l ih =>
    rw [List.cons_append, List.takeWhile_cons, List.takeWhile_cons, ih]

/-- Dropping while a predicate holds stops at an element for which it fails. -/
theorem dropWhile_append_stop (p : Char → Bool) (l : List Char) (x : Char) (z : List Char)
    (hx : p x = false) : (l ++ x :: z).dropWhile p = l.dropWhile p ++ x :: z := by
  induction l with
  | nil => simp [List.dropWhile, hx]
  | cons a l ih =>
    rw [List.cons_append, List.dropWhile_cons, List.dropWhile_cons, ih]
    cases p a <;> simp

/-- What is left after dropping a prefix is no longer than the list. -/
theorem length_dropWhile_le (p : Char → Bool) (l : List Char) :
    (l.dropWhile p).length ≤ l.length := by
  induction l with
  | nil => simp
  | cons a l ih =>
    simp only [List.dropWhile]
    cases p a with
    | true => simp only [List.length_cons]; omega
    | false => simp

/-! ## Path placeholders -/

/-- A text that does not start with an opening brace holds no path placeholder at its
head. -/
theorem matchPathParam_head (c : Char) (r : List Char) (hc : c ≠ '\x7b') :
    matchPathParam (c :: r) = none := by
  unfold matchPathParam
  split
  · rename_i heq
    exact absurd (List.cons.inj heq).1 hc
  · rfl

/-- What the matcher of path placeholders finds after an opening brace: the name
characters that follow, at least one, closed by a brace. -/
theorem matchPathParam_brace (r g rest : List Char) :
    matchPathParam ('\x7b' :: r) = some (g, rest) ↔
      g = r.takeWhile isNameChar ∧ g ≠ [] ∧ r.dropWhile isNameChar = '\x7d' :: rest := by
  rw [matchPathParam]
  by_cases he : (r.takeWhile isNameChar).isEmpty = true
  · simp only [he, if_true]
    constructor
    · intro h; cases h
    · rintro ⟨hg, hne, _⟩
      rw [hg] at hne
      exact absurd (List.isEmpty_iff.mp he) hne
  · rw [if_neg he]
    have hne : r.takeWhile isNameChar ≠ [] := fun h => he (by rw [h]; rfl)
    cases hd : List.dropWhile isNameChar r with
    | nil =>
      simp
    | cons d q =>
      by_cases hb : d = '\x7d'
      · subst hb
        simp only [Option.some.injEq, Prod.mk.injEq, List.cons.injEq, true_and]
        constructor
        · rintro ⟨h1, h2⟩
          exact ⟨h1.symm, h1 ▸ hne, h2⟩
        · rintro ⟨h1, _, h2⟩
          exact ⟨h1.symm, h2⟩
      · constructor
        · intro h
          split at h
          · rename_i heq
            exact absurd (List.cons.inj heq).1 hb
          · cases h
        · rintro ⟨_, _, h⟩
          exact absurd (List.cons.inj h).1 hb

/-- The matcher of path placeholders finds nothing in the empty text. -/
theorem matchPathParam_nil : matchPathParam [] = none := rfl

/-- The matcher of path placeholders makes progress. -/
theorem matchPathParam_progress : Progress matchPathParam := by
  intro s g rest h
  cases s with
  | nil => cases h
  | cons c r =>
    by_cases hc : c = '\x7b'
    · subst hc
      obtain ⟨_, _, hd⟩ := (matchPathParam_brace r g rest).mp h
      have hle := length_dropWhile_le isNameChar r
      rw [hd] at hle
      simp only [List.length_cons] at hle ⊢
      omega
    · rw [matchPathParam_head c r hc] at h
      cases h

/-- The matcher of path placeholders does not look past an opening brace. -/
theorem matchPathParam_stops (z : List Char) : StopsAt matchPathParam ('\x7b' :: z) := by
  intro r hr
  cases r with
  | nil => exact absurd rfl hr
  | cons c r =>
    by_cases hc : c = '\x7b'
    · subst hc
      have hb : isNameChar '\x7b' = false := by decide
      cases hm : matchPathParam ('\x7b' :: r) with
      | some p =>
        obtain ⟨g, rest⟩ := p
        obtain ⟨hg, hne, hd⟩ := (matchPathParam_brace r g rest).mp hm
        rw [List.cons_append, Option.map_some']
        apply (matchPathParam_brace _ _ _).mpr
        refine ⟨?_, hne, ?_⟩
        · rw [takeWhile_append_stop _ _ _ _ hb]
          exact hg
        · rw [dropWhile_append_stop _ _ _ _ hb, hd]
          rfl
      | none =>
        rw [List.cons_append, Option.map_none']
        cases hm' : matchPathParam ('\x7b' :: (r ++ '\x7b' :: z)) with
        | none => rfl
        | some p =>
          exfalso
          obtain ⟨g, rest⟩ := p
          obtain ⟨hg, hne, hd⟩ := (matchPathParam_brace _ g rest).mp hm'
          rw [takeWhile_append_stop _ _ _ _ hb] at hg
          rw [dropWhile_append_stop _ _ _ _ hb] at hd
          cases hq : List.dropWhile isNameChar r with
          | nil =>
            rw [hq] at hd
            have := (List.cons.inj hd).1
            exact absurd this (by decide)
          | cons d q =>
            rw [hq] at hd
            have h1 := (List.cons.inj hd).1
            have h2 := (List.cons.inj hd).2
            have : matchPathParam ('\x7b' :: r) = some (g, q) :=
              (matchPathParam_brace r g q).mpr ⟨hg, hne, by rw [hq, h1]⟩
            rw [hm] at this
            cases this
    · rw [List.cons_append, matchPathParam_head c _ hc, matchPathParam_head c _ hc]
      rfl

/-- A placeholder `{name}` at the head of a text is what the matcher finds there. -/
theorem matchPathParam_placeholder (name b : List Char) (hne : name ≠ [])
    (hname : ∀ c ∈ name, isNameChar c = true) :
    matchPathParam ('\x7b' :: (name ++ '\x7d' :: b)) = some (name, b) := by
  have hb : isNameChar '\x7d' = false := by decide
  apply (matchPathParam_brace _ _ _).mpr
  refine ⟨?_, hne, ?_⟩
  · rw [takeWhile_append_stop _ _ _ _ hb]
    exact (List.takeWhile_eq_self_iff.mpr hname).symm
  · rw [dropWhile_append_stop _ _ _ _ hb]
    rw [List.dropWhile_eq_nil_iff.mpr hname]
    rfl

/-- The substitution of path placeholders leaves a placeholder that renders as itself in
the URL. -/
theorem substitutePathParams_keeps (input : GoMap) (pv : JMap) (a name post : List Char)
    (hne : name ≠ []) (hname : ∀ c ∈ name, isNameChar c = true)
    (hkeep : renderPathParam input pv name = '\x7b' :: name ++ ['\x7d']) :
    ∃ a' b', substitutePathParams input pv (a ++ '\x7b' :: (name ++ '\x7d' :: post)) =
      a' ++ '\x7b' :: (name ++ '\x7d' :: b') := by
  unfold substitutePathParams
  rw [replaceMatches_append matchPathParam _ _ matchPathParam_progress
    (matchPathParam_stops (name ++ '\x7d' :: post)) a.length a _ a.length
    ((name ++ '\x7d' :: post).length + 1) (le_refl _) (le_refl _) (le_refl _)
    (by simp)]
  rw [replaceMatches, matchPathParam_placeholder name post hne hname]
  simp only [hkeep]
  refine ⟨replaceMatches matchPathParam (renderPathParam input pv) a.length a,
    replaceMatches matchPathParam (renderPathParam input pv)
      (name ++ '\x7d' :: post).length post, ?_⟩
  simp

/-- C15: when the path of the resolved operation holds a placeholder `{name}` for which
the template has no `path_params` entry, or an entry that resolves to the empty text, or
no `path_params` at all, `Execute` sends no request: it returns status `FAILED` with
the problem `unresolved-path-params`, and the URL of the recorded step still holds the
placeholder. -/
theorem execute_unresolved_path_param (env : Env) (upstream : Upstream) (pool : Option DB)
    (tenantID actionKey decisionID : String) (input : GoMap) (pre name post : List Char)
    (hop : (resolveOperation pool tenantID actionKey).method ≠ "" ∧
      (resolveOperation pool tenantID actionKey).path ≠ "")
    (hpath : (resolveOperation pool tenantID actionKey).path.data =
      pre ++ '\x7b' :: (name ++ '\x7d' :: post))
    (hne : name ≠ []) (hname : ∀ c ∈ name, isNameChar c = true)
    (hunbound : ∀ pv,
      templateMap (decodeTemplate (resolveOperation pool tenantID actionKey))
        "path_params" = some pv →
      pv.lookup (String.mk name) = none ∨
        ∃ raw, pv.lookup (String.mk name) = some raw ∧ resolve input raw = []) :
    ∃ a b : List Char,
      renderRequest env pool tenantID actionKey input =
          Rendered.failed (unresolvedResult env (a ++ '\x7b' :: (name ++ '\x7d' :: b))) ∧
        (Execute env upstream pool tenantID actionKey decisionID input).1 =
          unresolvedResult env (a ++ '\x7b' :: (name ++ '\x7d' :: b)) ∧
        (unresolvedResult env (a ++ '\x7b' :: (name ++ '\x7d' :: b))).Status = "FAILED" ∧
        (unresolvedResult env (a ++ '\x7b' :: (name ++ '\x7d' :: b))).Problems.map
            (fun p => p.type) = [problemsType env "unresolved-path-params"] ∧
        (unresolvedResult env (a ++ '\x7b' :: (name ++ '\x7d' :: b))).Steps =
          [[("op", Value.str "request"),
            ("url", Value.str (String.mk (a ++ '\x7b' :: (name ++ '\x7d' :: b)))),
            ("error", Value.str "unresolved_path_params")]] := by
  have hurl : ∃ a b : List Char,
      renderURL input (decodeTemplate (resolveOperation pool tenantID actionKey))
        (resolveOperation pool tenantID actionKey) =
        a ++ '\x7b' :: (name ++ '\x7d' :: b) := by
    unfold renderURL
    rw [hpath, ← List.append_assoc]
    cases hpv : templateMap (decodeTemplate (resolveOperation pool tenantID actionKey))
        "path_params" with
    | none => exact ⟨_, _, rfl⟩
    | some pv =>
      apply substitutePathParams_keeps input pv _ name post hne hname
      unfold renderPathParam
      rcases hunbound pv hpv with h | ⟨raw, h, hr⟩
      · rw [h]
      · rw [h]
        simp only [hr]
        rfl
  obtain ⟨a, b, hab⟩ := hurl
  have hreq : renderRequest env pool tenantID actionKey input =
      Rendered.failed (unresolvedResult env (a ++ '\x7b' :: (name ++ '\x7d' :: b))) := by
    unfold renderRequest
    have hno : ¬ ((resolveOperation pool tenantID actionKey).method = "" ∨
        (resolveOperation pool tenantID actionKey).path = "") := by
      rintro (h | h)
      · exact hop.1 h
      · exact hop.2 h
    simp only [hno, if_false, hab]
    have hc : (a ++ '\x7b' :: (name ++ '\x7d' :: b)).contains '\x7b' = true := by
      simp
    rw [if_pos hc]
  refine ⟨a, b, hreq, ?_, rfl, rfl, rfl⟩
  have hout : executeOutcome env upstream pool tenantID actionKey input =
      unresolvedResult env (a ++ '\x7b' :: (name ++ '\x7d' :: b)) := by
    unfold executeOutcome
    rw [hreq]
  cases pool with
  | none => exact hout
  | some db => exact hout

/-- Witness of `execute_unresolved_path_param`: the operation
`POST /v1/orders/{id}/cancel` without a request template. -/
theorem execute_unresolved_path_param_witness :
    ∃ a b : List Char,
      renderRequest sampleEnv (some cancelStore) "t1" "shop.cancel" none =
          Rendered.failed
            (unresolvedResult sampleEnv (a ++ '\x7b' :: (['i', 'd'] ++ '\x7d' :: b))) ∧
        (Execute sampleEnv (answers 200) (some cancelStore) "t1" "shop.cancel" "D1"
            none).1 =
          unresolvedResult sampleEnv (a ++ '\x7b' :: (['i', 'd'] ++ '\x7d' :: b)) ∧
        (unresolvedResult sampleEnv (a ++ '\x7b' :: (['i', 'd'] ++ '\x7d' :: b))).Status =
          "FAILED" ∧
        (unresolvedResult sampleEnv
            (a ++ '\x7b' :: (['i', 'd'] ++ '\x7d' :: b))).Problems.map (fun p => p.type) =
          [problemsType sampleEnv "unresolved-path-params"] ∧
        (unresolvedResult sampleEnv (a ++ '\x7b' :: (['i', 'd'] ++ '\x7d' :: b))).Steps =
          [[("op", Value.str "request"),
            ("url", Value.str (String.mk (a ++ '\x7b' :: (['i', 'd'] ++ '\x7d' :: b)))),
            ("error", Value.str "unresolved_path_params")]] :=
  execute_unresolved_path_param sampleEnv (answers 200) (some cancelStore) "t1"
    "shop.cancel" "D1" none "/v1/orders/".data ['i', 'd'] "/cancel".data
    ⟨by decide, by decide⟩ rfl (by decide) (by decide)
    (fun pv hpv => by
      have h : templateMap (decodeTemplate (resolveOperation (some cancelStore) "t1"
          "shop.cancel")) "path_params" = none := rfl
      rw [h] at hpv
      cases hpv)

/-! ## Rendering of the request URL -/

/-- The trimming of trailing slashes adds no character. -/
theorem mem_trimRightSlash (s : String) (c : Char) (h : c ∈ (trimRightSlash s).data) :
    c ∈ s.data := by
  unfold trimRightSlash at h
  simp only [List.mem_reverse] at h
  exact List.mem_reverse.mp ((List.dropWhile_sublist _).subset h)

/-- The percent-encoding has no brace among its uppercase hexadecimal digits. -/
theorem upperHexDigit_ne_brace (n : Nat) (h : n < 16) : upperHexDigit n ≠ '\x7b' := by
  interval_cases n <;> decide

/-- The escaping of a path segment leaves no opening brace. -/
theorem pathEscape_no_brace (cs : List Char) : '\x7b' ∉ pathEscape cs := by
  unfold pathEscape
  intro h
  obtain ⟨c, _, hc⟩ := List.mem_flatMap.mp h
  by_cases hs : pathSegmentSafe c = true
  · rw [if_pos hs] at hc
    have : c = '\x7b' := (List.mem_singleton.mp hc).symm
    rw [this] at hs
    exact absurd hs (by decide)
  · rw [if_neg hs] at hc
    obtain ⟨b, _, hb⟩ := List.mem_flatMap.mp hc
    unfold percentByte at hb
    have hlt : b.toNat < 256 := UInt8.toNat_lt b
    simp only [List.mem_cons, List.mem_singleton, List.not_mem_nil, or_false] at hb
    rcases hb with h1 | h1 | h1
    · exact absurd h1 (by decide)
    · exact upperHexDigit_ne_brace _ (by omega) h1.symm
    · exact upperHexDigit_ne_brace _ (by omega) h1.symm

/-- The bytes of the UTF-8 encoding of a character are at least one. -/
theorem utf8EncodeChar_ne_nil (c : Char) : String.utf8EncodeChar c ≠ [] := by
  unfold String.utf8EncodeChar
  simp only
  split_ifs <;> simp

/-- The escaping of a non-empty text is not empty. -/
theorem pathEscape_ne_nil (cs : List Char) (h : cs ≠ []) : pathEscape cs ≠ [] := by
  cases cs with
  | nil => exact absurd rfl h
  | cons c cs =>
    unfold pathEscape
    rw [List.flatMap_cons]
    intro hnil
    have h1 := (List.append_eq_nil.mp hnil).1
    by_cases hs : pathSegmentSafe c = true
    · rw [if_pos hs] at h1
      cases h1
    · rw [if_neg hs] at h1
      cases hb : String.utf8EncodeChar c with
      | nil => exact utf8EncodeChar_ne_nil c hb
      | cons b bs =>
        rw [hb, List.flatMap_cons] at h1
        have := (List.append_eq_nil.mp h1).1
        unfold percentByte at this
        cases this

/-- A rendered path holds no opening brace. -/
theorem PathRendered.no_brace {text : List Char → Option (List Char)} {s t : List Char}
    (h : PathRendered text s t) : '\x7b' ∉ t := by
  induction h with
  | done => simp
  | char c s t hc _ ih =>
    intro hm
    rcases List.mem_cons.mp hm with h1 | h1
    · exact hc h1.symm
    · exact ih h1
  | param name v s t _ _ _ _ _ ih =>
    intro hm
    rcases List.mem_append.mp hm with h1 | h1
    · exact pathEscape_no_brace v h1
    · exact ih h1

/-- A text without an opening brace renders as itself, before any rendered path. -/
theorem PathRendered.prepend {text : List Char → Option (List Char)} {s t : List Char}
    (h : PathRendered text s t) (a : List Char) (ha : '\x7b' ∉ a) :
    PathRendered text (a ++ s) (a ++ t) := by
  induction a with
  | nil => exact h
  | cons c a ih =>
    have hc : c ≠ '\x7b' := fun hc => ha (by rw [hc]; exact List.mem_cons_self _ _)
    exact PathRendered.char c _ _ hc (ih (fun hm => ha (List.mem_cons_of_mem _ hm)))

/-- Without a `path_params` entry for any name, a rendered path is the path itself. -/
theorem PathRendered.unbound {s t : List Char}
    (h : PathRendered (fun _ => none) s t) : t = s := by
  induction h with
  | done => rfl
  | char c s t _ _ ih => rw [ih]
  | param name v s t _ _ hv _ _ _ => cases hv

/-- The substitution of the path placeholders of `Execute` computes the rendering of
the specification. -/
theorem substitutePathParams_rendered (input : GoMap) (pv : JMap) (s t : List Char)
    (h : PathRendered (pathParamText input (some pv)) s t) :
    ∀ fuel, s.length ≤ fuel →
      replaceMatches matchPathParam (renderPathParam input pv) fuel s = t := by
  induction h with
  | done => intro fuel _; cases fuel <;> rfl
  | char c s t hc _ ih =>
    intro fuel hf
    cases fuel with
    | zero => simp at hf
    | succ fuel =>
      rw [replaceMatches, matchPathParam_head c s hc]
      simp only
      rw [ih fuel (by simpa using hf)]
  | param name v s t hne hname hv hv0 _ ih =>
    intro fuel hf
    cases fuel with
    | zero => simp at hf
    | succ fuel =>
      rw [replaceMatches, matchPathParam_placeholder name s hne hname]
      simp only
      rw [ih fuel (by simp at hf; omega)]
      congr 1
      unfold pathParamText at hv
      simp only [Option.some_bind] at hv
      unfold renderPathParam
      cases hl : List.lookup (String.mk name) pv with
      | none => rw [hl] at hv; cases hv
      | some raw =>
        rw [hl] at hv
        have hr : resolve input raw = v := by simpa using hv
        simp only [hr]
        have : (pathEscape v).isEmpty = false := by
          cases he : pathEscape v with
          | nil => exact absurd he (pathEscape_ne_nil v hv0)
          | cons _ _ => rfl
        simp [this]

/-- C16 (counterexample): the path `/v1/items/{item-id}` under a base URL without a
brace, with the `path_params` entry `item-id` resolving to the non-empty text `5`:
`Execute` fails with `unresolved-path-params`, the name of the placeholder not being
made of letters, digits and underscores only. -/
theorem execute_hyphen_placeholder_unresolved :
    resolveOperation (some itemStore) "t1" "shop.items" =
        ⟨"https://shop.example", "GET", "/v1/items/\x7bitem-id\x7d",
          "\x7b\"path_params\":\x7b\"item-id\":\"\x7b\x7bid\x7d\x7d\"\x7d\x7d".data⟩ ∧
      '\x7b' ∉ "https://shop.example".data ∧
      templateMap (decodeTemplate (resolveOperation (some itemStore) "t1" "shop.items"))
          "path_params" = some [("item-id", Value.str "\x7b\x7bid\x7d\x7d")] ∧
      resolve (some [("id", Value.str "5")]) (Value.str "\x7b\x7bid\x7d\x7d") = ['5'] ∧
      (Execute sampleEnv (answers 200) (some itemStore) "t1" "shop.items" "D1"
          (some [("id", Value.str "5")])).1.Status = "FAILED" ∧
      (Execute sampleEnv (answers 200) (some itemStore) "t1" "shop.items" "D1"
          (some [("id", Value.str "5")])).1.Problems.map (fun p => p.type) =
        [problemsType sampleEnv "unresolved-path-params"] ∧
      (Execute sampleEnv (answers 200) (some itemStore) "t1" "shop.items" "D1"
          (some [("id", Value.str "5")])).1.Steps =
        [[("op", Value.str "request"),
          ("url", Value.str "https://shop.example/v1/items/\x7bitem-id\x7d"),
          ("error", Value.str "unresolved_path_params")]] :=
  ⟨rfl, by decide, rfl, rfl, rfl, rfl, rfl⟩

/-- The texts joined by `&` are the texts with `&` put between them. -/
theorem encodeQuery_join (l : List (List Char)) :
    encodeQuery.join l = ['&'].intercalate l := by
  induction l with
  | nil => rfl
  | cons x l ih =>
    cases l with
    | nil => simp [encodeQuery.join, List.intercalate]
    | cons y l =>
      rw [encodeQuery.join, ih]
      simp [List.intercalate, List.intersperse]

/-- C16 (amended): for a resolved operation whose base URL holds no opening brace and
whose path has a rendering, that is, each of its opening braces opens a placeholder
`{name}` of letters, digits and underscores whose `path_params` entry resolves to a
non-empty text, `Execute` does not fail with `unresolved-path-params`: it sends a
request whose URL is the base URL without trailing slashes, then the path with each
placeholder replaced by the path-escaped text, then the encoded query, after `?` or,
when the URL holds one already, after `&`, when the query is not empty; the encoded
query lists the query entries in ascending order of key, joined by `&`. -/
theorem execute_request_url (env : Env) (pool : Option DB) (tenantID actionKey : String)
    (input : GoMap) (t : List Char)
    (hop : (resolveOperation pool tenantID actionKey).method ≠ "" ∧
      (resolveOperation pool tenantID actionKey).path ≠ "")
    (hbase : '\x7b' ∉ (resolveOperation pool tenantID actionKey).baseURL.data)
    (hpath : PathRendered
      (pathParamText input
        (templateMap (decodeTemplate (resolveOperation pool tenantID actionKey))
          "path_params"))
      (resolveOperation pool tenantID actionKey).path.data t) :
    (∃ step req, renderRequest env pool tenantID actionKey input =
        Rendered.request step req ∧
      mapGet step "url" = Value.str req.url ∧
      req.url.data = attachQuery
        ((trimRightSlash (resolveOperation pool tenantID actionKey).baseURL).data ++ t)
        (encodeQuery (renderQuery input
          (decodeTemplate (resolveOperation pool tenantID actionKey))))) ∧
    encodeQuery (renderQuery input
        (decodeTemplate (resolveOperation pool tenantID actionKey))) =
      ['&'].intercalate ((sortByKey (renderQuery input
        (decodeTemplate (resolveOperation pool tenantID actionKey)))).map
          (fun p => queryEscape p.1.data ++ '=' :: queryEscape p.2)) ∧
    (sortByKey (renderQuery input
      (decodeTemplate (resolveOperation pool tenantID actionKey)))).Sorted keyLE := by
  have hfull : PathRendered
      (pathParamText input
        (templateMap (decodeTemplate (resolveOperation pool tenantID actionKey))
          "path_params"))
      ((trimRightSlash (resolveOperation pool tenantID actionKey).baseURL).data ++
        (resolveOperation pool tenantID actionKey).path.data)
      ((trimRightSlash (resolveOperation pool tenantID actionKey).baseURL).data ++ t) :=
    hpath.prepend _ (fun h => hbase (mem_trimRightSlash _ _ h))
  have hurl : renderURL input (decodeTemplate (resolveOperation pool tenantID actionKey))
      (resolveOperation pool tenantID actionKey) =
      (trimRightSlash (resolveOperation pool tenantID actionKey).baseURL).data ++ t := by
    unfold renderURL
    cases hpv : templateMap (decodeTemplate (resolveOperation pool tenantID actionKey))
        "path_params" with
    | none =>
      rw [hpv] at hfull
      have : pathParamText input none = fun _ => none := rfl
      rw [this] at hfull
      exact hfull.unbound.symm
    | some pv =>
      rw [hpv] at hfull
      exact substitutePathParams_rendered input pv _ _ hfull _ (le_refl _)
  refine ⟨?_, ?_, sorted_sortByKey _⟩
  · have hno : ¬ ((resolveOperation pool tenantID actionKey).method = "" ∨
        (resolveOperation pool tenantID actionKey).path = "") := by
      rintro (h | h)
      · exact hop.1 h
      · exact hop.2 h
    have hc : ((trimRightSlash (resolveOperation pool tenantID actionKey).baseURL).data ++
        t).contains '\x7b' = false := by
      have := hfull.no_brace
      simpa using this
    have hreq : renderRequest env pool tenantID actionKey input =
        Rendered.request
          [("op", Value.str "request"),
           ("method", Value.str (resolveOperation pool tenantID actionKey).method),
           ("url", Value.str (String.mk (attachQuery
              ((trimRightSlash (resolveOperation pool tenantID actionKey).baseURL).data ++ t)
              (encodeQuery (renderQuery input
                (decodeTemplate (resolveOperation pool tenantID actionKey)))))))]
          ⟨(resolveOperation pool tenantID actionKey).method,
            String.mk (attachQuery
              ((trimRightSlash (resolveOperation pool tenantID actionKey).baseURL).data ++ t)
              (encodeQuery (renderQuery input
                (decodeTemplate (resolveOperation pool tenantID actionKey))))),
            renderHeaders input (decodeTemplate (resolveOperation pool tenantID actionKey)),
            ((templateMap (decodeTemplate (resolveOperation pool tenantID actionKey))
              "body").map (renderBody input)).map (fun b => mustJSON (Value.obj b))⟩ := by
      unfold renderRequest
      simp only [hno, if_false, hurl, hc, Bool.false_eq_true]
    exact ⟨_, _, hreq, rfl, rfl⟩
  · unfold encodeQuery
    exact encodeQuery_join _

/-- Witness of `execute_request_url`: the operation `GET /v1/orders/{id}` with `id` bound
to `{{ order.id }}` and the query parameters `z` and `a`, for the order id `o 1/x`. -/
theorem execute_request_url_witness :
    ((∃ step req, renderRequest sampleEnv (some orderStore) "t1" "shop.orders" orderInput =
        Rendered.request step req ∧
      mapGet step "url" = Value.str req.url ∧
      req.url.data = attachQuery
        ((trimRightSlash (resolveOperation (some orderStore) "t1"
          "shop.orders").baseURL).data ++
          ("/v1/orders/".data ++ (pathEscape "o 1/x".data ++ [])))
        (encodeQuery (renderQuery orderInput
          (decodeTemplate (resolveOperation (some orderStore) "t1" "shop.orders"))))) ∧
    encodeQuery (renderQuery orderInput
        (decodeTemplate (resolveOperation (some orderStore) "t1" "shop.orders"))) =
      ['&'].intercalate ((sortByKey (renderQuery orderInput
        (decodeTemplate (resolveOperation (some orderStore) "t1" "shop.orders")))).map
          (fun p => queryEscape p.1.data ++ '=' :: queryEscape p.2)) ∧
    (sortByKey (renderQuery orderInput
      (decodeTemplate (resolveOperation (some orderStore) "t1"
        "shop.orders")))).Sorted keyLE) ∧
    renderRequest sampleEnv (some orderStore) "t1" "shop.orders" orderInput =
      Rendered.request
        [("op", Value.str "request"), ("method", Value.str "GET"),
         ("url", Value.str "https://shop.example/v1/orders/o%201%2Fx?a=1&z=new")]
        ⟨"GET", "https://shop.example/v1/orders/o%201%2Fx?a=1&z=new", [], none⟩ :=
  ⟨execute_request_url sampleEnv (some orderStore) "t1" "shop.orders" orderInput
    ("/v1/orders/".data ++ (pathEscape "o 1/x".data ++ []))
    ⟨by decide, by decide⟩ (by decide)
    (by
      have hp : (resolveOperation (some orderStore) "t1" "shop.orders").path.data =
          '/' :: 'v' :: '1' :: '/' :: 'o' :: 'r' :: 'd' :: 'e' :: 'r' :: 's' :: '/' ::
            '\x7b' :: (['i', 'd'] ++ '\x7d' :: []) := rfl
      rw [hp]
      refine PathRendered.char _ _ _ (by decide) (PathRendered.char _ _ _ (by decide)
        (PathRendered.char _ _ _ (by decide) (PathRendered.char _ _ _ (by decide)
        (PathRendered.char _ _ _ (by decide) (PathRendered.char _ _ _ (by decide)
        (PathRendered.char _ _ _ (by decide) (PathRendered.char _ _ _ (by decide)
        (PathRendered.char _ _ _ (by decide) (PathRendered.char _ _ _ (by decide)
        (PathRendered.char _ _ _ (by decide) ?_))))))))))
      exact PathRendered.param ['i', 'd'] "o 1/x".data [] [] (by decide) (by decide) rfl
        (by decide) PathRendered.done),
    rfl⟩

/-! ## Template placeholders -/

/-- A text that does not start with two opening braces holds no placeholder at its
head. -/
theorem matchPlaceholder_head (s : List Char)
    (h : ∀ r, s ≠ '\x7b' :: '\x7b' :: r) : matchPlaceholder s = none := by
  unfold matchPlaceholder
  split
  · rename_i r
    exact absurd rfl (h r)
  · rfl

/-- What the matcher of placeholders finds after two opening braces: white space, the
key characters that follow, at least one, white space, and two closing braces. -/
theorem matchPlaceholder_braces (r g rest : List Char) :
    matchPlaceholder ('\x7b' :: '\x7b' :: r) = some (g, rest) ↔
      g = (r.dropWhile isRegexSpace).takeWhile isKeyChar ∧ g ≠ [] ∧
        ((r.dropWhile isRegexSpace).dropWhile isKeyChar).dropWhile isRegexSpace =
          '\x7d' :: '\x7d' :: rest := by
  rw [matchPlaceholder]
  by_cases he : ((r.dropWhile isRegexSpace).takeWhile isKeyChar).isEmpty = true
  · simp only [he, if_true]
    constructor
    · intro h; cases h
    · rintro ⟨hg, hne, _⟩
      rw [hg] at hne
      exact absurd (List.isEmpty_iff.mp he) hne
  · rw [if_neg he]
    have hne : (r.dropWhile isRegexSpace).takeWhile isKeyChar ≠ [] :=
      fun h => he (by rw [h]; rfl)
    constructor
    · intro h
      split at h
      · rename_i rest' heq
        simp only [Option.some.injEq, Prod.mk.injEq] at h
        obtain ⟨h1, h2⟩ := h
        subst h1 h2
        exact ⟨rfl, hne, heq⟩
      · cases h
    · rintro ⟨hg, _, hd⟩
      split
      · rename_i rest' heq
        rw [heq] at hd
        have h2 := (List.cons.inj (List.cons.inj hd).2).2
        rw [hg, h2]
      · rename_i hno
        exact absurd hd (hno rest)

/-- The matcher of placeholders makes progress. -/
theorem matchPlaceholder_progress : Progress matchPlaceholder := by
  intro s g rest h
  by_cases hs : ∃ r, s = '\x7b' :: '\x7b' :: r
  · obtain ⟨r, rfl⟩ := hs
    obtain ⟨_, _, hd⟩ := (matchPlaceholder_braces r g rest).mp h
    have h1 := length_dropWhile_le isRegexSpace r
    have h2 := length_dropWhile_le isKeyChar (r.dropWhile isRegexSpace)
    have h3 := length_dropWhile_le isRegexSpace
      ((r.dropWhile isRegexSpace).dropWhile isKeyChar)
    rw [hd] at h3
    simp only [List.length_cons] at h3 ⊢
    omega
  · rw [matchPlaceholder_head s (fun r hr => hs ⟨r, hr⟩)] at h
    cases h

/-- The matcher of placeholders does not look past two opening braces. -/
theorem matchPlaceholder_stops (z : List Char) :
    StopsAt matchPlaceholder ('\x7b' :: '\x7b' :: z) := by
  intro r hr
  have hsp : isRegexSpace '\x7b' = false := by decide
  have hkey : isKeyChar '\x7b' = false := by decide
  by_cases hs : ∃ r', r = '\x7b' :: '\x7b' :: r'
  · obtain ⟨r', rfl⟩ := hs
    have hscan : (((r' ++ '\x7b' :: '\x7b' :: z).dropWhile isRegexSpace).dropWhile
        isKeyChar).dropWhile isRegexSpace =
        ((r'.dropWhile isRegexSpace).dropWhile isKeyChar).dropWhile isRegexSpace ++
          '\x7b' :: '\x7b' :: z := by
      rw [dropWhile_append_stop _ _ _ _ hsp, dropWhile_append_stop _ _ _ _ hkey,
        dropWhile_append_stop _ _ _ _ hsp]
    have htake : ((r' ++ '\x7b' :: '\x7b' :: z).dropWhile isRegexSpace).takeWhile isKeyChar =
        (r'.dropWhile isRegexSpace).takeWhile isKeyChar := by
      rw [dropWhile_append_stop _ _ _ _ hsp, takeWhile_append_stop _ _ _ _ hkey]
    cases hm : matchPlaceholder ('\x7b' :: '\x7b' :: r') with
    | some p =>
      obtain ⟨g, rest⟩ := p
      obtain ⟨hg, hne, hd⟩ := (matchPlaceholder_braces r' g rest).mp hm
      rw [List.cons_append, List.cons_append, Option.map_some']
      apply (matchPlaceholder_braces _ _ _).mpr
      refine ⟨by rw [htake]; exact hg, hne, ?_⟩
      rw [hscan, hd]
      rfl
    | none =>
      rw [List.cons_append, List.cons_append, Option.map_none']
      cases hm' : matchPlaceholder ('\x7b' :: '\x7b' :: (r' ++ '\x7b' :: '\x7b' :: z)) with
      | none => rfl
      | some p =>
        exfalso
        obtain ⟨g, rest⟩ := p
        obtain ⟨hg, hne, hd⟩ := (matchPlaceholder_braces _ g rest).mp hm'
        rw [htake] at hg
        rw [hscan] at hd
        cases hq : ((r'.dropWhile isRegexSpace).dropWhile isKeyChar).dropWhile
            isRegexSpace with
        | nil =>
          rw [hq] at hd
          exact absurd (List.cons.inj hd).1 (by decide)
        | cons d q =>
          cases q with
          | nil =>
            rw [hq] at hd
            exact absurd (List.cons.inj (List.cons.inj hd).2).1 (by decide)
          | cons d' q' =>
            rw [hq] at hd
            have h1 := (List.cons.inj hd).1
            have h2 := (List.cons.inj (List.cons.inj hd).2).1
            have : matchPlaceholder ('\x7b' :: '\x7b' :: r') = some (g, q') :=
              (matchPlaceholder_braces r' g q').mpr ⟨hg, hne, by rw [hq, h1, h2]⟩
            rw [hm] at this
            cases this
  · rw [matchPlaceholder_head r (fun r' hr' => hs ⟨r', hr'⟩), Option.map_none']
    cases r with
    | nil => exact absurd rfl hr
    | cons c r₁ =>
      cases r₁ with
      | nil =>
        by_cases hc : c = '\x7b'
        · subst hc
          cases hm : matchPlaceholder (['\x7b'] ++ '\x7b' :: '\x7b' :: z) with
          | none => rfl
          | some p =>
            exfalso
            obtain ⟨g, rest⟩ := p
            obtain ⟨hg, hne, _⟩ := (matchPlaceholder_braces _ g rest).mp hm
            rw [List.dropWhile_cons, hsp] at hg
            simp only [Bool.false_eq_true, if_false] at hg
            rw [List.takeWhile_cons, hkey] at hg
            exact hne hg
        · apply matchPlaceholder_head
          intro r' hr'
          simp only [List.cons_append, List.nil_append, List.cons.injEq] at hr'
          exact hc hr'.1
      | cons d r₂ =>
        apply matchPlaceholder_head
        intro r' hr'
        simp only [List.cons_append, List.cons.injEq] at hr'
        exact hs ⟨r₂, by rw [hr'.1, hr'.2.1]⟩

/-- A key character is no white space. -/
theorem isRegexSpace_of_isKeyChar (c : Char) (h : isKeyChar c = true) :
    isRegexSpace c = false := by
  cases hs : isRegexSpace c with
  | false => rfl
  | true =>
    exfalso
    unfold isRegexSpace at hs
    simp only [Bool.or_eq_true, decide_eq_true_eq, beq_iff_eq] at hs
    rcases hs with (((h1 | h1) | h1) | h1) | h1
    · subst h1; exact absurd h (by decide)
    · subst h1; exact absurd h (by decide)
    · have hc : c = Char.ofNat 12 := by
        apply Char.ext
        apply UInt32.ext
        simpa using h1
      subst hc; exact absurd h (by decide)
    · subst h1; exact absurd h (by decide)
    · subst h1; exact absurd h (by decide)

/-- White space is no key character. -/
theorem isKeyChar_of_isRegexSpace (c : Char) (h : isRegexSpace c = true) :
    isKeyChar c = false := by
  cases hk : isKeyChar c with
  | false => rfl
  | true => rw [isRegexSpace_of_isKeyChar c hk] at h; cases h

/-- An occurrence of a placeholder at the head of a text is what the matcher finds
there. -/
theorem matchPlaceholder_placeholder (p key b : List Char) (h : IsPlaceholder p key) :
    matchPlaceholder (p ++ b) = some (key, b) := by
  obtain ⟨ws₁, ws₂, h₁, h₂, hne, hkey, rfl⟩ := h
  have hb : isRegexSpace '\x7d' = false := by decide
  have hbk : isKeyChar '\x7d' = false := by decide
  obtain ⟨k, key', rfl⟩ := List.exists_cons_of_ne_nil hne
  have hk : isKeyChar k = true := hkey k (List.mem_cons_self _ _)
  have hksp : isRegexSpace k = false := isRegexSpace_of_isKeyChar k hk
  have hd₁ : (ws₁ ++ (k :: key' ++ (ws₂ ++ ['\x7d', '\x7d'])) ++ b).dropWhile isRegexSpace =
      k :: key' ++ (ws₂ ++ ['\x7d', '\x7d']) ++ b := by
    have : ws₁ ++ (k :: key' ++ (ws₂ ++ ['\x7d', '\x7d'])) ++ b =
        ws₁ ++ k :: (key' ++ (ws₂ ++ ['\x7d', '\x7d']) ++ b) := by simp
    rw [this, dropWhile_append_stop _ _ _ _ hksp, List.dropWhile_eq_nil_iff.mpr h₁]
    simp
  have hsplit : k :: key' ++ (ws₂ ++ ['\x7d', '\x7d']) ++ b =
      (k :: key') ++ (ws₂ ++ '\x7d' :: '\x7d' :: b) := by simp
  have htail : ∃ y z', ws₂ ++ '\x7d' :: '\x7d' :: b = y :: z' ∧ isKeyChar y = false := by
    cases ws₂ with
    | nil => exact ⟨_, _, rfl, hbk⟩
    | cons w ws =>
      exact ⟨w, _, rfl, isKeyChar_of_isRegexSpace w (h₂ w (List.mem_cons_self _ _))⟩
  obtain ⟨y, z', hyz, hy⟩ := htail
  have ht : (k :: key' ++ (ws₂ ++ ['\x7d', '\x7d']) ++ b).takeWhile isKeyChar = k :: key' := by
    rw [hsplit, hyz, takeWhile_append_stop _ _ _ _ hy]
    exact List.takeWhile_eq_self_iff.mpr hkey
  have hd₂ : (k :: key' ++ (ws₂ ++ ['\x7d', '\x7d']) ++ b).dropWhile isKeyChar =
      ws₂ ++ '\x7d' :: '\x7d' :: b := by
    rw [hsplit, hyz, dropWhile_append_stop _ _ _ _ hy, List.dropWhile_eq_nil_iff.mpr hkey]
    rfl
  have hd₃ : (ws₂ ++ '\x7d' :: '\x7d' :: b).dropWhile isRegexSpace = '\x7d' :: '\x7d' :: b := by
    rw [dropWhile_append_stop _ _ _ _ hb, List.dropWhile_eq_nil_iff.mpr h₂]
    rfl
  rw [List.cons_append, List.cons_append]
  apply (matchPlaceholder_braces _ _ _).mpr
  rw [hd₁, ht, hd₂, hd₃]
  exact ⟨rfl, by simp, rfl⟩

/-- A text that does not hold two opening braces in a row has none at the head of any
of its ends. -/
theorem containsText_braces (a b : List Char)
    (h : containsText ['\x7b', '\x7b'] (a ++ b) = false) :
    ∀ r, b ≠ '\x7b' :: '\x7b' :: r := by
  induction a with
  | nil =>
    intro r hr
    rw [List.nil_append, hr] at h
    simp [containsText, List.isPrefixOf] at h
  | cons c a ih =>
    rw [List.cons_append, containsText] at h
    exact ih (Bool.or_eq_false_iff.mp h).2

/-- The function `resolve` on a string is the replacement of its placeholders. -/
theorem resolve_str (input : GoMap) (s : List Char) :
    resolve input (Value.str (String.mk s)) =
      replaceMatches matchPlaceholder (renderKey input) s.length s := by
  unfold resolve
  simp only [Value.sprintV]
  cases hc : containsText ['\x7b', '\x7b'] s with
  | true => rfl
  | false =>
    simp only [Bool.not_false, if_true]
    symm
    apply replaceMatches_none
    intro a b hab
    apply matchPlaceholder_head
    apply containsText_braces a b
    rw [← hab]
    exact hc

/-- The walk along a path is the walk along a first part and then along the rest. -/
theorem lookupPath_append (segs₁ segs₂ : List (List Char)) :
    ∀ v : Value, lookupPath v (segs₁ ++ segs₂) = lookupPath (lookupPath v segs₁) segs₂ := by
  induction segs₁ with
  | nil =>
    intro v
    rw [List.nil_append]
    cases v <;> rfl
  | cons seg segs ih =>
    intro v
    cases v with
    | obj m =>
      rw [List.cons_append, lookupPath, lookupPath]
      exact ih _
    | null => cases segs₂ <;> simp [lookupPath]
    | bool _ => cases segs₂ <;> simp [lookupPath]
    | float64 _ => cases segs₂ <;> simp [lookupPath]
    | int _ => cases segs₂ <;> simp [lookupPath]
    | str _ => cases segs₂ <;> simp [lookupPath]
    | arr _ => cases segs₂ <;> simp [lookupPath]

/-- The walk from nil ends with nil. -/
theorem lookupPath_null (segs : List (List Char)) : lookupPath Value.null segs = Value.null := by
  cases segs <;> rfl

/-- C17: the substitution function `resolve` returns a string without `{{` unchanged;
it replaces an occurrence of a placeholder `{{ key }}` anywhere in a string by the text
of its key and resolves what stands before and after it in the same way; the text of a
key is the `%v` rendering of the value found by walking the dotted path through the
nested objects of the inputs, and it is empty when the walk meets a value that is no
object, or an object without the next segment, before the path ends. -/
theorem resolve_substitutes (input : GoMap) :
    (∀ s : List Char, containsText ['\x7b', '\x7b'] s = false →
      resolve input (Value.str (String.mk s)) = s) ∧
    (∀ a p b key : List Char, IsPlaceholder p key →
      resolve input (Value.str (String.mk (a ++ (p ++ b)))) =
        resolve input (Value.str (String.mk a)) ++
          (renderKey input key ++ resolve input (Value.str (String.mk b)))) ∧
    (∀ (key : List Char) (v : Value),
      lookupPath (Value.obj (input.getD [])) (splitOnChar '.' key) = v → v ≠ Value.null →
      renderKey input key = v.sprintV) ∧
    (∀ (key : List Char) (segs₁ segs₂ : List (List Char)) (seg : List Char),
      splitOnChar '.' key = segs₁ ++ seg :: segs₂ →
      (∀ m, lookupPath (Value.obj (input.getD [])) segs₁ = Value.obj m →
        m.lookup (String.mk seg) = none) →
      renderKey input key = []) := by
  refine ⟨?_, ?_, ?_, ?_⟩
  · intro s hs
    rw [resolve_str]
    apply replaceMatches_none
    intro a b hab
    apply matchPlaceholder_head
    apply containsText_braces a b
    rw [← hab]
    exact hs
  · intro a p b key hp
    rw [resolve_str, resolve_str, resolve_str]
    obtain ⟨ws₁, ws₂, h₁, h₂, hne, hkey, hpeq⟩ := id hp
    have hw : p ++ b = '\x7b' :: '\x7b' :: (ws₁ ++ (key ++ (ws₂ ++ ['\x7d', '\x7d'])) ++ b) := by
      rw [hpeq]; rfl
    rw [replaceMatches_append matchPlaceholder _ (p ++ b) matchPlaceholder_progress
      (by rw [hw]; exact matchPlaceholder_stops _) a.length a _ a.length
      ((p ++ b).length) (le_refl _) (le_refl _) (le_refl _) (le_refl _)]
    congr 1
    have hlen : (p ++ b).length = (p.length - 1 + b.length) + 1 := by
      rw [hpeq]; simp; omega
    have hpb : p ++ b = '\x7b' :: ('\x7b' :: (ws₁ ++ (key ++ (ws₂ ++ ['\x7d', '\x7d'])) ++ b)) :=
      hw
    rw [hlen]
    conv_lhs => rw [hpb, replaceMatches, ← hpb, matchPlaceholder_placeholder p key b hp]
    simp only
    congr 1
    exact replaceMatches_fuel matchPlaceholder _ matchPlaceholder_progress b.length b _ _
      (le_refl _) (by omega) (le_refl _)
  · intro key v hv hnn
    unfold renderKey
    rw [hv]
    cases v with
    | null => exact absurd rfl hnn
    | bool _ => rfl
    | float64 _ => rfl
    | int _ => rfl
    | str _ => rfl
    | arr _ => rfl
    | obj _ => rfl
  · intro key segs₁ segs₂ seg hsplit hmiss
    unfold renderKey
    rw [hsplit, lookupPath_append]
    have hnull : lookupPath (lookupPath (Value.obj (input.getD [])) segs₁) (seg :: segs₂) =
        Value.null := by
      cases hw : lookupPath (Value.obj (input.getD [])) segs₁ with
      | obj m =>
        rw [lookupPath]
        have : mapGet m (String.mk seg) = Value.null := by
          unfold mapGet
          rw [hmiss m hw]
          rfl
        rw [this, lookupPath_null]
      | null => rfl
      | bool _ => rfl
      | float64 _ => rfl
      | int _ => rfl
      | str _ => rfl
      | arr _ => rfl
    rw [hnull]

/-- Witness of `resolve_substitutes`: in `id={{ order.id }}&x={{a.b.c}}` the first
placeholder is replaced by the order id and the second, whose path is missing, by
nothing. -/
theorem resolve_substitutes_witness :
    resolve orderInput (Value.str (String.mk ("id=".data ++
        ("\x7b\x7b order.id \x7d\x7d".data ++ "&x=\x7b\x7ba.b.c\x7d\x7d".data)))) =
      "id=o 1/x&x=".data ∧
    renderKey orderInput "a.b.c".data = [] :=
  ⟨((resolve_substitutes orderInput).2.1 "id=".data "\x7b\x7b order.id \x7d\x7d".data
      "&x=\x7b\x7ba.b.c\x7d\x7d".data "order.id".data
      ⟨[' '], [' '], by decide, by decide, by decide, by decide, rfl⟩).trans rfl,
    (resolve_substitutes orderInput).2.2.2 "a.b.c".data [] ["b".data, "c".data] "a".data rfl
      (fun m hm => by
        have h : Value.obj (orderInput.getD []) = Value.obj m := hm
        cases h
        rfl)⟩

/-! ## Execute: the idempotency key -/

/-- C18 (counterexample): the inputs provide the idempotency key 42, a number: the key
`Execute` uses is the decision id. -/
theorem idempotency_key_number_ignored :
    (numericKeyInput.getD []).lookup "idempotency_key" =
        some (Value.float64 (Float64.ofNat 42)) ∧
      (Value.float64 (Float64.ofNat 42)).sprintV = ['4', '2'] ∧
      idempotencyKeyOf "D1" numericKeyInput = "D1" ∧
      (Execute sampleEnv (answers 200) (some ordersStore) "t1" "orders.orders" "D1"
          numericKeyInput).2.2.map (fun db => db.executions.map (fun r => r.idempotency_key)) =
        some ["D1"] :=
  ⟨rfl, rfl, rfl, rfl⟩

/-- C18 (amended): the idempotency key `Execute` records is `inputs.idempotency_key`
when the inputs hold a non-empty string there, and the decision id otherwise: when the
key is absent, is the empty string, or is no string. -/
theorem idempotency_key_rule (decisionID : String) (input : GoMap) :
    (∀ s : String, mapGet (input.getD []) "idempotency_key" = Value.str s → s ≠ "" →
      idempotencyKeyOf decisionID input = s) ∧
    ((∀ s : String, mapGet (input.getD []) "idempotency_key" = Value.str s → s = "") →
      idempotencyKeyOf decisionID input = decisionID) ∧
    (∀ (env : Env) (upstream : Upstream) (db : DB) (tenantID actionKey : String),
      (Execute env upstream (some db) tenantID actionKey decisionID input).2.2 =
        some (insertExecution db
          (executionRow tenantID actionKey decisionID (idempotencyKeyOf decisionID input)
            (Execute env upstream (some db) tenantID actionKey decisionID input).1)) ∧
      (executionRow tenantID actionKey decisionID (idempotencyKeyOf decisionID input)
        (Execute env upstream (some db) tenantID actionKey decisionID
          input).1).idempotency_key = idempotencyKeyOf decisionID input) := by
  refine ⟨?_, ?_, ?_⟩
  · intro s hs hne
    unfold idempotencyKeyOf
    rw [hs]
    simp only [hne, if_false]
  · intro h
    unfold idempotencyKeyOf
    cases hv : mapGet (input.getD []) "idempotency_key" with
    | str s =>
      have := h s hv
      simp [this]
    | null => simp
    | bool _ => simp
    | float64 _ => simp
    | int _ => simp
    | arr _ => simp
    | obj _ => simp
  · intro env upstream db tenantID actionKey
    exact ⟨rfl, rfl⟩

/-- Witness of `idempotency_key_rule`: the key `k1` provided by the inputs is used, and
without inputs the decision id is. -/
theorem idempotency_key_rule_witness :
    idempotencyKeyOf "D1" keyedInput = "k1" ∧ idempotencyKeyOf "D1" none = "D1" :=
  ⟨(idempotency_key_rule "D1" keyedInput).1 "k1" rfl (by decide),
    (idempotency_key_rule "D1" none).2.1 (fun s hs => by cases hs)⟩

/-! ## Manifest keys and operation resolution -/

/-- C14 (failing input): for the connector `Shop` with the enabled operations
`GET /v1/orders` and `POST /v1/orderItems`, whose manifest short names `orders` and
`orderitems` are distinct, `BuildManifest` publishes the key `shop.orderitems` for the
second operation. The orchestrator derives the short name `order-items` from its path,
so that the key matches no short name and is resolved to the first operation of the
namespace, `GET /v1/orders`. -/
theorem manifest_key_resolves_elsewhere :
    (BuildManifest sampleEnv "http://localhost:8080" acme (some cartOperations)).Actions.map
        (fun a => (a.Method, a.Path, a.Key)) =
      [("GET", "/v1/orders", "shop.orders"), ("POST", "/v1/orderItems", "shop.orderitems")] ∧
    splitActionKey "shop.orderitems" = ("shop", "orderitems") ∧
    slug "Shop" = "shop" ∧
    deriveName "/v1/orderItems" = "orderitems" ∧
    deriveShort "/v1/orderItems" = "order-items" ∧
    resolveOperation (some cartStore) "t1" "shop.orderitems" =
      ⟨"https://shop.example", "GET", "/v1/orders", ['\x7b', '\x7d']⟩ :=
  ⟨rfl, rfl, rfl, rfl, rfl, rfl⟩

/-! ## The preflight endpoint -/

/-- C19: when the policy evaluation of a preflight yields `NEEDS_INPUT`, the response
map has the two entries `status`, which is `NEEDS_INPUT`, and `needs`, and no other;
the store is left as it is, so that no decision is persisted, and no decision id is
returned. The `needs` are the prompts of the enabled resolvers of the action: a prompt
is among them exactly when an enabled resolver of the tenant and the action lists it. -/
theorem preflight_needs_input (search : JMESPath) (clock : Clock) (rego : RegoEval)
    (now : Time) (newID : String) (pool : Option DB) (tenantID key : String)
    (inputs : GoMap)
    (hstatus : (Evaluate rego now pool tenantID key inputs
      (ResolveFacts search clock pool tenantID key inputs).1).1.Status = NeedsInput) :
    preflight search clock rego now newID pool tenantID key inputs =
        ({ status := "NEEDS_INPUT",
           needs := some (needsValue (ResolverNeeds pool tenantID key)),
           decision_id := none, expires_at := none, reasons := none, conditions := none,
           alternatives := none }, pool) ∧
      (∀ db, pool = some db → ∀ n : GoMap, n ∈ ResolverNeeds pool tenantID key ↔
        ∃ r ∈ db.fact_resolvers, r.tenant_id = tenantID ∧ r.action_key = key ∧
          r.enabled = some true ∧ n ∈ (jsonUnmarshalMaps (r.needs.getD ['[', ']'])).getD []) := by
  constructor
  · unfold preflight
    simp only [hstatus, if_true]
  · intro db hdb n
    subst hdb
    unfold ResolverNeeds
    simp only [List.mem_flatMap, List.mem_filter, decide_eq_true_eq]
    constructor
    · rintro ⟨r, ⟨hr, h1, h2, h3⟩, hn⟩
      exact ⟨r, hr, h1, h2, h3, hn⟩
    · rintro ⟨r, hr, h1, h2, h3, hn⟩
      exact ⟨r, ⟨hr, h1, h2, h3⟩, hn⟩

/-- Witness of `preflight_needs_input`: the prompts of `r1` and `r3` are returned, that
of the disabled `r2` is not, and the store is unchanged. -/
theorem preflight_needs_input_witness :
    preflight fieldPath frozenClock (regoReturns needsInputResult) 1000 "d1"
        (some needsStore) "t1" "orders.list" none =
      ({ status := "NEEDS_INPUT",
         needs := some (Value.arr [Value.obj [("key", Value.str "order_id")],
           Value.obj [("key", Value.str "reason")]]),
         decision_id := none, expires_at := none, reasons := none, conditions := none,
         alternatives := none }, some needsStore) :=
  ((preflight_needs_input fieldPath frozenClock (regoReturns needsInputResult) 1000 "d1"
    (some needsStore) "t1" "orders.list" none rfl).1).trans rfl

/-! ## Transforms: `sum` and `to_number` -/

/-- The normalisation of a digit string that starts with a non-zero digit is not
zero. -/
theorem ofDigits_isZero (neg : Bool) (d : Nat) (ds : List Nat) (dp : Int) (hd : d ≠ 0) :
    (Float64.ofDigits neg (d :: ds) dp).isZero = false := by
  obtain ⟨body, hb, _⟩ := strip_trailing_zeros_props d ds hd
  unfold Float64.ofDigits
  have hdrop : (d :: ds).dropWhile (· = 0) = d :: ds := by
    simp [List.dropWhile_cons, hd]
  simp only [hdrop, hb]
  simp [Float64.isZero, hd]

/-- What `toFloat` yields: the number of a numeric value, `+0` for any other value. -/
theorem toFloat_eq (v : Value) : toFloat v = (numberOf v).getD ⟨false, [], 0⟩ := by
  cases v <;> rfl

/-- The decimal zero is not read back as a number that is not zero. -/
theorem readsBack_zero (n d : Nat) (k : Int) (hn : n ≠ 0) :
    Frac.readsBack n d 0 k = false := by
  have h0 : (Frac.ofDecimal 0 k).num = 0 := by
    unfold Frac.ofDecimal
    split <;> simp
  have hr : Frac.round64 (Frac.ofDecimal 0 k) = ⟨0, 1⟩ := by
    unfold Frac.round64
    rw [if_pos h0]
  unfold Frac.readsBack
  rw [hr]
  simp only [Frac.same, Int.zero_mul, Nat.cast_one, mul_one, decide_eq_false_iff_not]
  intro h'
  exact hn (Int.ofNat_eq_zero.mp h'.symm)

/-- A candidate for a number that is not zero is not zero. -/
theorem shortestCandidate_ne_zero (n d : Nat) (e : Int) (digits m : Nat) (k : Int)
    (hn : n ≠ 0) (h : Frac.shortestCandidate n d e digits = some (m, k)) : m ≠ 0 := by
  intro hm
  unfold Frac.shortestCandidate at h
  by_cases hlo : Frac.readsBack n d (Frac.floorScaled n d (e - (digits : Int)))
      (e - (digits : Int)) = true
  · have hne : Frac.floorScaled n d (e - (digits : Int)) ≠ 0 := by
      intro h0
      rw [h0, readsBack_zero n d _ hn] at hlo
      cases hlo
    rw [if_pos hlo] at h
    split_ifs at h <;>
      simp only [Option.some.injEq, Prod.mk.injEq] at h <;> omega
  · rw [if_neg hlo] at h
    split_ifs at h
    simp only [Option.some.injEq, Prod.mk.injEq] at h
    omega

/-- The shortest decimal of a number that is not zero is not zero. -/
theorem shortestDecimal_ne_zero (n d : Nat) (e : Int) (hn : n ≠ 0) :
    ∀ (fuel digits m : Nat) (k : Int),
      Frac.shortestDecimal n d e fuel digits = some (m, k) → m ≠ 0 := by
  intro fuel
  induction fuel with
  | zero =>
    intro digits m k h
    cases h
  | succ fuel ih =>
    intro digits m k h
    unfold Frac.shortestDecimal at h
    cases hc : Frac.shortestCandidate n d e digits with
    | some c =>
      rw [hc] at h
      simp only [Option.some.injEq] at h
      rw [h] at hc
      exact shortestCandidate_ne_zero n d e digits m k hn hc
    | none =>
      rw [hc] at h
      exact ih (digits + 1) m k h

/-- The numeral of a `float64` number that is not zero is `+0` in the form without
digits whenever it is zero. -/
theorem ofFrac_zero_form (q : Frac) (hq : q.num ≠ 0) :
    (Float64.ofFrac q).isZero = true → Float64.ofFrac q = ⟨false, [], 0⟩ := by
  unfold Float64.ofFrac
  cases hs : Frac.shortestDecimal q.num.natAbs q.den
      (Frac.decimalExponent q.num.natAbs q.den) 17 1 with
  | none => intro _; rfl
  | some c =>
    obtain ⟨m, k⟩ := c
    intro h
    exfalso
    have hm : m ≠ 0 := shortestDecimal_ne_zero _ _ _
      (fun h0 => hq (Int.natAbs_eq_zero.mp h0)) 17 1 m k hs
    obtain ⟨d, ds, hd, hz⟩ := decDigitList_head (m + 1) m (by omega)
    have hd0 : d ≠ 0 := fun h0 => hm (hz h0).1
    simp only at h
    rw [hd, ofDigits_isZero _ d ds _ hd0] at h
    cases h

/-- A sum is `-0` only as the sum of two zeros: a sum that is zero, its first operand
not being `-0`, is `+0`. -/
theorem Float64.add_inv (x y : Float64) (hx : x.isZero = true → x = ⟨false, [], 0⟩) :
    (x.add y).isZero = true → x.add y = ⟨false, [], 0⟩ := by
  unfold Float64.add
  by_cases hy : y.isZero = true
  · simp only [hy, if_true]
    by_cases hxz : x.isZero = true
    · simp only [hxz, if_true]
      intro _
      rw [hx hxz]
      rfl
    · simp only [hxz]
      intro h
      exact absurd h hxz
  · simp only [hy]
    by_cases hxz : x.isZero = true
    · simp only [hxz, if_true]
      intro h
      exact absurd h hy
    · simp only [hxz]
      by_cases hs : (Frac.add (Frac.round64 x.toFrac) (Frac.round64 y.toFrac)).num = 0
      · simp only [hs, if_true, Bool.false_eq_true, if_false]
        intro _
        trivial
      · simp only [hs, Bool.false_eq_true, if_false]
        exact ofFrac_zero_form _ hs

/-- Adding `+0` to a number that is not `-0` leaves it as it is. -/
theorem Float64.add_zero (x : Float64) (hx : x.isZero = true → x = ⟨false, [], 0⟩) :
    x.add ⟨false, [], 0⟩ = x := by
  unfold Float64.add
  have hz : (⟨false, [], 0⟩ : Float64).isZero = true := rfl
  simp only [hz, if_true]
  by_cases hxz : x.isZero = true
  · simp only [hxz, if_true]
    rw [hx hxz]
    rfl
  · simp only [hxz, Bool.false_eq_true, if_false]

/-- The loop of `sum` adds the numeric elements: the other elements count as zero. -/
theorem sum_loop (xs : List Value) :
    ∀ s : Float64, (s.isZero = true → s = ⟨false, [], 0⟩) →
      ∀ t : Float64, sumFrom s (xs.filterMap numberOf) = some t →
        xs.foldl (fun s it => s.add (toFloat it)) s = t := by
  induction xs with
  | nil =>
    intro s _ t h
    exact Option.some.inj h
  | cons x xs ih =>
    intro s hs t h
    rw [List.foldl_cons, toFloat_eq]
    rw [List.filterMap_cons] at h
    cases hn : numberOf x with
    | none =>
      rw [hn] at h
      simp only [Option.getD_none]
      rw [Float64.add_zero s hs]
      exact ih s hs t h
    | some n =>
      rw [hn] at h
      simp only [Option.getD_some]
      unfold sumFrom at h
      split_ifs at h
      exact ih _ (Float64.add_inv s n hs) t h

/-- The `to_number` transform of a string that `strconv.ParseFloat` accepts, spaces
around it trimmed, is the number parsed. -/
theorem to_number_str (now₁ now₂ : Time) (args : List Value) (t : String) (f : Float64)
    (h : parseFloat (trimBoth isUnicodeSpace t.data) = some f) :
    applyTransform now₁ now₂ "to_number" (Value.str t) args =
      Except.ok (Value.float64 f) := by
  unfold applyTransform
  simp only [show ("to_number" : String) ≠ "count" by decide,
    show ("to_number" : String) ≠ "sum" by decide,
    show ("to_number" : String) ≠ "days_between" by decide,
    show ("to_number" : String) ≠ "now" by decide,
    show ("to_number" : String) ≠ "any" by decide,
    show ("to_number" : String) ≠ "all" by decide,
    show ("to_number" : String) ≠ "exists" by decide,
    show ("to_number" : String) ≠ "first" by decide, if_false, if_true]
  rw [h]

/-- C20 (counterexample): for the numeric string `"5"` the `sum` transform returns 0,
the `to_number` transform returns 5. -/
theorem sum_of_numeric_string_is_zero :
    applyTransform 0 0 "sum" (Value.str "5") [] =
        Except.ok (Value.float64 ⟨false, [], 0⟩) ∧
      applyTransform 0 0 "to_number" (Value.str "5") [] =
        Except.ok (Value.float64 (Float64.ofNat 5)) ∧
      applyTransform 0 0 "sum" (Value.str "5") [] ≠
        applyTransform 0 0 "to_number" (Value.str "5") [] := by
  have h₁ : applyTransform 0 0 "sum" (Value.str "5") [] =
      Except.ok (Value.float64 ⟨false, [], 0⟩) := rfl
  have hp : parseFloat (trimBoth isUnicodeSpace "5".data) = some (Float64.ofNat 5) := by
    decide!
  have h₂ : applyTransform 0 0 "to_number" (Value.str "5") [] =
      Except.ok (Value.float64 (Float64.ofNat 5)) := to_number_str 0 0 [] "5" _ hp
  refine ⟨h₁, h₂, ?_⟩
  rw [h₁, h₂]
  intro h
  have hd : ([] : List Nat) = (Float64.ofNat 5).digits := by
    simp only [Except.ok.injEq, Value.float64.injEq] at h
    rw [← h]
  exact absurd hd (by decide)

/-- C20 (amended): for a value that is no array the `sum` transform returns what
`toFloat` makes of it: the number itself, and 0 for every other value, a string
included. It agrees with `to_number` on every value that is neither an array nor a
string. For an array it returns the sum of the elements that are numbers, the other
elements counting as zero: whenever that sum, each addition rounded to a `float64`,
stays within the finite `float64` numbers, the transform returns it. -/
theorem sum_transform (now₁ now₂ : Time) (args : List Value) :
    (∀ v : Value, (∀ xs, v ≠ Value.arr xs) →
      applyTransform now₁ now₂ "sum" v args = Except.ok (Value.float64 (toFloat v))) ∧
    (∀ s : String, applyTransform now₁ now₂ "sum" (Value.str s) args =
      Except.ok (Value.float64 ⟨false, [], 0⟩)) ∧
    (∀ v : Value, (∀ xs, v ≠ Value.arr xs) → (∀ s, v ≠ Value.str s) →
      applyTransform now₁ now₂ "to_number" v args =
        applyTransform now₁ now₂ "sum" v args) ∧
    (∀ (xs : List Value) (t : Float64), sumOfNumbers xs = some t →
      applyTransform now₁ now₂ "sum" (Value.arr xs) args =
        Except.ok (Value.float64 t)) := by
  have hsum : ∀ v : Value, (∀ xs, v ≠ Value.arr xs) →
      applyTransform now₁ now₂ "sum" v args = Except.ok (Value.float64 (toFloat v)) := by
    intro v hv
    unfold applyTransform
    cases v with
    | arr xs => exact absurd rfl (hv xs)
    | null => rfl
    | bool _ => rfl
    | float64 _ => rfl
    | int _ => rfl
    | str _ => rfl
    | obj _ => rfl
  refine ⟨hsum, ?_, ?_, ?_⟩
  · intro s
    exact hsum (Value.str s) (fun xs h => by cases h)
  · intro v hv hs
    rw [hsum v hv]
    unfold applyTransform
    simp only [show ("to_number" : String) ≠ "count" by decide,
      show ("to_number" : String) ≠ "sum" by decide,
      show ("to_number" : String) ≠ "days_between" by decide,
      show ("to_number" : String) ≠ "now" by decide,
      show ("to_number" : String) ≠ "any" by decide,
      show ("to_number" : String) ≠ "all" by decide,
      show ("to_number" : String) ≠ "exists" by decide,
      show ("to_number" : String) ≠ "first" by decide, if_false, if_true]
  · intro xs t ht
    unfold applyTransform
    simp only [show ("sum" : String) ≠ "count" by decide, if_false, if_true]
    rw [sum_loop xs _ (fun _ => rfl) t ht]

/-- Witness of `sum_transform`: the array `[0.1, "x", 0.2, null]` sums to
0.30000000000000004, the `float64` sum of 0.1 and 0.2; the array `[1e16, 1]` sums to
1e16; and the number 7 is its own sum and its own `to_number`. -/
theorem sum_transform_witness :
    applyTransform 0 0 "sum"
        (Value.arr [Value.float64 ⟨false, [1], 0⟩, Value.str "x",
          Value.float64 ⟨false, [2], 0⟩, Value.null]) [] =
      Except.ok (Value.float64
        ⟨false, [3, 0, 0, 0, 0, 0, 0, 0, 0, 0, 0, 0, 0, 0, 0, 0, 4], 0⟩) ∧
    applyTransform 0 0 "sum"
        (Value.arr [Value.float64 ⟨false, [1], 17⟩, Value.int 1]) [] =
      Except.ok (Value.float64 ⟨false, [1], 17⟩) ∧
    applyTransform 0 0 "to_number" (Value.float64 (Float64.ofNat 7)) [] =
      Except.ok (Value.float64 (Float64.ofNat 7)) :=
  ⟨(sum_transform 0 0 []).2.2.2 _ _ (by decide!),
    (sum_transform 0 0 []).2.2.2 _ _ (by decide!),
    ((sum_transform 0 0 []).2.2.1 (Value.float64 (Float64.ofNat 7))
      (fun xs h => by cases h) (fun s h => by cases h)).trans rfl⟩

/-! ## Transforms: `any` and `all` -/

/-- C21 (counterexample): on the array `[null]` without transform arguments `all`
returns true although the one element is not truthy, and `any` returns true although
no element is truthy. -/
theorem all_of_null_element_is_true :
    applyTransform 0 0 "all" (Value.arr [Value.null]) [] = Except.ok (Value.bool true) ∧
      [Value.null].all truthy = false ∧
      applyTransform 0 0 "any" (Value.arr [Value.null]) [] = Except.ok (Value.bool true) ∧
      [Value.null].any truthy = false :=
  ⟨rfl, rfl, rfl, rfl⟩

/-- C21 (amended): for an array `v`, the `any` and `all` transforms without the pair
of arguments `(source, pred)` return the same answer, true exactly when `v` is not
empty, whatever its elements; and on an empty source both forms of `all` return
false. -/
theorem any_all_one_argument (now₁ now₂ : Time) (xs : List Value) (args : List Value)
    (hargs : args.length ≠ 2) :
    applyTransform now₁ now₂ "any" (Value.arr xs) args =
        Except.ok (Value.bool (decide (0 < xs.length))) ∧
      applyTransform now₁ now₂ "all" (Value.arr xs) args =
        Except.ok (Value.bool (decide (0 < xs.length))) ∧
      applyTransform now₁ now₂ "all" (Value.arr []) args = Except.ok (Value.bool false) ∧
      (∀ v src pred, toArray src = [] →
        applyTransform now₁ now₂ "all" v [src, pred] = Except.ok (Value.bool false)) := by
  have hany : ∀ ys : List Value, applyTransform now₁ now₂ "any" (Value.arr ys) args =
      Except.ok (Value.bool (decide (0 < ys.length))) := by
    intro ys
    unfold applyTransform
    simp only [show ("any" : String) ≠ "count" by decide,
      show ("any" : String) ≠ "sum" by decide,
      show ("any" : String) ≠ "days_between" by decide,
      show ("any" : String) ≠ "now" by decide, if_false, if_true]
    match args, hargs with
    | [], _ => cases ys <;> simp
    | [_], _ => cases ys <;> simp
    | [_, _], h => exact absurd rfl h
    | _ :: _ :: _ :: _, _ => cases ys <;> simp
  have hall : ∀ ys : List Value, applyTransform now₁ now₂ "all" (Value.arr ys) args =
      Except.ok (Value.bool (decide (0 < ys.length))) := by
    intro ys
    unfold applyTransform
    simp only [show ("all" : String) ≠ "count" by decide,
      show ("all" : String) ≠ "sum" by decide,
      show ("all" : String) ≠ "days_between" by decide,
      show ("all" : String) ≠ "now" by decide,
      show ("all" : String) ≠ "any" by decide, if_false, if_true]
    match args, hargs with
    | [], _ => cases ys <;> simp
    | [_], _ => cases ys <;> simp
    | [_, _], h => exact absurd rfl h
    | _ :: _ :: _ :: _, _ => cases ys <;> simp
  refine ⟨hany xs, hall xs, hall [], ?_⟩
  intro v src pred hsrc
  unfold applyTransform
  simp only [show ("all" : String) ≠ "count" by decide,
    show ("all" : String) ≠ "sum" by decide,
    show ("all" : String) ≠ "days_between" by decide,
    show ("all" : String) ≠ "now" by decide,
    show ("all" : String) ≠ "any" by decide, if_false, if_true, hsrc]
  rfl

/-- Witness of `any_all_one_argument`: on `[false, null]` without arguments both
transforms return true. -/
theorem any_all_one_argument_witness :
    applyTransform 0 0 "any" (Value.arr [Value.bool false, Value.null]) [] =
        Except.ok (Value.bool true) ∧
      applyTransform 0 0 "all" (Value.arr [Value.bool false, Value.null]) [] =
        Except.ok (Value.bool true) :=
  ⟨(any_all_one_argument 0 0 [Value.bool false, Value.null] [] (by decide)).1,
    (any_all_one_argument 0 0 [Value.bool false, Value.null] [] (by decide)).2.1⟩

/-! ## Transforms: `coalesce` -/

/-- Trimming leaves nothing exactly when every character is trimmed. -/
theorem trimBoth_isEmpty (p : Char → Bool) (cs : List Char) :
    (trimBoth p cs).isEmpty = true ↔ ∀ c ∈ cs, p c = true := by
  unfold trimBoth
  rw [List.isEmpty_iff, List.reverse_eq_nil_iff, List.dropWhile_eq_nil_iff]
  constructor
  · intro h
    by_cases hd : cs.dropWhile p = []
    · exact List.dropWhile_eq_nil_iff.mp hd
    · exfalso
      have hne : (cs.dropWhile p).head hd ∈ (cs.dropWhile p).reverse :=
        List.mem_reverse.mpr (List.head_mem hd)
      have := List.head_dropWhile_not p cs hd
      rw [h _ hne] at this
      cases this
  · intro h
    rw [List.dropWhile_eq_nil_iff.mpr h]
    intro x hx
    cases hx

/-- The function `isZero` holds exactly of the zero values. -/
theorem isZero_iff (v : Value) : isZero v = true ↔ ZeroValue v := by
  constructor
  · intro h
    cases v with
    | null => exact ZeroValue.null
    | bool b => cases h
    | float64 x => exact ZeroValue.zero x h
    | int n =>
      have : n = 0 := by simpa [isZero] using h
      subst this
      exact ZeroValue.intZero
    | str t => exact ZeroValue.blank t ((trimBoth_isEmpty _ _).mp h)
    | arr xs =>
      cases xs with
      | nil => exact ZeroValue.emptyArray
      | cons _ _ => cases h
    | obj m =>
      cases m with
      | nil => exact ZeroValue.emptyObject
      | cons _ _ => cases h
  · intro h
    cases h with
    | null => rfl
    | blank t h => exact (trimBoth_isEmpty _ _).mpr h
    | zero x h => exact h
    | intZero => rfl
    | emptyArray => rfl
    | emptyObject => rfl

/-- C22 (counterexample): the string of one space is not among the zero values the
specification lists, yet `coalesce` passes over it: with the arguments `" "` and `"x"`
it returns `"x"`. -/
theorem coalesce_skips_blank_string :
    isZeroListed (Value.str " ") = false ∧
      applyTransform 0 0 "coalesce" (Value.str "d") [Value.str " ", Value.str "x"] =
        Except.ok (Value.str "x") :=
  ⟨rfl, rfl⟩

/-- C22 (amended): `coalesce` never returns an error. It returns the first argument
that is not zero, the zero values being null, a string of white space only (the empty
string among them), the number 0, the empty array and the empty object; and it returns
the value when there is no argument or every argument is zero. -/
theorem coalesce_first_non_zero (now₁ now₂ : Time) (v : Value) (args : List Value) :
    ∃ r, applyTransform now₁ now₂ "coalesce" v args = Except.ok r ∧
      ((∃ pre a post, args = pre ++ a :: post ∧ (∀ z ∈ pre, ZeroValue z) ∧
          ¬ ZeroValue a ∧ r = a) ∨
        ((∀ z ∈ args, ZeroValue z) ∧ r = v)) := by
  have h : ∀ r, (args.find? (fun a => !isZero a)).getD v = r →
      applyTransform now₁ now₂ "coalesce" v args = Except.ok r := by
    intro r hr
    unfold applyTransform
    simp only [show ("coalesce" : String) ≠ "count" by decide,
      show ("coalesce" : String) ≠ "sum" by decide,
      show ("coalesce" : String) ≠ "days_between" by decide,
      show ("coalesce" : String) ≠ "now" by decide,
      show ("coalesce" : String) ≠ "any" by decide,
      show ("coalesce" : String) ≠ "all" by decide,
      show ("coalesce" : String) ≠ "exists" by decide,
      show ("coalesce" : String) ≠ "first" by decide,
      show ("coalesce" : String) ≠ "to_number" by decide,
      show ("coalesce" : String) ≠ "to_string" by decide, if_false, if_true]
    cases hf : args.find? (fun a => !isZero a) with
    | none => rw [hf] at hr; exact congrArg Except.ok hr
    | some a => rw [hf] at hr; exact congrArg Except.ok hr
  cases hf : args.find? (fun a => !isZero a) with
  | none =>
    refine ⟨v, h v (by rw [hf]; rfl), Or.inr ⟨?_, rfl⟩⟩
    intro z hz
    have := List.find?_eq_none.mp hf z hz
    exact (isZero_iff z).mp (by simpa using this)
  | some a =>
    refine ⟨a, h a (by rw [hf]; rfl), Or.inl ?_⟩
    obtain ⟨ha, pre, post, hargs, hpre⟩ := List.find?_eq_some.mp hf
    refine ⟨pre, a, post, hargs, ?_, ?_, rfl⟩
    · intro z hz
      exact (isZero_iff z).mp (by simpa using hpre z hz)
    · intro hz
      rw [(isZero_iff a).mpr hz] at ha
      cases ha

/-! ## Transforms: `days_between` -/

/-- With two arguments that parse, `days_between` returns the day count of the two
instants at the two readings of the clock. -/
theorem days_between_args (now₁ now₂ : Time) (v a b : Value) (t1 t2 : Time)
    (ha : toTime a = some t1) (hb : toTime b = some t2) :
    applyTransform now₁ now₂ "days_between" v [a, b] =
      Except.ok (Value.int (daysBetween now₁ now₂ t1 t2)) := by
  unfold applyTransform
  simp only [show ("days_between" : String) ≠ "count" by decide,
    show ("days_between" : String) ≠ "sum" by decide, if_false, if_true]
  unfold daysBetweenOf
  rw [ha, hb]

/-- With two arguments, `days_between` returns an error exactly when one of them does
not parse. -/
theorem days_between_args_error (now₁ now₂ : Time) (v a b : Value) :
    (∃ e, applyTransform now₁ now₂ "days_between" v [a, b] = Except.error e) ↔
      toTime a = none ∨ toTime b = none := by
  cases ha : toTime a with
  | none =>
    refine ⟨fun _ => Or.inl rfl, fun _ => ⟨"invalid time", ?_⟩⟩
    unfold applyTransform
    simp only [show ("days_between" : String) ≠ "count" by decide,
      show ("days_between" : String) ≠ "sum" by decide, if_false, if_true]
    unfold daysBetweenOf
    rw [ha]
  | some t1 =>
    cases hb : toTime b with
    | none =>
      refine ⟨fun _ => Or.inr rfl, fun _ => ⟨"invalid time", ?_⟩⟩
      unfold applyTransform
      simp only [show ("days_between" : String) ≠ "count" by decide,
        show ("days_between" : String) ≠ "sum" by decide, if_false, if_true]
      unfold daysBetweenOf
      rw [ha, hb]
    | some t2 =>
      rw [days_between_args now₁ now₂ v a b t1 t2 ha hb]
      constructor
      · rintro ⟨e, he⟩
        cases he
      · rintro (h | h) <;> cases h

/-- C23: `days_between` of `2024-01-01` and `2024-01-11`, ten days apart, returns 9
when the second reading of the clock comes a microsecond after the first, and 10 when
the two readings are the same instant: the result depends on when the two calls of
`time.Since` read the clock. -/
theorem days_between_reads_clock_twice :
    toTime (Value.str "2024-01-01") = some 1704067200000000000 ∧
      toTime (Value.str "2024-01-11") = some (1704067200000000000 + 10 * (24 * Hour)) ∧
      applyTransform noon (noon + 1000) "days_between" Value.null
        [Value.str "2024-01-01", Value.str "2024-01-11"] = Except.ok (Value.int 9) ∧
      applyTransform noon noon "days_between" Value.null
        [Value.str "2024-01-01", Value.str "2024-01-11"] = Except.ok (Value.int 10) := by
  have ha : toTime (Value.str "2024-01-01") = some 1704067200000000000 := by decide!
  have hb : toTime (Value.str "2024-01-11") = some 1704931200000000000 := by decide!
  have h9 : daysBetween noon (noon + 1000) 1704067200000000000 1704931200000000000 = 9 := by
    decide!
  have h10 : daysBetween noon noon 1704067200000000000 1704931200000000000 = 10 := by
    decide!
  refine ⟨ha, hb, ?_, ?_⟩
  · rw [days_between_args _ _ _ _ _ _ _ ha hb, h9]
  · rw [days_between_args _ _ _ _ _ _ _ ha hb, h10]

/-! ## Publishing a policy version -/

/-- When a version of the action exists, a publish answers 200, and afterwards a row
of the tenant and the action is published exactly when its version is the given one,
archived otherwise; the other rows are as before. -/
theorem publish_existing_version (db : DB) (tid actionKey : String) (ver : Int)
    (hex : ∃ r ∈ db.policy_versions, r.tenant_id = tid ∧ r.action_key = actionKey) :
    (updatePublished db tid actionKey ver).1 ≠ 0 ∧
      (∀ r ∈ (updatePublished db tid actionKey ver).2.policy_versions,
        r.tenant_id = tid → r.action_key = actionKey →
          (r.status = "published" ↔ r.version = ver) ∧
          (r.status = "archived" ↔ r.version ≠ ver)) ∧
      (updatePublished db tid actionKey ver).2.policy_versions.filter
          (fun r => ¬ (r.tenant_id = tid ∧ r.action_key = actionKey)) =
        db.policy_versions.filter
          (fun r => ¬ (r.tenant_id = tid ∧ r.action_key = actionKey)) := by
  refine ⟨?_, ?_, ?_⟩
  · obtain ⟨r, hr, h1, h2⟩ := hex
    unfold updatePublished
    simp only [ne_eq, List.length_eq_zero, List.filter_eq_nil_iff, not_forall]
    exact ⟨r, hr, by simp [h1, h2]⟩
  · intro r hr ht ha
    unfold updatePublished at hr
    simp only [List.mem_map] at hr
    obtain ⟨r₀, _, hr₀⟩ := hr
    by_cases hc : r₀.tenant_id = tid ∧ r₀.action_key = actionKey
    · rw [if_pos hc] at hr₀
      subst hr₀
      by_cases hv : r₀.version = ver
      · simp [hv]
      · simp [hv]
    · rw [if_neg hc] at hr₀
      subst hr₀
      exact absurd ⟨ht, ha⟩ hc
  · unfold updatePublished
    simp only
    induction db.policy_versions with
    | nil => rfl
    | cons r rs ih =>
      rw [List.map_cons]
      by_cases hc : r.tenant_id = tid ∧ r.action_key = actionKey
      · rw [if_pos hc, List.filter_cons, List.filter_cons]
        simp only [hc, and_self, not_true_eq_false, decide_False, Bool.false_eq_true,
          if_false]
        exact ih
      · rw [if_neg hc, List.filter_cons, List.filter_cons]
        simp only [hc, not_false_eq_true, decide_True, if_true]
        rw [ih]

/-- C25: with versions 1 (published) and 2 (draft) of an action in the store, publishing
version 3, which does not exist, answers 200 with `ok` and leaves no published row:
both rows are archived. -/
theorem publish_missing_version_archives_all :
    publishPolicyVersion policyStore "t1" "orders.cancel" "3" =
        (Reply.json 200 [("ok", Value.bool true), ("version", Value.int 3)],
          { policyStore with policy_versions :=
              [⟨"t1", "orders.cancel", 1, some "package policy", "archived"⟩,
               ⟨"t1", "orders.cancel", 2, some "package policy", "archived"⟩] }) ∧
      (publishPolicyVersion policyStore "t1" "orders.cancel" "3").2.policy_versions.filter
        (fun r => r.status = "published") = [] :=
  ⟨rfl, rfl⟩

/-! ## The operation cache of the registry -/

/-- C27 (counterexample): 30 s after the entry of `t1` was loaded, with a store whose
query fails, a load for `t1` returns the error and no list, and the entry of `t1` is
the one loaded at the instant 0: it is not replaced. -/
theorem loadOperations_failed_query_keeps_entry :
    (LoadOperations staleRegistry (30 * Second) (30 * Second + 1) "t1").1 =
        Except.error "connection refused" ∧
      ((LoadOperations staleRegistry (30 * Second) (30 * Second + 1) "t1").2.byTenant
        "t1").map cachedTenant.loadedAt = some 0 ∧
      ((LoadOperations staleRegistry (30 * Second) (30 * Second + 1) "t1").2.byTenant
        "t1").map cachedTenant.operations = some sampleOperations :=
  ⟨rfl, rfl, rfl⟩

/-- C27 (amended): in a registry with a TTL of 30 s, a load for tenant `T` at an
instant less than 30 s after its entry was loaded returns the cached operations and the
registry as it was, whatever the store holds. A load 30 s or more after it, or without
an entry, queries the store: when the query answers, its list is returned and replaces
the entry of `T`, also when the list is empty; when the query fails, its error is
returned and the registry is left as it was (without a pool the static sample
operations are returned and cached). No load for `T` changes the entry of another
tenant. -/
theorem loadOperations_cache (r : Registry) (now₁ now₂ : Time) (T : String)
    (httl : r.ttl = 30 * Second) :
    (∀ c, r.byTenant T = some c → now₁ - c.loadedAt < 30 * Second →
      ∀ pool, LoadOperations { r with pool := pool } now₁ now₂ T =
        (Except.ok c.operations, { r with pool := pool })) ∧
    ((r.byTenant T = none ∨ ∃ c, r.byTenant T = some c ∧ 30 * Second ≤ now₁ - c.loadedAt) →
      (∀ query, r.pool = some query →
        (∀ ops, query T = Except.ok ops →
          LoadOperations r now₁ now₂ T = (Except.ok ops, r.store T ⟨now₂, ops⟩) ∧
            ((LoadOperations r now₁ now₂ T).2.byTenant T).map cachedTenant.operations =
              some ops) ∧
        (∀ err, query T = Except.error err →
          LoadOperations r now₁ now₂ T = (Except.error err, r))) ∧
      (r.pool = none →
        LoadOperations r now₁ now₂ T =
          (Except.ok sampleOperations, r.store T ⟨now₂, sampleOperations⟩))) ∧
    (∀ T', T' ≠ T → (LoadOperations r now₁ now₂ T).2.byTenant T' = r.byTenant T') := by
  have hfresh : ∀ c, r.byTenant T = some c → now₁ - c.loadedAt < 30 * Second →
      r.fresh now₁ T = some c := by
    intro c hc hlt
    unfold Registry.fresh
    rw [hc]
    have h : timeSub now₁ c.loadedAt < r.ttl := by
      rw [httl]
      unfold timeSub
      have h30 : (30 : Int) * Second = 30000000000 := by decide
      rw [h30] at hlt ⊢
      exact max_lt (by decide) (lt_of_le_of_lt (min_le_right _ _) hlt)
    simp only [h, if_true]
  have hstale : (r.byTenant T = none ∨
      ∃ c, r.byTenant T = some c ∧ 30 * Second ≤ now₁ - c.loadedAt) →
      r.fresh now₁ T = none := by
    intro h
    unfold Registry.fresh
    rcases h with h | ⟨c, hc, hge⟩
    · rw [h]
    · rw [hc]
      have h : ¬ timeSub now₁ c.loadedAt < r.ttl := by
        rw [httl]
        unfold timeSub
        have h30 : (30 : Int) * Second = 30000000000 := by decide
        rw [h30] at hge ⊢
        exact not_lt.mpr (le_max_of_le_right (le_min (by decide) hge))
      simp only [h, if_false]
  refine ⟨?_, ?_, ?_⟩
  · intro c hc hlt pool
    have h : Registry.fresh { r with pool := pool } now₁ T = some c := hfresh c hc hlt
    unfold LoadOperations
    rw [h]
  · intro h
    have hn := hstale h
    refine ⟨?_, ?_⟩
    · intro query hq
      refine ⟨?_, ?_⟩
      · intro ops hops
        have hload : LoadOperations r now₁ now₂ T =
            (Except.ok ops, r.store T ⟨now₂, ops⟩) := by
          unfold LoadOperations
          rw [hn, hq]
          simp only [hops]
        refine ⟨hload, ?_⟩
        rw [hload]
        simp [Registry.store]
      · intro err herr
        unfold LoadOperations
        rw [hn, hq]
        simp only [herr]
    · intro hq
      unfold LoadOperations
      rw [hn, hq]
  · intro T' hT
    unfold LoadOperations
    cases r.fresh now₁ T with
    | some c => rfl
    | none =>
      cases r.pool with
      | none => simp [Registry.store, hT]
      | some query =>
        cases hq : query T with
        | error err => simp only [hq]
        | ok ops => simp [hq, Registry.store, hT]

/-- Witness of `loadOperations_cache`: 29 s after the load the cached operations are
returned although the store holds none; 30 s after it the empty list of the store is
returned and cached. -/
theorem loadOperations_cache_witness :
    (LoadOperations warmRegistry (29 * Second) (29 * Second + 1) "t1").1 =
        Except.ok sampleOperations ∧
      ((LoadOperations warmRegistry (30 * Second) (30 * Second + 1) "t1").1 =
          Except.ok [] ∧
        ((LoadOperations warmRegistry (30 * Second) (30 * Second + 1) "t1").2.byTenant
          "t1").map cachedTenant.operations = some []) :=
  ⟨congrArg Prod.fst
      ((loadOperations_cache warmRegistry (29 * Second) (29 * Second + 1) "t1" rfl).1
        ⟨0, sampleOperations⟩ rfl (by decide) (some emptyOperationStore)),
    congrArg Prod.fst
      (((((loadOperations_cache warmRegistry (30 * Second) (30 * Second + 1) "t1" rfl).2.1
        (Or.inr ⟨⟨0, sampleOperations⟩, rfl, by decide⟩)).1 emptyOperationStore rfl).1
        [] rfl).1),
    (((((loadOperations_cache warmRegistry (30 * Second) (30 * Second + 1) "t1" rfl).2.1
        (Or.inr ⟨⟨0, sampleOperations⟩, rfl, by decide⟩)).1 emptyOperationStore rfl).1
        [] rfl).2)⟩

/-! ## Tenant resolution -/

/-- The host looked up is the header when that has no colon. -/
theorem requestHost_no_colon (host : String) (h : ':' ∉ host.data) :
    requestHost host = host := by
  unfold requestHost
  have ht : host.data.takeWhile (· ≠ ':') = host.data := by
    rw [List.takeWhile_eq_self_iff]
    intro c hc
    simp only [ne_eq, decide_not, Bool.not_eq_true', decide_eq_false_iff_not]
    intro hcc
    exact h (hcc ▸ hc)
  simp only [ht, lt_self_iff_false, false_and, if_false]

/-- The host looked up is the header when that starts with a colon. -/
theorem requestHost_leading_colon (host : String) (rest : List Char)
    (h : host.data = ':' :: rest) : requestHost host = host := by
  unfold requestHost
  rw [h]
  simp

/-- The host looked up is what stands before the first colon of the header, when that
is not empty. -/
theorem requestHost_cut (host : String) (name port : List Char)
    (h : host.data = name ++ ':' :: port) (hne : name ≠ []) (hn : ':' ∉ name) :
    requestHost host = String.mk name := by
  unfold requestHost
  have ht : host.data.takeWhile (· ≠ ':') = name := by
    rw [h]
    rw [List.takeWhile_append_of_pos]
    · simp
    · intro c hc
      simp only [ne_eq, decide_not, Bool.not_eq_true', decide_eq_false_iff_not]
      intro hcc
      exact hn (hcc ▸ hc)
  have hl : name.length < host.data.length := by
    rw [h, List.length_append, List.length_cons]
    omega
  have hp : 0 < name.length := List.length_pos.mpr hne
  simp only [ht, hl, hp, and_self, if_true]

/-- C28: the header `[::1]:8080` without its port is `[::1]`, a host the provider
knows; `WithTenant` looks up `[` and answers 404 `unknown tenant`. -/
theorem withTenant_ipv6_host_unknown :
    hostWithoutPort "[::1]:8080".data = "[::1]".data ∧
      loopbackProvider "[::1]" = some acme ∧
      requestHost "[::1]:8080" = "[" ∧
      WithTenant loopbackProvider ⟨"[::1]:8080", "/v1/actions"⟩ =
        Handled.rejected 404 "unknown tenant" := by
  decide

/-- What `WithTenant` does with a request outside `/healthz` and `/metrics`: it looks
the tenant up by the `Host` header cut at its first colon, the whole header when it has
no colon or starts with one; when that lookup fails and the host is one of the local
synonyms it looks up `localhost`; when every lookup fails it answers 404 `unknown
tenant` without calling the next handler; otherwise the next handler runs with the
tenant resolved. -/
theorem withTenant_resolves (prov : Provider) (req : Request)
    (hhealth : req.Path ≠ "/healthz") (hmetrics : req.Path ≠ "/metrics") :
    ((∀ name port, req.Host.data = name ++ ':' :: port → name ≠ [] → ':' ∉ name →
        requestHost req.Host = String.mk name) ∧
      (':' ∉ req.Host.data → requestHost req.Host = req.Host) ∧
      (∀ rest, req.Host.data = ':' :: rest → requestHost req.Host = req.Host)) ∧
    (∀ t, prov (requestHost req.Host) = some t →
      WithTenant prov req = Handled.next (some t)) ∧
    (prov (requestHost req.Host) = none →
      requestHost req.Host ∈
        ["127.0.0.1", "host.docker.internal", "manifest", "connector", "policy",
          "admin-api"] →
      ∀ t, prov "localhost" = some t → WithTenant prov req = Handled.next (some t)) ∧
    (prov (requestHost req.Host) = none →
      (requestHost req.Host ∉
          ["127.0.0.1", "host.docker.internal", "manifest", "connector", "policy",
            "admin-api"] ∨ prov "localhost" = none) →
      WithTenant prov req = Handled.rejected 404 "unknown tenant") := by
  have hpath : ¬ (req.Path = "/healthz" ∨ req.Path = "/metrics") := by
    rintro (h | h)
    · exact hhealth h
    · exact hmetrics h
  refine ⟨⟨fun name port h hne hn => requestHost_cut _ name port h hne hn,
    requestHost_no_colon _, fun rest h => requestHost_leading_colon _ rest h⟩, ?_, ?_, ?_⟩
  · intro t ht
    unfold WithTenant tryHosts
    rw [if_neg hpath]
    by_cases hs : requestHost req.Host ∈ localSynonyms
    · rw [if_pos hs]
      simp only [resolveFirst, ht]
    · rw [if_neg hs]
      simp only [resolveFirst, ht]
  · intro hn hs t ht
    have hs' : requestHost req.Host ∈ localSynonyms := hs
    unfold WithTenant tryHosts
    rw [if_neg hpath, if_pos hs']
    simp only [resolveFirst, hn, ht]
  · intro hn hs
    unfold WithTenant tryHosts
    rw [if_neg hpath]
    by_cases hm : requestHost req.Host ∈ localSynonyms
    · rw [if_pos hm]
      rcases hs with hs | hs
      · exact absurd hm hs
      · simp only [resolveFirst, hn, hs]
    · rw [if_neg hm]
      simp only [resolveFirst, hn]

/-- Witness of `withTenant_resolves`: a request for `connector:8080` reaches the next
handler with the tenant of `localhost`. -/
theorem withTenant_resolves_witness :
    WithTenant localhostProvider ⟨"connector:8080", "/v1/actions"⟩ =
      Handled.next (some acme) :=
  (withTenant_resolves localhostProvider ⟨"connector:8080", "/v1/actions"⟩
    (by decide) (by decide)).2.2.1 (by decide) (by decide) acme (by decide)

/-- C29: the in-memory provider built without `TENANT_SEED_JSON` holds the dev tenant
under `localhost:8080`, and `WithTenant` over it answers 404 `unknown tenant` to a
request with any of the eight seeded hosts in its `Host` header. -/
theorem withTenant_rejects_seeded_hosts :
    (devProvider.ResolveTenantByHost "localhost:8080").map Tenant.ID =
        some "00000000-0000-0000-0000-000000000001" ∧
      devProvider.byHost.map Prod.fst = defaultHosts ∧
      defaultHosts.map (fun h =>
          WithTenant devProvider.ResolveTenantByHost ⟨h, "/v1/actions"⟩) =
        List.replicate 8 (Handled.rejected 404 "unknown tenant") := by
  decide!

/-! ## The status of an execution -/

/-- The result of `Execute` is the outcome before it is recorded. -/
theorem execute_result (env : Env) (upstream : Upstream) (pool : Option DB)
    (tenantID actionKey decisionID : String) (input : GoMap) :
    (Execute env upstream pool tenantID actionKey decisionID input).1 =
      executeOutcome env upstream pool tenantID actionKey input := by
  unfold Execute
  cases pool <;> rfl

/-- What `renderRequest` yields: a failure without an operation or with a brace left in
the URL, else a request whose step has the entries `op`, `method` and `url`. -/
theorem renderRequest_cases (env : Env) (pool : Option DB) (tenantID actionKey : String)
    (input : GoMap) :
    (((resolveOperation pool tenantID actionKey).method = "" ∨
        (resolveOperation pool tenantID actionKey).path = "") ∧
      renderRequest env pool tenantID actionKey input =
        Rendered.failed (noOperationResult env)) ∨
    ((¬ ((resolveOperation pool tenantID actionKey).method = "" ∨
        (resolveOperation pool tenantID actionKey).path = "") ∧
      (renderURL input (decodeTemplate (resolveOperation pool tenantID actionKey))
        (resolveOperation pool tenantID actionKey)).contains '\x7b' = true) ∧
      renderRequest env pool tenantID actionKey input =
        Rendered.failed (unresolvedResult env
          (renderURL input (decodeTemplate (resolveOperation pool tenantID actionKey))
            (resolveOperation pool tenantID actionKey)))) ∨
    ((¬ ((resolveOperation pool tenantID actionKey).method = "" ∨
        (resolveOperation pool tenantID actionKey).path = "") ∧
      (renderURL input (decodeTemplate (resolveOperation pool tenantID actionKey))
        (resolveOperation pool tenantID actionKey)).contains '\x7b' = false) ∧
      ∃ url req, renderRequest env pool tenantID actionKey input =
        Rendered.request
          [("op", Value.str "request"),
           ("method", Value.str (resolveOperation pool tenantID actionKey).method),
           ("url", Value.str url)] req) := by
  unfold renderRequest
  by_cases hop : (resolveOperation pool tenantID actionKey).method = "" ∨
      (resolveOperation pool tenantID actionKey).path = ""
  · exact Or.inl ⟨hop, by simp only [hop, if_true]⟩
  · cases hc : (renderURL input (decodeTemplate (resolveOperation pool tenantID actionKey))
        (resolveOperation pool tenantID actionKey)).contains '\x7b' with
    | true =>
      refine Or.inr (Or.inl ⟨⟨hop, rfl⟩, ?_⟩)
      simp only [hop, if_false, hc, if_true]
    | false =>
      refine Or.inr (Or.inr ⟨⟨hop, rfl⟩, ?_⟩)
      simp only [hop, if_false, hc, Bool.false_eq_true]
      exact ⟨_, _, rfl⟩

/-- A rendering that failed is the outcome. -/
theorem executeOutcome_failed (env : Env) (upstream : Upstream) (pool : Option DB)
    (tenantID actionKey : String) (input : GoMap) (res : ExecuteResult)
    (hr : renderRequest env pool tenantID actionKey input = Rendered.failed res) :
    executeOutcome env upstream pool tenantID actionKey input = res := by
  unfold executeOutcome
  rw [hr]

/-- The outcome when the request could not be built. -/
theorem executeOutcome_buildError (env : Env) (upstream : Upstream) (pool : Option DB)
    (tenantID actionKey : String) (input : GoMap) (step : JMap) (req : UpstreamRequest)
    (msg : String)
    (hr : renderRequest env pool tenantID actionKey input = Rendered.request step req)
    (hu : upstream req = UpstreamAnswer.buildError msg) :
    executeOutcome env upstream pool tenantID actionKey input =
      { Steps := [step ++ [("error", Value.str msg)]], Result := none,
        Status := "SUCCEEDED", Problems := [] } := by
  unfold executeOutcome
  rw [hr]
  simp only [hu]

/-- The outcome when the transport failed. -/
theorem executeOutcome_transportError (env : Env) (upstream : Upstream) (pool : Option DB)
    (tenantID actionKey : String) (input : GoMap) (step : JMap) (req : UpstreamRequest)
    (msg : String)
    (hr : renderRequest env pool tenantID actionKey input = Rendered.request step req)
    (hu : upstream req = UpstreamAnswer.transportError msg) :
    executeOutcome env upstream pool tenantID actionKey input =
      { Steps := [step ++ [("error", Value.str msg)]], Result := none,
        Status := "SUCCEEDED", Problems := [] } := by
  unfold executeOutcome
  rw [hr]
  simp only [hu]

/-- The outcome when the upstream answered. -/
theorem executeOutcome_response (env : Env) (upstream : Upstream) (pool : Option DB)
    (tenantID actionKey : String) (input : GoMap) (step : JMap) (req : UpstreamRequest)
    (status : Int) (body : List Char)
    (hr : renderRequest env pool tenantID actionKey input = Rendered.request step req)
    (hu : upstream req = UpstreamAnswer.response status body) :
    executeOutcome env upstream pool tenantID actionKey input =
      { Steps := [step ++ [("status", Value.int status)]],
        Result := decodeResponse body, Status := "SUCCEEDED", Problems := [] } := by
  unfold executeOutcome
  rw [hr]
  simp only [hu]

/-- C30: the result of `Execute` has the status `FAILED` exactly when no operation is
resolved for the action key, with the one problem `no-operation`, or a brace of a path
placeholder stays in the URL, with the one problem `unresolved-path-params`. In every
other case the status is `SUCCEEDED`, the list of problems is empty and there is one
step: it carries `error` and no `status` when the request could not be built or the
transport failed, and the status code when the upstream answered, whatever the code. -/
theorem execute_status (env : Env) (upstream : Upstream) (pool : Option DB)
    (tenantID actionKey decisionID : String) (input : GoMap) :
    ((Execute env upstream pool tenantID actionKey decisionID input).1.Status = "FAILED" ↔
      ((resolveOperation pool tenantID actionKey).method = "" ∨
        (resolveOperation pool tenantID actionKey).path = "") ∨
      (renderURL input (decodeTemplate (resolveOperation pool tenantID actionKey))
        (resolveOperation pool tenantID actionKey)).contains '\x7b' = true) ∧
    (((resolveOperation pool tenantID actionKey).method = "" ∨
        (resolveOperation pool tenantID actionKey).path = "") →
      (Execute env upstream pool tenantID actionKey decisionID input).1.Status = "FAILED" ∧
      (Execute env upstream pool tenantID actionKey decisionID input).1.Problems.map
        Problem.type = [problemsType env "no-operation"]) ∧
    (¬ ((resolveOperation pool tenantID actionKey).method = "" ∨
        (resolveOperation pool tenantID actionKey).path = "") →
      (renderURL input (decodeTemplate (resolveOperation pool tenantID actionKey))
        (resolveOperation pool tenantID actionKey)).contains '\x7b' = true →
      (Execute env upstream pool tenantID actionKey decisionID input).1.Status = "FAILED" ∧
      (Execute env upstream pool tenantID actionKey decisionID input).1.Problems.map
        Problem.type = [problemsType env "unresolved-path-params"]) ∧
    ((Execute env upstream pool tenantID actionKey decisionID input).1.Status ≠ "FAILED" →
      (Execute env upstream pool tenantID actionKey decisionID input).1.Status =
        "SUCCEEDED" ∧
      (Execute env upstream pool tenantID actionKey decisionID input).1.Problems = [] ∧
      ∃ step req,
        renderRequest env pool tenantID actionKey input = Rendered.request step req ∧
        step.lookup "status" = none ∧ step.lookup "error" = none ∧
        (∀ msg, upstream req = UpstreamAnswer.buildError msg →
          (Execute env upstream pool tenantID actionKey decisionID input).1.Steps =
            [step ++ [("error", Value.str msg)]]) ∧
        (∀ msg, upstream req = UpstreamAnswer.transportError msg →
          (Execute env upstream pool tenantID actionKey decisionID input).1.Steps =
            [step ++ [("error", Value.str msg)]]) ∧
        (∀ status body, upstream req = UpstreamAnswer.response status body →
          (Execute env upstream pool tenantID actionKey decisionID input).1.Steps =
            [step ++ [("status", Value.int status)]])) := by
  rw [execute_result]
  rcases renderRequest_cases env pool tenantID actionKey input with
    ⟨hop, hr⟩ | ⟨⟨hop, hc⟩, hr⟩ | ⟨⟨hop, hc⟩, url, req, hr⟩
  · rw [executeOutcome_failed _ _ _ _ _ _ _ hr]
    exact ⟨⟨fun _ => Or.inl hop, fun _ => rfl⟩, fun _ => ⟨rfl, rfl⟩,
      fun h => absurd hop h, fun h => absurd rfl h⟩
  · rw [executeOutcome_failed _ _ _ _ _ _ _ hr]
    exact ⟨⟨fun _ => Or.inr hc, fun _ => rfl⟩, fun h => absurd h hop,
      fun _ _ => ⟨rfl, rfl⟩, fun h => absurd rfl h⟩
  · have hne : ¬ ("SUCCEEDED" : String) = "FAILED" := by decide
    have hnot : ¬ (((resolveOperation pool tenantID actionKey).method = "" ∨
          (resolveOperation pool tenantID actionKey).path = "") ∨
        (renderURL input (decodeTemplate (resolveOperation pool tenantID actionKey))
          (resolveOperation pool tenantID actionKey)).contains '\x7b' = true) := by
      rintro (h | h)
      · exact hop h
      · rw [hc] at h
        cases h
    have hcf : ¬ (renderURL input (decodeTemplate (resolveOperation pool tenantID actionKey))
          (resolveOperation pool tenantID actionKey)).contains '\x7b' = true := by
      rw [hc]
      decide
    cases hu : upstream req with
    | buildError msg =>
      rw [executeOutcome_buildError _ _ _ _ _ _ _ _ msg hr hu]
      refine ⟨⟨fun h => absurd h hne, fun h => absurd h hnot⟩, fun h => absurd h hop,
        fun _ h => absurd h hcf, fun _ => ⟨rfl, rfl, _, req, hr, rfl, rfl, ?_, ?_, ?_⟩⟩
      · intro m hm
        rw [hu] at hm
        cases hm
        rfl
      · intro m hm
        rw [hu] at hm
        cases hm
      · intro st b hm
        rw [hu] at hm
        cases hm
    | transportError msg =>
      rw [executeOutcome_transportError _ _ _ _ _ _ _ _ msg hr hu]
      refine ⟨⟨fun h => absurd h hne, fun h => absurd h hnot⟩, fun h => absurd h hop,
        fun _ h => absurd h hcf, fun _ => ⟨rfl, rfl, _, req, hr, rfl, rfl, ?_, ?_, ?_⟩⟩
      · intro m hm
        rw [hu] at hm
        cases hm
      · intro m hm
        rw [hu] at hm
        cases hm
        rfl
      · intro st b hm
        rw [hu] at hm
        cases hm
    | response status body =>
      rw [executeOutcome_response _ _ _ _ _ _ _ _ status body hr hu]
      refine ⟨⟨fun h => absurd h hne, fun h => absurd h hnot⟩, fun h => absurd h hop,
        fun _ h => absurd h hcf, fun _ => ⟨rfl, rfl, _, req, hr, rfl, rfl, ?_, ?_, ?_⟩⟩
      · intro m hm
        rw [hu] at hm
        cases hm
      · intro m hm
        rw [hu] at hm
        cases hm
      · intro st b hm
        rw [hu] at hm
        cases hm
        rfl

/-! ## Secrets: encryption and decryption -/

/-- A byte is the byte of its value. -/
theorem uint8_eq_ofNat (a : UInt8) (n : Nat) (h : a.toNat = n) :
    a = UInt8.ofNat n := by
  cases a with
  | mk bv =>
    show UInt8.mk bv = UInt8.mk (BitVec.ofNat 8 n)
    congr 1
    apply BitVec.eq_of_toNat_eq
    have h' : bv.toNat = n := h
    rw [BitVec.toNat_ofNat, ← h']
    exact (Nat.mod_eq_of_lt bv.isLt).symm

/-- The value of the byte of a number below 256. -/
theorem uint8_toNat_ofNat (n : Nat) (h : n < 256) : (UInt8.ofNat n).toNat = n := by
  show (BitVec.ofNat 8 n).toNat = n
  rw [BitVec.toNat_ofNat]
  exact Nat.mod_eq_of_lt h

/-- The value of a bitwise and of bytes. -/
theorem uint8_toNat_land (a b : UInt8) : (a &&& b).toNat = a.toNat &&& b.toNat :=
  BitVec.toNat_and _ _

/-- The value of a bitwise or of bytes. -/
theorem uint8_toNat_lor (a b : UInt8) : (a ||| b).toNat = a.toNat ||| b.toNat :=
  BitVec.toNat_or _ _

/-- The value of the low byte of a word. -/
theorem uint32_toNat_toUInt8 (v : UInt32) : v.toUInt8.toNat = v.toNat % 256 := by
  show (BitVec.ofNat 8 v.toNat).toNat = _
  rw [BitVec.toNat_ofNat]

/-- A shift by 6 bits divides by 64. -/
theorem uint32_toNat_shr6 (v : UInt32) : (v >>> 6).toNat = v.toNat / 64 := by
  show (v.toBitVec >>> ((6 : UInt32).mod 32).toBitVec).toNat = _
  have h : ((6 : UInt32).mod 32).toBitVec = 6#32 := by decide
  rw [h]
  show (v.toBitVec >>> (6#32).toNat).toNat = _
  rw [BitVec.toNat_ushiftRight, Nat.shiftRight_eq_div_pow]
  rfl

/-- A shift by 12 bits divides by 4096. -/
theorem uint32_toNat_shr12 (v : UInt32) : (v >>> 12).toNat = v.toNat / 4096 := by
  show (v.toBitVec >>> ((12 : UInt32).mod 32).toBitVec).toNat = _
  have h : ((12 : UInt32).mod 32).toBitVec = 12#32 := by decide
  rw [h]
  show (v.toBitVec >>> (12#32).toNat).toNat = _
  rw [BitVec.toNat_ushiftRight, Nat.shiftRight_eq_div_pow]
  rfl

/-- A shift by 18 bits divides by 262144. -/
theorem uint32_toNat_shr18 (v : UInt32) : (v >>> 18).toNat = v.toNat / 262144 := by
  show (v.toBitVec >>> ((18 : UInt32).mod 32).toBitVec).toNat = _
  have h : ((18 : UInt32).mod 32).toBitVec = 18#32 := by decide
  rw [h]
  show (v.toBitVec >>> (18#32).toNat).toNat = _
  rw [BitVec.toNat_ushiftRight, Nat.shiftRight_eq_div_pow]
  rfl

/-- The masks of the UTF-8 encoding, on the values of the bytes. -/
theorem utf8_masks : ∀ k < 256,
    (k &&& 63 ||| 128) = 128 + k % 64 ∧ (k &&& 31 ||| 192) = 192 + k % 32 ∧
      (k &&& 15 ||| 224) = 224 + k % 16 ∧ (k &&& 7 ||| 240) = 240 + k % 8 := by
  decide!

/-- A continuation byte of the encoding: the six bits of `m` under the marker. -/
theorem utf8_cont_byte (w : UInt32) (m : Nat) (hw : w.toNat = m) :
    (w.toUInt8 &&& 63 ||| 128).toNat = 128 + m % 64 := by
  rw [uint8_toNat_lor, uint8_toNat_land, uint32_toNat_toUInt8, hw]
  have h := (utf8_masks (m % 256) (Nat.mod_lt _ (by decide))).1
  have e : (63 : UInt8).toNat = 63 := rfl
  have e' : (128 : UInt8).toNat = 128 := rfl
  rw [e, e', h]
  omega

/-- The lead byte of a two-byte encoding. -/
theorem utf8_lead2 (w : UInt32) (m : Nat) (hw : w.toNat = m) (hm : m < 32) :
    (w.toUInt8 &&& 31 ||| 192).toNat = 192 + m := by
  rw [uint8_toNat_lor, uint8_toNat_land, uint32_toNat_toUInt8, hw]
  have h := (utf8_masks (m % 256) (Nat.mod_lt _ (by decide))).2.1
  have e : (31 : UInt8).toNat = 31 := rfl
  have e' : (192 : UInt8).toNat = 192 := rfl
  rw [e, e', h]
  omega

/-- The lead byte of a three-byte encoding. -/
theorem utf8_lead3 (w : UInt32) (m : Nat) (hw : w.toNat = m) (hm : m < 16) :
    (w.toUInt8 &&& 15 ||| 224).toNat = 224 + m := by
  rw [uint8_toNat_lor, uint8_toNat_land, uint32_toNat_toUInt8, hw]
  have h := (utf8_masks (m % 256) (Nat.mod_lt _ (by decide))).2.2.1
  have e : (15 : UInt8).toNat = 15 := rfl
  have e' : (224 : UInt8).toNat = 224 := rfl
  rw [e, e', h]
  omega

/-- The lead byte of a four-byte encoding. -/
theorem utf8_lead4 (w : UInt32) (m : Nat) (hw : w.toNat = m) (hm : m < 8) :
    (w.toUInt8 &&& 7 ||| 240).toNat = 240 + m := by
  rw [uint8_toNat_lor, uint8_toNat_land, uint32_toNat_toUInt8, hw]
  have h := (utf8_masks (m % 256) (Nat.mod_lt _ (by decide))).2.2.2
  have e : (7 : UInt8).toNat = 7 := rfl
  have e' : (240 : UInt8).toNat = 240 := rfl
  rw [e, e', h]
  omega

/-- The code of a character is no surrogate and at most `U+10FFFF`. -/
theorem char_toNat_valid (c : Char) :
    c.toNat < 55296 ∨ (57343 < c.toNat ∧ c.toNat < 1114112) := c.valid

/-- A rune of one byte. -/
theorem decodeRune_one (n x y z : Nat) (h : n ≤ 127) : decodeRune n x y z = (n, 1) := by
  unfold decodeRune
  rw [if_pos (Nat.lt_succ_of_le h)]

/-- A rune of two bytes. -/
theorem decodeRune_two (n y z : Nat) (h₁ : 127 < n) (h₂ : n ≤ 2047) :
    decodeRune (192 + n / 64) (128 + n % 64) y z = (n, 2) := by
  have c1 : ¬ 192 + n / 64 < 128 := by omega
  have c2 : 192 ≤ 192 + n / 64 ∧ 192 + n / 64 < 224 ∧
      (128 ≤ 128 + n % 64 ∧ 128 + n % 64 < 192) ∧
      128 ≤ (192 + n / 64 - 192) * 64 + (128 + n % 64 - 128) := by
    refine ⟨?_, ?_, ⟨?_, ?_⟩, ?_⟩ <;> omega
  have e : (192 + n / 64 - 192) * 64 + (128 + n % 64 - 128) = n := by omega
  unfold decodeRune
  rw [if_neg c1, if_pos c2, e]

/-- A rune of three bytes. -/
theorem decodeRune_three (n z : Nat) (h₁ : 2047 < n) (h₂ : n ≤ 65535)
    (hs : ¬ (55296 ≤ n ∧ n ≤ 57343)) :
    decodeRune (224 + n / 4096) (128 + n / 64 % 64) (128 + n % 64) z = (n, 3) := by
  have e : (224 + n / 4096 - 224) * 4096 + (128 + n / 64 % 64 - 128) * 64 +
      (128 + n % 64 - 128) = n := by omega
  have c1 : ¬ 224 + n / 4096 < 128 := by omega
  have c2 : ¬ (192 ≤ 224 + n / 4096 ∧ 224 + n / 4096 < 224 ∧
      (128 ≤ 128 + n / 64 % 64 ∧ 128 + n / 64 % 64 < 192) ∧
      128 ≤ (224 + n / 4096 - 192) * 64 + (128 + n / 64 % 64 - 128)) := by
    intro h
    omega
  have c3 : 224 ≤ 224 + n / 4096 ∧ 224 + n / 4096 < 240 ∧
      (128 ≤ 128 + n / 64 % 64 ∧ 128 + n / 64 % 64 < 192) ∧
      (128 ≤ 128 + n % 64 ∧ 128 + n % 64 < 192) ∧
      2048 ≤ (224 + n / 4096 - 224) * 4096 + (128 + n / 64 % 64 - 128) * 64 +
        (128 + n % 64 - 128) ∧
      ¬ (55296 ≤ (224 + n / 4096 - 224) * 4096 + (128 + n / 64 % 64 - 128) * 64 +
          (128 + n % 64 - 128) ∧
        (224 + n / 4096 - 224) * 4096 + (128 + n / 64 % 64 - 128) * 64 +
          (128 + n % 64 - 128) ≤ 57343) := by
    rw [e]
    refine ⟨?_, ?_, ⟨?_, ?_⟩, ⟨?_, ?_⟩, ?_, hs⟩ <;> omega
  unfold decodeRune
  rw [if_neg c1, if_neg c2, if_pos c3, e]

/-- A rune of four bytes. -/
theorem decodeRune_four (n : Nat) (h₁ : 65535 < n) (h₂ : n ≤ 1114111) :
    decodeRune (240 + n / 262144) (128 + n / 4096 % 64) (128 + n / 64 % 64)
      (128 + n % 64) = (n, 4) := by
  have e : (240 + n / 262144 - 240) * 262144 + (128 + n / 4096 % 64 - 128) * 4096 +
      (128 + n / 64 % 64 - 128) * 64 + (128 + n % 64 - 128) = n := by omega
  have c1 : ¬ 240 + n / 262144 < 128 := by omega
  have c2 : ¬ (192 ≤ 240 + n / 262144 ∧ 240 + n / 262144 < 224 ∧
      (128 ≤ 128 + n / 4096 % 64 ∧ 128 + n / 4096 % 64 < 192) ∧
      128 ≤ (240 + n / 262144 - 192) * 64 + (128 + n / 4096 % 64 - 128)) := by
    intro h
    omega
  have c3 : ¬ (224 ≤ 240 + n / 262144 ∧ 240 + n / 262144 < 240 ∧
      (128 ≤ 128 + n / 4096 % 64 ∧ 128 + n / 4096 % 64 < 192) ∧
      (128 ≤ 128 + n / 64 % 64 ∧ 128 + n / 64 % 64 < 192) ∧
      2048 ≤ (240 + n / 262144 - 224) * 4096 + (128 + n / 4096 % 64 - 128) * 64 +
        (128 + n / 64 % 64 - 128) ∧
      ¬ (55296 ≤ (240 + n / 262144 - 224) * 4096 + (128 + n / 4096 % 64 - 128) * 64 +
          (128 + n / 64 % 64 - 128) ∧
        (240 + n / 262144 - 224) * 4096 + (128 + n / 4096 % 64 - 128) * 64 +
          (128 + n / 64 % 64 - 128) ≤ 57343)) := by
    intro h
    omega
  have c4 : 240 ≤ 240 + n / 262144 ∧ 240 + n / 262144 < 248 ∧
      (128 ≤ 128 + n / 4096 % 64 ∧ 128 + n / 4096 % 64 < 192) ∧
      (128 ≤ 128 + n / 64 % 64 ∧ 128 + n / 64 % 64 < 192) ∧
      (128 ≤ 128 + n % 64 ∧ 128 + n % 64 < 192) ∧
      65536 ≤ (240 + n / 262144 - 240) * 262144 + (128 + n / 4096 % 64 - 128) * 4096 +
        (128 + n / 64 % 64 - 128) * 64 + (128 + n % 64 - 128) ∧
      (240 + n / 262144 - 240) * 262144 + (128 + n / 4096 % 64 - 128) * 4096 +
        (128 + n / 64 % 64 - 128) * 64 + (128 + n % 64 - 128) ≤ 1114111 := by
    rw [e]
    refine ⟨?_, ?_, ⟨?_, ?_⟩, ⟨?_, ?_⟩, ⟨?_, ?_⟩, ?_, ?_⟩ <;> omega
  unfold decodeRune
  rw [if_neg c1, if_neg c2, if_neg c3, if_pos c4, e]

/-- One step of the decoder at the head of a rune. -/
theorem utf8DecodeLossy_cons (b : UInt8) (bs : List UInt8) :
    utf8DecodeLossy 0 (b :: bs) =
      Char.ofNat (decodeRune b.toNat (bs.getD 0 0).toNat (bs.getD 1 0).toNat
          (bs.getD 2 0).toNat).1 ::
        utf8DecodeLossy ((decodeRune b.toNat (bs.getD 0 0).toNat (bs.getD 1 0).toNat
          (bs.getD 2 0).toNat).2 - 1) bs := rfl

/-- The decoder reads the encoding of a character back, and goes on after it. -/
theorem utf8DecodeLossy_encode (c : Char) (rest : List UInt8) :
    utf8DecodeLossy 0 (String.utf8EncodeChar c ++ rest) = c :: utf8DecodeLossy 0 rest := by
  have hn : c.val.toNat = c.toNat := rfl
  have hvalid := char_toNat_valid c
  have hc : Char.ofNat c.toNat = c := Char.ofNat_toNat c
  unfold String.utf8EncodeChar
  by_cases h1 : c.val ≤ 127
  · have h1' : c.toNat ≤ 127 := h1
    simp only [h1, if_true]
    have hb : c.val.toUInt8.toNat = c.toNat := by
      rw [uint32_toNat_toUInt8, hn]
      omega
    show utf8DecodeLossy 0 (c.val.toUInt8 :: rest) = _
    rw [utf8DecodeLossy_cons, hb, decodeRune_one _ _ _ _ h1', hc]
    rfl
  · have h1' : ¬ c.toNat ≤ 127 := h1
    simp only [h1, if_false]
    by_cases h2 : c.val ≤ 2047
    · have h2' : c.toNat ≤ 2047 := h2
      simp only [h2, if_true]
      have hb0 : ((c.val >>> 6).toUInt8 &&& 31 ||| 192).toNat = 192 + c.toNat / 64 :=
        utf8_lead2 _ _ (by rw [uint32_toNat_shr6, hn]) (by omega)
      have hb1 : (c.val.toUInt8 &&& 63 ||| 128).toNat = 128 + c.toNat % 64 :=
        utf8_cont_byte _ _ hn
      show utf8DecodeLossy 0 (((c.val >>> 6).toUInt8 &&& 31 ||| 192) ::
        (c.val.toUInt8 &&& 63 ||| 128) :: rest) = _
      rw [utf8DecodeLossy_cons, List.getD_cons_zero, hb0, hb1,
        decodeRune_two _ _ _ (by omega) h2', hc]
      rfl
    · have h2' : ¬ c.toNat ≤ 2047 := h2
      simp only [h2, if_false]
      by_cases h3 : c.val ≤ 65535
      · have h3' : c.toNat ≤ 65535 := h3
        simp only [h3, if_true]
        have hb0 : ((c.val >>> 12).toUInt8 &&& 15 ||| 224).toNat = 224 + c.toNat / 4096 :=
          utf8_lead3 _ _ (by rw [uint32_toNat_shr12, hn]) (by omega)
        have hb1 : ((c.val >>> 6).toUInt8 &&& 63 ||| 128).toNat =
            128 + c.toNat / 64 % 64 :=
          utf8_cont_byte _ _ (by rw [uint32_toNat_shr6, hn])
        have hb2 : (c.val.toUInt8 &&& 63 ||| 128).toNat = 128 + c.toNat % 64 :=
          utf8_cont_byte _ _ hn
        show utf8DecodeLossy 0 (((c.val >>> 12).toUInt8 &&& 15 ||| 224) ::
          ((c.val >>> 6).toUInt8 &&& 63 ||| 128) :: (c.val.toUInt8 &&& 63 ||| 128) :: rest) = _
        rw [utf8DecodeLossy_cons, List.getD_cons_zero, List.getD_cons_succ,
          List.getD_cons_zero, hb0, hb1, hb2,
          decodeRune_three _ _ (by omega) h3' (by omega), hc]
        rfl
      · have h3' : ¬ c.toNat ≤ 65535 := h3
        simp only [h3, if_false]
        have hb0 : ((c.val >>> 18).toUInt8 &&& 7 ||| 240).toNat = 240 + c.toNat / 262144 :=
          utf8_lead4 _ _ (by rw [uint32_toNat_shr18, hn]) (by omega)
        have hb1 : ((c.val >>> 12).toUInt8 &&& 63 ||| 128).toNat =
            128 + c.toNat / 4096 % 64 :=
          utf8_cont_byte _ _ (by rw [uint32_toNat_shr12, hn])
        have hb2 : ((c.val >>> 6).toUInt8 &&& 63 ||| 128).toNat =
            128 + c.toNat / 64 % 64 :=
          utf8_cont_byte _ _ (by rw [uint32_toNat_shr6, hn])
        have hb3 : (c.val.toUInt8 &&& 63 ||| 128).toNat = 128 + c.toNat % 64 :=
          utf8_cont_byte _ _ hn
        show utf8DecodeLossy 0 (((c.val >>> 18).toUInt8 &&& 7 ||| 240) ::
          ((c.val >>> 12).toUInt8 &&& 63 ||| 128) ::
          ((c.val >>> 6).toUInt8 &&& 63 ||| 128) :: (c.val.toUInt8 &&& 63 ||| 128) :: rest) = _
        rw [utf8DecodeLossy_cons, List.getD_cons_zero, List.getD_cons_succ,
          List.getD_cons_zero, List.getD_cons_succ, List.getD_cons_succ,
          List.getD_cons_zero, hb0, hb1, hb2, hb3,
          decodeRune_four _ (by omega) (by omega), hc]
        rfl

/-- The decoder reads the UTF-8 bytes of a text back. -/
theorem utf8DecodeLossy_utf8Bytes (cs : List Char) :
    utf8DecodeLossy 0 (utf8Bytes cs) = cs := by
  induction cs with
  | nil => rfl
  | cons c cs ih =>
    have h : utf8Bytes (c :: cs) = String.utf8EncodeChar c ++ utf8Bytes cs := by
      simp [utf8Bytes]
    rw [h, utf8DecodeLossy_encode, ih]

/-- The digest of SHA-256 has 32 bytes. -/
theorem sha256Sum256_length (data : List UInt8) : (sha256Sum256 data).length = 32 := by
  simp [sha256Sum256, Sha256.digest, Sha256.wordBytes]

/-- The text of a well-formed object decodes, without error, into the map of its
members in canonical form. -/
theorem jsonUnmarshalMap_marshal (kvs : JMap) (hwf : (Value.obj kvs).wf = true)
    (hdepth : (Value.obj kvs).depth ≤ maxNestingDepth) :
    jsonUnmarshalMap (Value.obj kvs).marshal none =
      (some (sortByKey (Value.canonFields kvs)), false) := by
  have hdec : jsonDecode (Value.obj kvs).marshal =
      some (Value.obj (sortByKey (Value.canonFields kvs))) :=
    jsonDecode_marshal (Value.obj kvs) hwf hdepth
  have hnd : (kvs.map Prod.fst).Nodup := by
    have : (kvs.map Prod.fst).Nodup ∧ Value.wfFields kvs = true := by
      simpa [Value.wf] using hwf
    exact this.1
  have hnd' : ((sortByKey (Value.canonFields kvs)).map Prod.fst).Nodup := by
    rw [canonFields_eq, sortByKey_map, List.map_map]
    have : (Prod.fst ∘ fun p : String × Value => (p.1, p.2.canon)) = Prod.fst := rfl
    rw [this]
    exact ((List.perm_insertionSort keyLE kvs).map Prod.fst).nodup_iff.mpr hnd
  simp only [jsonUnmarshalMap, hdec, Option.getD_none]
  rw [foldl_setKey _ [] (by simpa using hnd')]
  rfl

/-- The stand-in cipher opens what it sealed. -/
theorem tagCipher_opens (key n p : List UInt8) :
    tagCipher.Open key n (tagCipher.Seal key n p) = some p := by
  show (if (p ++ [key.headD 0, n.headD 0]).drop ((p ++ [key.headD 0, n.headD 0]).length - 2) =
      [key.headD 0, n.headD 0] ∧ 2 ≤ (p ++ [key.headD 0, n.headD 0]).length then
      some ((p ++ [key.headD 0, n.headD 0]).take ((p ++ [key.headD 0, n.headD 0]).length - 2))
    else none) = some p
  have hl : (p ++ [key.headD 0, n.headD 0]).length - 2 = p.length := by
    simp
  rw [hl, List.drop_left, List.take_left, if_pos ⟨rfl, by simp⟩]

/-- C26: for a non-empty encryption key `k`, a nonce of 12 bytes and a well-formed JSON
object, with `Open` the inverse of `Seal` under a key of 32 bytes and a nonce of 12
bytes: the blob of `encryptJSON` is the byte `0x01`, the nonce, and the text sealed under
the key `SHA-256(k)`; `decryptSecrets` of the blob under `k` returns the object as the
JSON decoder yields it, which is the object itself when it is in decoded form; and
`decryptSecrets` returns an error for every blob whose first byte is not `0x01` or that
has fewer than 1 + 12 bytes. -/
theorem decryptSecrets_encryptJSON (gcm : GCM) (k nonce : List UInt8) (kvs : JMap)
    (hinv : ∀ key n p, key.length = 32 → n.length = 12 →
      gcm.Open key n (gcm.Seal key n p) = some p)
    (hk : k ≠ []) (hn : nonce.length = 12)
    (hwf : (Value.obj kvs).wf = true) (hdepth : (Value.obj kvs).depth ≤ maxNestingDepth) :
    encryptJSON gcm k nonce (Value.obj kvs) =
        1 :: nonce ++ gcm.Seal (sha256Sum256 k) nonce (mustJSON (Value.obj kvs)) ∧
      (sha256Sum256 k).length = 32 ∧
      decryptSecrets gcm (encryptJSON gcm k nonce (Value.obj kvs)) k =
        Except.ok (some (sortByKey (Value.canonFields kvs))) ∧
      ((Value.obj kvs).canon = Value.obj kvs →
        decryptSecrets gcm (encryptJSON gcm k nonce (Value.obj kvs)) k =
          Except.ok (some kvs)) ∧
      (∀ blob key, blob.head? ≠ some 1 ∨ blob.length < 1 + 12 →
        ∃ e, decryptSecrets gcm blob key = Except.error e) := by
  have henc : encryptJSON gcm k nonce (Value.obj kvs) =
      1 :: nonce ++ gcm.Seal (sha256Sum256 k) nonce (mustJSON (Value.obj kvs)) := by
    unfold encryptJSON
    rw [if_neg (by
      intro h
      exact hk (List.length_eq_zero.mp h))]
  have hdecr : decryptSecrets gcm (encryptJSON gcm k nonce (Value.obj kvs)) k =
      Except.ok (some (sortByKey (Value.canonFields kvs))) := by
    rw [henc]
    unfold decryptSecrets
    have hlen : (1 :: nonce ++ gcm.Seal (sha256Sum256 k) nonce
        (mustJSON (Value.obj kvs))).length =
        13 + (gcm.Seal (sha256Sum256 k) nonce (mustJSON (Value.obj kvs))).length := by
      rw [List.cons_append, List.length_cons, List.length_append, hn]
      omega
    rw [if_neg (by rw [hlen]; omega), if_neg (by simp), if_neg (by rw [hlen]; omega)]
    have htake : ((1 :: nonce ++ gcm.Seal (sha256Sum256 k) nonce
        (mustJSON (Value.obj kvs))).drop 1).take 12 = nonce := by
      rw [List.cons_append, List.drop_succ_cons, List.drop_zero, ← hn, List.take_left]
    have hdrop : (1 :: nonce ++ gcm.Seal (sha256Sum256 k) nonce
        (mustJSON (Value.obj kvs))).drop (1 + 12) =
        gcm.Seal (sha256Sum256 k) nonce (mustJSON (Value.obj kvs)) := by
      rw [List.cons_append, Nat.add_comm 1 12, List.drop_succ_cons, ← hn, List.drop_left]
    rw [htake, hdrop, hinv _ _ _ (sha256Sum256_length k) hn]
    have htext : utf8DecodeLossy 0 (mustJSON (Value.obj kvs)) = (Value.obj kvs).marshal :=
      utf8DecodeLossy_utf8Bytes _
    simp only [htext, jsonUnmarshalMap_marshal kvs hwf hdepth, Bool.false_eq_true, if_false]
  refine ⟨henc, sha256Sum256_length k, hdecr, ?_, ?_⟩
  · intro hcanon
    rw [hdecr]
    have h : Value.obj (sortByKey (Value.canonFields kvs)) = Value.obj kvs := hcanon
    rw [Value.obj.injEq] at h
    rw [h]
  · intro blob key h
    unfold decryptSecrets
    by_cases h2 : blob.length < 2
    · exact ⟨_, if_pos h2⟩
    · rw [if_neg h2]
      by_cases hv : blob.head? ≠ some 1
      · exact ⟨_, if_pos hv⟩
      · rw [if_neg hv]
        rcases h with h | h
        · exact absurd h hv
        · exact ⟨_, if_pos h⟩

/-- Witness of `decryptSecrets_encryptJSON`: with the stand-in cipher, the secrets of a
connector encrypted under the key `[7]` decrypt to themselves. -/
theorem decryptSecrets_encryptJSON_witness :
    decryptSecrets tagCipher (encryptJSON tagCipher [7] sampleNonce (Value.obj sampleSecrets))
        [7] = Except.ok (some sampleSecrets) :=
  (decryptSecrets_encryptJSON tagCipher [7] sampleNonce sampleSecrets
    (fun key n p _ _ => tagCipher_opens key n p) (by decide) rfl (by decide)
    (by decide)).2.2.2.1 rfl

/-! ## The slug of a text -/

/-- An uppercase letter is no lowercase letter and no digit. -/
theorem isUpperChar_not_lower (c : Char) (h : isUpperChar c = true) :
    isLowerChar c = false ∧ isDigitChar c = false := by
  simp only [isUpperChar, isLowerChar, isDigitChar, decide_eq_true_eq,
    decide_eq_false_iff_not] at *
  omega

/-- After a character that opens no boundary nothing is inserted. -/
theorem hyphenateBoundaries_cons (a : Char) (l : List Char)
    (ha : isLowerChar a = false ∧ isDigitChar a = false) :
    hyphenateBoundaries lowerOrDigitToUpper (a :: l) =
      a :: hyphenateBoundaries lowerOrDigitToUpper l := by
  cases l with
  | nil => rfl
  | cons b rest =>
    simp only [hyphenateBoundaries, lowerOrDigitToUpper, ha.1, ha.2, Bool.or_self,
      Bool.false_and, Bool.false_eq_true, if_false]

/-- The replacement by `capRe` inserts a hyphen at each boundary from a lowercase
letter or a digit to an uppercase letter. -/
theorem hyphenateCaps_eq (n : Nat) : ∀ l : List Char, l.length ≤ n →
    hyphenateCaps l = hyphenateBoundaries lowerOrDigitToUpper l := by
  induction n with
  | zero =>
    intro l hl
    have : l = [] := List.length_eq_zero.mp (Nat.le_zero.mp hl)
    subst this
    rfl
  | succ n ih =>
    intro l hl
    match l, hl with
    | [], _ => rfl
    | [a], _ => rfl
    | a :: b :: rest, hl =>
      have hrest : rest.length ≤ n := by
        simp only [List.length_cons] at hl
        omega
      have hbrest : (b :: rest).length ≤ n := by
        simp only [List.length_cons] at hl ⊢
        omega
      unfold hyphenateCaps hyphenateBoundaries
      by_cases hb : ((isLowerChar a || isDigitChar a) && isUpperChar b) = true
      · have hup : isUpperChar b = true := by
          simp only [Bool.and_eq_true] at hb
          exact hb.2
        have hb' : lowerOrDigitToUpper a b = true := hb
        rw [if_pos hb, if_pos hb', hyphenateBoundaries_cons b rest (isUpperChar_not_lower b hup),
          ih rest hrest]
      · have hb' : ¬ lowerOrDigitToUpper a b = true := hb
        rw [if_neg hb, if_neg hb', ih (b :: rest) hbrest]

/-- White space is not alphanumeric. -/
theorem isAlnumChar_of_space (c : Char) (h : isUnicodeSpace c = true) :
    isAlnumChar c = false := by
  simp only [isUnicodeSpace, Bool.or_eq_true, Bool.and_eq_true, decide_eq_true_eq,
    beq_iff_eq] at h
  simp only [isAlnumChar, isLowerChar, isUpperChar, isDigitChar, Bool.or_eq_false_iff,
    decide_eq_false_iff_not]
  omega

/-- A character that is not alphanumeric is no letter and no digit. -/
theorem not_alnum_parts (c : Char) (h : isAlnumChar c = false) :
    isLowerChar c = false ∧ isUpperChar c = false ∧ isDigitChar c = false := by
  simp only [isAlnumChar, Bool.or_eq_false_iff] at h
  exact ⟨h.1.1, h.1.2, h.2⟩

/-- Characters that are not alphanumeric stay as they are at the head of a text. -/
theorem hyphenateBoundaries_append_left (l x : List Char)
    (hl : ∀ c ∈ l, isAlnumChar c = false) :
    hyphenateBoundaries lowerOrDigitToUpper (l ++ x) =
      l ++ hyphenateBoundaries lowerOrDigitToUpper x := by
  induction l with
  | nil => rfl
  | cons a l ih =>
    have ha := not_alnum_parts a (hl a (List.mem_cons_self _ _))
    rw [List.cons_append, hyphenateBoundaries_cons a _ ⟨ha.1, ha.2.2⟩,
      ih (fun c hc => hl c (List.mem_cons_of_mem _ hc)), List.cons_append]

/-- A text without alphanumeric characters has no boundary. -/
theorem hyphenateBoundaries_inert (r : List Char) (hr : ∀ c ∈ r, isAlnumChar c = false) :
    hyphenateBoundaries lowerOrDigitToUpper r = r := by
  have h := hyphenateBoundaries_append_left r [] hr
  rw [List.append_nil] at h
  rw [h]
  exact List.append_nil r

/-- Characters that are not alphanumeric stay as they are at the end of a text. -/
theorem hyphenateBoundaries_append_right (r : List Char)
    (hr : ∀ c ∈ r, isAlnumChar c = false) (n : Nat) : ∀ x : List Char, x.length ≤ n →
    hyphenateBoundaries lowerOrDigitToUpper (x ++ r) =
      hyphenateBoundaries lowerOrDigitToUpper x ++ r := by
  induction n with
  | zero =>
    intro x hx
    have : x = [] := List.length_eq_zero.mp (Nat.le_zero.mp hx)
    subst this
    exact hyphenateBoundaries_inert r hr
  | succ n ih =>
    intro x hx
    match x, hx with
    | [], _ => exact hyphenateBoundaries_inert r hr
    | [a], _ =>
      cases r with
      | nil => rfl
      | cons c r' =>
        have hc := not_alnum_parts c (hr c (List.mem_cons_self _ _))
        have hb : ¬ lowerOrDigitToUpper a c = true := by
          simp [lowerOrDigitToUpper, hc.2.1]
        show hyphenateBoundaries lowerOrDigitToUpper (a :: c :: r') = a :: c :: r'
        unfold hyphenateBoundaries
        rw [if_neg hb, hyphenateBoundaries_inert (c :: r') hr]
    | a :: b :: rest, hx =>
      have hlen : (b :: rest).length ≤ n := by
        simp only [List.length_cons] at hx ⊢
        omega
      have e := ih (b :: rest) hlen
      show hyphenateBoundaries lowerOrDigitToUpper (a :: b :: (rest ++ r)) =
        hyphenateBoundaries lowerOrDigitToUpper (a :: b :: rest) ++ r
      rw [List.cons_append] at e
      unfold hyphenateBoundaries
      by_cases hb : lowerOrDigitToUpper a b = true
      · rw [if_pos hb, if_pos hb, e]
        rfl
      · rw [if_neg hb, if_neg hb, e]
        rfl

/-- Inside a run or not, the replacement differs in leading hyphens only. -/
theorem dropWhile_replaceRuns (p : Char → Bool) (y : List Char) :
    (replaceRuns p true y).dropWhile (· = '-') =
      (replaceRuns p false y).dropWhile (· = '-') := by
  cases y with
  | nil => rfl
  | cons c y =>
    cases hc : p c with
    | true =>
      have h1 : replaceRuns p true (c :: y) = replaceRuns p true y := by
        rw [replaceRuns]
        simp only [hc, if_true]
      have h2 : replaceRuns p false (c :: y) = '-' :: replaceRuns p true y := by
        rw [replaceRuns]
        simp only [hc, if_true, Bool.false_eq_true, if_false]
      rw [h1, h2, List.dropWhile_cons_of_pos (by simp)]
    | false =>
      have h1 : replaceRuns p true (c :: y) = c :: replaceRuns p false y := by
        rw [replaceRuns]
        simp only [hc, Bool.false_eq_true, if_false]
      have h2 : replaceRuns p false (c :: y) = c :: replaceRuns p false y := by
        rw [replaceRuns]
        simp only [hc, Bool.false_eq_true, if_false]
      rw [h1, h2]

/-- A run continues through characters of the class. -/
theorem replaceRuns_true_append (p : Char → Bool) (l y : List Char)
    (hl : ∀ c ∈ l, p c = true) : replaceRuns p true (l ++ y) = replaceRuns p true y := by
  induction l with
  | nil => rfl
  | cons a l ih =>
    rw [List.cons_append]
    unfold replaceRuns
    simp only [hl a (List.mem_cons_self _ _), if_true]
    rw [ih (fun c hc => hl c (List.mem_cons_of_mem _ hc))]
    cases y <;> rfl

/-- Leading characters of the class change the replacement in leading hyphens only. -/
theorem dropWhile_replaceRuns_append (p : Char → Bool) (l y : List Char)
    (hl : ∀ c ∈ l, p c = true) :
    (replaceRuns p false (l ++ y)).dropWhile (· = '-') =
      (replaceRuns p false y).dropWhile (· = '-') := by
  cases l with
  | nil => rfl
  | cons a l =>
    rw [List.cons_append]
    have h : replaceRuns p false (a :: (l ++ y)) = '-' :: replaceRuns p true (l ++ y) := by
      rw [replaceRuns]
      simp only [hl a (List.mem_cons_self _ _), if_true, Bool.false_eq_true, if_false]
    rw [h, List.dropWhile_cons_of_pos (by simp),
      replaceRuns_true_append p l y (fun c hc => hl c (List.mem_cons_of_mem _ hc)),
      dropWhile_replaceRuns]

/-- Trailing characters of the class add at most one hyphen to the replacement. -/
theorem replaceRuns_append_right (p : Char → Bool) (r : List Char)
    (hr : ∀ c ∈ r, p c = true) : ∀ (y : List Char) (b : Bool),
    ∃ t, (∀ c ∈ t, c = '-') ∧ replaceRuns p b (y ++ r) = replaceRuns p b y ++ t := by
  intro y
  induction y with
  | nil =>
    intro b
    cases r with
    | nil => exact ⟨[], fun c hc => absurd hc (List.not_mem_nil _), by cases b <;> rfl⟩
    | cons a r =>
      have ht : replaceRuns p true (a :: r) = [] := by
        have h := replaceRuns_true_append p (a :: r) [] hr
        rw [List.append_nil] at h
        rw [h]
        rfl
      cases b with
      | true => exact ⟨[], fun c hc => absurd hc (List.not_mem_nil _), by rw [List.nil_append, ht]; rfl⟩
      | false =>
        refine ⟨['-'], fun c hc => List.mem_singleton.mp hc, ?_⟩
        have hr' : replaceRuns p true r = [] := by
          have h := replaceRuns_true_append p r [] (fun c hc => hr c (List.mem_cons_of_mem _ hc))
          rw [List.append_nil] at h
          rw [h]
          rfl
        have h2 : replaceRuns p false (a :: r) = '-' :: replaceRuns p true r := by
          rw [replaceRuns]
          simp only [hr a (List.mem_cons_self _ _), if_true, Bool.false_eq_true, if_false]
        rw [List.nil_append, h2, hr']
        rfl
  | cons c y ih =>
    intro b
    rw [List.cons_append]
    cases hc : p c with
    | true =>
      obtain ⟨t, ht, e⟩ := ih true
      refine ⟨t, ht, ?_⟩
      cases b with
      | true =>
        rw [replaceRuns, replaceRuns]
        simp only [hc, if_true]
        exact e
      | false =>
        rw [replaceRuns, replaceRuns]
        simp only [hc, if_true, Bool.false_eq_true, if_false]
        rw [e]
        rfl
    | false =>
      obtain ⟨t, ht, e⟩ := ih false
      refine ⟨t, ht, ?_⟩
      rw [replaceRuns, replaceRuns]
      simp only [hc, Bool.false_eq_true, if_false]
      rw [e]
      rfl

/-- Trimming depends only on the text after its leading trimmed characters. -/
theorem trimBoth_congr (p : Char → Bool) (x y : List Char)
    (h : x.dropWhile p = y.dropWhile p) : trimBoth p x = trimBoth p y := by
  unfold trimBoth
  rw [h]

/-- Trailing trimmed characters do not change the trimmed text. -/
theorem trimBoth_append (p : Char → Bool) (z t : List Char) (ht : ∀ c ∈ t, p c = true) :
    trimBoth p (z ++ t) = trimBoth p z := by
  unfold trimBoth
  by_cases hz : ∀ c ∈ z, p c = true
  · have h1 : (z ++ t).dropWhile p = [] := by
      rw [List.dropWhile_eq_nil_iff]
      intro c hc
      rcases List.mem_append.mp hc with h | h
      · exact hz c h
      · exact ht c h
    have h2 : z.dropWhile p = [] := List.dropWhile_eq_nil_iff.mpr hz
    rw [h1, h2]
  · have h1 : (z ++ t).dropWhile p = z.dropWhile p ++ t := by
      induction z with
      | nil => exact absurd (fun c hc => absurd hc (List.not_mem_nil _)) hz
      | cons a z ih =>
        by_cases ha : p a = true
        · rw [List.cons_append, List.dropWhile_cons_of_pos ha, List.dropWhile_cons_of_pos ha]
          apply ih
          intro h
          apply hz
          intro c hc
          rcases List.mem_cons.mp hc with h' | h'
          · rw [h']; exact ha
          · exact h c h'
        · rw [List.cons_append, List.dropWhile_cons_of_neg ha, List.dropWhile_cons_of_neg ha]
          rfl
    rw [h1, List.reverse_append]
    have h3 : (t.reverse ++ (z.dropWhile p).reverse).dropWhile p =
        ((z.dropWhile p).reverse).dropWhile p := by
      have htr : ∀ c ∈ t.reverse, p c = true := fun c hc => ht c (List.mem_reverse.mp hc)
      generalize t.reverse = u at htr
      induction u with
      | nil => rfl
      | cons a u ih =>
        rw [List.cons_append, List.dropWhile_cons_of_pos (htr a (List.mem_cons_self _ _))]
        exact ih (fun c hc => htr c (List.mem_cons_of_mem _ hc))
    rw [h3]

/-- A text is its trimmed text between trimmed characters. -/
theorem trimBoth_decompose (p : Char → Bool) (cs : List Char) :
    ∃ l r, cs = l ++ trimBoth p cs ++ r ∧ (∀ c ∈ l, p c = true) ∧ (∀ c ∈ r, p c = true) := by
  refine ⟨cs.takeWhile p, (((cs.dropWhile p).reverse).takeWhile p).reverse, ?_, ?_, ?_⟩
  · unfold trimBoth
    rw [List.append_assoc, ← List.reverse_append, List.takeWhile_append_dropWhile,
      List.reverse_reverse, List.takeWhile_append_dropWhile]
  · intro c hc
    exact List.mem_takeWhile_imp hc
  · intro c hc
    exact List.mem_takeWhile_imp (List.mem_reverse.mp hc)

/-- The code of a character made of a code below the surrogates. -/
theorem toNat_ofNat_small (n : Nat) (h : n < 55296) : (Char.ofNat n).toNat = n := by
  unfold Char.ofNat
  rw [dif_pos (Or.inl h)]
  rfl

/-- The lowercase form of a character is a hyphen only for a hyphen. -/
theorem lower_eq_hyphen (c : Char) :
    decide ((if isUpperChar c then Char.ofNat (c.toNat + 32) else c) = '-') =
      decide (c = '-') := by
  by_cases hu : isUpperChar c = true
  · have hr : 65 ≤ c.toNat ∧ c.toNat ≤ 90 := by
      simpa [isUpperChar] using hu
    have h1 : Char.ofNat (c.toNat + 32) ≠ '-' := by
      intro h
      have := congrArg Char.toNat h
      rw [toNat_ofNat_small _ (by omega)] at this
      have h45 : ('-' : Char).toNat = 45 := rfl
      omega
    have h2 : c ≠ '-' := by
      intro h
      rw [h] at hr
      have h45 : ('-' : Char).toNat = 45 := rfl
      omega
    simp only [hu, if_true, h1, h2]
  · simp only [hu, Bool.false_eq_true, if_false]

/-- Lowercasing and trimming hyphens can be done in either order. -/
theorem trimBoth_toLowerAscii (cs : List Char) :
    trimBoth (· = '-') (toLowerAscii cs) = toLowerAscii (trimBoth (· = '-') cs) := by
  have hf : ((fun c : Char => decide (c = '-')) ∘
      (fun c => if isUpperChar c then Char.ofNat (c.toNat + 32) else c)) =
      (fun c : Char => decide (c = '-')) := funext lower_eq_hyphen
  unfold trimBoth toLowerAscii
  rw [List.dropWhile_map, hf, ← List.map_reverse, List.dropWhile_map, hf, List.map_reverse]

/-- No two hyphens in a row. -/
theorem noDouble_toLowerAscii (cs : List Char)
    (h : cs.Chain' (fun a b => ¬ (a = '-' ∧ b = '-'))) :
    (toLowerAscii cs).Chain' (fun a b => ¬ (a = '-' ∧ b = '-')) := by
  unfold toLowerAscii
  rw [List.chain'_map]
  refine h.imp ?_
  intro a b hab hc
  have ha := lower_eq_hyphen a
  have hb := lower_eq_hyphen b
  simp only [hc.1, hc.2, decide_True] at ha hb
  exact hab ⟨of_decide_eq_true ha.symm, of_decide_eq_true hb.symm⟩

/-- The replacement of the runs of a class that holds the hyphen yields no two hyphens
in a row, and no hyphen at the head inside a run. -/
theorem replaceRuns_shape (p : Char → Bool) (hp : p '-' = true) (y : List Char) :
    (replaceRuns p true y).head? ≠ some '-' ∧
      (replaceRuns p true y).Chain' (fun a b => ¬ (a = '-' ∧ b = '-')) ∧
      (replaceRuns p false y).Chain' (fun a b => ¬ (a = '-' ∧ b = '-')) := by
  induction y with
  | nil => exact ⟨by simp [replaceRuns], List.chain'_nil, List.chain'_nil⟩
  | cons c y ih =>
    cases hc : p c with
    | true =>
      have h1 : replaceRuns p true (c :: y) = replaceRuns p true y := by
        rw [replaceRuns]
        simp only [hc, if_true]
      have h2 : replaceRuns p false (c :: y) = '-' :: replaceRuns p true y := by
        rw [replaceRuns]
        simp only [hc, if_true, Bool.false_eq_true, if_false]
      rw [h1, h2]
      refine ⟨ih.1, ih.2.1, ih.2.1.cons' ?_⟩
      intro z hz hzz
      exact ih.1 (by rw [Option.mem_def.mp hz, hzz.2])
    | false =>
      have h1 : replaceRuns p true (c :: y) = c :: replaceRuns p false y := by
        rw [replaceRuns]
        simp only [hc, Bool.false_eq_true, if_false]
      have h2 : replaceRuns p false (c :: y) = c :: replaceRuns p false y := by
        rw [replaceRuns]
        simp only [hc, Bool.false_eq_true, if_false]
      have hne : c ≠ '-' := by
        intro h
        rw [h, hp] at hc
        cases hc
      rw [h1, h2]
      refine ⟨?_, ?_, ?_⟩
      · intro h
        simp only [List.head?_cons, Option.some.injEq] at h
        exact hne h
      · exact ih.2.2.cons' (fun z _ hzz => hne hzz.1)
      · exact ih.2.2.cons' (fun z _ hzz => hne hzz.1)

/-- The replacement yields hyphens and characters outside the class only. -/
theorem replaceRuns_chars (p : Char → Bool) (y : List Char) :
    ∀ b, ∀ c ∈ replaceRuns p b y, c = '-' ∨ p c = false := by
  induction y with
  | nil =>
    intro b c hc
    simp [replaceRuns] at hc
  | cons a y ih =>
    intro b c hc
    cases ha : p a with
    | true =>
      cases b with
      | true =>
        have h1 : replaceRuns p true (a :: y) = replaceRuns p true y := by
          rw [replaceRuns]
          simp only [ha, if_true]
        rw [h1] at hc
        exact ih true c hc
      | false =>
        have h2 : replaceRuns p false (a :: y) = '-' :: replaceRuns p true y := by
          rw [replaceRuns]
          simp only [ha, if_true, Bool.false_eq_true, if_false]
        rw [h2] at hc
        rcases List.mem_cons.mp hc with h | h
        · exact Or.inl h
        · exact ih true c h
    | false =>
      have h1 : replaceRuns p b (a :: y) = a :: replaceRuns p false y := by
        rw [replaceRuns]
        simp only [ha, Bool.false_eq_true, if_false]
      rw [h1] at hc
      rcases List.mem_cons.mp hc with h | h
      · rw [h]
        exact Or.inr ha
      · exact ih false c h

/-- A text without two hyphens in a row, whose characters of the class are its
hyphens, is left as it is by the replacement of runs. -/
theorem replaceRuns_id (p : Char → Bool) (o : List Char)
    (hp : ∀ c ∈ o, (p c = true ↔ c = '-'))
    (hnd : o.Chain' (fun a b => ¬ (a = '-' ∧ b = '-'))) :
    replaceRuns p false o = o ∧ (o.head? ≠ some '-' → replaceRuns p true o = o) := by
  induction o with
  | nil => exact ⟨rfl, fun _ => rfl⟩
  | cons c o ih =>
    have ih' := ih (fun x hx => hp x (List.mem_cons_of_mem _ hx)) (List.chain'_cons'.mp hnd).2
    by_cases hc : c = '-'
    · have hpc : p c = true := (hp c (List.mem_cons_self _ _)).mpr hc
      have hhead : o.head? ≠ some '-' := by
        intro h
        exact (List.chain'_cons'.mp hnd).1 '-' (Option.mem_def.mpr h) ⟨hc, rfl⟩
      refine ⟨?_, fun h => absurd (by rw [List.head?_cons, hc]) h⟩
      rw [replaceRuns]
      simp only [hpc, if_true, Bool.false_eq_true, if_false]
      rw [ih'.2 hhead, hc]
    · have hpc : p c = false := by
        cases h : p c with
        | true => exact absurd ((hp c (List.mem_cons_self _ _)).mp h) hc
        | false => rfl
      have h1 : ∀ b, replaceRuns p b (c :: o) = c :: o := by
        intro b
        rw [replaceRuns]
        simp only [hpc, Bool.false_eq_true, if_false]
        rw [ih'.1]
      exact ⟨h1 false, fun _ => h1 true⟩

/-- A text without two hyphens in a row has nothing to collapse. -/
theorem collapseHyphens_id (o : List Char)
    (hnd : o.Chain' (fun a b => ¬ (a = '-' ∧ b = '-'))) : collapseHyphens o = o := by
  induction o with
  | nil => rfl
  | cons a o ih =>
    cases o with
    | nil => rfl
    | cons b rest =>
      have h := List.chain'_cons.mp hnd
      rw [collapseHyphens, if_neg h.1, ih h.2]

/-- A part of a text without two hyphens in a row has no two hyphens in a row. -/
theorem noDouble_part (part cs : List Char)
    (h : cs.Chain' (fun a b => ¬ (a = '-' ∧ b = '-'))) (hp : part <:+: cs) :
    part.Chain' (fun a b => ¬ (a = '-' ∧ b = '-')) := by
  obtain ⟨l, r, hlr⟩ := hp
  rw [← hlr] at h
  exact h.left_of_append.right_of_append

/-- The trimmed text is a part of the text. -/
theorem trimBoth_part (p : Char → Bool) (cs : List Char) : trimBoth p cs <:+: cs := by
  obtain ⟨l, r, h, _, _⟩ := trimBoth_decompose p cs
  exact ⟨l, r, h.symm⟩

/-- The trimmed text does not start with a trimmed character. -/
theorem trimBoth_head (p : Char → Bool) (cs : List Char) (c : Char)
    (h : (trimBoth p cs).head? = some c) : p c = false := by
  have hne : trimBoth p cs ≠ [] := by
    intro h0
    rw [h0] at h
    cases h
  have hd : cs.dropWhile p = trimBoth p cs ++
      (((cs.dropWhile p).reverse).takeWhile p).reverse := by
    unfold trimBoth
    rw [← List.reverse_append, List.takeWhile_append_dropWhile, List.reverse_reverse]
  have h1 := List.head?_dropWhile_not p cs
  rw [hd, List.head?_append_of_ne_nil _ hne, h] at h1
  exact h1

/-- The trimmed text does not end with a trimmed character. -/
theorem trimBoth_getLast (p : Char → Bool) (cs : List Char) (c : Char)
    (h : (trimBoth p cs).getLast? = some c) : p c = false := by
  unfold trimBoth at h
  rw [List.getLast?_reverse] at h
  have h1 := List.head?_dropWhile_not p (cs.dropWhile p).reverse
  rw [h] at h1
  exact h1

/-- A text that neither starts nor ends with a trimmed character is its trimmed
text. -/
theorem trimBoth_id (p : Char → Bool) (o : List Char)
    (hh : ∀ c, o.head? = some c → p c = false)
    (hl : ∀ c, o.getLast? = some c → p c = false) : trimBoth p o = o := by
  have h1 : ∀ l : List Char, (∀ c, l.head? = some c → p c = false) → l.dropWhile p = l := by
    intro l h
    cases l with
    | nil => rfl
    | cons a l =>
      have ha : ¬ p a = true := by
        rw [h a rfl]
        decide
      rw [List.dropWhile_cons_of_neg ha]
  unfold trimBoth
  rw [h1 o hh, h1 o.reverse (by rw [List.head?_reverse]; exact hl), List.reverse_reverse]

/-- A text without uppercase letters has no boundary. -/
theorem hyphenateBoundaries_no_upper (o : List Char)
    (h : ∀ c ∈ o, isUpperChar c = false) :
    hyphenateBoundaries lowerOrDigitToUpper o = o := by
  induction o with
  | nil => rfl
  | cons a o ih =>
    cases o with
    | nil => rfl
    | cons b rest =>
      have hb : ¬ lowerOrDigitToUpper a b = true := by
        simp [lowerOrDigitToUpper, h b (by simp)]
      rw [hyphenateBoundaries, if_neg hb, ih (fun c hc => h c (List.mem_cons_of_mem _ hc))]

/-- A text without uppercase letters is its lowercase form. -/
theorem toLowerAscii_no_upper (o : List Char) (h : ∀ c ∈ o, isUpperChar c = false) :
    toLowerAscii o = o := by
  unfold toLowerAscii
  induction o with
  | nil => rfl
  | cons a o ih =>
    rw [List.map_cons, ih (fun c hc => h c (List.mem_cons_of_mem _ hc))]
    simp only [h a (List.mem_cons_self _ _), Bool.false_eq_true, if_false]

/-- The hyphen is not alphanumeric. -/
theorem hyphen_not_alnum : (fun c => !isAlnumChar c) '-' = true := by decide

/-- The text behind both `slug` and the steps of the specification: the trimmed text
with hyphens at the boundaries and for the runs, hyphens trimmed, in lowercase. -/
theorem slug_core_shape (y : List Char) :
    (∀ c ∈ toLowerAscii (trimBoth (· = '-')
        (replaceRuns (fun c => !isAlnumChar c) false y)),
      isLowerChar c = true ∨ isDigitChar c = true ∨ c = '-') ∧
    (toLowerAscii (trimBoth (· = '-')
      (replaceRuns (fun c => !isAlnumChar c) false y))).head? ≠ some '-' ∧
    (toLowerAscii (trimBoth (· = '-')
      (replaceRuns (fun c => !isAlnumChar c) false y))).getLast? ≠ some '-' ∧
    (toLowerAscii (trimBoth (· = '-')
      (replaceRuns (fun c => !isAlnumChar c) false y))).Chain'
        (fun a b => ¬ (a = '-' ∧ b = '-')) := by
  refine ⟨?_, ?_, ?_, ?_⟩
  · intro c hc
    unfold toLowerAscii at hc
    obtain ⟨d, hd, hdc⟩ := List.mem_map.mp hc
    have hd' : d ∈ replaceRuns (fun c => !isAlnumChar c) false y :=
      (trimBoth_part _ _).subset hd
    rcases replaceRuns_chars _ y false d hd' with h | h
    · have hu : isUpperChar d = false := by
        rw [h]
        decide
      rw [hu] at hdc
      simp only [Bool.false_eq_true, if_false] at hdc
      exact Or.inr (Or.inr (hdc ▸ h))
    · have hal : isAlnumChar d = true := by
        simpa using h
      by_cases hu : isUpperChar d = true
      · rw [hu] at hdc
        simp only [if_true] at hdc
        have hr : 65 ≤ d.toNat ∧ d.toNat ≤ 90 := by
          simpa [isUpperChar] using hu
        refine Or.inl ?_
        rw [← hdc]
        simp only [isLowerChar, decide_eq_true_eq]
        rw [toNat_ofNat_small _ (by omega)]
        omega
      · have hu' : isUpperChar d = false := by
          cases h' : isUpperChar d with
          | true => exact absurd h' hu
          | false => rfl
        rw [hu'] at hdc
        simp only [Bool.false_eq_true, if_false] at hdc
        rw [← hdc]
        simp only [isAlnumChar, hu', Bool.or_false, Bool.or_eq_true] at hal
        rcases hal with h' | h'
        · exact Or.inl h'
        · exact Or.inr (Or.inl h')
  · rw [← trimBoth_toLowerAscii]
    intro h
    have := trimBoth_head _ _ _ h
    simp at this
  · rw [← trimBoth_toLowerAscii]
    intro h
    have := trimBoth_getLast _ _ _ h
    simp at this
  · exact noDouble_toLowerAscii _
      (noDouble_part _ _ (replaceRuns_shape _ hyphen_not_alnum y).2.2 (trimBoth_part _ _))

/-- The text of `slug`: the collapse of hyphens at its end finds nothing to do. -/
theorem slug_data (s : String) :
    (slug s).data = toLowerAscii (trimBoth (· = '-')
      (replaceRuns (fun c => !isAlnumChar c) false
        (hyphenateCaps (trimBoth isUnicodeSpace s.data)))) := by
  unfold slug
  cases he : (trimBoth isUnicodeSpace s.data).isEmpty with
  | true =>
    rw [if_pos he]
    have h0 : trimBoth isUnicodeSpace s.data = [] := List.isEmpty_iff.mp he
    rw [h0]
    rfl
  | false =>
    rw [if_neg (by rw [he]; decide)]
    have hsh := slug_core_shape (hyphenateCaps (trimBoth isUnicodeSpace s.data))
    exact (replaceRuns_id (· = '-') _ (fun c _ => by simp) hsh.2.2.2).1

/-- The text of the steps of the specification, with the boundary of `capRe`: trimming
white space first changes nothing, and there is nothing to collapse. -/
theorem slugSteps_data (s : String) :
    (slugSteps lowerOrDigitToUpper s).data = toLowerAscii (trimBoth (· = '-')
      (replaceRuns (fun c => !isAlnumChar c) false
        (hyphenateCaps (trimBoth isUnicodeSpace s.data)))) := by
  obtain ⟨l, r, hs, hl, hr⟩ := trimBoth_decompose isUnicodeSpace s.data
  have hl' : ∀ c ∈ l, isAlnumChar c = false := fun c hc => isAlnumChar_of_space c (hl c hc)
  have hr' : ∀ c ∈ r, isAlnumChar c = false := fun c hc => isAlnumChar_of_space c (hr c hc)
  have hH : hyphenateBoundaries lowerOrDigitToUpper s.data =
      l ++ (hyphenateCaps (trimBoth isUnicodeSpace s.data) ++ r) := by
    rw [hyphenateCaps_eq _ _ (Nat.le_refl _)]
    conv_lhs => rw [hs]
    rw [List.append_assoc, hyphenateBoundaries_append_left l _ hl',
      hyphenateBoundaries_append_right r hr' _ _ (Nat.le_refl _)]
  obtain ⟨t, ht, hR⟩ := replaceRuns_append_right (fun c => !isAlnumChar c) r
    (fun c hc => by simp [hr' c hc]) (hyphenateCaps (trimBoth isUnicodeSpace s.data)) false
  have hT : trimBoth (· = '-') (replaceRuns (fun c => !isAlnumChar c) false
      (hyphenateBoundaries lowerOrDigitToUpper s.data)) =
      trimBoth (· = '-') (replaceRuns (fun c => !isAlnumChar c) false
        (hyphenateCaps (trimBoth isUnicodeSpace s.data))) := by
    rw [hH, trimBoth_congr _ _ _ (dropWhile_replaceRuns_append _ l _
      (fun c hc => by simp [hl' c hc])), hR,
      trimBoth_append _ _ t (fun c hc => by simp [ht c hc])]
  have hnd : (toLowerAscii (replaceRuns (fun c => !isAlnumChar c) false
      (hyphenateBoundaries lowerOrDigitToUpper s.data))).Chain'
      (fun a b => ¬ (a = '-' ∧ b = '-')) :=
    noDouble_toLowerAscii _ (replaceRuns_shape _ hyphen_not_alnum _).2.2
  show trimBoth (· = '-') (collapseHyphens (toLowerAscii
    (replaceRuns (fun c => !isAlnumChar c) false
      (hyphenateBoundaries lowerOrDigitToUpper s.data)))) = _
  rw [collapseHyphens_id _ hnd, trimBoth_toLowerAscii, hT]

/-- C24 (counterexample): for `v2Beta` the steps of the specification, with a hyphen
at each boundary from a lowercase to an uppercase letter, give `v2beta`, while `slug`
gives `v2-beta`. -/
theorem slug_digit_boundary :
    slug "v2Beta" = "v2-beta" ∧ slugSteps lowerToUpper "v2Beta" = "v2beta" := by
  decide

/-- C24 (amended): for every string, `slug` equals the steps of the specification in
their order, with a hyphen at each boundary from a lowercase letter or a digit to an
uppercase letter. Its output holds only lowercase letters, digits and hyphens, has no
leading, trailing or doubled hyphen, and `slug` leaves it as it is. -/
theorem slug_steps (s : String) :
    slug s = slugSteps lowerOrDigitToUpper s ∧
      (∀ c ∈ (slug s).data, isLowerChar c = true ∨ isDigitChar c = true ∨ c = '-') ∧
      (slug s).data.head? ≠ some '-' ∧ (slug s).data.getLast? ≠ some '-' ∧
      ¬ (['-', '-'] <:+: (slug s).data) ∧
      slug (slug s) = slug s := by
  have hsh := slug_core_shape (hyphenateCaps (trimBoth isUnicodeSpace s.data))
  rw [← slug_data s] at hsh
  have hnoup : ∀ c ∈ (slug s).data, isUpperChar c = false := by
    intro c hc
    rcases hsh.1 c hc with h | h | h
    · simp only [isLowerChar, isUpperChar, decide_eq_true_eq, decide_eq_false_iff_not] at *
      omega
    · simp only [isDigitChar, isUpperChar, decide_eq_true_eq, decide_eq_false_iff_not] at *
      omega
    · rw [h]
      decide
  have hnosp : ∀ c ∈ (slug s).data, c ≠ '-' → isUnicodeSpace c = false := by
    intro c hc hne
    cases hsp : isUnicodeSpace c with
    | false => rfl
    | true =>
      have hal := isAlnumChar_of_space c hsp
      have hp := not_alnum_parts c hal
      rcases hsh.1 c hc with h | h | h
      · rw [hp.1] at h
        cases h
      · rw [hp.2.2] at h
        cases h
      · exact absurd h hne
  refine ⟨String.ext ((slug_data s).trans (slugSteps_data s).symm), hsh.1, hsh.2.1,
    hsh.2.2.1, ?_, ?_⟩
  · intro hinf
    have := noDouble_part _ _ hsh.2.2.2 hinf
    exact (List.chain'_cons.mp this).1 ⟨rfl, rfl⟩
  · apply String.ext
    rw [slug_data (slug s)]
    have h1 : trimBoth isUnicodeSpace (slug s).data = (slug s).data := by
      apply trimBoth_id
      · intro c hc
        have hm : c ∈ (slug s).data := List.mem_of_mem_head? (Option.mem_def.mpr hc)
        exact hnosp c hm (fun h => hsh.2.1 (by rw [hc, h]))
      · intro c hc
        have hm : c ∈ (slug s).data := List.mem_of_mem_getLast? (Option.mem_def.mpr hc)
        exact hnosp c hm (fun h => hsh.2.2.1 (by rw [hc, h]))
    have h2 : hyphenateCaps (slug s).data = (slug s).data := by
      rw [hyphenateCaps_eq _ _ (Nat.le_refl _)]
      exact hyphenateBoundaries_no_upper _ hnoup
    have h3 : replaceRuns (fun c => !isAlnumChar c) false (slug s).data = (slug s).data := by
      refine (replaceRuns_id _ _ ?_ hsh.2.2.2).1
      intro c hc
      constructor
      · intro hp
        rcases hsh.1 c hc with h | h | h
        · simp [isAlnumChar, h] at hp
        · simp [isAlnumChar, h] at hp
        · exact h
      · intro h
        rw [h]
        decide
    have h4 : trimBoth (· = '-') (slug s).data = (slug s).data := by
      apply trimBoth_id
      · intro c hc
        have : c ≠ '-' := fun h => hsh.2.1 (by rw [hc, h])
        simpa using this
      · intro c hc
        have : c ≠ '-' := fun h => hsh.2.2.1 (by rw [hc, h])
        simpa using this
    rw [h1, h2, h3, h4, toLowerAscii_no_upper _ hnoup]

end Lamdis
